import Mathlib

/-!
# A growable array: `src/examples/vector-implementation.cpp`

The class template `Vector<T>` keeps three members: a pointer `data_` to a raw block,
the number `size_` of live elements and the number `capacity_` of slots in the block.
The embedding keeps the block next to the pointer that owns it: a block is a list of
slots, each slot either uninitialised (`none`) or holding a constructed element
(`some x`).  Placement `new`, a destructor call and a read through the pointer are the
only ways the code touches a slot; each of them is undefined behaviour on a slot in the
wrong state or outside the block, and is modelled as the error `Err.undefined`.  The
member functions are translated statement by statement, their loops through the three
loop combinators `forUp`, `forDown` and `forDownGe`.

Conventions.
* `size_type` values are natural numbers and `operator new` always returns a block, so the
  theorems speak about runs in which every allocation succeeds (and in which therefore no
  size computation wraps around).
* Arguments of element type are passed by value: a `const T&` argument that refers into
  the vector's own block is outside this model.
* The last section of the definitions lifts these two simplifications for `reserve`,
  `push_back`, `resize(count, value)`, `assign(count, value)`, `insert(pos, count, value)`
  and the fill constructor: there `size_type` arithmetic is modulo `2^64`, the byte count
  passed to `operator new` included, and a `const T&` argument may refer to an element of
  the vector itself.
* An iterator `T*` is a block address together with an element offset.
* An exception carries the state of the object at the `throw`.
-/

namespace VecImpl

/-! ## Definitions -/

/-- A raw block: one entry per slot, `none` for an uninitialised slot. -/
abbrev Slots (α : Type) := List (Option α)

/-- The allocator as the class sees it: how many blocks `operator new` has handed out
(the count doubles as the next fresh address) and how many `operator delete` has taken back. -/
structure Heap where
  news : Nat
  deletes : Nat
  deriving DecidableEq

/-- The members of `Vector<T>`; `slots` is the block `data_` points to (empty when null). -/
structure Vector (α : Type) where
  data_ : Option Nat
  slots : Slots α
  size_ : Nat
  capacity_ : Nat
  deriving DecidableEq

/-- A `T*` iterator: the block it points into and the element offset inside it. -/
structure Iter where
  base : Option Nat
  off : Nat
  deriving DecidableEq

/-- The exceptions the class throws: `std::runtime_error` and `std::out_of_range`. -/
inductive Exn where
  | runtime_error
  | out_of_range
  deriving DecidableEq

/-- Ways a call can fail: an exception, thrown with the object in the recorded state, or
undefined behaviour. -/
inductive Err (α : Type) where
  | thrown (e : Exn) (v : Vector α)
  | undefined
  deriving DecidableEq

variable {α σ : Type}

/-- Placement new, `new (p + i) T(x)`: the slot must exist and be uninitialised. -/
def construct (m : Slots α) (i : Nat) (x : α) : Except (Err α) (Slots α) :=
  match m[i]? with
  | some none => .ok (m.set i (some x))
  | _ => .error .undefined

/-- Destructor call, `p[i].~T()`: the slot must hold a constructed element. -/
def destroy (m : Slots α) (i : Nat) : Except (Err α) (Slots α) :=
  match m[i]? with
  | some (some _) => .ok (m.set i none)
  | _ => .error .undefined

/-- Read of `p[i]` (also the source of `std::move(p[i])`): the slot must be constructed. -/
def load (m : Slots α) (i : Nat) : Except (Err α) α :=
  match m[i]? with
  | some (some x) => .ok x
  | _ => .error .undefined

/-- The loop `for (i = lo; i < lo + n; ++i) body(i)`; `n` counts the iterations left. -/
def forUp (body : Nat → σ → Except (Err α) σ) : Nat → Nat → σ → Except (Err α) σ
  | 0, _, s => .ok s
  | n + 1, i, s => do
      let s1 ← body i s
      forUp body n (i + 1) s1

/-- The loop `for (i = hi; i > lo; --i) body(i)`. -/
def forDown (body : Nat → σ → Except (Err α) σ) (lo : Nat) : Nat → σ → Except (Err α) σ
  | 0, s => .ok s
  | i + 1, s =>
      if i + 1 > lo then do
        let s1 ← body (i + 1) s
        forDown body lo i s1
      else .ok s

/-- The loop `for (i = hi; i >= lo; --i) body(i)` over `size_type`.  At `i = 0` with
`lo = 0` the decrement wraps to the largest `size_type` and the next body runs far outside
the block: undefined behaviour. -/
def forDownGe (body : Nat → σ → Except (Err α) σ) (lo : Nat) : Nat → σ → Except (Err α) σ
  | 0, s =>
      if 0 ≥ lo then do
        let _ ← body 0 s
        .error .undefined
      else .ok s
  | i + 1, s =>
      if i + 1 ≥ lo then do
        let s1 ← body (i + 1) s
        forDownGe body lo i s1
      else .ok s

/-- The loop `for (it = first; it != last; ++it, ++i) new (p + i) T(*it)` over a source
range that yields the values `src`. -/
def constructFrom : List α → Nat → Slots α → Except (Err α) (Slots α)
  | [], _, m => .ok m
  | x :: rest, i, m => do
      let m1 ← construct m i x
      constructFrom rest (i + 1) m1

/-- The values `*it` for `it` in `[p + i, p + i + n)`. -/
def loadRange (m : Slots α) : Nat → Nat → Except (Err α) (List α)
  | 0, _ => .ok []
  | n + 1, i => do
      let x ← load m i
      let rest ← loadRange m n (i + 1)
      .ok (x :: rest)

/-- The call `operator new(n * sizeof(T))` for a byte count that does not wrap: a fresh
address and `n` uninitialised slots.  `operator_new_bytes` is the call for any count. -/
def operator_new (h : Heap) (n : Nat) : Nat × Slots α × Heap :=
  (h.news, List.replicate n none, { h with news := h.news + 1 })

/-- The call `operator delete(p)`. -/
def operator_delete (h : Heap) : Heap :=
  { h with deletes := h.deletes + 1 }

/-- Member `deallocate()`: destroy the live elements, free the block, null the pointer. -/
def deallocate (h : Heap) (v : Vector α) : Except (Err α) (Vector α × Heap) :=
  match v.data_ with
  | none => .ok (v, h)
  | some _ => do
      let _ ← forUp (fun i m => destroy m i) v.size_ 0 v.slots
      .ok ({ v with data_ := none, slots := [] }, operator_delete h)

/-- Member `reallocate(new_capacity)`: allocate, move the first `min(size_, new_capacity)`
elements across, release the old block, publish the new one. -/
def reallocate (h : Heap) (v : Vector α) (new_capacity : Nat) :
    Except (Err α) (Vector α × Heap) := do
  let (new_data, blank, h1) := operator_new h new_capacity
  let new_size := min v.size_ new_capacity
  let filled ← forUp (fun i m => do
      let x ← load v.slots i
      construct m i x) new_size 0 blank
  let (v1, h2) ← deallocate h1 v
  .ok ({ v1 with data_ := some new_data, slots := filled,
                 size_ := new_size, capacity_ := new_capacity }, h2)

/-- Member `push_back(const T&)` and `push_back(T&&)`. -/
def push_back (h : Heap) (v : Vector α) (value : α) : Except (Err α) (Vector α × Heap) := do
  let (v1, h1) ←
    (if v.size_ = v.capacity_ then
      reallocate h v (if v.capacity_ = 0 then 1 else v.capacity_ * 2)
    else .ok (v, h))
  let m ← construct v1.slots v1.size_ value
  .ok ({ v1 with slots := m, size_ := v1.size_ + 1 }, h1)

/-- Constructor `Vector()`. -/
def Vector.new : Vector α :=
  { data_ := none, slots := [], size_ := 0, capacity_ := 0 }

/-- Member `empty()`. -/
def empty (v : Vector α) : Bool := v.size_ == 0

/-- Member `size()`. -/
def size (v : Vector α) : Nat := v.size_

/-- Member `capacity()`. -/
def capacity (v : Vector α) : Nat := v.capacity_

/-- Member `data()`. -/
def data (v : Vector α) : Option Nat := v.data_

/-- Member `begin()`. -/
def begin_ (v : Vector α) : Iter := { base := v.data_, off := 0 }

/-- Member `end()`. -/
def end_ (v : Vector α) : Iter := { base := v.data_, off := v.size_ }

/-- Iterator arithmetic `it + n`. -/
def Iter.add (it : Iter) (n : Nat) : Iter := { it with off := it.off + n }

/-- The difference `pos - begin()`, defined only for two pointers into the same block. -/
def index_of (v : Vector α) (pos : Iter) : Except (Err α) Nat :=
  if pos.base = v.data_ then .ok pos.off else .error .undefined

/-- Dereference `*it` of an iterator into the block of `v`. -/
def deref (v : Vector α) (it : Iter) : Except (Err α) α :=
  if it.base = v.data_ then load v.slots it.off else .error .undefined

/-- Member `at(pos)`. -/
def at_ (v : Vector α) (pos : Nat) : Except (Err α) α :=
  if pos ≥ v.size_ then .error (.thrown .out_of_range v) else load v.slots pos

/-- Operator `operator[](pos)`. -/
def subscript (v : Vector α) (pos : Nat) : Except (Err α) α :=
  load v.slots pos

/-- Member `front()`. -/
def front (v : Vector α) : Except (Err α) α :=
  if empty v then .error (.thrown .runtime_error v) else load v.slots 0

/-- Member `back()`. -/
def back (v : Vector α) : Except (Err α) α :=
  if empty v then .error (.thrown .runtime_error v) else load v.slots (v.size_ - 1)

/-- Member `reserve(new_cap)`. -/
def reserve (h : Heap) (v : Vector α) (new_cap : Nat) : Except (Err α) (Vector α × Heap) :=
  if new_cap > v.capacity_ then reallocate h v new_cap else .ok (v, h)

/-- Member `shrink_to_fit()`. -/
def shrink_to_fit (h : Heap) (v : Vector α) : Except (Err α) (Vector α × Heap) :=
  if v.size_ < v.capacity_ then reallocate h v v.size_ else .ok (v, h)

/-- Member `clear()`. -/
def clear (v : Vector α) : Except (Err α) (Vector α) := do
  let m ← forUp (fun i m => destroy m i) v.size_ 0 v.slots
  .ok { v with slots := m, size_ := 0 }

/-- Member `assign(count, value)`. -/
def assign (h : Heap) (v : Vector α) (count : Nat) (value : α) :
    Except (Err α) (Vector α × Heap) := do
  let v0 ← clear v
  let (v1, h1) ← (if count > v0.capacity_ then reallocate h v0 count else .ok (v0, h))
  let m ← forUp (fun i m => construct m i value) count 0 v1.slots
  .ok ({ v1 with slots := m, size_ := count }, h1)

/-- Member `assign(first, last)` for a source range that yields the values `src`. -/
def assign_range (h : Heap) (v : Vector α) (src : List α) :
    Except (Err α) (Vector α × Heap) := do
  let v0 ← clear v
  let count := src.length
  let (v1, h1) ← (if count > v0.capacity_ then reallocate h v0 count else .ok (v0, h))
  let m ← constructFrom src 0 v1.slots
  .ok ({ v1 with slots := m, size_ := count }, h1)

/-- Member `assign(std::initializer_list<T>)`. -/
def assign_ilist (h : Heap) (v : Vector α) (init : List α) :
    Except (Err α) (Vector α × Heap) :=
  assign_range h v init

/-- Member `insert(pos, T&& value)`; the third component is the returned iterator. -/
def insert (h : Heap) (v : Vector α) (pos : Iter) (value : α) :
    Except (Err α) (Vector α × Heap × Iter) := do
  let index ← index_of v pos
  let (v1, h1) ←
    (if v.size_ = v.capacity_ then
      reallocate h v (if v.capacity_ = 0 then 1 else v.capacity_ * 2)
    else .ok (v, h))
  let m ← forDown (fun i m => do
      let x ← load m (i - 1)
      let m1 ← construct m i x
      destroy m1 (i - 1)) index v1.size_ v1.slots
  let m2 ← construct m index value
  let v2 : Vector α := { v1 with slots := m2, size_ := v1.size_ + 1 }
  .ok (v2, h1, (begin_ v2).add index)

/-- Member `emplace(pos, args...)`, with `value` the element built from `args`. -/
def emplace (h : Heap) (v : Vector α) (pos : Iter) (value : α) :
    Except (Err α) (Vector α × Heap × Iter) := do
  let index ← index_of v pos
  let (v1, h1) ←
    (if v.size_ = v.capacity_ then
      reallocate h v (if v.capacity_ = 0 then 1 else v.capacity_ * 2)
    else .ok (v, h))
  let m ← forDown (fun i m => do
      let x ← load m (i - 1)
      let m1 ← construct m i x
      destroy m1 (i - 1)) index v1.size_ v1.slots
  let m2 ← construct m index value
  let v2 : Vector α := { v1 with slots := m2, size_ := v1.size_ + 1 }
  .ok (v2, h1, (begin_ v2).add index)

/-- Member `insert(pos, count, value)` for sizes that do not wrap and a `value` that is not
an element of the vector.  `insert_n_ref` is the function without these two assumptions. -/
def insert_n (h : Heap) (v : Vector α) (pos : Iter) (count : Nat) (value : α) :
    Except (Err α) (Vector α × Heap × Iter) :=
  if count = 0 then .ok (v, h, pos)
  else do
    let index ← index_of v pos
    let (v1, h1) ←
      (if v.size_ + count > v.capacity_ then
        reallocate h v (max (v.capacity_ * 2) (v.size_ + count))
      else .ok (v, h))
    let m ← forDownGe (fun i m => do
        let x ← load m (i - count)
        let m1 ← construct m i x
        destroy m1 (i - count)) (index + count) (v1.size_ + count - 1) v1.slots
    let m2 ← forUp (fun i m => construct m (index + i) value) count 0 m
    let v2 : Vector α := { v1 with slots := m2, size_ := v1.size_ + count }
    .ok (v2, h1, (begin_ v2).add index)

/-- Member `insert(pos, const T& value)`. -/
def insert_copy (h : Heap) (v : Vector α) (pos : Iter) (value : α) :
    Except (Err α) (Vector α × Heap × Iter) :=
  insert_n h v pos 1 value

/-- Member `insert(pos, first, last)` for a source range that yields the values `src`. -/
def insert_range (h : Heap) (v : Vector α) (pos : Iter) (src : List α) :
    Except (Err α) (Vector α × Heap × Iter) :=
  let count := src.length
  if count = 0 then .ok (v, h, pos)
  else do
    let index ← index_of v pos
    let (v1, h1) ←
      (if v.size_ + count > v.capacity_ then
        reallocate h v (max (v.capacity_ * 2) (v.size_ + count))
      else .ok (v, h))
    let m ← forDownGe (fun i m => do
        let x ← load m (i - count)
        let m1 ← construct m i x
        destroy m1 (i - count)) (index + count) (v1.size_ + count - 1) v1.slots
    let m2 ← constructFrom src index m
    let v2 : Vector α := { v1 with slots := m2, size_ := v1.size_ + count }
    .ok (v2, h1, (begin_ v2).add index)

/-- Member `insert(pos, std::initializer_list<T>)`. -/
def insert_ilist (h : Heap) (v : Vector α) (pos : Iter) (ilist : List α) :
    Except (Err α) (Vector α × Heap × Iter) :=
  insert_range h v pos ilist

/-- Member `erase(first, last)`; the second component is the returned iterator.  A `last` that
lies before `first` is no range at all (the unsigned difference wraps around) and is
treated as undefined behaviour. -/
def erase_range (v : Vector α) (first last : Iter) : Except (Err α) (Vector α × Iter) := do
  let start_index ← index_of v first
  let end_index ← index_of v last
  if end_index < start_index then .error .undefined
  else
    let count := end_index - start_index
    if count = 0 then .ok (v, first)
    else do
      let m ← forUp (fun i m => destroy m i) (end_index - start_index) start_index v.slots
      let m2 ← forUp (fun i m => do
          let x ← load m i
          let m1 ← construct m (i - count) x
          destroy m1 i) (v.size_ - end_index) end_index m
      let v2 : Vector α := { v with slots := m2, size_ := v.size_ - count }
      .ok (v2, (begin_ v2).add start_index)

/-- Member `erase(pos)`. -/
def erase (v : Vector α) (pos : Iter) : Except (Err α) (Vector α × Iter) :=
  erase_range v pos (pos.add 1)

/-- Member `emplace_back(args...)`, with `value` the element built from `args`; the third
component is the returned reference `back()`. -/
def emplace_back (h : Heap) (v : Vector α) (value : α) :
    Except (Err α) (Vector α × Heap × α) := do
  let (v1, h1) ←
    (if v.size_ = v.capacity_ then
      reallocate h v (if v.capacity_ = 0 then 1 else v.capacity_ * 2)
    else .ok (v, h))
  let m ← construct v1.slots v1.size_ value
  let v2 : Vector α := { v1 with slots := m, size_ := v1.size_ + 1 }
  let r ← back v2
  .ok (v2, h1, r)

/-- Member `pop_back()`. -/
def pop_back (v : Vector α) : Except (Err α) (Vector α) :=
  if empty v then .error (.thrown .runtime_error v)
  else do
    let m ← destroy v.slots (v.size_ - 1)
    .ok { v with slots := m, size_ := v.size_ - 1 }

/-- Member `resize(count, value)`. -/
def resize (h : Heap) (v : Vector α) (count : Nat) (value : α) :
    Except (Err α) (Vector α × Heap) := do
  let (v1, h1) ← (if count > v.capacity_ then reallocate h v count else .ok (v, h))
  let m ←
    (if count > v1.size_ then
      forUp (fun i m => construct m i value) (count - v1.size_) v1.size_ v1.slots
    else if count < v1.size_ then
      forUp (fun i m => destroy m i) (v1.size_ - count) count v1.slots
    else .ok v1.slots)
  .ok ({ v1 with slots := m, size_ := count }, h1)

/-- Member `resize(count)`, which is `resize(count, T())`; `t0` is the value-initialised `T()`. -/
def resize_default (h : Heap) (v : Vector α) (count : Nat) (t0 : α) :
    Except (Err α) (Vector α × Heap) :=
  resize h v count t0

/-- Member `swap(other)`: the three members are exchanged (the blocks follow their pointers).
The result is the pair (this object, `other`) after the call. -/
def swap (v other : Vector α) : Vector α × Vector α :=
  ({ data_ := other.data_, slots := other.slots, size_ := other.size_,
     capacity_ := other.capacity_ },
   { data_ := v.data_, slots := v.slots, size_ := v.size_, capacity_ := v.capacity_ })

/-- Constructor `Vector(size_type count)`; `t0` is the value-initialised `T()`. -/
def ctor_count (h : Heap) (count : Nat) (t0 : α) : Except (Err α) (Vector α × Heap) :=
  resize_default h Vector.new count t0

/-- Constructor `Vector(size_type count, const T& value)`. -/
def ctor_fill (h : Heap) (count : Nat) (value : α) : Except (Err α) (Vector α × Heap) :=
  assign h Vector.new count value

/-- Constructor `Vector(std::initializer_list<T>)`. -/
def ctor_ilist (h : Heap) (init : List α) : Except (Err α) (Vector α × Heap) :=
  assign_ilist h Vector.new init

/-- Constructor `Vector(InputIt first, InputIt last)`. -/
def ctor_range (h : Heap) (src : List α) : Except (Err α) (Vector α × Heap) :=
  assign_range h Vector.new src

/-- Constructor `Vector(const Vector& other)`: the range `[other.begin(), other.end())` is read out of
the block of `other` and assigned to the fresh object. -/
def ctor_copy (h : Heap) (other : Vector α) : Except (Err α) (Vector α × Heap) := do
  let src ← loadRange other.slots other.size_ 0
  assign_range h Vector.new src

/-- Constructor `Vector(Vector&& other)`: the pair (new object, `other`) after the call. -/
def ctor_move (other : Vector α) : Vector α × Vector α :=
  ({ data_ := other.data_, slots := other.slots, size_ := other.size_,
     capacity_ := other.capacity_ },
   { data_ := none, slots := [], size_ := 0, capacity_ := 0 })

/-- Operator `operator=(const Vector& other)` for `other` a different object (assigning an object
to itself returns at once). -/
def copy_assign (h : Heap) (v other : Vector α) : Except (Err α) (Vector α × Heap) := do
  let src ← loadRange other.slots other.size_ 0
  assign_range h v src

/-- Operator `operator=(Vector&& other)` for `other` a different object: the triple
(this object, `other`, allocator) after the call. -/
def move_assign (h : Heap) (v other : Vector α) :
    Except (Err α) (Vector α × Vector α × Heap) := do
  let (_, h1) ← deallocate h v
  .ok ({ data_ := other.data_, slots := other.slots, size_ := other.size_,
         capacity_ := other.capacity_ },
       { data_ := none, slots := [], size_ := 0, capacity_ := 0 }, h1)

/-- Destructor `~Vector()`. -/
def dtor (h : Heap) (v : Vector α) : Except (Err α) Heap := do
  let (_, h1) ← deallocate h v
  .ok h1


/-- The loop of `std::equal(first1, last1, first2)` over two blocks: `n` elements are left
to compare, the next ones at offset `i`. -/
def equal_loop [DecidableEq α] (m1 m2 : Slots α) : Nat → Nat → Except (Err α) Bool
  | 0, _ => .ok true
  | n + 1, i => do
      let x ← load m1 i
      let y ← load m2 i
      if x = y then equal_loop m1 m2 n (i + 1) else .ok false

/-- Operator `operator==(lhs, rhs)`: equal sizes and, only then, `std::equal` over
`[lhs.begin(), lhs.end())` against `rhs.begin()`. -/
def operator_eq [DecidableEq α] (lhs rhs : Vector α) : Except (Err α) Bool :=
  if size lhs = size rhs then equal_loop lhs.slots rhs.slots lhs.size_ 0 else .ok false

/-- The assignment `v[pos] = value` through the reference that `operator[]` returns: the
slot must hold a constructed element, which is overwritten. -/
def subscript_assign (v : Vector α) (pos : Nat) (value : α) : Except (Err α) (Vector α) :=
  match v.slots[pos]? with
  | some (some _) => .ok { v with slots := v.slots.set pos (some value) }
  | _ => .error .undefined

/-- The loop `for (x : vals) v.push_back(x)` of the test drivers. -/
def push_all (h : Heap) (v : Vector α) : List α → Except (Err α) (Vector α × Heap)
  | [] => .ok (v, h)
  | x :: rest => do
      let (v1, h1) ← push_back h v x
      push_all h1 v1 rest

/-- A call of one of the mutating member functions on a single object. -/
inductive Op (α : Type) where
  | push_back (x : α)
  | emplace_back (x : α)
  | pop_back
  | insert (pos : Iter) (x : α)
  | insert_copy (pos : Iter) (x : α)
  | insert_n (pos : Iter) (count : Nat) (x : α)
  | insert_range (pos : Iter) (src : List α)
  | insert_ilist (pos : Iter) (ilist : List α)
  | emplace (pos : Iter) (x : α)
  | erase (pos : Iter)
  | erase_range (first last : Iter)
  | resize (count : Nat) (x : α)
  | reserve (n : Nat)
  | shrink_to_fit
  | assign (count : Nat) (x : α)
  | assign_range (src : List α)
  | assign_ilist (init : List α)
  | clear

/-- Run a call; returned iterators and references are dropped. -/
def Op.run (h : Heap) (v : Vector α) : Op α → Except (Err α) (Vector α × Heap)
  | .push_back x => VecImpl.push_back h v x
  | .emplace_back x => do
      let (v2, h2, _) ← VecImpl.emplace_back h v x
      .ok (v2, h2)
  | .pop_back => do
      let v2 ← VecImpl.pop_back v
      .ok (v2, h)
  | .insert pos x => do
      let (v2, h2, _) ← VecImpl.insert h v pos x
      .ok (v2, h2)
  | .insert_copy pos x => do
      let (v2, h2, _) ← VecImpl.insert_copy h v pos x
      .ok (v2, h2)
  | .insert_n pos count x => do
      let (v2, h2, _) ← VecImpl.insert_n h v pos count x
      .ok (v2, h2)
  | .insert_range pos src => do
      let (v2, h2, _) ← VecImpl.insert_range h v pos src
      .ok (v2, h2)
  | .insert_ilist pos ilist => do
      let (v2, h2, _) ← VecImpl.insert_ilist h v pos ilist
      .ok (v2, h2)
  | .emplace pos x => do
      let (v2, h2, _) ← VecImpl.emplace h v pos x
      .ok (v2, h2)
  | .erase pos => do
      let (v2, _) ← VecImpl.erase v pos
      .ok (v2, h)
  | .erase_range first last => do
      let (v2, _) ← VecImpl.erase_range v first last
      .ok (v2, h)
  | .resize count x => VecImpl.resize h v count x
  | .reserve n => VecImpl.reserve h v n
  | .shrink_to_fit => VecImpl.shrink_to_fit h v
  | .assign count x => VecImpl.assign h v count x
  | .assign_range src => VecImpl.assign_range h v src
  | .assign_ilist init => VecImpl.assign_ilist h v init
  | .clear => do
      let v2 ← VecImpl.clear v
      .ok (v2, h)

/-- A mutation of one object: a call of a mutating member function, or a write to an
element through `operator[]`. -/
inductive Mut (α : Type) where
  | call (op : Op α)
  | write (pos : Nat) (value : α)

/-- Run a mutation. -/
def Mut.run (h : Heap) (v : Vector α) : Mut α → Except (Err α) (Vector α × Heap)
  | .call op => op.run h v
  | .write pos value => do
      let v2 ← subscript_assign v pos value
      .ok (v2, h)

/-! ## Specification vocabulary -/

/-- The block `m` has `cap` slots and slot `j` is in the state `g j`. -/
def Holds (m : Slots α) (cap : Nat) (g : Nat → Option α) : Prop :=
  m.length = cap ∧ ∀ j, j < cap → m[j]? = some (g j)

/-- The object `v` is in a consistent state and its live elements are `xs`, in order. -/
def Models (v : Vector α) (xs : List α) : Prop :=
  xs.length = v.size_ ∧ v.size_ ≤ v.capacity_ ∧
  Holds v.slots v.capacity_ (fun j => xs[j]?) ∧ (v.data_ = none → v.capacity_ = 0)

/-- The element sequence of `v`: what the first `size_` slots hold. -/
def Vector.toList (v : Vector α) : List α :=
  (v.slots.take v.size_).reduceOption

/-- The data-model invariant: `size_ ≤ capacity_`, the block has `capacity_` slots, slots
`[0, size_)` are constructed, slots `[size_, capacity_)` are uninitialised, and a null
`data_` owns no slot. -/
def Vector.WF (v : Vector α) : Prop :=
  v.size_ ≤ v.capacity_ ∧ v.slots.length = v.capacity_ ∧
  (∀ i, i < v.size_ → ∃ x, v.slots[i]? = some (some x)) ∧
  (∀ i, v.size_ ≤ i → i < v.capacity_ → v.slots[i]? = some none) ∧
  (v.data_ = none → v.capacity_ = 0)

/-- The position and range preconditions of the calls: an insert position lies in
`[begin(), end()]`, an erase position in `[begin(), end())`, an erase range inside
`[begin(), end()]` with `first` not after `last`. -/
def Op.pre (v : Vector α) : Op α → Prop
  | .insert pos _ => pos.base = v.data_ ∧ pos.off ≤ v.size_
  | .insert_copy pos _ => pos.base = v.data_ ∧ pos.off ≤ v.size_
  | .insert_n pos _ _ => pos.base = v.data_ ∧ pos.off ≤ v.size_
  | .insert_range pos _ => pos.base = v.data_ ∧ pos.off ≤ v.size_
  | .insert_ilist pos _ => pos.base = v.data_ ∧ pos.off ≤ v.size_
  | .emplace pos _ => pos.base = v.data_ ∧ pos.off ≤ v.size_
  | .erase pos => pos.base = v.data_ ∧ pos.off < v.size_
  | .erase_range first last =>
      first.base = v.data_ ∧ last.base = v.data_ ∧ first.off ≤ last.off ∧ last.off ≤ v.size_
  | _ => True

/-- The states an object can be in: fresh out of a constructor, or after a call on a
reachable object (also a call that ended in an exception), with the position and range
preconditions met. -/
inductive Reachable : Vector α → Prop
  | ctor_default : Reachable Vector.new
  | ctor_count (h : Heap) (count : Nat) (t0 : α) (v : Vector α) (h2 : Heap) :
      VecImpl.ctor_count h count t0 = .ok (v, h2) → Reachable v
  | ctor_fill (h : Heap) (count : Nat) (x : α) (v : Vector α) (h2 : Heap) :
      VecImpl.ctor_fill h count x = .ok (v, h2) → Reachable v
  | ctor_ilist (h : Heap) (init : List α) (v : Vector α) (h2 : Heap) :
      VecImpl.ctor_ilist h init = .ok (v, h2) → Reachable v
  | ctor_range (h : Heap) (src : List α) (v : Vector α) (h2 : Heap) :
      VecImpl.ctor_range h src = .ok (v, h2) → Reachable v
  | ctor_copy (h : Heap) (other v : Vector α) (h2 : Heap) :
      Reachable other → VecImpl.ctor_copy h other = .ok (v, h2) → Reachable v
  | ctor_move_new (other : Vector α) : Reachable other → Reachable (VecImpl.ctor_move other).1
  | ctor_move_src (other : Vector α) : Reachable other → Reachable (VecImpl.ctor_move other).2
  | call (h : Heap) (v : Vector α) (op : Op α) (v2 : Vector α) (h2 : Heap) :
      Reachable v → op.pre v → op.run h v = .ok (v2, h2) → Reachable v2
  | thrown (h : Heap) (v : Vector α) (op : Op α) (e : Exn) (v2 : Vector α) :
      Reachable v → op.pre v → op.run h v = .error (.thrown e v2) → Reachable v2
  | copy_assign (h : Heap) (v other v2 : Vector α) (h2 : Heap) :
      Reachable v → Reachable other → VecImpl.copy_assign h v other = .ok (v2, h2) → Reachable v2
  | move_assign_this (h : Heap) (v other v2 o2 : Vector α) (h2 : Heap) :
      Reachable v → Reachable other → VecImpl.move_assign h v other = .ok (v2, o2, h2) →
      Reachable v2
  | move_assign_other (h : Heap) (v other v2 o2 : Vector α) (h2 : Heap) :
      Reachable v → Reachable other → VecImpl.move_assign h v other = .ok (v2, o2, h2) →
      Reachable o2
  | swap_this (v other : Vector α) : Reachable v → Reachable other →
      Reachable (VecImpl.swap v other).1
  | swap_other (v other : Vector α) : Reachable v → Reachable other →
      Reachable (VecImpl.swap v other).2

/-- The precondition of a mutation: that of the call, or an index below `size()` for a
write through `operator[]`. -/
def Mut.pre (v : Vector α) : Mut α → Prop
  | .call op => op.pre v
  | .write pos _ => pos < v.size_

/-- The block of `v`, if it has one, was handed out by the allocator now in state `h`. -/
def Owned (h : Heap) (v : Vector α) : Prop :=
  ∀ p, v.data_ = some p → p < h.news

/-- The objects `a` and `b` do not point to the same block. -/
def Apart (a b : Vector α) : Prop :=
  ∀ p, a.data_ = some p → b.data_ ≠ some p

/-- What one call can do to the pointer and the allocator: keep both, or move to the block
`operator new` hands out next. -/
def AllocStep (h : Heap) (v v2 : Vector α) (h2 : Heap) : Prop :=
  (v2.data_ = v.data_ ∧ h2 = h) ∨ (v2.data_ = some h.news ∧ h2.news = h.news + 1)

/-- What one call can do to the pointer and the capacity: keep both, or move to a block
with at least one slot. -/
def CapStep (v v2 : Vector α) : Prop :=
  (v2.data_ = v.data_ ∧ v2.capacity_ = v.capacity_) ∨ (v2.data_ ≠ none ∧ 0 < v2.capacity_)

/-- Storage is absent exactly when the capacity is zero. -/
def NullIff (v : Vector α) : Prop :=
  data v = none ↔ capacity v = 0

/-- One address space for several objects: `install mem v` is `mem` with the block of `v`
placed at the address `v` points to. -/
def install (mem : Nat → Slots α) (v : Vector α) : Nat → Slots α :=
  match v.data_ with
  | none => mem
  | some p => Function.update mem p v.slots

/-- A concrete state for the worked examples: the elements `[1, 2]` in a full block of
two slots at address 0. -/
def sampleFull : Vector Nat :=
  { data_ := some 0, slots := [some 1, some 2], size_ := 2, capacity_ := 2 }

/-- A concrete state for the worked examples: the elements `[1, 2]` in a block of four
slots at address 0. -/
def sampleRoomy : Vector Nat :=
  { data_ := some 0, slots := [some 1, some 2, none, none], size_ := 2, capacity_ := 4 }

/-- The allocator after the one `operator new` call that produced the sample block. -/
def sampleHeap : Heap := { news := 1, deletes := 0 }

/-! ## Element types whose constructors can fail

The functions above are the class for an element type whose constructors always return.
The functions below (suffix `_t`) follow the same source lines for an element type whose
copy and move constructors may throw.  Constructor invocations are numbered over the whole
run; which of them throw is a property of the element type.  A ledger counts the elements
constructed and destroyed, so that a leak shows as a difference at teardown. -/

/-- An element type: whether its constructor invocation number `n` throws, and the value a
move constructor leaves behind in its source. -/
structure Elem (α : Type) where
  throws : Nat → Bool
  moved : α → α

/-- The run so far: the allocator, the number of constructor invocations, and how many
elements have been constructed and destroyed. -/
structure World where
  heap : Heap
  calls : Nat
  constructed : Nat
  destroyed : Nat
  deriving DecidableEq

/-- How a call ends: it returns, it throws (the state is the one at the `throw`), or its
behaviour is undefined. -/
inductive Outcome (σ : Type) where
  | done (s : σ)
  | threw (s : σ)
  | undefined
  deriving DecidableEq

/-- Placement new with a copy, `new (p + i) T(x)`: the slot must be uninitialised; a
constructor that throws leaves it so. -/
def construct_t (T : Elem α) (w : World) (m : Slots α) (i : Nat) (x : α) :
    Outcome (Slots α × World) :=
  match construct m i x with
  | .error _ => .undefined
  | .ok m1 =>
      if T.throws w.calls then .threw (m, { w with calls := w.calls + 1 })
      else .done (m1, { w with calls := w.calls + 1, constructed := w.constructed + 1 })

/-- The migration loop of `reallocate`,
`for (i = ..; i < new_size; ++i) new (new_data + i) T(std::move(data_[i]))`, on the pair
(new block, old block); `n` counts the iterations left.  A move constructor that returns
leaves its source moved-from; one that throws leaves its source as it was. -/
def migrate_t (T : Elem α) : Nat → Nat → Slots α → Slots α → World →
    Outcome (Slots α × Slots α × World)
  | 0, _, fresh, old, w => .done (fresh, old, w)
  | n + 1, i, fresh, old, w =>
      match load old i with
      | .error _ => .undefined
      | .ok x =>
          match construct fresh i x with
          | .error _ => .undefined
          | .ok fresh1 =>
              if T.throws w.calls then .threw (fresh, old, { w with calls := w.calls + 1 })
              else migrate_t T n (i + 1) fresh1 (old.set i (some (T.moved x)))
                { w with calls := w.calls + 1, constructed := w.constructed + 1 }

/-- Member `deallocate()`, with the destructor calls entered in the ledger. -/
def deallocate_t (w : World) (v : Vector α) : Outcome (Vector α × World) :=
  match deallocate w.heap v with
  | .error _ => .undefined
  | .ok (v1, h1) =>
      .done (v1, { w with heap := h1,
                          destroyed := w.destroyed + (if v.data_.isSome then v.size_ else 0) })

/-- Member `reallocate(new_capacity)`: the `catch (...)` block calls `operator delete` on the
new block and rethrows. -/
def reallocate_t (T : Elem α) (w : World) (v : Vector α) (new_capacity : Nat) :
    Outcome (Vector α × World) :=
  match operator_new w.heap new_capacity with
  | (new_data, blank, h1) =>
      match migrate_t T (min v.size_ new_capacity) 0 blank v.slots { w with heap := h1 } with
      | .undefined => .undefined
      | .threw (_, old, w1) =>
          .threw ({ v with slots := old }, { w1 with heap := operator_delete w1.heap })
      | .done (filled, old, w1) =>
          match deallocate_t w1 { v with slots := old } with
          | .undefined => .undefined
          | .threw s => .threw s
          | .done (v1, w2) =>
              .done ({ v1 with data_ := some new_data, slots := filled,
                               size_ := min v.size_ new_capacity,
                               capacity_ := new_capacity }, w2)

/-- Member `push_back(const T&)`. -/
def push_back_t (T : Elem α) (w : World) (v : Vector α) (value : α) :
    Outcome (Vector α × World) :=
  match (if v.size_ = v.capacity_ then
      reallocate_t T w v (if v.capacity_ = 0 then 1 else v.capacity_ * 2)
    else .done (v, w)) with
  | .undefined => .undefined
  | .threw s => .threw s
  | .done (v1, w1) =>
      match construct_t T w1 v1.slots v1.size_ value with
      | .undefined => .undefined
      | .threw (_, w2) => .threw (v1, w2)
      | .done (m, w2) => .done ({ v1 with slots := m, size_ := v1.size_ + 1 }, w2)

/-- Destructor `~Vector()`, with the destructor calls entered in the ledger. -/
def dtor_t (w : World) (v : Vector α) : Outcome (Vector α × World) :=
  deallocate_t w v

/-- An element type whose constructor throws on invocation number `k` (counted from 0) and
on no other, and whose moved-from value is 0. -/
def throwsAt (k : Nat) : Elem Nat :=
  { throws := fun n => n == k, moved := fun _ => 0 }

/-- The run before the sample vector `[1, 2]` meets a throwing element type: one block
allocated, two elements constructed, no constructor invocation counted yet. -/
def sampleWorld : World :=
  { heap := sampleHeap, calls := 0, constructed := 2, destroyed := 0 }


/-! ## Sizes of 64 bits and reference arguments

The definitions above take every size as a natural number and every element argument by
value.  For `reserve`, `push_back`, `resize(count, value)`, `assign(count, value)`,
`insert(pos, count, value)` and the fill constructor the definitions of this section drop
both simplifications.  `size_type` is `std::size_t`, an unsigned type of 64 bits: the sums,
differences and products the code computes are taken modulo `2^64` (`sizeLimit`), among
them the byte count `new_capacity * sizeof(T)` that `reallocate` passes to `operator new`;
the parameter `w` is `sizeof(T)`.  A `const T&` parameter is a reference, and the object
it refers to may be an element of the vector itself.  `operator new` still returns a
block for every byte count. -/

/-- The number of values of `size_type`: `2^64`. -/
def sizeLimit : Nat := 18446744073709551616

/-- The call `operator new(n * sizeof(T))` for an element type of `w` bytes.  The product
is a `size_type`; the block has room for as many elements as the bytes asked for. -/
def operator_new_bytes (w : Nat) (h : Heap) (n : Nat) : Nat × Slots α × Heap :=
  operator_new h (n * w % sizeLimit / w)

/-- Member `reallocate(new_capacity)` with the byte count of the request reduced to a
`size_type`.  `capacity_` is set to `new_capacity` whatever the size of the block. -/
def reallocate_bytes (w : Nat) (h : Heap) (v : Vector α) (new_capacity : Nat) :
    Except (Err α) (Vector α × Heap) := do
  let (new_data, blank, h1) := operator_new_bytes w h new_capacity
  let new_size := min v.size_ new_capacity
  let filled ← forUp (fun i m => do
      let x ← load v.slots i
      construct m i x) new_size 0 blank
  let (v1, h2) ← deallocate h1 v
  .ok ({ v1 with data_ := some new_data, slots := filled,
                 size_ := new_size, capacity_ := new_capacity }, h2)

/-- Member `reserve(new_cap)` over `reallocate_bytes`. -/
def reserve_bytes (w : Nat) (h : Heap) (v : Vector α) (new_cap : Nat) :
    Except (Err α) (Vector α × Heap) :=
  if new_cap > v.capacity_ then reallocate_bytes w h v new_cap else .ok (v, h)

/-- Member `push_back` over `reallocate_bytes`, for an argument that is not an element of
the vector; `capacity_ * 2` and `++size_` are `size_type` operations. -/
def push_back_bytes (w : Nat) (h : Heap) (v : Vector α) (value : α) :
    Except (Err α) (Vector α × Heap) := do
  let (v1, h1) ←
    (if v.size_ = v.capacity_ then
      reallocate_bytes w h v (if v.capacity_ = 0 then 1 else v.capacity_ * 2 % sizeLimit)
    else .ok (v, h))
  let m ← construct v1.slots v1.size_ value
  .ok ({ v1 with slots := m, size_ := (v1.size_ + 1) % sizeLimit }, h1)

/-- The loop `for (x : vals) v.push_back(x)` over `push_back_bytes`. -/
def push_all_bytes (w : Nat) (h : Heap) (v : Vector α) :
    List α → Except (Err α) (Vector α × Heap)
  | [] => .ok (v, h)
  | x :: rest => do
      let (v1, h1) ← push_back_bytes w h v x
      push_all_bytes w h1 v1 rest

/-- A `const T&` argument of a member function: a reference to an object outside the
vector, given by the value that object holds, or a reference to the element `data_[j]` of
the block the vector owns when the call is made (as in `v.resize(n, v[j])`). -/
inductive Ref (α : Type) where
  | outside (x : α)
  | own (j : Nat)
  deriving DecidableEq

/-- A read through a `const T&` argument while the block of the vector is `m`; `released`
says that the block the vector owned at the call has been freed by `reallocate` since.
An outside object still holds its value.  An element of the vector is read from its slot:
that is undefined behaviour when the block has been freed and when the slot holds no
object at the time of the read. -/
def Ref.read (value : Ref α) (released : Bool) (m : Slots α) : Except (Err α) α :=
  match value with
  | .outside x => .ok x
  | .own j => if released then .error .undefined else load m j

/-- Member `resize(count, value)` with `value` a reference, over `reallocate_bytes`. -/
def resize_ref (w : Nat) (h : Heap) (v : Vector α) (count : Nat) (value : Ref α) :
    Except (Err α) (Vector α × Heap) := do
  let (v1, h1) ← (if count > v.capacity_ then reallocate_bytes w h v count else .ok (v, h))
  let m ←
    (if count > v1.size_ then
      forUp (fun i m => do
        let x ← value.read (decide (count > v.capacity_)) m
        construct m i x) (count - v1.size_) v1.size_ v1.slots
    else if count < v1.size_ then
      forUp (fun i m => destroy m i) (v1.size_ - count) count v1.slots
    else .ok v1.slots)
  .ok ({ v1 with slots := m, size_ := count }, h1)

/-- Member `assign(count, value)` with `value` a reference, over `reallocate_bytes`. -/
def assign_ref (w : Nat) (h : Heap) (v : Vector α) (count : Nat) (value : Ref α) :
    Except (Err α) (Vector α × Heap) := do
  let v0 ← clear v
  let (v1, h1) ←
    (if count > v0.capacity_ then reallocate_bytes w h v0 count else .ok (v0, h))
  let m ← forUp (fun i m => do
      let x ← value.read (decide (count > v0.capacity_)) m
      construct m i x) count 0 v1.slots
  .ok ({ v1 with slots := m, size_ := count }, h1)

/-- Constructor `Vector(size_type count, const T& value)` over `assign_ref`. -/
def ctor_fill_ref (w : Nat) (h : Heap) (count : Nat) (value : Ref α) :
    Except (Err α) (Vector α × Heap) :=
  assign_ref w h Vector.new count value

/-- Member `insert(pos, count, value)` with `value` a reference, over `reallocate_bytes`.
The sums `size_ + count` and `index + count`, the product `capacity_ * 2`, the initial
`size_ + count - 1` and the index `i - count` are `size_type` values; `data_ + index + i`
is pointer arithmetic. -/
def insert_n_ref (w : Nat) (h : Heap) (v : Vector α) (pos : Iter) (count : Nat)
    (value : Ref α) : Except (Err α) (Vector α × Heap × Iter) :=
  if count = 0 then .ok (v, h, pos)
  else do
    let index ← index_of v pos
    let (v1, h1) ←
      (if (v.size_ + count) % sizeLimit > v.capacity_ then
        reallocate_bytes w h v
          (max (v.capacity_ * 2 % sizeLimit) ((v.size_ + count) % sizeLimit))
      else .ok (v, h))
    let m ← forDownGe (fun i m => do
        let x ← load m ((i + sizeLimit - count) % sizeLimit)
        let m1 ← construct m i x
        destroy m1 ((i + sizeLimit - count) % sizeLimit))
      ((index + count) % sizeLimit) ((v1.size_ + count + sizeLimit - 1) % sizeLimit) v1.slots
    let m2 ← forUp (fun i m => do
        let x ← value.read (decide ((v.size_ + count) % sizeLimit > v.capacity_)) m
        construct m (index + i) x) count 0 m
    let v2 : Vector α :=
      { v1 with slots := m2, size_ := (v1.size_ + count) % sizeLimit }
    .ok (v2, h1, (begin_ v2).add index)
end VecImpl

/-!
# Sorting, searching and string matching: `src/examples/algorithms-demo.cpp`

The static member functions of `SortingAlgorithms`, `SearchAlgorithms` and
`StringAlgorithms` are translated statement by statement.

Conventions.
* A `vector<int>` is the list of its elements and a `string` the list of its characters.
  Elements of type `int` are only compared and copied, so they are integers.
* An `int` index variable is an integer.  The conversions of `arr.size()` and
  `arr.size() - 1` (unsigned 64-bit values) to `int`, and the products `2 * i + 1` and
  `2 * i + 2` of `heapify`, are reduced to 32 bits; every other index computation adds or
  subtracts one, or halves a difference, of values between `-1` and the size, and is exact
  whenever the size fits an `int`.  The sums `m + 1` that size a table, the sums stored in
  a table and the counter of the loop of `maxSubarraySum` are reduced to 32 bits as well.
  The theorems about all inputs assume that the sizes fit.
* The division of `int` rounds towards zero.
* A read or a write outside the vector is undefined behaviour, modelled as `none`.
* A vector constructed with an `int` count has `count.toNat` elements.  For a negative
  count the source converts the count to a size above `max_size()` and the constructor
  throws `std::length_error`; here the vector has no elements.  In
  `longestCommonSubsequence` and `knapsack` the read of the result is then out of bounds,
  so either way no value is returned; everything stated about `computeLPS`, `KMP` and
  `topologicalSort` is for sizes whose `int` value is not negative.
* Every `while` loop and every recursive function takes a fuel that bounds its iterations
  or its depth; running out of fuel also gives `none`.  The theorems show how much fuel is
  enough.  A `for` loop whose bounds are fixed at its entry runs its counted number of
  iterations.
-/

namespace AlgorithmsDemo

/-! ## Definitions -/

/-- Reduction of an integer to the range of a 32-bit `int`. -/
def wrap32 (x : Int) : Int :=
  (x + 2147483648) % 4294967296 - 2147483648

/-- The value of `int(size)` for a container size. -/
def intOfSize (n : Nat) : Int :=
  wrap32 n

/-- The value of `int(size - 1)`, the subtraction being done in `size_t`. -/
def lastIndex (n : Nat) : Int :=
  wrap32 (((n : Int) + 18446744073709551616 - 1) % 18446744073709551616)

/-- The division of `int`: the quotient is rounded towards zero. -/
def cdiv (a b : Int) : Int :=
  Int.tdiv a b

/-- The read `arr[i]`. -/
def rd {β : Type} (arr : List β) (i : Int) : Option β :=
  if 0 ≤ i then arr[i.toNat]? else none

/-- The write `arr[i] = x`. -/
def wr {β : Type} (arr : List β) (i : Int) (x : β) : Option (List β) :=
  if 0 ≤ i ∧ i < arr.length then some (arr.set i.toNat x) else none

/-- The call `swap(arr[i], arr[j])`. -/
def swap (arr : List Int) (i j : Int) : Option (List Int) :=
  match rd arr i, rd arr j with
  | some x, some y =>
      match wr arr i y with
      | some arr1 => wr arr1 j x
      | none => none
  | _, _ => none

/-- The read `s[i]` of a `string`: the position `s.size()` holds the terminating zero. -/
def charAt (s : List Char) (i : Int) : Option Char :=
  if i = s.length then some (Char.ofNat 0) else rd s i

/-- The read `dp[i][j]` of a `vector<vector<int>>`. -/
def rd2 (dp : List (List Int)) (i j : Int) : Option Int :=
  match rd dp i with
  | none => none
  | some row => rd row j

/-- The write `dp[i][j] = x`. -/
def wr2 (dp : List (List Int)) (i j : Int) (x : Int) : Option (List (List Int)) :=
  match rd dp i with
  | none => none
  | some row =>
      match wr row j x with
      | none => none
      | some row1 => wr dp i row1

/-! ### `SearchAlgorithms` -/

/-- The `while (left <= right)` loop of `binarySearch`. -/
def binarySearchLoop (arr : List Int) (target : Int) : Nat → Int → Int → Option Int
  | 0, _, _ => none
  | fuel + 1, left, right =>
      if left ≤ right then
        let mid := left + cdiv (right - left) 2
        match rd arr mid with
        | none => none
        | some x =>
            if x = target then some mid
            else if x < target then binarySearchLoop arr target fuel (mid + 1) right
            else binarySearchLoop arr target fuel left (mid - 1)
      else some (-1)

/-- Function `SearchAlgorithms::binarySearch(arr, target)`. -/
def binarySearch (fuel : Nat) (arr : List Int) (target : Int) : Option Int :=
  binarySearchLoop arr target fuel 0 (lastIndex arr.length)

/-! ### `SortingAlgorithms` -/

/-- The loop `for (int j = low; j < high; j++)` of `partition`; `n` counts the iterations
left. -/
def partitionLoop (pivot : Int) : Nat → Int → Int → List Int → Option (Int × List Int)
  | 0, _, i, arr => some (i, arr)
  | n + 1, j, i, arr =>
      match rd arr j with
      | none => none
      | some x =>
          if x ≤ pivot then
            match swap arr (i + 1) j with
            | none => none
            | some arr1 => partitionLoop pivot n (j + 1) (i + 1) arr1
          else partitionLoop pivot n (j + 1) i arr

/-- Function `SortingAlgorithms::partition(arr, low, high)`: the index of the pivot and
the vector after the call. -/
def partition (arr : List Int) (low high : Int) : Option (Int × List Int) :=
  match rd arr high with
  | none => none
  | some pivot =>
      match partitionLoop pivot (high - low).toNat low (low - 1) arr with
      | none => none
      | some (i, arr1) =>
          match swap arr1 (i + 1) high with
          | none => none
          | some arr2 => some (i + 1, arr2)

/-- Function `SortingAlgorithms::quickSort(arr, low, high)`. -/
def quickSort : Nat → List Int → Int → Int → Option (List Int)
  | 0, _, _, _ => none
  | fuel + 1, arr, low, high =>
      if low < high then
        match partition arr low high with
        | none => none
        | some (p, arr1) =>
            match quickSort fuel arr1 low (p - 1) with
            | none => none
            | some arr2 => quickSort fuel arr2 (p + 1) high
      else some arr

/-- The loop `while (i <= mid && j <= right)` of `merge`: the state is `(i, j, k, temp)`. -/
def mergeBoth (arr : List Int) (mid right : Int) :
    Nat → Int → Int → Int → List Int → Option (Int × Int × Int × List Int)
  | 0, _, _, _, _ => none
  | fuel + 1, i, j, k, temp =>
      if i ≤ mid ∧ j ≤ right then
        match rd arr i, rd arr j with
        | some x, some y =>
            if x ≤ y then
              match wr temp k x with
              | some temp1 => mergeBoth arr mid right fuel (i + 1) j (k + 1) temp1
              | none => none
            else
              match wr temp k y with
              | some temp1 => mergeBoth arr mid right fuel i (j + 1) (k + 1) temp1
              | none => none
        | _, _ => none
      else some (i, j, k, temp)

/-- The loops `while (i <= bound) temp[k++] = arr[i++]` of `merge`: the state is
`(i, k, temp)`. -/
def mergeRest (arr : List Int) (bound : Int) :
    Nat → Int → Int → List Int → Option (Int × Int × List Int)
  | 0, _, _, _ => none
  | fuel + 1, i, k, temp =>
      if i ≤ bound then
        match rd arr i with
        | some x =>
            match wr temp k x with
            | some temp1 => mergeRest arr bound fuel (i + 1) (k + 1) temp1
            | none => none
        | none => none
      else some (i, k, temp)

/-- The loop `for (int i = 0; i < k; i++) arr[left + i] = temp[i]` of `merge`; `n` counts
the iterations left. -/
def copyBack (temp : List Int) (left : Int) : Nat → Int → List Int → Option (List Int)
  | 0, _, arr => some arr
  | n + 1, i, arr =>
      match rd temp i with
      | some x =>
          match wr arr (left + i) x with
          | some arr1 => copyBack temp left n (i + 1) arr1
          | none => none
      | none => none

/-- Function `SortingAlgorithms::merge(arr, left, mid, right)`. -/
def merge (fuel : Nat) (arr : List Int) (left mid right : Int) : Option (List Int) :=
  match mergeBoth arr mid right fuel left (mid + 1) 0
      (List.replicate (right - left + 1).toNat 0) with
  | none => none
  | some (i, j, k, temp) =>
      match mergeRest arr mid fuel i k temp with
      | none => none
      | some (_, k1, temp1) =>
          match mergeRest arr right fuel j k1 temp1 with
          | none => none
          | some (_, k2, temp2) => copyBack temp2 left k2.toNat 0 arr

/-- Function `SortingAlgorithms::mergeSort(arr, left, right)`. -/
def mergeSort : Nat → List Int → Int → Int → Option (List Int)
  | 0, _, _, _ => none
  | fuel + 1, arr, left, right =>
      if left < right then
        match mergeSort fuel arr left (left + cdiv (right - left) 2) with
        | none => none
        | some arr1 =>
            match mergeSort fuel arr1 (left + cdiv (right - left) 2 + 1) right with
            | none => none
            | some arr2 => merge fuel arr2 left (left + cdiv (right - left) 2) right
      else some arr

/-- The statement `if (c < n && arr[c] > arr[largest]) largest = c` of `heapify`: the value
of `largest` after it. -/
def pickLarger (arr : List Int) (n c largest : Int) : Option Int :=
  if c < n then
    match rd arr c, rd arr largest with
    | some x, some y => some (if x > y then c else largest)
    | _, _ => none
  else some largest

/-- Function `SortingAlgorithms::heapify(arr, n, i)`. -/
def heapify : Nat → List Int → Int → Int → Option (List Int)
  | 0, _, _, _ => none
  | fuel + 1, arr, n, i =>
      match pickLarger arr n (wrap32 (2 * i + 1)) i with
      | none => none
      | some largest1 =>
          match pickLarger arr n (wrap32 (2 * i + 2)) largest1 with
          | none => none
          | some largest =>
              if largest ≠ i then
                match swap arr i largest with
                | none => none
                | some arr1 => heapify fuel arr1 n largest
              else some arr

/-- The loop `for (int i = n / 2 - 1; i >= 0; i--) heapify(arr, n, i)` of `heapSort`;
the first argument counts the iterations left. -/
def heapBuild (fuel : Nat) (n : Int) : Nat → Int → List Int → Option (List Int)
  | 0, _, arr => some arr
  | c + 1, i, arr =>
      match heapify fuel arr n i with
      | none => none
      | some arr1 => heapBuild fuel n c (i - 1) arr1

/-- The loop `for (int i = n - 1; i > 0; i--) { swap(arr[0], arr[i]); heapify(arr, i, 0); }`
of `heapSort`; the first argument counts the iterations left. -/
def heapExtract (fuel : Nat) : Nat → Int → List Int → Option (List Int)
  | 0, _, arr => some arr
  | c + 1, i, arr =>
      match swap arr 0 i with
      | none => none
      | some arr1 =>
          match heapify fuel arr1 i 0 with
          | none => none
          | some arr2 => heapExtract fuel c (i - 1) arr2

/-- The body of `heapSort` after `int n = arr.size()`. -/
def heapSortFrom (fuel : Nat) (n : Int) (arr : List Int) : Option (List Int) :=
  match heapBuild fuel n (cdiv n 2).toNat (cdiv n 2 - 1) arr with
  | none => none
  | some arr1 => heapExtract fuel (n - 1).toNat (n - 1) arr1

/-- Function `SortingAlgorithms::heapSort(arr)`. -/
def heapSort (fuel : Nat) (arr : List Int) : Option (List Int) :=
  heapSortFrom fuel (intOfSize arr.length) arr

/-! ### `StringAlgorithms` -/

/-- The `while (i < m)` loop of `computeLPS`: the state is `(len, i, lps)`. -/
def computeLPSLoop (pattern : List Char) (m : Int) :
    Nat → Int → Int → List Int → Option (List Int)
  | 0, _, _, _ => none
  | fuel + 1, len, i, lps =>
      if i < m then
        match charAt pattern i, charAt pattern len with
        | some a, some b =>
            if a = b then
              match wr lps i (len + 1) with
              | none => none
              | some lps1 => computeLPSLoop pattern m fuel (len + 1) (i + 1) lps1
            else if len ≠ 0 then
              match rd lps (len - 1) with
              | none => none
              | some l => computeLPSLoop pattern m fuel l i lps
            else
              match wr lps i 0 with
              | none => none
              | some lps1 => computeLPSLoop pattern m fuel len (i + 1) lps1
        | _, _ => none
      else some lps

/-- The body of `computeLPS` after `int m = pattern.length()`. -/
def computeLPSFrom (fuel : Nat) (m : Int) (pattern : List Char) : Option (List Int) :=
  computeLPSLoop pattern m fuel 0 1 (List.replicate m.toNat 0)

/-- Function `StringAlgorithms::computeLPS(pattern)`. -/
def computeLPS (fuel : Nat) (pattern : List Char) : Option (List Int) :=
  computeLPSFrom fuel (intOfSize pattern.length) pattern

/-- The `while (i < n)` loop of `KMP`: the state is `(i, j)`. -/
def KMPLoop (text pattern : List Char) (lps : List Int) (n m : Int) :
    Nat → Int → Int → Option Int
  | 0, _, _ => none
  | fuel + 1, i, j =>
      if i < n then
        match charAt text i, charAt pattern j with
        | some a, some b =>
            if (if a = b then j + 1 else j) = m then
              some ((if a = b then i + 1 else i) - (if a = b then j + 1 else j))
            else if (if a = b then i + 1 else i) < n then
              match charAt text (if a = b then i + 1 else i),
                  charAt pattern (if a = b then j + 1 else j) with
              | some c, some d =>
                  if c ≠ d then
                    if (if a = b then j + 1 else j) ≠ 0 then
                      match rd lps ((if a = b then j + 1 else j) - 1) with
                      | none => none
                      | some l =>
                          KMPLoop text pattern lps n m fuel (if a = b then i + 1 else i) l
                    else
                      KMPLoop text pattern lps n m fuel ((if a = b then i + 1 else i) + 1)
                        (if a = b then j + 1 else j)
                  else
                    KMPLoop text pattern lps n m fuel (if a = b then i + 1 else i)
                      (if a = b then j + 1 else j)
              | _, _ => none
            else
              KMPLoop text pattern lps n m fuel (if a = b then i + 1 else i)
                (if a = b then j + 1 else j)
        | _, _ => none
      else some (-1)

/-- The body of `KMP` after `int n = text.length(), m = pattern.length()`. -/
def KMPFrom (fuel : Nat) (lps : List Int) (n m : Int) (text pattern : List Char) :
    Option Int :=
  KMPLoop text pattern lps n m fuel 0 0

/-- Function `StringAlgorithms::KMP(text, pattern)`. -/
def KMP (fuel : Nat) (text pattern : List Char) : Option Int :=
  match computeLPS fuel pattern with
  | none => none
  | some lps => KMPFrom fuel lps (intOfSize text.length) (intOfSize pattern.length) text pattern

/-! ### `DynamicProgramming` -/

/-- The sum `a + b` of two `int` values. -/
def intAdd (a b : Int) : Int :=
  wrap32 (a + b)

/-- The loop `for (int i = 1; i < nums.size(); i++)` of `maxSubarraySum`: the comparison
converts the `int` counter to `size_t`, the increment is reduced to 32 bits; the state is
`(currentSum, maxSum)`.  The first argument bounds the number of times the condition is
evaluated. -/
def maxSubarrayLoop (nums : List Int) : Nat → Int → Int → Int → Option Int
  | 0, _, _, _ => none
  | fuel + 1, i, currentSum, maxSum =>
      if i % 18446744073709551616 < nums.length then
        match rd nums i with
        | none => none
        | some x =>
            maxSubarrayLoop nums fuel (intAdd i 1) (max x (intAdd currentSum x))
              (max maxSum (max x (intAdd currentSum x)))
      else some maxSum

/-- Function `DynamicProgramming::maxSubarraySum(nums)`.  The counter of the loop starts
at 1 and goes up by one until the condition fails, so the condition is evaluated at most
`nums.size()` times. -/
def maxSubarraySum (nums : List Int) : Option Int :=
  match rd nums 0 with
  | none => none
  | some x => maxSubarrayLoop nums nums.length 1 x x

/-- The loop `for (int j = 1; j <= n; j++)` of `longestCommonSubsequence`, for the row `i`;
the first argument counts the iterations left. -/
def lcsInner (text1 text2 : List Char) (i : Int) :
    Nat → Int → List (List Int) → Option (List (List Int))
  | 0, _, dp => some dp
  | c + 1, j, dp =>
      match charAt text1 (i - 1), charAt text2 (j - 1) with
      | some a, some b =>
          if a = b then
            match rd2 dp (i - 1) (j - 1) with
            | none => none
            | some d =>
                match wr2 dp i j (intAdd d 1) with
                | none => none
                | some dp1 => lcsInner text1 text2 i c (j + 1) dp1
          else
            match rd2 dp (i - 1) j, rd2 dp i (j - 1) with
            | some u, some l =>
                match wr2 dp i j (max u l) with
                | none => none
                | some dp1 => lcsInner text1 text2 i c (j + 1) dp1
            | _, _ => none
      | _, _ => none

/-- The loop `for (int i = 1; i <= m; i++)` of `longestCommonSubsequence`; the first
argument counts the iterations left. -/
def lcsOuter (text1 text2 : List Char) (n : Int) :
    Nat → Int → List (List Int) → Option (List (List Int))
  | 0, _, dp => some dp
  | c + 1, i, dp =>
      match lcsInner text1 text2 i n.toNat 1 dp with
      | none => none
      | some dp1 => lcsOuter text1 text2 n c (i + 1) dp1

/-- The body of `longestCommonSubsequence` after `int m = text1.length(), n = text2.length()`. -/
def lcsFrom (m n : Int) (text1 text2 : List Char) : Option Int :=
  match lcsOuter text1 text2 n m.toNat 1
      (List.replicate (intAdd m 1).toNat (List.replicate (intAdd n 1).toNat 0)) with
  | none => none
  | some dp => rd2 dp m n

/-- Function `DynamicProgramming::longestCommonSubsequence(text1, text2)`. -/
def longestCommonSubsequence (text1 text2 : List Char) : Option Int :=
  lcsFrom (intOfSize text1.length) (intOfSize text2.length) text1 text2

/-- The loop `for (int w = 1; w <= capacity; w++)` of `knapsack`, for the row `i`; the
first argument counts the iterations left. -/
def knapsackInner (weights values : List Int) (i : Int) :
    Nat → Int → List (List Int) → Option (List (List Int))
  | 0, _, dp => some dp
  | c + 1, w, dp =>
      match rd weights (i - 1) with
      | none => none
      | some wt =>
          if wt ≤ w then
            match rd2 dp (i - 1) w, rd2 dp (i - 1) (w - wt), rd values (i - 1) with
            | some u, some d, some v =>
                match wr2 dp i w (max u (intAdd d v)) with
                | none => none
                | some dp1 => knapsackInner weights values i c (w + 1) dp1
            | _, _, _ => none
          else
            match rd2 dp (i - 1) w with
            | none => none
            | some u =>
                match wr2 dp i w u with
                | none => none
                | some dp1 => knapsackInner weights values i c (w + 1) dp1

/-- The loop `for (int i = 1; i <= n; i++)` of `knapsack`; the first argument counts the
iterations left. -/
def knapsackOuter (weights values : List Int) (capacity : Int) :
    Nat → Int → List (List Int) → Option (List (List Int))
  | 0, _, dp => some dp
  | c + 1, i, dp =>
      match knapsackInner weights values i capacity.toNat 1 dp with
      | none => none
      | some dp1 => knapsackOuter weights values capacity c (i + 1) dp1

/-- The body of `knapsack` after `int n = weights.size()`. -/
def knapsackFrom (n capacity : Int) (weights values : List Int) : Option Int :=
  match knapsackOuter weights values capacity n.toNat 1
      (List.replicate (intAdd n 1).toNat (List.replicate (intAdd capacity 1).toNat 0)) with
  | none => none
  | some dp => rd2 dp n capacity

/-- Function `DynamicProgramming::knapsack(capacity, weights, values)`. -/
def knapsack (capacity : Int) (weights values : List Int) : Option Int :=
  knapsackFrom (intOfSize weights.length) capacity weights values

/-! ### `GraphAlgorithms` -/

/-- The difference `a - b` of two `int` values. -/
def intSub (a b : Int) : Int :=
  wrap32 (a - b)

/-- The loop `for (int neighbor : graph[i])` with the body `indegree[neighbor]++`. -/
def countNeighbors : List Int → List Int → Option (List Int)
  | [], indegree => some indegree
  | neighbor :: rest, indegree =>
      match rd indegree neighbor with
      | none => none
      | some d =>
          match wr indegree neighbor (intAdd d 1) with
          | none => none
          | some indegree1 => countNeighbors rest indegree1

/-- The first loop `for (int i = 0; i < n; i++)` of `topologicalSort`; the first argument
counts the iterations left. -/
def countLoop (graph : List (List Int)) : Nat → Int → List Int → Option (List Int)
  | 0, _, indegree => some indegree
  | c + 1, i, indegree =>
      match rd graph i with
      | none => none
      | some adj =>
          match countNeighbors adj indegree with
          | none => none
          | some indegree1 => countLoop graph c (i + 1) indegree1

/-- The second loop `for (int i = 0; i < n; i++)` of `topologicalSort`, which pushes the
nodes of in-degree zero; the queue is a list whose head is the front. -/
def seedLoop (indegree : List Int) : Nat → Int → List Int → Option (List Int)
  | 0, _, q => some q
  | c + 1, i, q =>
      match rd indegree i with
      | none => none
      | some d => seedLoop indegree c (i + 1) (if d = 0 then q ++ [i] else q)

/-- The loop `for (int neighbor : graph[node])` inside the `while` loop; the state is
`(indegree, q)`. -/
def relaxNeighbors : List Int → List Int → List Int → Option (List Int × List Int)
  | [], indegree, q => some (indegree, q)
  | neighbor :: rest, indegree, q =>
      match rd indegree neighbor with
      | none => none
      | some d =>
          match wr indegree neighbor (intSub d 1) with
          | none => none
          | some indegree1 =>
              relaxNeighbors rest indegree1 (if intSub d 1 = 0 then q ++ [neighbor] else q)

/-- The loop `while (!q.empty())` of `topologicalSort`; the state is
`(indegree, q, result)`. -/
def drainLoop (graph : List (List Int)) :
    Nat → List Int → List Int → List Int → Option (List Int)
  | 0, _, _, _ => none
  | fuel + 1, indegree, q, result =>
      match q with
      | [] => some result
      | node :: q1 =>
          match rd graph node with
          | none => none
          | some adj =>
              match relaxNeighbors adj indegree q1 with
              | none => none
              | some (indegree1, q2) => drainLoop graph fuel indegree1 q2 (result ++ [node])

/-- The body of `topologicalSort` after `int n = graph.size()`; the last comparison is
made in `size_t`. -/
def topologicalSortFrom (fuel : Nat) (n : Int) (graph : List (List Int)) :
    Option (List Int) :=
  match countLoop graph n.toNat 0 (List.replicate n.toNat 0) with
  | none => none
  | some indegree =>
      match seedLoop indegree n.toNat 0 [] with
      | none => none
      | some q =>
          match drainLoop graph fuel indegree q [] with
          | none => none
          | some result =>
              if (result.length : Int) = n % 18446744073709551616 then some result
              else some []

/-- Function `GraphAlgorithms::topologicalSort(graph)`. -/
def topologicalSort (fuel : Nat) (graph : List (List Int)) : Option (List Int) :=
  topologicalSortFrom fuel (intOfSize graph.length) graph

/-! ### Specification vocabulary -/

/-- Heap order at node `k` among the first `n` elements: no child of `k` is larger. -/
def HeapAt (arr : List Int) (n k : Nat) : Prop :=
  (2 * k + 1 < n → arr.getD (2 * k + 1) 0 ≤ arr.getD k 0) ∧
  (2 * k + 2 < n → arr.getD (2 * k + 2) 0 ≤ arr.getD k 0)

/-- The sum of the contiguous subarray of `nums` that starts at `s` and has `l` elements. -/
def subSum (nums : List Int) (s l : Nat) : Int :=
  ((nums.drop s).take l).sum

/-- The values of type `int`. -/
def InInt (x : Int) : Prop :=
  -2147483648 ≤ x ∧ x < 2147483648

/-- The number `k` is the length of a longest common subsequence of `xs` and `ys`. -/
def IsLCSLength (xs ys : List Char) (k : Nat) : Prop :=
  (∃ zs : List Char, zs.Sublist xs ∧ zs.Sublist ys ∧ zs.length = k) ∧
  ∀ zs : List Char, zs.Sublist xs → zs.Sublist ys → zs.length ≤ k

/-- The recurrence of the longest common subsequence, on lists read from their heads. -/
def lcsLen : List Char → List Char → Nat
  | [], _ => 0
  | _ :: _, [] => 0
  | x :: xs, y :: ys =>
      if x = y then lcsLen xs ys + 1 else max (lcsLen xs (y :: ys)) (lcsLen (x :: xs) ys)

/-- The entry `(a, b)` of `table` (0 outside). -/
def get2 (table : List (List Int)) (a b : Nat) : Int :=
  (table.getD a []).getD b 0

/-- The table `table` has `rows` rows of `cols` entries each. -/
def Shape (table : List (List Int)) (rows cols : Nat) : Prop :=
  table.length = rows ∧ ∀ a, a < rows → (table.getD a []).length = cols

/-- The table of the longest common subsequence recurrence: the entry for the first `a`
characters of `s` and the first `b` characters of `t`. -/
def lcsTab (s t : List Char) (a b : Nat) : Nat :=
  lcsLen (s.take a).reverse (t.take b).reverse

/-- The total weight of a selection of items `(weight, value)`. -/
def weightSum (sel : List (Int × Int)) : Int :=
  (sel.map Prod.fst).sum

/-- The total value of a selection of items `(weight, value)`. -/
def valueSum (sel : List (Int × Int)) : Int :=
  (sel.map Prod.snd).sum

/-- The number `r` is the largest total value of a selection of the items (each used at
most once) whose total weight is at most `cap`. -/
def IsKnapsackOpt (items : List (Int × Int)) (cap r : Int) : Prop :=
  (∃ sel, sel.Sublist items ∧ weightSum sel ≤ cap ∧ valueSum sel = r) ∧
  ∀ sel, sel.Sublist items → weightSum sel ≤ cap → valueSum sel ≤ r

/-- The knapsack recurrence, on the items read from the head of the list. -/
def best : List (Int × Int) → Int → Int
  | [], _ => 0
  | p :: rest, w => if p.1 ≤ w then max (best rest w) (best rest (w - p.1) + p.2) else best rest w

/-- The table of the knapsack recurrence: the entry for the first `a` items and the
capacity `w`. -/
def ksTab (weights values : List Int) (a w : Nat) : Int :=
  best ((weights.zip values).take a).reverse (w : Int)

/-- The pattern occurs in the text starting at index `s`. -/
def OccursAt (text pattern : List Char) (s : Nat) : Prop :=
  (text.drop s).take pattern.length = pattern

/-- The first `k` characters of `p` are also the last `k` of its first `q` characters. -/
def Border (p : List Char) (q k : Nat) : Prop :=
  k ≤ q ∧ ∀ t, t < k → p.getD t (Char.ofNat 0) = p.getD (q - k + t) (Char.ofNat 0)

/-- The number `k` is the length of the longest proper prefix of the first `q` characters
of `p` that is also a suffix of them. -/
def IsLongestBorder (p : List Char) (q k : Nat) : Prop :=
  k < q ∧ Border p q k ∧ ∀ k2, k2 < q → Border p q k2 → k2 ≤ k

/-- The number `r` is the smallest index at which the pattern occurs in the text, or `-1`
when the pattern does not occur in the text. -/
def IsFirstOccurrence (text pattern : List Char) (r : Int) : Prop :=
  (r = -1 ∧ ∀ s, ¬ OccursAt text pattern s) ∨
    (0 ≤ r ∧ OccursAt text pattern r.toNat ∧
      ∀ s, s < r.toNat → ¬ OccursAt text pattern s)

/-- The graph has an edge from node `u` to node `v`. -/
def HasEdge (graph : List (List Int)) (u v : Nat) : Prop :=
  (v : Int) ∈ graph.getD u []

/-- The graph has a cycle: some node reaches itself along one or more edges. -/
def HasCycle (graph : List (List Int)) : Prop :=
  ∃ v, Relation.TransGen (HasEdge graph) v v

/-- The number of edges into node `v`, counted with multiplicity. -/
def inDegree (graph : List (List Int)) (v : Int) : Nat :=
  (graph.map (fun adj => adj.count v)).sum

/-- The list holds every node of the graph exactly once and nothing else, and the source of
every edge stands before its target. -/
def IsTopologicalOrder (graph : List (List Int)) (result : List Int) : Prop :=
  result.length = graph.length ∧
    (∀ k, k < graph.length → result.count (k : Int) = 1) ∧
    ∀ u v, HasEdge graph u v →
      ∃ i j : Nat, i < j ∧ result[i]? = some (u : Int) ∧ result[j]? = some (v : Int)

/-- The number of edges into node `k` from the first `i` nodes. -/
def inDegreeUpTo (graph : List (List Int)) (i k : Nat) : Nat :=
  Finset.sum (Finset.range i) (fun u => (graph.getD u []).count (k : Int))

/-- The number of edges into node `k` from the nodes that are not in `done`. -/
def pending (graph : List (List Int)) (done : List Int) (k : Nat) : Nat :=
  Finset.sum (Finset.range graph.length)
    (fun u => if (u : Int) ∈ done then 0 else (graph.getD u []).count (k : Int))

/-! ### Sample inputs -/

/-- The sorted vector of `testSearchAlgorithms`. -/
def sampleSorted : List Int := [1, 3, 5, 7, 9, 11, 13, 15, 17, 19]

/-- The vector of `testSortingAlgorithms`. -/
def sampleUnsorted : List Int := [64, 34, 25, 12, 22, 11, 90]

/-- The vector of the maximum subarray test. -/
def sampleNums : List Int := [-2, 1, -3, 4, -1, 2, 1, -5, 4]

/-- The first string of the longest common subsequence test, "abcde". -/
def sampleText1 : List Char := ['a', 'b', 'c', 'd', 'e']

/-- The second string of the longest common subsequence test, "ace". -/
def sampleText2 : List Char := ['a', 'c', 'e']

/-- The weights of the knapsack test. -/
def sampleWeights : List Int := [1, 3, 4, 5]

/-- The values of the knapsack test. -/
def sampleValues : List Int := [1, 4, 5, 7]

/-- The text of the string matching test, "ABABDABACDABABCABCABCABCABC". -/
def sampleText : List Char :=
  ['A', 'B', 'A', 'B', 'D', 'A', 'B', 'A', 'C', 'D', 'A', 'B', 'A', 'B', 'C', 'A', 'B', 'C',
    'A', 'B', 'C', 'A', 'B', 'C', 'A', 'B', 'C']

/-- The pattern of the string matching test, "ABABCABCAB". -/
def samplePattern : List Char := ['A', 'B', 'A', 'B', 'C', 'A', 'B', 'C', 'A', 'B']

/-- The graph of the topological sort test. -/
def sampleGraph : List (List Int) := [[1, 2], [3, 4], [5], [], [5], []]

/-! ### Inputs whose size does not fit an `int` -/

/-- A vector of 2^31 + 1 elements that is not sorted: a one followed by 2^31 zeros. -/
def bigUnsorted : List Int := 1 :: List.replicate 2147483648 0

/-- A sorted vector of 2^31 + 1 zeros. -/
def bigSorted : List Int := List.replicate 2147483649 0

/-- A string of 2^31 characters `a`. -/
def bigText : List Char := List.replicate 2147483648 'a'

/-- A string of 2^32 + 1 characters `a`. -/
def bigPattern : List Char := List.replicate 4294967297 'a'

/-- A string of 2^32 characters `a`. -/
def hugeText : List Char := List.replicate 4294967296 'a'

/-- The weights of 2^32 items, all 1. -/
def hugeWeights : List Int := 1 :: List.replicate 4294967295 1

/-- The values of 2^32 items: 1 for the first item and 0 for the others. -/
def hugeValues : List Int := 1 :: List.replicate 4294967295 0

/-- A vector of 2^31 zeros followed by a five. -/
def bigNums : List Int := List.replicate 2147483648 0 ++ [5]

/-- A graph of 2^32 + 1 nodes without edges. -/
def hugeGraph : List (List Int) := List.replicate 4294967297 []

/-- A graph of two nodes with 2^32 edges from node 0 to node 1. -/
def multiGraph : List (List Int) := [List.replicate 4294967296 1, []]

/-- A vector of 2^30 elements: zeros followed by a one. -/
def deepUnsorted : List Int := List.replicate 1073741823 0 ++ [1]

/-- A string of 2^31 - 1 characters `a`. -/
def longText : List Char := List.replicate 2147483647 'a'

/-- The weights of 2^31 - 1 items, all 1. -/
def manyWeights : List Int := List.replicate 2147483647 1

/-- The values of 2^31 - 1 items, all 0. -/
def manyValues : List Int := List.replicate 2147483647 0

end AlgorithmsDemo

/-!
# A binary max-heap: `src/examples/advanced-structures-demo.cpp`

The class `MaxHeap` keeps its elements in a `std::vector<int>`.  The member functions are
translated statement by statement, with the conventions of the algorithms above: a vector
is the list of its elements, an `int` index is an integer, the conversions of
`heap.size()` and `heap.size() - 1` to `int` and the products `2 * index + 1` and
`2 * index + 2` are reduced to 32 bits, a read or a write outside the vector is undefined
behaviour, and every `while` loop takes a fuel that bounds its iterations.
-/

namespace AdvancedStructures

open AlgorithmsDemo

/-! ## Definitions -/

/-- Ways a call of `MaxHeap` can fail: the `std::runtime_error` that `pop` and `top` throw,
or undefined behaviour (also: out of fuel). -/
inductive HeapFault where
  | runtime_error
  | undefined
  deriving DecidableEq

/-- Member `heapifyUp(index)`: the `while (index > 0)` loop. -/
def heapifyUp : Nat → List Int → Int → Option (List Int)
  | 0, _, _ => none
  | fuel + 1, heap, index =>
      if index > 0 then
        match rd heap (cdiv (index - 1) 2), rd heap index with
        | some p, some x =>
            if p ≥ x then some heap
            else
              match swap heap (cdiv (index - 1) 2) index with
              | none => none
              | some heap1 => heapifyUp fuel heap1 (cdiv (index - 1) 2)
        | _, _ => none
      else some heap

/-- The `while (true)` loop of `heapifyDown(index)`, after `int size = heap.size()`. -/
def heapifyDownLoop : Nat → List Int → Int → Int → Option (List Int)
  | 0, _, _, _ => none
  | fuel + 1, heap, size, index =>
      match pickLarger heap size (wrap32 (2 * index + 1)) index with
      | none => none
      | some largest1 =>
          match pickLarger heap size (wrap32 (2 * index + 2)) largest1 with
          | none => none
          | some largest =>
              if largest = index then some heap
              else
                match swap heap index largest with
                | none => none
                | some heap1 => heapifyDownLoop fuel heap1 size largest

/-- Member `heapifyDown(index)`. -/
def heapifyDown (fuel : Nat) (heap : List Int) (index : Int) : Option (List Int) :=
  heapifyDownLoop fuel heap (intOfSize heap.length) index

/-- Lift a step that is undefined when it gives nothing. -/
def orUndefined {β : Type} : Option β → Except HeapFault β
  | some b => .ok b
  | none => .error .undefined

/-- Member `push(value)`. -/
def push (fuel : Nat) (heap : List Int) (value : Int) : Except HeapFault (List Int) :=
  orUndefined (heapifyUp fuel (heap ++ [value]) (lastIndex (heap ++ [value]).length))

/-- Member `empty()`. -/
def empty (heap : List Int) : Bool :=
  heap.isEmpty

/-- Member `pop()`: the value returned and the heap after the call. -/
def pop (fuel : Nat) (heap : List Int) : Except HeapFault (Int × List Int) :=
  if empty heap then .error .runtime_error
  else
    match rd heap 0, heap.getLast? with
    | some result, some back =>
        match wr heap 0 back with
        | none => .error .undefined
        | some heap1 =>
            if empty heap1.dropLast then .ok (result, heap1.dropLast)
            else
              match heapifyDown fuel heap1.dropLast 0 with
              | none => .error .undefined
              | some heap2 => .ok (result, heap2)
    | _, _ => .error .undefined

/-- Member `top()`. -/
def top (heap : List Int) : Except HeapFault Int :=
  if empty heap then .error .runtime_error
  else orUndefined (rd heap 0)

/-- The loop `for (int val : data) maxHeap.push(val)` of `demonstrateHeap`. -/
def push_all (fuel : Nat) (heap : List Int) : List Int → Except HeapFault (List Int)
  | [] => .ok heap
  | v :: rest =>
      match push fuel heap v with
      | .ok heap1 => push_all fuel heap1 rest
      | .error e => .error e

/-- The loop `while (!maxHeap.empty()) cout << maxHeap.pop()` of `demonstrateHeap`: the
values printed, in order.  The first argument bounds the iterations. -/
def drain (fuel : Nat) : Nat → List Int → Except HeapFault (List Int)
  | 0, _ => .error .undefined
  | n + 1, heap =>
      if empty heap then .ok []
      else
        match pop fuel heap with
        | .ok (x, heap1) =>
            match drain fuel n heap1 with
            | .ok out => .ok (x :: out)
            | .error e => .error e
        | .error e => .error e

/-! ## Specification vocabulary -/

/-- The heap order of the whole vector: no element is larger than its parent. -/
def IsHeap (heap : List Int) : Prop :=
  ∀ k, k < heap.length → HeapAt heap heap.length k

/-- The data of `demonstrateHeap`. -/
def sampleData : List Int := [4, 10, 3, 5, 1, 8, 7, 6, 2, 9]

/-- A list of 2^30 + 1 values: ones followed by a zero. -/
def deepValues : List Int := List.replicate 1073741824 1 ++ [0]

end AdvancedStructures

/-!
# A singly linked list: `src/examples/linked-list-implementation.cpp`

The class template `LinkedList<T>` keeps a pointer to the first node, a pointer to the last
node and the number of nodes.  The nodes live in a store: an address is a position in the
store, `new` takes the next unused position, and a position holds a node or nothing.

Conventions.
* `size_t` values are natural numbers and `new` always returns a node.
* Following a null or dangling pointer is undefined behaviour, modelled as `Fault.undefined`.
* The `while` loop of `reverse` takes a fuel that bounds its iterations; running out of
  fuel is `Fault.undefined` too.  The theorems show how much fuel is enough.
-/

namespace LinkedListImpl

/-! ## Definitions -/

/-- The struct `Node<T>`: the element and the pointer to the next node (`none` is null). -/
structure Node (α : Type) where
  data : α
  next : Option Nat
  deriving DecidableEq

/-- The store of nodes: one entry per address handed out by `new`. -/
abbrev Store (α : Type) := List (Option (Node α))

/-- The members of `LinkedList<T>`. -/
structure LinkedList where
  head : Option Nat
  tail : Option Nat
  size_ : Nat
  deriving DecidableEq

/-- Ways a call can fail: one of the two exceptions the class throws, or undefined
behaviour. -/
inductive Fault where
  | out_of_range
  | runtime_error
  | undefined
  deriving DecidableEq

variable {α : Type}

/-- The node a pointer refers to. -/
def readNode (mem : Store α) (p : Nat) : Except Fault (Node α) :=
  match mem[p]? with
  | some (some nd) => .ok nd
  | _ => .error .undefined

/-- The assignment `p->next = q`. -/
def writeNext (mem : Store α) (p : Nat) (q : Option Nat) : Except Fault (Store α) :=
  match readNode mem p with
  | .ok nd => .ok (mem.set p (some { nd with next := q }))
  | .error e => .error e

/-- The expression `new Node<T>(value)`: the address of the new node and the store. -/
def newNode (mem : Store α) (value : α) : Nat × Store α :=
  (mem.length, mem ++ [some { data := value, next := none }])

/-- Constructor `LinkedList()`. -/
def LinkedList.new : LinkedList :=
  { head := none, tail := none, size_ := 0 }

/-- Member `size()`. -/
def size (l : LinkedList) : Nat := l.size_

/-- Member `push_back(value)`. -/
def push_back (mem : Store α) (l : LinkedList) (value : α) :
    Except Fault (Store α × LinkedList) :=
  match newNode mem value with
  | (node, mem1) =>
      match l.tail with
      | none => .ok (mem1, { head := some node, tail := some node, size_ := l.size_ + 1 })
      | some t =>
          match writeNext mem1 t (some node) with
          | .ok mem2 => .ok (mem2, { l with tail := some node, size_ := l.size_ + 1 })
          | .error e => .error e

/-- The loop `for (size_t i = 0; i < position; ++i) current = current->next` of `at`; the
first argument counts the iterations left. -/
def advance (mem : Store α) : Nat → Option Nat → Except Fault (Option Nat)
  | 0, current => .ok current
  | n + 1, current =>
      match current with
      | none => .error .undefined
      | some c =>
          match readNode mem c with
          | .ok nd => advance mem n nd.next
          | .error e => .error e

/-- Member `at(position)`. -/
def at_ (mem : Store α) (l : LinkedList) (position : Nat) : Except Fault α :=
  if position ≥ l.size_ then .error .out_of_range
  else
    match advance mem position l.head with
    | .ok (some c) =>
        match readNode mem c with
        | .ok nd => .ok nd.data
        | .error e => .error e
    | .ok none => .error .undefined
    | .error e => .error e

/-- The loop `while (current != nullptr)` of `reverse`: the state is `(prev, current)` and
the result is the final `prev`. -/
def reverseLoop : Nat → Store α → Option Nat → Option Nat → Except Fault (Store α × Option Nat)
  | 0, _, _, _ => .error .undefined
  | fuel + 1, mem, prev, current =>
      match current with
      | none => .ok (mem, prev)
      | some c =>
          match readNode mem c with
          | .error e => .error e
          | .ok nd =>
              match writeNext mem c prev with
              | .error e => .error e
              | .ok mem1 => reverseLoop fuel mem1 (some c) nd.next

/-- Member `reverse()`. -/
def reverse (fuel : Nat) (mem : Store α) (l : LinkedList) :
    Except Fault (Store α × LinkedList) :=
  if l.size_ ≤ 1 then .ok (mem, l)
  else
    match reverseLoop fuel mem none l.head with
    | .error e => .error e
    | .ok (mem1, prev) => .ok (mem1, { l with head := prev, tail := l.head })

/-- The loop `for (x : vals) list.push_back(x)` of the test driver. -/
def push_all (mem : Store α) (l : LinkedList) : List α → Except Fault (Store α × LinkedList)
  | [] => .ok (mem, l)
  | x :: rest =>
      match push_back mem l x with
      | .ok (mem1, l1) => push_all mem1 l1 rest
      | .error e => .error e

/-! ## Specification vocabulary -/

/-- From the pointer `p` the `next` pointers lead through the nodes at the addresses `as`,
which hold the elements `xs`, and end in null. -/
def Chain (mem : Store α) : Option Nat → List Nat → List α → Prop
  | p, [], [] => p = none
  | p, a :: as, x :: xs =>
      p = some a ∧ ∃ nxt, readNode mem a = .ok { data := x, next := nxt } ∧ Chain mem nxt as xs
  | _, _, _ => False

/-- The list object `l` over the store `mem` holds the elements `xs`, in order, in nodes at
the addresses `as`: `head` starts the chain, `tail` is its last node, `size_` is its length and no node
occurs twice. -/
def Repr (mem : Store α) (l : LinkedList) (as : List Nat) (xs : List α) : Prop :=
  Chain mem l.head as xs ∧ as.Nodup ∧ l.tail = as.getLast? ∧ l.size_ = xs.length

/-- The store after `push_back(1)`, `push_back(2)`, `push_back(3)` on an empty list. -/
def sampleStore : Store Nat :=
  [some { data := 1, next := some 1 }, some { data := 2, next := some 2 },
   some { data := 3, next := none }]

/-- The list object after `push_back(1)`, `push_back(2)`, `push_back(3)` on an empty list. -/
def sampleList : LinkedList :=
  { head := some 0, tail := some 2, size_ := 3 }

end LinkedListImpl

namespace VecImpl

variable {α σ : Type}

/-! ## Slots and loops -/

theorem ok_bind {ε β γ : Type} (a : β) (f : β → Except ε γ) :
    (Except.ok a >>= f) = f a := rfl

theorem Holds.congr {m : Slots α} {cap : Nat} {g g2 : Nat → Option α}
    (hm : Holds m cap g) (hg : ∀ j, j < cap → g j = g2 j) : Holds m cap g2 :=
  ⟨hm.1, fun j hj => by rw [hm.2 j hj, hg j hj]⟩

theorem Holds.unique {m m2 : Slots α} {cap : Nat} {g : Nat → Option α}
    (hm : Holds m cap g) (hm2 : Holds m2 cap g) : m = m2 := by
  apply List.ext_getElem?
  intro j
  by_cases hj : j < cap
  · rw [hm.2 j hj, hm2.2 j hj]
  · rw [List.getElem?_eq_none (by rw [hm.1]; omega), List.getElem?_eq_none (by rw [hm2.1]; omega)]

theorem Holds.replicate (cap : Nat) :
    Holds (List.replicate cap (none : Option α)) cap (fun _ => none) := by
  refine ⟨by simp, fun j hj => ?_⟩
  simp [List.getElem?_replicate, hj]

theorem Holds.set {m : Slots α} {cap : Nat} {g : Nat → Option α} (hm : Holds m cap g)
    (i : Nat) (o : Option α) : Holds (m.set i o) cap (Function.update g i o) := by
  refine ⟨by simp [hm.1], fun j hj => ?_⟩
  by_cases hji : i = j
  · subst hji
    simp [List.getElem?_set, hm.1, hj]
  · have hne : j ≠ i := fun h => hji h.symm
    simp [List.getElem?_set, hji, hne, hm.2 j hj]

theorem Holds.construct_ok {m : Slots α} {cap : Nat} {g : Nat → Option α} (hm : Holds m cap g)
    {i : Nat} (hi : i < cap) (hg : g i = none) (x : α) :
    ∃ m2, construct m i x = .ok m2 ∧ Holds m2 cap (Function.update g i (some x)) := by
  refine ⟨m.set i (some x), ?_, hm.set i _⟩
  simp [construct, hm.2 i hi, hg]

theorem Holds.destroy_ok {m : Slots α} {cap : Nat} {g : Nat → Option α} (hm : Holds m cap g)
    {i : Nat} (hi : i < cap) {y : α} (hg : g i = some y) :
    ∃ m2, destroy m i = .ok m2 ∧ Holds m2 cap (Function.update g i none) := by
  refine ⟨m.set i none, ?_, hm.set i _⟩
  simp [destroy, hm.2 i hi, hg]

theorem Holds.load_ok {m : Slots α} {cap : Nat} {g : Nat → Option α} (hm : Holds m cap g)
    {i : Nat} (hi : i < cap) {y : α} (hg : g i = some y) : load m i = .ok y := by
  simp [load, hm.2 i hi, hg]

/-- Invariant rule for the ascending loop. -/
theorem forUp_inv (body : Nat → σ → Except (Err α) σ) (Inv : Nat → σ → Prop) :
    ∀ (n i : Nat) (s : σ), Inv i s →
      (∀ j t, i ≤ j → j < i + n → Inv j t → ∃ t2, body j t = .ok t2 ∧ Inv (j + 1) t2) →
      ∃ s2, forUp body n i s = .ok s2 ∧ Inv (i + n) s2 := by
  intro n
  induction n with
  | zero => intro i s h0 _; exact ⟨s, rfl, h0⟩
  | succ n ih =>
    intro i s h0 hstep
    obtain ⟨t2, hb, hinv⟩ := hstep i s (Nat.le_refl i) (by omega) h0
    obtain ⟨s2, hs2, hfin⟩ := ih (i + 1) t2 hinv
      (fun j t hj1 hj2 hj => hstep j t (by omega) (by omega) hj)
    refine ⟨s2, ?_, by rw [show i + (n + 1) = i + 1 + n by omega]; exact hfin⟩
    simp [forUp, hb, hs2, bind, Except.bind]

/-- Invariant rule for the descending loop with a strict bound. -/
theorem forDown_inv (body : Nat → σ → Except (Err α) σ) (lo : Nat) (Inv : Nat → σ → Prop) :
    ∀ (hi : Nat) (s : σ), lo ≤ hi → Inv hi s →
      (∀ j t, lo < j → j ≤ hi → Inv j t → ∃ t2, body j t = .ok t2 ∧ Inv (j - 1) t2) →
      ∃ s2, forDown body lo hi s = .ok s2 ∧ Inv lo s2 := by
  intro hi
  induction hi with
  | zero =>
    intro s hlo h0 _
    have : lo = 0 := by omega
    subst this
    exact ⟨s, rfl, h0⟩
  | succ i ih =>
    intro s hlo h0 hstep
    by_cases hc : i + 1 > lo
    · obtain ⟨t2, hb, hinv⟩ := hstep (i + 1) s hc (Nat.le_refl _) h0
      obtain ⟨s2, hs2, hfin⟩ := ih t2 (by omega) (by simpa using hinv)
        (fun j t hj1 hj2 hj => hstep j t hj1 (by omega) hj)
      refine ⟨s2, ?_, hfin⟩
      simp [forDown, hc, hb, hs2, bind, Except.bind]
    · have : lo = i + 1 := by omega
      subst this
      refine ⟨s, ?_, h0⟩
      simp [forDown]

/-- Invariant rule for the descending loop with a non-strict, positive bound; the
invariant is indexed by one more than the loop variable. -/
theorem forDownGe_inv (body : Nat → σ → Except (Err α) σ) (lo : Nat) (hlo : 0 < lo)
    (Inv : Nat → σ → Prop) :
    ∀ (i : Nat) (s : σ), lo ≤ i + 1 → Inv (i + 1) s →
      (∀ j t, lo ≤ j → j ≤ i → Inv (j + 1) t → ∃ t2, body j t = .ok t2 ∧ Inv j t2) →
      ∃ s2, forDownGe body lo i s = .ok s2 ∧ Inv lo s2 := by
  intro i
  induction i with
  | zero =>
    intro s h1 h0 _
    have : lo = 1 := by omega
    subst this
    refine ⟨s, ?_, h0⟩
    simp [forDownGe]
  | succ i ih =>
    intro s h1 h0 hstep
    by_cases hc : i + 1 ≥ lo
    · obtain ⟨t2, hb, hinv⟩ := hstep (i + 1) s hc (Nat.le_refl _) h0
      obtain ⟨s2, hs2, hfin⟩ := ih t2 (by omega) hinv
        (fun j t hj1 hj2 hj => hstep j t hj1 (by omega) hj)
      refine ⟨s2, ?_, hfin⟩
      simp [forDownGe, hc, hb, hs2, bind, Except.bind]
    · have : lo = i + 1 + 1 := by omega
      subst this
      refine ⟨s, ?_, h0⟩
      simp [forDownGe]

theorem destroy_loop {m : Slots α} {cap : Nat} {g : Nat → Option α} (hm : Holds m cap g)
    (lo n : Nat) (hb : lo + n ≤ cap) (hlive : ∀ j, lo ≤ j → j < lo + n → ∃ y, g j = some y) :
    ∃ m2, forUp (fun i m => destroy m i) n lo m = .ok m2 ∧
      Holds m2 cap (fun j => if lo ≤ j ∧ j < lo + n then none else g j) := by
  apply forUp_inv (fun i m => destroy m i)
    (fun i m => Holds m cap (fun j => if lo ≤ j ∧ j < i then none else g j)) n lo m
  · exact hm.congr (fun j _ => (if_neg (by omega)).symm)
  · intro j t hj1 hj2 ht
    obtain ⟨y, hy⟩ := hlive j hj1 hj2
    obtain ⟨m2, h1, h2⟩ := ht.destroy_ok (i := j) (y := y) (by omega) (by simp [hy])
    refine ⟨m2, h1, h2.congr (fun k _ => ?_)⟩
    by_cases hk : k = j
    · subst hk; simp [hj1]
    · simp [Function.update, hk]
      by_cases hk2 : lo ≤ k ∧ k < j
      · rw [if_pos hk2, if_pos ⟨hk2.1, by omega⟩]
      · rw [if_neg hk2, if_neg (by omega)]

theorem fill_loop_off {m : Slots α} {cap : Nat} {g : Nat → Option α} (hm : Holds m cap g)
    (off n : Nat) (hb : off + n ≤ cap) (hfree : ∀ j, off ≤ j → j < off + n → g j = none)
    (x : α) :
    ∃ m2, forUp (fun i m => construct m (off + i) x) n 0 m = .ok m2 ∧
      Holds m2 cap (fun j => if off ≤ j ∧ j < off + n then some x else g j) := by
  have key := forUp_inv (fun i m => construct m (off + i) x)
    (fun i m => Holds m cap (fun j => if off ≤ j ∧ j < off + i then some x else g j)) n 0 m
    (hm.congr (fun j _ => (if_neg (by omega)).symm))
    (by
      intro j t _ hj2 ht
      obtain ⟨m2, h1, h2⟩ := ht.construct_ok (i := off + j) (by omega)
        (by simp; exact hfree _ (by omega) (by omega)) x
      refine ⟨m2, h1, h2.congr (fun k _ => ?_)⟩
      by_cases hk : k = off + j
      · subst hk; simp
      · simp [Function.update, hk]
        by_cases hk2 : off ≤ k ∧ k < off + j
        · rw [if_pos hk2, if_pos ⟨hk2.1, by omega⟩]
        · rw [if_neg hk2, if_neg (by omega)])
  simpa using key

theorem fill_loop {m : Slots α} {cap : Nat} {g : Nat → Option α} (hm : Holds m cap g)
    (lo n : Nat) (hb : lo + n ≤ cap) (hfree : ∀ j, lo ≤ j → j < lo + n → g j = none)
    (x : α) :
    ∃ m2, forUp (fun i m => construct m i x) n lo m = .ok m2 ∧
      Holds m2 cap (fun j => if lo ≤ j ∧ j < lo + n then some x else g j) := by
  apply forUp_inv (fun i m => construct m i x)
    (fun i m => Holds m cap (fun j => if lo ≤ j ∧ j < i then some x else g j)) n lo m
  · exact hm.congr (fun j _ => (if_neg (by omega)).symm)
  · intro j t hj1 hj2 ht
    obtain ⟨m2, h1, h2⟩ := ht.construct_ok (i := j) (by omega)
      (by simp; exact hfree _ hj1 hj2) x
    refine ⟨m2, h1, h2.congr (fun k _ => ?_)⟩
    by_cases hk : k = j
    · subst hk; simp [hj1]
    · simp [Function.update, hk]
      by_cases hk2 : lo ≤ k ∧ k < j
      · rw [if_pos hk2, if_pos ⟨hk2.1, by omega⟩]
      · rw [if_neg hk2, if_neg (by omega)]

theorem constructFrom_ok {cap : Nat} (src : List α) :
    ∀ (i : Nat) (m : Slots α) (g : Nat → Option α), Holds m cap g → i + src.length ≤ cap →
      (∀ j, i ≤ j → j < i + src.length → g j = none) →
      ∃ m2, constructFrom src i m = .ok m2 ∧
        Holds m2 cap (fun j => if i ≤ j ∧ j < i + src.length then src[j - i]? else g j) := by
  induction src with
  | nil =>
    intro i m g hm _ _
    exact ⟨m, rfl, hm.congr (fun j _ => (if_neg (by simp)).symm)⟩
  | cons x rest ih =>
    intro i m g hm hb hfree
    simp only [List.length_cons] at hb hfree
    obtain ⟨m1, h1, h2⟩ := hm.construct_ok (i := i) (by omega) (hfree i (Nat.le_refl i) (by omega)) x
    obtain ⟨m2, h3, h4⟩ := ih (i + 1) m1 _ h2 (by omega) (by
      intro j hj1 hj2
      have : j ≠ i := by omega
      simp [Function.update, this]
      exact hfree j (by omega) (by omega))
    refine ⟨m2, by simp [constructFrom, h1, h3, bind, Except.bind], h4.congr (fun k _ => ?_)⟩
    simp only [List.length_cons]
    by_cases hk : k = i
    · subst hk
      simp
    · by_cases hk2 : i + 1 ≤ k ∧ k < i + 1 + rest.length
      · rw [if_pos hk2, if_pos ⟨by omega, by omega⟩]
        obtain ⟨d, rfl⟩ : ∃ d, k = i + 1 + d := ⟨k - (i + 1), by omega⟩
        rw [show i + 1 + d - (i + 1) = d by omega, show i + 1 + d - i = d + 1 by omega]
        simp
      · rw [if_neg hk2, if_neg (by omega)]
        simp [Function.update, hk]

theorem migrate_loop {old : Slots α} {capo : Nat} {xs : List α}
    (ho : Holds old capo (fun j => xs[j]?)) (hx : xs.length ≤ capo)
    {m : Slots α} {cap : Nat} (hm : Holds m cap (fun _ => none))
    (n : Nat) (hn : n ≤ xs.length) (hn2 : n ≤ cap) :
    ∃ m2, forUp (fun i m => do
        let x ← load old i
        construct m i x) n 0 m = .ok m2 ∧
      Holds m2 cap (fun j => if j < n then xs[j]? else none) := by
  have key := forUp_inv (fun i m => do
        let x ← load old i
        construct m i x)
    (fun i m => Holds m cap (fun j => if j < i then xs[j]? else none)) n 0 m
    (hm.congr (fun j _ => by simp))
    (by
      intro j t _ hj2 ht
      have hjx : j < xs.length := by omega
      have hl : load old j = (.ok xs[j] : Except (Err α) α) :=
        ho.load_ok (i := j) (by omega) (by simp [List.getElem?_eq_getElem hjx])
      obtain ⟨m2, h1, h2⟩ := ht.construct_ok (i := j) (by omega) (by simp) xs[j]
      refine ⟨m2, by simp [hl, h1, bind, Except.bind], h2.congr (fun k _ => ?_)⟩
      by_cases hk : k = j
      · subst hk; simp [List.getElem?_eq_getElem hjx]
      · simp [Function.update, hk]
        by_cases hk2 : k < j
        · rw [if_pos hk2, if_pos (by omega)]
        · rw [if_neg hk2, if_neg (by omega)])
  simpa using key

theorem shift_right_one {m : Slots α} {cap : Nat} {xs : List α}
    (hm : Holds m cap (fun j => xs[j]?)) (hlen : xs.length < cap)
    (index : Nat) (hidx : index ≤ xs.length) :
    ∃ m2, forDown (fun i m => do
        let x ← load m (i - 1)
        let m1 ← construct m i x
        destroy m1 (i - 1)) index xs.length m = .ok m2 ∧
      Holds m2 cap (fun j => if j < index then xs[j]? else if j = index then none
        else xs[j - 1]?) := by
  apply forDown_inv _ index
    (fun i m => Holds m cap (fun j => if j < i then xs[j]? else if j = i then none
        else xs[j - 1]?)) xs.length m hidx
  · refine hm.congr (fun j _ => ?_)
    beta_reduce
    split_ifs <;> first
      | rfl
      | exact List.getElem?_eq_none (by omega)
      | (rw [List.getElem?_eq_none (by omega), List.getElem?_eq_none (by omega)])
  · intro j t hj1 hj2 ht
    obtain ⟨y, hy⟩ : ∃ y, xs[j - 1]? = some y :=
      ⟨xs[j - 1], List.getElem?_eq_getElem (by omega)⟩
    have hl : load t (j - 1) = (.ok y : Except (Err α) α) :=
      ht.load_ok (i := j - 1) (by omega)
        (by split_ifs <;> first | exact hy | (exfalso; omega))
    obtain ⟨m1, h1, h2⟩ := ht.construct_ok (i := j) (by omega)
      (by split_ifs <;> first | rfl | (exfalso; omega)) y
    obtain ⟨m2, h3, h4⟩ := h2.destroy_ok (i := j - 1) (y := y) (by omega)
      (by simp only [Function.update_apply]
          split_ifs <;> first | exact hy | (exfalso; omega))
    refine ⟨m2, by simp [hl, h1, h3, bind, Except.bind], h4.congr (fun k _ => ?_)⟩
    simp only [Function.update_apply]
    split_ifs <;> first
      | rfl
      | (exfalso; omega)
      | (rw [← hy]; congr 1; omega)

theorem shift_right_many {m : Slots α} {cap : Nat} {xs : List α}
    (hm : Holds m cap (fun j => xs[j]?)) (count : Nat) (hc : 0 < count)
    (hlen : xs.length + count ≤ cap) (index : Nat) (hidx : index ≤ xs.length) :
    ∃ m2, forDownGe (fun i m => do
        let x ← load m (i - count)
        let m1 ← construct m i x
        destroy m1 (i - count)) (index + count) (xs.length + count - 1) m = .ok m2 ∧
      Holds m2 cap (fun j => if j < index then xs[j]? else if j < index + count then none
        else xs[j - count]?) := by
  have key := forDownGe_inv (fun i m => do
        let x ← load m (i - count)
        let m1 ← construct m i x
        destroy m1 (i - count)) (index + count) (by omega)
    (fun t m => Holds m cap (fun j => if j + count < t then xs[j]? else if j < t then none
        else xs[j - count]?)) (xs.length + count - 1) m (by omega)
    (by
      refine hm.congr (fun j _ => ?_)
      beta_reduce
      rw [show xs.length + count - 1 + 1 = xs.length + count by omega]
      split_ifs <;> first
        | rfl
        | exact List.getElem?_eq_none (by omega)
        | (rw [List.getElem?_eq_none (by omega), List.getElem?_eq_none (by omega)]))
    (by
      intro j t hj1 hj2 ht
      obtain ⟨y, hy⟩ : ∃ y, xs[j - count]? = some y :=
        ⟨xs[j - count], List.getElem?_eq_getElem (by omega)⟩
      have hl : load t (j - count) = (.ok y : Except (Err α) α) :=
        ht.load_ok (i := j - count) (by omega)
          (by split_ifs <;> first | exact hy | (exfalso; omega))
      obtain ⟨m1, h1, h2⟩ := ht.construct_ok (i := j) (by omega)
        (by split_ifs <;> first | rfl | (exfalso; omega)) y
      obtain ⟨m2, h3, h4⟩ := h2.destroy_ok (i := j - count) (y := y) (by omega)
        (by simp only [Function.update_apply]
            split_ifs <;> first | exact hy | (exfalso; omega))
      refine ⟨m2, by simp [hl, h1, h3, bind, Except.bind], h4.congr (fun k _ => ?_)⟩
      simp only [Function.update_apply]
      split_ifs <;> first
        | rfl
        | (exfalso; omega)
        | (rw [← hy]; congr 1; omega))
  obtain ⟨m2, h1, h2⟩ := key
  refine ⟨m2, h1, h2.congr (fun k _ => ?_)⟩
  beta_reduce
  split_ifs <;> first | rfl | (exfalso; omega)

theorem shift_left {m : Slots α} {cap : Nat} {xs : List α} (start count : Nat)
    (hc : 0 < count)
    (hm : Holds m cap (fun j => if start ≤ j ∧ j < start + count then none else xs[j]?))
    (hlen : xs.length ≤ cap) (hend : start + count ≤ xs.length) :
    ∃ m2, forUp (fun i m => do
        let x ← load m i
        let m1 ← construct m (i - count) x
        destroy m1 i) (xs.length - (start + count)) (start + count) m = .ok m2 ∧
      Holds m2 cap (fun j => if j < start then xs[j]? else xs[j + count]?) := by
  have key := forUp_inv (fun i m => do
        let x ← load m i
        let m1 ← construct m (i - count) x
        destroy m1 i)
    (fun i m => Holds m cap (fun j => if j < start then xs[j]? else
        if j + count < i then xs[j + count]? else if j < i then none else xs[j]?))
    (xs.length - (start + count)) (start + count) m
    (by
      refine hm.congr (fun k _ => ?_)
      beta_reduce
      split_ifs <;> first | rfl | (exfalso; omega))
    (by
      intro j t hj1 hj2 ht
      obtain ⟨y, hy⟩ : ∃ y, xs[j]? = some y := ⟨xs[j], List.getElem?_eq_getElem (by omega)⟩
      have hl : load t j = (.ok y : Except (Err α) α) :=
        ht.load_ok (i := j) (by omega)
          (by split_ifs <;> first | exact hy | (exfalso; omega))
      obtain ⟨m1, h1, h2⟩ := ht.construct_ok (i := j - count) (by omega)
        (by split_ifs <;> first | rfl | (exfalso; omega)) y
      obtain ⟨m2, h3, h4⟩ := h2.destroy_ok (i := j) (y := y) (by omega)
        (by simp only [Function.update_apply]
            split_ifs <;> first | exact hy | (exfalso; omega))
      refine ⟨m2, by simp [hl, h1, h3, bind, Except.bind], h4.congr (fun k _ => ?_)⟩
      simp only [Function.update_apply]
      split_ifs <;> first
        | rfl
        | (exfalso; omega)
        | (rw [← hy]; congr 1; omega))
  obtain ⟨m2, h1, h2⟩ := key
  refine ⟨m2, h1, h2.congr (fun k _ => ?_)⟩
  beta_reduce
  rw [show start + count + (xs.length - (start + count)) = xs.length by omega]
  split_ifs <;> first
    | rfl
    | exact List.getElem?_eq_none (by omega)
    | (symm; exact List.getElem?_eq_none (by omega))
    | (rw [List.getElem?_eq_none (by omega), List.getElem?_eq_none (by omega)])

/-! ## The invariant and the element sequence -/

theorem reduceOption_map_some (xs : List α) : (xs.map some).reduceOption = xs := by
  induction xs with
  | nil => rfl
  | cons x rest ih => simp [List.reduceOption_cons_of_some, ih]

theorem map_some_reduceOption (l : List (Option α)) (hl : ∀ o, o ∈ l → ∃ x, o = some x) :
    l.reduceOption.map some = l := by
  induction l with
  | nil => rfl
  | cons o rest ih =>
    obtain ⟨x, rfl⟩ := hl o (List.mem_cons_self _ _)
    rw [List.reduceOption_cons_of_some, List.map_cons,
      ih (fun o ho => hl o (List.mem_cons_of_mem _ ho))]

theorem Models.slot {v : Vector α} {xs : List α} (hv : Models v xs) (j : Nat)
    (hj : j < v.capacity_) : v.slots[j]? = some (xs[j]?) :=
  hv.2.2.1.2 j hj

theorem Models.take_slots {v : Vector α} {xs : List α} (hv : Models v xs) :
    v.slots.take v.size_ = xs.map some := by
  have hs := hv.slot
  obtain ⟨h1, h2, h3, _⟩ := hv
  apply List.ext_getElem?
  intro j
  by_cases hj : j < v.size_
  · rw [List.getElem?_take_of_lt hj, hs j (by omega), List.getElem?_map,
      List.getElem?_eq_getElem (by omega)]
    rfl
  · rw [List.getElem?_eq_none (by simp; omega), List.getElem?_eq_none (by simp; omega)]

theorem Models.toList_eq {v : Vector α} {xs : List α} (hv : Models v xs) : v.toList = xs := by
  rw [Vector.toList, hv.take_slots, reduceOption_map_some]

theorem Models.wf {v : Vector α} {xs : List α} (hv : Models v xs) : v.WF := by
  have hs := hv.slot
  obtain ⟨h1, h2, h3, h4⟩ := hv
  refine ⟨h2, h3.1, fun i hi => ⟨xs[i], ?_⟩, fun i hi1 hi2 => ?_, h4⟩
  · rw [hs i (by omega), List.getElem?_eq_getElem (by omega)]
  · rw [hs i hi2, List.getElem?_eq_none (by omega)]

theorem Vector.WF.models {v : Vector α} (hv : v.WF) : Models v v.toList := by
  obtain ⟨h1, h2, h3, h4, h5⟩ := hv
  have hall : ∀ o, o ∈ v.slots.take v.size_ → ∃ x, o = some x := by
    intro o ho
    obtain ⟨i, hi, rfl⟩ := List.getElem_of_mem ho
    have hi2 : i < v.size_ := by simp at hi; omega
    obtain ⟨x, hx⟩ := h3 i hi2
    refine ⟨x, ?_⟩
    have : (v.slots.take v.size_)[i]? = some (some x) := by
      rw [List.getElem?_take_of_lt hi2, hx]
    rw [List.getElem?_eq_getElem hi] at this
    exact Option.some.inj this
  have hmap := map_some_reduceOption _ hall
  have hlen : v.toList.length = v.size_ := by
    have := congrArg List.length hmap
    simp at this
    rw [Vector.toList, this]
    omega
  refine ⟨hlen, h1, ⟨h2, fun j hj => ?_⟩, h5⟩
  beta_reduce
  by_cases hj2 : j < v.size_
  · have : (v.slots.take v.size_)[j]? = v.slots[j]? := List.getElem?_take_of_lt hj2
    rw [← this, ← hmap, List.getElem?_map]
    change _ = some (v.toList[j]?)
    rw [Vector.toList, List.getElem?_eq_getElem (by rw [← Vector.toList, hlen]; exact hj2)]
    rfl
  · rw [h4 j (by omega) hj, List.getElem?_eq_none (by omega)]

theorem models_new : Models (Vector.new : Vector α) [] :=
  ⟨rfl, Nat.le_refl _, ⟨rfl, fun j hj => absurd hj (Nat.not_lt_zero j)⟩, fun _ => rfl⟩

/-! ## Operation by operation -/

theorem deallocate_ok (h : Heap) {v : Vector α} {xs : List α} (hv : Models v xs) :
    ∃ v1 h1, deallocate h v = .ok (v1, h1) ∧ h1.news = h.news := by
  obtain ⟨h1, h2, h3, _⟩ := hv
  unfold deallocate
  cases hd : v.data_ with
  | none => exact ⟨v, h, rfl, rfl⟩
  | some a =>
    obtain ⟨m2, hm2, _⟩ := destroy_loop h3 0 v.size_ (by omega) (fun j _ hj =>
      ⟨xs[j], List.getElem?_eq_getElem (by omega)⟩)
    exact ⟨{ v with data_ := none, slots := [] }, operator_delete h,
      by simp only [hm2, ok_bind], rfl⟩

theorem deallocate_news (h : Heap) (v v1 : Vector α) (h1 : Heap)
    (hd : deallocate h v = .ok (v1, h1)) : h1.news = h.news := by
  unfold deallocate at hd
  split at hd
  · cases hd
    rfl
  · cases hf : forUp (fun i m => destroy m i) v.size_ 0 v.slots with
    | error e =>
      rw [hf] at hd
      cases hd
    | ok m =>
      rw [hf] at hd
      cases hd
      rfl

/-- Every completed `reallocate` has called `operator new` exactly once. -/
theorem reallocate_news (h : Heap) (v v2 : Vector α) (n : Nat) (h2 : Heap)
    (hr : reallocate h v n = .ok (v2, h2)) : h2.news = h.news + 1 := by
  simp only [reallocate, operator_new] at hr
  cases hf : forUp (fun i m => do
      let x ← load v.slots i
      construct m i x) (min v.size_ n) 0 (List.replicate n none) with
  | error e =>
    rw [hf] at hr
    cases hr
  | ok m =>
    rw [hf, ok_bind] at hr
    cases hd : deallocate { news := h.news + 1, deletes := h.deletes } v with
    | error e =>
      rw [hd] at hr
      cases hr
    | ok r =>
      obtain ⟨v1, h1⟩ := r
      rw [hd, ok_bind] at hr
      cases hr
      exact deallocate_news _ v v1 _ hd

theorem reallocate_spec (h : Heap) {v : Vector α} {xs : List α} (hv : Models v xs)
    (n : Nat) (hn : v.size_ ≤ n) :
    ∃ v2 h2, reallocate h v n = .ok (v2, h2) ∧ Models v2 xs ∧ v2.capacity_ = n ∧
      v2.size_ = v.size_ ∧ v2.data_ = some h.news ∧ h2.news = h.news + 1 := by
  obtain ⟨v1, h1, hd, hnews⟩ := deallocate_ok (operator_new (α := α) h n).2.2 hv
  obtain ⟨hx, hle, hs, _⟩ := hv
  obtain ⟨m2, hm2, hm3⟩ := migrate_loop hs (by omega) (Holds.replicate n) v.size_
    (by omega) hn
  refine ⟨{ data_ := some h.news, slots := m2, size_ := v.size_, capacity_ := n }, h1, ?_,
    ⟨?_, ?_, ?_, ?_⟩, rfl, rfl, rfl, ?_⟩
  · simp only [operator_new] at hd
    simp only [reallocate, operator_new, Nat.min_eq_left hn, hm2, hd, ok_bind]
  · exact hx
  · exact hn
  · exact hm3.congr (fun j _ => by
      split_ifs <;> first | rfl | (symm; exact List.getElem?_eq_none (by omega)))
  · intro hnone
    exact absurd hnone (by simp)
  · rw [hnews]; rfl

theorem clear_spec {v : Vector α} {xs : List α} (hv : Models v xs) :
    ∃ v2, clear v = .ok v2 ∧ Models v2 [] ∧ v2.capacity_ = v.capacity_ ∧
      v2.data_ = v.data_ ∧ v2.size_ = 0 := by
  obtain ⟨hx, hle, hs, hd⟩ := hv
  obtain ⟨m2, hm2, hm3⟩ := destroy_loop hs 0 v.size_ (by omega) (fun j _ hj =>
      ⟨xs[j], List.getElem?_eq_getElem (by omega)⟩)
  refine ⟨{ v with slots := m2, size_ := 0 }, by simp only [clear, hm2, ok_bind],
    ⟨rfl, Nat.zero_le _, ?_, hd⟩, rfl, rfl, rfl⟩
  exact hm3.congr (fun j _ => by
    split_ifs <;> first | rfl | (rw [List.getElem?_eq_none (by omega)]; rfl))

/-! ## Index-wise description of the list operations used in the statements -/

theorem getElem?_insert_list (xs src : List α) (k : Nat) (hk : k ≤ xs.length) (j : Nat) :
    (xs.take k ++ src ++ xs.drop k)[j]? =
      if j < k then xs[j]? else if j < k + src.length then src[j - k]?
      else xs[j - src.length]? := by
  have hlen : (xs.take k).length = k := by simp [hk]
  rw [List.append_assoc, List.getElem?_append, hlen]
  by_cases h1 : j < k
  · rw [if_pos h1, if_pos h1, List.getElem?_take_of_lt h1]
  · rw [if_neg h1, if_neg h1, List.getElem?_append]
    by_cases h2 : j < k + src.length
    · rw [if_pos (by omega), if_pos h2]
    · rw [if_neg (by omega), if_neg h2, List.getElem?_drop]
      congr 1
      omega

theorem getElem?_insert_one (xs : List α) (x : α) (k : Nat) (hk : k ≤ xs.length) (j : Nat) :
    (xs.take k ++ x :: xs.drop k)[j]? =
      if j < k then xs[j]? else if j = k then some x else xs[j - 1]? := by
  have h := getElem?_insert_list xs [x] k hk j
  rw [List.append_assoc, List.singleton_append] at h
  rw [h]
  by_cases h1 : j < k
  · rw [if_pos h1, if_pos h1]
  · rw [if_neg h1, if_neg h1]
    by_cases h2 : j = k
    · subst h2
      simp
    · rw [if_neg h2, if_neg (by simp; omega)]
      rfl

theorem getElem?_insert_many (xs : List α) (x : α) (c k : Nat) (hk : k ≤ xs.length)
    (j : Nat) :
    (xs.take k ++ List.replicate c x ++ xs.drop k)[j]? =
      if j < k then xs[j]? else if j < k + c then some x else xs[j - c]? := by
  rw [getElem?_insert_list xs _ k hk j, List.length_replicate]
  by_cases h1 : j < k
  · rw [if_pos h1, if_pos h1]
  · rw [if_neg h1, if_neg h1]
    by_cases h2 : j < k + c
    · rw [if_pos h2, if_pos h2, List.getElem?_replicate, if_pos (by omega)]
    · rw [if_neg h2, if_neg h2]

theorem getElem?_erase_range (xs : List α) (i c : Nat) (hj : i + c ≤ xs.length) (n : Nat) :
    (xs.take i ++ xs.drop (i + c))[n]? = if n < i then xs[n]? else xs[n + c]? := by
  have hlen : (xs.take i).length = i := by simp; omega
  rw [List.getElem?_append, hlen]
  by_cases h1 : n < i
  · rw [if_pos h1, if_pos h1, List.getElem?_take_of_lt h1]
  · rw [if_neg h1, if_neg h1, List.getElem?_drop]
    congr 1
    omega

theorem getElem?_resize (xs : List α) (x : α) (n j : Nat) :
    (xs.take n ++ List.replicate (n - xs.length) x)[j]? =
      if j < n then (if j < xs.length then xs[j]? else some x) else none := by
  rw [List.getElem?_append, List.length_take]
  by_cases h1 : j < n
  · rw [if_pos h1]
    by_cases h2 : j < xs.length
    · rw [if_pos h2, if_pos (by omega), List.getElem?_take_of_lt h1]
    · rw [if_neg h2, if_neg (by omega), List.getElem?_replicate, if_pos (by omega)]
  · rw [if_neg h1, if_neg (by omega), List.getElem?_replicate, if_neg (by omega)]

theorem getElem?_dropLast_eq (xs : List α) (j : Nat) :
    xs.dropLast[j]? = if j < xs.length - 1 then xs[j]? else none := by
  rw [List.dropLast_eq_take]
  by_cases h : j < xs.length - 1
  · rw [if_pos h, List.getElem?_take_of_lt h]
  · rw [if_neg h, List.getElem?_eq_none (by simp; omega)]

/-- The growth step shared by `push_back`, `emplace_back`, `insert` and `emplace`. -/
theorem grow_spec (h : Heap) {v : Vector α} {xs : List α} (hv : Models v xs) :
    ∃ v1 h1, (if v.size_ = v.capacity_ then
        reallocate h v (if v.capacity_ = 0 then 1 else v.capacity_ * 2)
      else (.ok (v, h) : Except (Err α) (Vector α × Heap))) = .ok (v1, h1) ∧
      Models v1 xs ∧ v1.size_ < v1.capacity_ ∧ v1.size_ = v.size_ ∧
      v1.capacity_ = (if v.size_ = v.capacity_ then max 1 (2 * v.capacity_)
        else v.capacity_) ∧
      (v.size_ < v.capacity_ → v1 = v ∧ h1 = h) ∧
      (v.size_ = v.capacity_ → v1.data_ = some h.news ∧ h1.news = h.news + 1) := by
  by_cases hfull : v.size_ = v.capacity_
  · obtain ⟨v1, h1, hr, hm, hc, hsz, hdat, hnews⟩ := reallocate_spec h hv
      (if v.capacity_ = 0 then 1 else v.capacity_ * 2) (by split_ifs <;> omega)
    refine ⟨v1, h1, by rw [if_pos hfull, hr], hm, ?_, hsz, ?_, fun hlt => by omega,
      fun _ => ⟨hdat, hnews⟩⟩
    · rw [hc, hsz]; split_ifs <;> omega
    · rw [hc, if_pos hfull]; split_ifs <;> omega
  · exact ⟨v, h, by rw [if_neg hfull], hv, by have := hv.2.1; omega, rfl,
      by rw [if_neg hfull], fun _ => ⟨rfl, rfl⟩, fun hc => absurd hc hfull⟩

theorem push_back_spec (h : Heap) {v : Vector α} {xs : List α} (hv : Models v xs) (x : α) :
    ∃ v2 h2, push_back h v x = .ok (v2, h2) ∧ Models v2 (xs ++ [x]) ∧
      v2.capacity_ = (if v.size_ = v.capacity_ then max 1 (2 * v.capacity_)
        else v.capacity_) ∧
      (v.size_ < v.capacity_ → v2.data_ = v.data_ ∧ h2 = h) ∧
      (v.size_ = v.capacity_ → v2.data_ = some h.news ∧ h2.news = h.news + 1) := by
  obtain ⟨v1, h1, hg, hm, hlt, hsz, hcap, hsame, hnew⟩ := grow_spec h hv
  obtain ⟨hx, hle, hs, hd⟩ := hm
  obtain ⟨m2, hm2, hm3⟩ := hs.construct_ok (i := v1.size_) hlt
    (List.getElem?_eq_none (by omega)) x
  refine ⟨{ v1 with slots := m2, size_ := v1.size_ + 1 }, h1, ?_, ⟨?_, ?_, ?_, hd⟩, hcap,
    fun hlt2 => ⟨by rw [(hsame hlt2).1], (hsame hlt2).2⟩, hnew⟩
  · simp only [push_back, hg, hm2, ok_bind]
  · simp [hx]
  · exact hlt
  · exact hm3.congr (fun k _ => by
      simp only [Function.update_apply, List.getElem?_append]
      split_ifs <;> first
        | rfl
        | (exfalso; omega)
        | (rw [List.getElem?_eq_none (by omega), List.getElem?_eq_none (by simp; omega)])
        | (subst_vars; simp [hx]))

theorem back_spec {v : Vector α} {xs : List α} (hv : Models v xs) (hne : 0 < v.size_) :
    ∃ y, xs[v.size_ - 1]? = some y ∧ back v = .ok y := by
  obtain ⟨hx, hle, hs, _⟩ := hv
  obtain ⟨y, hy⟩ : ∃ y, xs[v.size_ - 1]? = some y :=
    ⟨xs[v.size_ - 1], List.getElem?_eq_getElem (by omega)⟩
  refine ⟨y, hy, ?_⟩
  have he : empty v = false := by simp [empty]; omega
  simp only [back, he]
  exact hs.load_ok (i := v.size_ - 1) (by omega) hy

theorem emplace_back_spec (h : Heap) {v : Vector α} {xs : List α} (hv : Models v xs)
    (x : α) :
    ∃ v2 h2, emplace_back h v x = .ok (v2, h2, x) ∧ push_back h v x = .ok (v2, h2) := by
  obtain ⟨v2, h2, hp, hm, _⟩ := push_back_spec h hv x
  refine ⟨v2, h2, ?_, hp⟩
  obtain ⟨v1, h1, hg, hm1, hlt, _⟩ := grow_spec h hv
  obtain ⟨m2, hm2, _⟩ := hm1.2.2.1.construct_ok (i := v1.size_) hlt
    (List.getElem?_eq_none (by have := hm1.1; omega)) x
  simp only [push_back, hg, hm2, ok_bind, Except.ok.injEq, Prod.mk.injEq] at hp
  obtain ⟨y, hy, hb⟩ := back_spec hm (by rw [← hm.1]; simp)
  have hyx : y = x := by
    rw [← hm.1] at hy
    simpa using hy.symm
  simp only [emplace_back, hg, hm2, ok_bind, hp.1, hp.2, hb, hyx]

theorem pop_back_spec {v : Vector α} {xs : List α} (hv : Models v xs) :
    (v.size_ = 0 → pop_back v = .error (.thrown .runtime_error v)) ∧
    (0 < v.size_ → ∃ v2, pop_back v = .ok v2 ∧ Models v2 xs.dropLast ∧
      v2.size_ = v.size_ - 1 ∧ v2.capacity_ = v.capacity_ ∧ v2.data_ = v.data_) := by
  obtain ⟨hx, hle, hs, hd⟩ := hv
  constructor
  · intro h0
    simp [pop_back, empty, h0]
  · intro hpos
    obtain ⟨m2, hm2, hm3⟩ := hs.destroy_ok (i := v.size_ - 1) (y := xs[v.size_ - 1])
      (by omega) (List.getElem?_eq_getElem (by omega))
    have he : empty v = false := by simp [empty]; omega
    refine ⟨{ v with slots := m2, size_ := v.size_ - 1 }, ?_, ⟨?_, ?_, ?_, hd⟩, rfl, rfl, rfl⟩
    · simp only [pop_back, he, hm2, ok_bind]
      rfl
    · simp [hx]
    · show v.size_ - 1 ≤ v.capacity_
      omega
    · exact hm3.congr (fun k _ => by
        simp only [Function.update_apply, getElem?_dropLast_eq]
        split_ifs <;> first
          | rfl
          | (exfalso; omega)
          | exact List.getElem?_eq_none (by omega))

theorem reserve_spec (h : Heap) {v : Vector α} {xs : List α} (hv : Models v xs) (n : Nat) :
    ∃ v2 h2, reserve h v n = .ok (v2, h2) ∧ Models v2 xs ∧
      v2.capacity_ = max v.capacity_ n ∧ v2.size_ = v.size_ ∧
      (n ≤ v.capacity_ → v2 = v ∧ h2 = h) := by
  by_cases hn : n > v.capacity_
  · obtain ⟨v2, h2, hr, hm, hc, hsz, _, _⟩ := reallocate_spec h hv n
      (by have := hv.2.1; omega)
    exact ⟨v2, h2, by rw [reserve, if_pos hn, hr], hm, by rw [hc]; omega, hsz,
      fun hle => by omega⟩
  · exact ⟨v, h, by rw [reserve, if_neg hn], hv, by omega, rfl, fun _ => ⟨rfl, rfl⟩⟩

theorem shrink_to_fit_spec (h : Heap) {v : Vector α} {xs : List α} (hv : Models v xs) :
    ∃ v2 h2, shrink_to_fit h v = .ok (v2, h2) ∧ Models v2 xs ∧
      v2.capacity_ = v.size_ ∧ v2.size_ = v.size_ ∧
      (v.capacity_ = v.size_ → v2 = v ∧ h2 = h) := by
  by_cases hn : v.size_ < v.capacity_
  · obtain ⟨v2, h2, hr, hm, hc, hsz, _, _⟩ := reallocate_spec h hv v.size_ (Nat.le_refl _)
    exact ⟨v2, h2, by rw [shrink_to_fit, if_pos hn, hr], hm, hc, hsz, fun he => by omega⟩
  · exact ⟨v, h, by rw [shrink_to_fit, if_neg hn], hv, by have := hv.2.1; omega, rfl,
      fun _ => ⟨rfl, rfl⟩⟩

theorem insert_spec (h : Heap) {v : Vector α} {xs : List α} (hv : Models v xs)
    (pos : Iter) (hb : pos.base = v.data_) (hk : pos.off ≤ v.size_) (x : α) :
    ∃ v2 h2, insert h v pos x = .ok (v2, h2, { base := v2.data_, off := pos.off }) ∧
      Models v2 (xs.take pos.off ++ x :: xs.drop pos.off) ∧
      v2.capacity_ = (if v.size_ = v.capacity_ then max 1 (2 * v.capacity_)
        else v.capacity_) := by
  obtain ⟨v1, h1, hg, hm, hlt, hsz, hcap, _, _⟩ := grow_spec h hv
  obtain ⟨hx, hle, hs, hd⟩ := hm
  obtain ⟨m, hm1, hm2⟩ := shift_right_one hs (by omega) pos.off (by omega)
  obtain ⟨m2, hm3, hm4⟩ := hm2.construct_ok (i := pos.off) (by omega)
    (by split_ifs <;> first | rfl | (exfalso; omega)) x
  rw [hx] at hm1
  refine ⟨{ v1 with slots := m2, size_ := v1.size_ + 1 }, h1, ?_, ⟨?_, ?_, ?_, hd⟩, hcap⟩
  · simp only [insert, index_of, hb, if_true, hg, hm1, hm3, ok_bind, begin_, Iter.add,
      Nat.zero_add]
  · simp [hx]; omega
  · exact hlt
  · exact hm4.congr (fun k _ => by
      simp only [Function.update_apply]
      rw [getElem?_insert_one xs x pos.off (by omega) k]
      split_ifs <;> first | rfl | (exfalso; omega))

theorem emplace_eq_insert (h : Heap) (v : Vector α) (pos : Iter) (x : α) :
    emplace h v pos x = insert h v pos x := rfl

/-- The growth step shared by the two bulk `insert` overloads. -/
theorem grow_n_spec (h : Heap) {v : Vector α} {xs : List α} (hv : Models v xs) (c : Nat) :
    ∃ v1 h1, (if v.size_ + c > v.capacity_ then
        reallocate h v (max (v.capacity_ * 2) (v.size_ + c))
      else (.ok (v, h) : Except (Err α) (Vector α × Heap))) = .ok (v1, h1) ∧
      Models v1 xs ∧ v1.size_ + c ≤ v1.capacity_ ∧ v1.size_ = v.size_ ∧
      v1.capacity_ = (if v.size_ + c > v.capacity_ then max (v.capacity_ * 2) (v.size_ + c)
        else v.capacity_) := by
  by_cases hfull : v.size_ + c > v.capacity_
  · obtain ⟨v1, h1, hr, hm, hc, hsz, _, _⟩ := reallocate_spec h hv
      (max (v.capacity_ * 2) (v.size_ + c)) (by omega)
    refine ⟨v1, h1, by rw [if_pos hfull, hr], hm, ?_, hsz, ?_⟩
    · rw [hc, hsz]; omega
    · rw [hc, if_pos hfull]
  · exact ⟨v, h, by rw [if_neg hfull], hv, by omega, rfl, by rw [if_neg hfull]⟩

theorem insert_n_spec (h : Heap) {v : Vector α} {xs : List α} (hv : Models v xs)
    (pos : Iter) (hb : pos.base = v.data_) (hk : pos.off ≤ v.size_) (c : Nat) (x : α) :
    ∃ v2 h2, insert_n h v pos c x = .ok (v2, h2, { base := v2.data_, off := pos.off }) ∧
      Models v2 (xs.take pos.off ++ List.replicate c x ++ xs.drop pos.off) ∧
      v2.capacity_ = (if v.size_ + c > v.capacity_ then max (v.capacity_ * 2) (v.size_ + c)
        else v.capacity_) ∧
      (c = 0 → v2 = v ∧ h2 = h) := by
  by_cases hc : c = 0
  · subst hc
    refine ⟨v, h, ?_, ?_, ?_, fun _ => ⟨rfl, rfl⟩⟩
    · simp only [insert_n, if_true, ← hb]
    · simpa using hv
    · have := hv.2.1
      rw [if_neg (by omega)]
  · obtain ⟨v1, h1, hg, hm, hlt, hsz, hcap⟩ := grow_n_spec h hv c
    obtain ⟨hx, hle, hs, hd⟩ := hm
    obtain ⟨m, hm1, hm2⟩ := shift_right_many hs c (by omega) (by omega) pos.off (by omega)
    obtain ⟨m2, hm3, hm4⟩ := fill_loop_off hm2 pos.off c (by omega)
      (fun j hj1 hj2 => by split_ifs <;> first | rfl | (exfalso; omega)) x
    rw [hx] at hm1
    refine ⟨{ v1 with slots := m2, size_ := v1.size_ + c }, h1, ?_, ⟨?_, ?_, ?_, hd⟩, hcap,
      fun h0 => absurd h0 hc⟩
    · simp only [insert_n, if_neg hc, index_of, hb, if_true, hg, hm1, hm3, ok_bind, begin_,
        Iter.add, Nat.zero_add]
    · simp [hx]; omega
    · exact hlt
    · exact hm4.congr (fun k _ => by
        rw [getElem?_insert_many xs x c pos.off (by omega) k]
        split_ifs <;> first | rfl | (exfalso; omega))

theorem insert_range_spec (h : Heap) {v : Vector α} {xs : List α} (hv : Models v xs)
    (pos : Iter) (hb : pos.base = v.data_) (hk : pos.off ≤ v.size_) (src : List α) :
    ∃ v2 h2, insert_range h v pos src =
        .ok (v2, h2, { base := v2.data_, off := pos.off }) ∧
      Models v2 (xs.take pos.off ++ src ++ xs.drop pos.off) ∧
      v2.capacity_ = (if v.size_ + src.length > v.capacity_ then
        max (v.capacity_ * 2) (v.size_ + src.length) else v.capacity_) := by
  by_cases hc : src.length = 0
  · have hnil : src = [] := List.length_eq_zero.mp hc
    subst hnil
    refine ⟨v, h, ?_, ?_, ?_⟩
    · simp only [insert_range, List.length_nil, if_true, ← hb]
    · simpa using hv
    · have := hv.2.1
      rw [if_neg (by simp; omega)]
  · obtain ⟨v1, h1, hg, hm, hlt, hsz, hcap⟩ := grow_n_spec h hv src.length
    obtain ⟨hx, hle, hs, hd⟩ := hm
    obtain ⟨m, hm1, hm2⟩ := shift_right_many hs src.length (by omega) (by omega) pos.off
      (by omega)
    obtain ⟨m2, hm3, hm4⟩ := constructFrom_ok src pos.off m _ hm2 (by omega)
      (fun j hj1 hj2 => by split_ifs <;> first | rfl | (exfalso; omega))
    rw [hx] at hm1
    refine ⟨{ v1 with slots := m2, size_ := v1.size_ + src.length }, h1, ?_,
      ⟨?_, ?_, ?_, hd⟩, hcap⟩
    · simp only [insert_range, if_neg hc, index_of, hb, if_true, hg, hm1, hm3, ok_bind,
        begin_, Iter.add, Nat.zero_add]
    · simp [hx]; omega
    · exact hlt
    · exact hm4.congr (fun k _ => by
        rw [getElem?_insert_list xs src pos.off (by omega) k]
        split_ifs <;> first | rfl | (exfalso; omega))

theorem insert_copy_eq (h : Heap) (v : Vector α) (pos : Iter) (x : α) :
    insert_copy h v pos x = insert_n h v pos 1 x := rfl

theorem erase_range_spec {v : Vector α} {xs : List α} (hv : Models v xs)
    (first last : Iter) (hf : first.base = v.data_) (hl : last.base = v.data_)
    (h1 : first.off ≤ last.off) (h2 : last.off ≤ v.size_) :
    ∃ v2, erase_range v first last = .ok (v2, { base := v2.data_, off := first.off }) ∧
      Models v2 (xs.take first.off ++ xs.drop last.off) ∧
      v2.size_ = v.size_ - (last.off - first.off) ∧
      v2.capacity_ = v.capacity_ ∧ v2.data_ = v.data_ := by
  obtain ⟨c, hc⟩ : ∃ c, last.off = first.off + c := ⟨last.off - first.off, by omega⟩
  have hnlt : ¬ (first.off + c < first.off) := by omega
  by_cases hc0 : c = 0
  · subst hc0
    have hfe : ({ base := v.data_, off := first.off } : Iter) = first := by rw [← hf]
    refine ⟨v, ?_, ?_, by omega, rfl, rfl⟩
    · rw [hfe]
      simp only [erase_range, index_of, hf, hl, if_true, ok_bind, hc, Nat.add_zero,
        Nat.lt_irrefl, if_false, Nat.sub_self]
    · rw [hc, Nat.add_zero, List.take_append_drop]
      exact hv
  · obtain ⟨hx, hle, hs, hd⟩ := hv
    obtain ⟨m, hm1, hm2⟩ := destroy_loop hs first.off c (by omega) (fun j _ hj =>
      ⟨xs[j], List.getElem?_eq_getElem (by omega)⟩)
    obtain ⟨m2, hm3, hm4⟩ := shift_left first.off c (by omega) hm2 (by omega) (by omega)
    rw [hx] at hm3
    refine ⟨{ v with slots := m2, size_ := v.size_ - c }, ?_, ⟨?_, ?_, ?_, hd⟩, ?_, rfl, rfl⟩
    · simp only [erase_range, index_of, hf, hl, if_true, ok_bind, hc, if_neg hnlt,
        Nat.add_sub_cancel_left, if_neg hc0, hm1, hm3, begin_, Iter.add, Nat.zero_add]
    · simp [hc, hx]; omega
    · show v.size_ - c ≤ v.capacity_
      omega
    · exact hm4.congr (fun k _ => by
        rw [hc, getElem?_erase_range xs first.off c (by omega) k])
    · show v.size_ - c = v.size_ - (last.off - first.off)
      omega

theorem erase_spec {v : Vector α} {xs : List α} (hv : Models v xs)
    (pos : Iter) (hb : pos.base = v.data_) (hk : pos.off < v.size_) :
    ∃ v2, erase v pos = .ok (v2, { base := v2.data_, off := pos.off }) ∧
      Models v2 (xs.take pos.off ++ xs.drop (pos.off + 1)) ∧
      v2.size_ = v.size_ - 1 ∧ v2.capacity_ = v.capacity_ ∧ v2.data_ = v.data_ := by
  obtain ⟨v2, he, hm, hsz, hcap, hdat⟩ := erase_range_spec hv pos (pos.add 1) hb hb
    (by simp [Iter.add]) (by simp [Iter.add]; omega)
  refine ⟨v2, he, hm, ?_, hcap, hdat⟩
  rw [hsz]
  simp [Iter.add]

theorem resize_spec (h : Heap) {v : Vector α} {xs : List α} (hv : Models v xs)
    (n : Nat) (x : α) :
    ∃ v2 h2, resize h v n x = .ok (v2, h2) ∧
      Models v2 (xs.take n ++ List.replicate (n - v.size_) x) ∧
      v2.size_ = n ∧ v2.capacity_ = max v.capacity_ n := by
  obtain ⟨v1, h1, hr, hm, hcap, hsz, _⟩ := reserve_spec h hv n
  simp only [reserve] at hr
  obtain ⟨hx, hle, hs, hd⟩ := hm
  have step : ∃ m, (if n > v1.size_ then
        forUp (fun i m => construct m i x) (n - v1.size_) v1.size_ v1.slots
      else if n < v1.size_ then
        forUp (fun i m => destroy m i) (v1.size_ - n) n v1.slots
      else (.ok v1.slots : Except (Err α) (Slots α))) = .ok m ∧
      Holds m v1.capacity_
        (fun j => (xs.take n ++ List.replicate (n - xs.length) x)[j]?) := by
    by_cases hgt : n > v1.size_
    · obtain ⟨m, hm1, hm2⟩ := fill_loop hs v1.size_ (n - v1.size_) (by omega)
        (fun j hj _ => List.getElem?_eq_none (by omega)) x
      refine ⟨m, by rw [if_pos hgt, hm1], hm2.congr (fun k _ => ?_)⟩
      beta_reduce
      rw [getElem?_resize]
      split_ifs <;> first
        | rfl
        | (exfalso; omega)
        | exact List.getElem?_eq_none (by omega)
    · by_cases hlt : n < v1.size_
      · obtain ⟨m, hm1, hm2⟩ := destroy_loop hs n (v1.size_ - n) (by omega)
          (fun j _ hj => ⟨xs[j], List.getElem?_eq_getElem (by omega)⟩)
        refine ⟨m, by rw [if_neg hgt, if_pos hlt, hm1], hm2.congr (fun k _ => ?_)⟩
        beta_reduce
        rw [getElem?_resize]
        split_ifs <;> first
          | rfl
          | (exfalso; omega)
          | exact List.getElem?_eq_none (by omega)
      · refine ⟨v1.slots, by rw [if_neg hgt, if_neg hlt], hs.congr (fun k _ => ?_)⟩
        beta_reduce
        rw [getElem?_resize]
        split_ifs <;> first
          | rfl
          | (exfalso; omega)
          | exact List.getElem?_eq_none (by omega)
  obtain ⟨m, hm1, hm2⟩ := step
  refine ⟨{ v1 with slots := m, size_ := n }, h1, ?_, ⟨?_, ?_, ?_, hd⟩, rfl, hcap⟩
  · simp only [resize, hr, hm1, ok_bind]
  · simp [hx, hsz]; omega
  · show n ≤ v1.capacity_
    omega
  · rw [← hsz, ← hx]
    exact hm2

theorem assign_spec (h : Heap) {v : Vector α} {xs : List α} (hv : Models v xs)
    (c : Nat) (x : α) :
    ∃ v2 h2, assign h v c x = .ok (v2, h2) ∧ Models v2 (List.replicate c x) ∧
      v2.size_ = c ∧ v2.capacity_ = (if c ≤ v.capacity_ then v.capacity_ else c) := by
  obtain ⟨v0, hcl, hm0, hcap0, _, _⟩ := clear_spec hv
  obtain ⟨v1, h1, hr, hm, hcap, hsz, _⟩ := reserve_spec h hm0 c
  simp only [reserve] at hr
  obtain ⟨hx, hle, hs, hd⟩ := hm
  obtain ⟨m, hm1, hm2⟩ := fill_loop hs 0 c (by omega)
    (fun j _ _ => by simp) x
  refine ⟨{ v1 with slots := m, size_ := c }, h1, ?_, ⟨?_, ?_, ?_, hd⟩, rfl, ?_⟩
  · simp only [assign, hcl, hr, hm1, ok_bind]
  · simp
  · show c ≤ v1.capacity_
    omega
  · exact hm2.congr (fun k _ => by
      rw [List.getElem?_replicate]
      split_ifs <;> first | rfl | (exfalso; omega))
  · show v1.capacity_ = _
    rw [hcap, hcap0]
    split_ifs <;> omega

theorem assign_range_spec (h : Heap) {v : Vector α} {xs : List α} (hv : Models v xs)
    (src : List α) :
    ∃ v2 h2, assign_range h v src = .ok (v2, h2) ∧ Models v2 src ∧
      v2.capacity_ = (if src.length ≤ v.capacity_ then v.capacity_ else src.length) := by
  obtain ⟨v0, hcl, hm0, hcap0, _, _⟩ := clear_spec hv
  obtain ⟨v1, h1, hr, hm, hcap, hsz, _⟩ := reserve_spec h hm0 src.length
  simp only [reserve] at hr
  obtain ⟨hx, hle, hs, hd⟩ := hm
  obtain ⟨m, hm1, hm2⟩ := constructFrom_ok src 0 v1.slots _ hs (by omega)
    (fun j _ _ => by simp)
  refine ⟨{ v1 with slots := m, size_ := src.length }, h1, ?_, ⟨rfl, ?_, ?_, hd⟩, ?_⟩
  · simp only [assign_range, hcl, hr, hm1, ok_bind]
  · show src.length ≤ v1.capacity_
    omega
  · exact hm2.congr (fun k _ => by
      split_ifs <;> first
        | rfl
        | (exfalso; omega)
        | (symm; exact List.getElem?_eq_none (by omega)))
  · show v1.capacity_ = _
    rw [hcap, hcap0]
    split_ifs <;> omega

theorem loadRange_ok {m : Slots α} {cap : Nat} {xs : List α}
    (hm : Holds m cap (fun j => xs[j]?)) (hx : xs.length ≤ cap) :
    ∀ n i, i + n = xs.length → loadRange m n i = .ok (xs.drop i) := by
  intro n
  induction n with
  | zero =>
    intro i hi
    rw [List.drop_of_length_le (by omega)]
    rfl
  | succ n ih =>
    intro i hi
    have hl : load m i = (.ok xs[i] : Except (Err α) α) :=
      hm.load_ok (i := i) (by omega) (List.getElem?_eq_getElem (by omega))
    simp only [loadRange, hl, ih (i + 1) (by omega), ok_bind]
    rw [← List.drop_eq_getElem_cons]

theorem ctor_copy_spec (h : Heap) {other : Vector α} {xs : List α} (ho : Models other xs) :
    ∃ v2 h2, ctor_copy h other = .ok (v2, h2) ∧ Models v2 xs ∧
      v2.capacity_ = other.size_ := by
  have hl := loadRange_ok ho.2.2.1 (by have := ho.1; have := ho.2.1; omega) other.size_ 0
    (by rw [ho.1]; omega)
  rw [List.drop_zero] at hl
  obtain ⟨v2, h2, ha, hm, hcap⟩ := assign_range_spec h (models_new (α := α)) xs
  refine ⟨v2, h2, by simp only [ctor_copy, hl, ok_bind, ha], hm, ?_⟩
  rw [hcap, ← ho.1]
  show (if xs.length ≤ 0 then 0 else xs.length) = xs.length
  split_ifs <;> omega

theorem copy_assign_spec (h : Heap) {v other : Vector α} {xs ys : List α}
    (hv : Models v xs) (ho : Models other ys) :
    ∃ v2 h2, copy_assign h v other = .ok (v2, h2) ∧ Models v2 ys ∧
      v2.capacity_ = (if other.size_ ≤ v.capacity_ then v.capacity_ else other.size_) := by
  have hl := loadRange_ok ho.2.2.1 (by have := ho.1; have := ho.2.1; omega) other.size_ 0
    (by rw [ho.1]; omega)
  rw [List.drop_zero] at hl
  obtain ⟨v2, h2, ha, hm, hcap⟩ := assign_range_spec h hv ys
  refine ⟨v2, h2, by simp only [copy_assign, hl, ok_bind, ha], hm, ?_⟩
  rw [hcap, ho.1]

theorem ctor_move_spec {other : Vector α} {xs : List α} (ho : Models other xs) :
    Models (ctor_move other).1 xs ∧ Models (ctor_move other).2 [] ∧
      (ctor_move other).1 = other ∧ (ctor_move other).2 = Vector.new :=
  ⟨ho, models_new, rfl, rfl⟩

theorem swap_spec (a b : Vector α) : (swap a b).1 = b ∧ (swap a b).2 = a :=
  ⟨rfl, rfl⟩

theorem move_assign_spec (h : Heap) {v : Vector α} (other : Vector α) {xs : List α}
    (hv : Models v xs) :
    ∃ h2, move_assign h v other = .ok (other, Vector.new, h2) := by
  obtain ⟨v1, h1, hd, _⟩ := deallocate_ok h hv
  exact ⟨h1, by simp only [move_assign, hd, ok_bind]; rfl⟩

/-! ## Calls, sequences of calls and reachable states -/

theorem models_mk (d : Option Nat) (xs : List α) (cap : Nat) (hcap : xs.length ≤ cap)
    (hd : d = none → cap = 0) :
    Models { data_ := d, slots := xs.map some ++ List.replicate (cap - xs.length) none,
             size_ := xs.length, capacity_ := cap } xs := by
  refine ⟨rfl, hcap, ⟨by simp; omega, fun j hj => ?_⟩, hd⟩
  have hj2 : j < cap := hj
  show (xs.map some ++ List.replicate (cap - xs.length) none)[j]? = some (xs[j]?)
  rw [List.getElem?_append, List.length_map]
  by_cases h1 : j < xs.length
  · rw [if_pos h1, List.getElem?_map, List.getElem?_eq_getElem h1]
    rfl
  · rw [if_neg h1, List.getElem?_replicate, if_pos (by omega),
      List.getElem?_eq_none (by omega)]

theorem sampleFull_wf : sampleFull.WF :=
  (models_mk (some 0) [1, 2] 2 (by decide) (by simp)).wf

theorem sampleRoomy_wf : sampleRoomy.WF :=
  (models_mk (some 0) [1, 2] 4 (by decide) (by simp)).wf

theorem subscript_spec {v : Vector α} {xs : List α} (hv : Models v xs) (i : Nat)
    (hi : i < xs.length) : subscript v i = .ok xs[i] :=
  hv.2.2.1.load_ok (i := i) (by have := hv.1; have := hv.2.1; omega)
    (List.getElem?_eq_getElem hi)

theorem push_all_spec (vals : List α) :
    ∀ (h : Heap) (v : Vector α) (xs : List α), Models v xs →
      ∃ v2 h2, push_all h v vals = .ok (v2, h2) ∧ Models v2 (xs ++ vals) ∧
        (v.size_ + vals.length ≤ v.capacity_ →
          v2.capacity_ = v.capacity_ ∧ v2.data_ = v.data_ ∧ h2 = h) := by
  induction vals with
  | nil =>
    intro h v xs hv
    exact ⟨v, h, rfl, by simpa using hv, fun _ => ⟨rfl, rfl, rfl⟩⟩
  | cons x rest ih =>
    intro h v xs hv
    obtain ⟨v1, h1, hp, hm1, hcap1, hsame, _⟩ := push_back_spec h hv x
    obtain ⟨v2, h2, hq, hm2, hkeep⟩ := ih h1 v1 (xs ++ [x]) hm1
    refine ⟨v2, h2, by simp only [push_all, hp, ok_bind, hq], by simpa using hm2, ?_⟩
    intro hroom
    simp only [List.length_cons] at hroom
    have hlt : v.size_ < v.capacity_ := by omega
    rw [if_neg (by omega)] at hcap1
    have hsz1 : v1.size_ = v.size_ + 1 := by rw [← hm1.1, ← hv.1]; simp
    obtain ⟨hc, hd, hh⟩ := hkeep (by omega)
    obtain ⟨hd1, hh1⟩ := hsame hlt
    exact ⟨by omega, by rw [hd, hd1], by rw [hh, hh1]⟩

theorem op_run_spec (h : Heap) {v : Vector α} {xs : List α} (hv : Models v xs)
    (op : Op α) (hp : op.pre v) :
    (∃ v2 h2 ys, op.run h v = .ok (v2, h2) ∧ Models v2 ys) ∨
      op.run h v = .error (.thrown .runtime_error v) := by
  cases op with
  | push_back x =>
    obtain ⟨v2, h2, hr, hm, _⟩ := push_back_spec h hv x
    exact Or.inl ⟨v2, h2, _, hr, hm⟩
  | emplace_back x =>
    obtain ⟨v2, h2, hr, hpb⟩ := emplace_back_spec h hv x
    obtain ⟨w2, k2, hr2, hm, _⟩ := push_back_spec h hv x
    rw [hpb] at hr2
    cases hr2
    exact Or.inl ⟨v2, h2, _, by simp only [Op.run, hr, ok_bind], hm⟩
  | pop_back =>
    by_cases h0 : v.size_ = 0
    · exact Or.inr (by simp only [Op.run, (pop_back_spec hv).1 h0]; rfl)
    · obtain ⟨v2, hr, hm, _⟩ := (pop_back_spec hv).2 (by omega)
      exact Or.inl ⟨v2, h, _, by simp only [Op.run, hr, ok_bind], hm⟩
  | insert pos x =>
    obtain ⟨v2, h2, hr, hm, _⟩ := insert_spec h hv pos hp.1 hp.2 x
    exact Or.inl ⟨v2, h2, _, by simp only [Op.run, hr, ok_bind], hm⟩
  | insert_copy pos x =>
    obtain ⟨v2, h2, hr, hm, _⟩ := insert_n_spec h hv pos hp.1 hp.2 1 x
    exact Or.inl ⟨v2, h2, _, by simp only [Op.run, insert_copy, hr, ok_bind], hm⟩
  | insert_n pos count x =>
    obtain ⟨v2, h2, hr, hm, _⟩ := insert_n_spec h hv pos hp.1 hp.2 count x
    exact Or.inl ⟨v2, h2, _, by simp only [Op.run, hr, ok_bind], hm⟩
  | insert_range pos src =>
    obtain ⟨v2, h2, hr, hm, _⟩ := insert_range_spec h hv pos hp.1 hp.2 src
    exact Or.inl ⟨v2, h2, _, by simp only [Op.run, hr, ok_bind], hm⟩
  | insert_ilist pos ilist =>
    obtain ⟨v2, h2, hr, hm, _⟩ := insert_range_spec h hv pos hp.1 hp.2 ilist
    exact Or.inl ⟨v2, h2, _, by simp only [Op.run, insert_ilist, hr, ok_bind], hm⟩
  | emplace pos x =>
    obtain ⟨v2, h2, hr, hm, _⟩ := insert_spec h hv pos hp.1 hp.2 x
    exact Or.inl ⟨v2, h2, _, by simp only [Op.run, emplace_eq_insert, hr, ok_bind], hm⟩
  | erase pos =>
    obtain ⟨v2, hr, hm, _⟩ := erase_spec hv pos hp.1 hp.2
    exact Or.inl ⟨v2, h, _, by simp only [Op.run, hr, ok_bind], hm⟩
  | erase_range first last =>
    obtain ⟨v2, hr, hm, _⟩ := erase_range_spec hv first last hp.1 hp.2.1 hp.2.2.1 hp.2.2.2
    exact Or.inl ⟨v2, h, _, by simp only [Op.run, hr, ok_bind], hm⟩
  | resize count x =>
    obtain ⟨v2, h2, hr, hm, _⟩ := resize_spec h hv count x
    exact Or.inl ⟨v2, h2, _, hr, hm⟩
  | reserve n =>
    obtain ⟨v2, h2, hr, hm, _⟩ := reserve_spec h hv n
    exact Or.inl ⟨v2, h2, _, hr, hm⟩
  | shrink_to_fit =>
    obtain ⟨v2, h2, hr, hm, _⟩ := shrink_to_fit_spec h hv
    exact Or.inl ⟨v2, h2, _, hr, hm⟩
  | assign count x =>
    obtain ⟨v2, h2, hr, hm, _⟩ := assign_spec h hv count x
    exact Or.inl ⟨v2, h2, _, hr, hm⟩
  | assign_range src =>
    obtain ⟨v2, h2, hr, hm, _⟩ := assign_range_spec h hv src
    exact Or.inl ⟨v2, h2, _, hr, hm⟩
  | assign_ilist init =>
    obtain ⟨v2, h2, hr, hm, _⟩ := assign_range_spec h hv init
    exact Or.inl ⟨v2, h2, _, hr, hm⟩
  | clear =>
    obtain ⟨v2, hr, hm, _⟩ := clear_spec hv
    exact Or.inl ⟨v2, h, _, by simp only [Op.run, hr, ok_bind], hm⟩

theorem reachable_models {v : Vector α} (hr : Reachable v) : ∃ xs, Models v xs := by
  induction hr with
  | ctor_default => exact ⟨[], models_new⟩
  | ctor_count h count t0 v h2 hc =>
    obtain ⟨w, k, hw, hm, _⟩ := resize_spec h (models_new (α := α)) count t0
    have : ctor_count h count t0 = .ok (w, k) := hw
    rw [this] at hc
    cases hc
    exact ⟨_, hm⟩
  | ctor_fill h count x v h2 hc =>
    obtain ⟨w, k, hw, hm, _⟩ := assign_spec h (models_new (α := α)) count x
    have : ctor_fill h count x = .ok (w, k) := hw
    rw [this] at hc
    cases hc
    exact ⟨_, hm⟩
  | ctor_ilist h init v h2 hc =>
    obtain ⟨w, k, hw, hm, _⟩ := assign_range_spec h (models_new (α := α)) init
    have : ctor_ilist h init = .ok (w, k) := hw
    rw [this] at hc
    cases hc
    exact ⟨_, hm⟩
  | ctor_range h src v h2 hc =>
    obtain ⟨w, k, hw, hm, _⟩ := assign_range_spec h (models_new (α := α)) src
    have : ctor_range h src = .ok (w, k) := hw
    rw [this] at hc
    cases hc
    exact ⟨_, hm⟩
  | ctor_copy h other v h2 _ hc ih =>
    obtain ⟨xs, ho⟩ := ih
    obtain ⟨w, k, hw, hm, _⟩ := ctor_copy_spec h ho
    rw [hw] at hc
    cases hc
    exact ⟨_, hm⟩
  | ctor_move_new other _ ih => exact ih
  | ctor_move_src other _ _ => exact ⟨[], models_new⟩
  | call h v op v2 h2 _ hp hc ih =>
    obtain ⟨xs, hv⟩ := ih
    rcases op_run_spec h hv op hp with ⟨w, k, ys, hw, hm⟩ | herr
    · rw [hw] at hc
      cases hc
      exact ⟨_, hm⟩
    · rw [herr] at hc
      cases hc
  | thrown h v op e v2 _ hp hc ih =>
    obtain ⟨xs, hv⟩ := ih
    rcases op_run_spec h hv op hp with ⟨w, k, ys, hw, hm⟩ | herr
    · rw [hw] at hc
      cases hc
    · rw [herr] at hc
      cases hc
      exact ⟨_, hv⟩
  | copy_assign h v other v2 h2 _ _ hc ih1 ih2 =>
    obtain ⟨xs, hv⟩ := ih1
    obtain ⟨ys, ho⟩ := ih2
    obtain ⟨w, k, hw, hm, _⟩ := copy_assign_spec h hv ho
    rw [hw] at hc
    cases hc
    exact ⟨_, hm⟩
  | move_assign_this h v other v2 o2 h2 _ _ hc ih1 ih2 =>
    obtain ⟨xs, hv⟩ := ih1
    obtain ⟨ys, ho⟩ := ih2
    obtain ⟨k, hw⟩ := move_assign_spec h other hv
    rw [hw] at hc
    cases hc
    exact ⟨_, ho⟩
  | move_assign_other h v other v2 o2 h2 _ _ hc ih1 ih2 =>
    obtain ⟨xs, hv⟩ := ih1
    obtain ⟨ys, ho⟩ := ih2
    obtain ⟨k, hw⟩ := move_assign_spec h other hv
    rw [hw] at hc
    cases hc
    exact ⟨[], models_new⟩
  | swap_this v other _ _ _ ih2 => exact ih2
  | swap_other v other _ _ ih1 _ => exact ih1

/-! ## Pointers and the allocator across a call -/

theorem bind_eq_ok {ε β γ : Type} (x : Except ε β) (f : β → Except ε γ) (c : γ) :
    (x >>= f) = .ok c ↔ ∃ a, x = .ok a ∧ f a = .ok c := by
  cases x with
  | error e =>
    constructor
    · intro hx
      cases hx
    · rintro ⟨a, ha, _⟩
      cases ha
  | ok a =>
    rw [ok_bind]
    constructor
    · intro hx
      exact ⟨a, rfl, hx⟩
    · rintro ⟨a2, ha, hx⟩
      cases ha
      exact hx

theorem reallocate_frame (h : Heap) (v v2 : Vector α) (n : Nat) (h2 : Heap)
    (hr : reallocate h v n = .ok (v2, h2)) :
    v2.data_ = some h.news ∧ h2.news = h.news + 1 := by
  refine ⟨?_, reallocate_news h v v2 n h2 hr⟩
  simp only [reallocate, operator_new, bind_eq_ok] at hr
  obtain ⟨m, _, r, _, hr⟩ := hr
  cases hr
  rfl

theorem cond_reallocate_frame (c : Prop) [Decidable c] (h : Heap) (v v1 : Vector α) (n : Nat)
    (h1 : Heap)
    (hg : (if c then reallocate h v n else (.ok (v, h) : Except (Err α) (Vector α × Heap))) =
      .ok (v1, h1)) : AllocStep h v v1 h1 := by
  by_cases hc : c
  · rw [if_pos hc] at hg
    exact Or.inr (reallocate_frame h v v1 n h1 hg)
  · rw [if_neg hc] at hg
    cases hg
    exact Or.inl ⟨rfl, rfl⟩

theorem push_back_frame (h : Heap) (v v2 : Vector α) (x : α) (h2 : Heap)
    (hr : push_back h v x = .ok (v2, h2)) : AllocStep h v v2 h2 := by
  simp only [push_back, bind_eq_ok] at hr
  obtain ⟨⟨v1, h1⟩, hg, m, _, hr⟩ := hr
  cases hr
  exact cond_reallocate_frame _ h v v1 _ h1 hg

theorem insert_frame (h : Heap) (v v2 : Vector α) (pos it : Iter) (x : α) (h2 : Heap)
    (hr : insert h v pos x = .ok (v2, h2, it)) : AllocStep h v v2 h2 := by
  simp only [insert, bind_eq_ok] at hr
  obtain ⟨idx, _, ⟨v1, h1⟩, hg, m, _, m2, _, hr⟩ := hr
  cases hr
  exact cond_reallocate_frame _ h v v1 _ h1 hg

theorem insert_n_frame (h : Heap) (v v2 : Vector α) (pos it : Iter) (c : Nat) (x : α)
    (h2 : Heap) (hr : insert_n h v pos c x = .ok (v2, h2, it)) : AllocStep h v v2 h2 := by
  unfold insert_n at hr
  split at hr
  · cases hr
    exact Or.inl ⟨rfl, rfl⟩
  · simp only [bind_eq_ok] at hr
    obtain ⟨idx, _, ⟨v1, h1⟩, hg, m, _, m2, _, hr⟩ := hr
    cases hr
    exact cond_reallocate_frame _ h v v1 _ h1 hg

theorem insert_range_frame (h : Heap) (v v2 : Vector α) (pos it : Iter) (src : List α)
    (h2 : Heap) (hr : insert_range h v pos src = .ok (v2, h2, it)) :
    AllocStep h v v2 h2 := by
  simp only [insert_range] at hr
  split at hr
  · cases hr
    exact Or.inl ⟨rfl, rfl⟩
  · simp only [bind_eq_ok] at hr
    obtain ⟨idx, _, ⟨v1, h1⟩, hg, m, _, m2, _, hr⟩ := hr
    cases hr
    exact cond_reallocate_frame _ h v v1 _ h1 hg

theorem erase_range_frame (v v2 : Vector α) (first last it : Iter)
    (hr : erase_range v first last = .ok (v2, it)) : v2.data_ = v.data_ := by
  simp only [erase_range, bind_eq_ok] at hr
  obtain ⟨s, _, e, _, hr⟩ := hr
  split at hr
  · cases hr
  · split at hr
    · cases hr
      rfl
    · simp only [bind_eq_ok] at hr
      obtain ⟨m, _, m2, _, hr⟩ := hr
      cases hr
      rfl

theorem clear_frame (v v2 : Vector α) (hr : clear v = .ok v2) :
    v2.data_ = v.data_ ∧ v2.capacity_ = v.capacity_ := by
  simp only [clear, bind_eq_ok] at hr
  obtain ⟨m, _, hr⟩ := hr
  cases hr
  exact ⟨rfl, rfl⟩

theorem pop_back_frame (v v2 : Vector α) (hr : pop_back v = .ok v2) :
    v2.data_ = v.data_ := by
  unfold pop_back at hr
  split at hr
  · cases hr
  · simp only [bind_eq_ok] at hr
    obtain ⟨m, _, hr⟩ := hr
    cases hr
    rfl

theorem resize_frame (h : Heap) (v v2 : Vector α) (n : Nat) (x : α) (h2 : Heap)
    (hr : resize h v n x = .ok (v2, h2)) : AllocStep h v v2 h2 := by
  simp only [resize, bind_eq_ok] at hr
  obtain ⟨⟨v1, h1⟩, hg, m, _, hr⟩ := hr
  cases hr
  exact cond_reallocate_frame _ h v v1 _ h1 hg

theorem assign_frame (h : Heap) (v v2 : Vector α) (c : Nat) (x : α) (h2 : Heap)
    (hr : assign h v c x = .ok (v2, h2)) : AllocStep h v v2 h2 := by
  simp only [assign, bind_eq_ok] at hr
  obtain ⟨v0, hcl, ⟨v1, h1⟩, hg, m, _, hr⟩ := hr
  cases hr
  have hd := (clear_frame v v0 hcl).1
  rcases cond_reallocate_frame _ h v0 v1 _ h1 hg with ⟨h3, h4⟩ | h3
  · exact Or.inl ⟨by rw [← hd]; exact h3, h4⟩
  · exact Or.inr h3

theorem assign_range_frame (h : Heap) (v v2 : Vector α) (src : List α) (h2 : Heap)
    (hr : assign_range h v src = .ok (v2, h2)) : AllocStep h v v2 h2 := by
  simp only [assign_range, bind_eq_ok] at hr
  obtain ⟨v0, hcl, ⟨v1, h1⟩, hg, m, _, hr⟩ := hr
  cases hr
  have hd := (clear_frame v v0 hcl).1
  rcases cond_reallocate_frame _ h v0 v1 _ h1 hg with ⟨h3, h4⟩ | h3
  · exact Or.inl ⟨by rw [← hd]; exact h3, h4⟩
  · exact Or.inr h3

theorem op_run_frame (h : Heap) (v v2 : Vector α) (op : Op α) (h2 : Heap)
    (hr : op.run h v = .ok (v2, h2)) : AllocStep h v v2 h2 := by
  cases op with
  | push_back x => exact push_back_frame h v v2 x h2 hr
  | emplace_back x =>
    simp only [Op.run, emplace_back, bind_eq_ok] at hr
    obtain ⟨⟨w, k, y⟩, ⟨⟨v1, h1⟩, hg, m, _, r, _, hw⟩, hr⟩ := hr
    cases hr
    cases hw
    exact cond_reallocate_frame _ h v v1 _ h1 hg
  | pop_back =>
    simp only [Op.run, bind_eq_ok] at hr
    obtain ⟨w, hw, hr⟩ := hr
    cases hr
    exact Or.inl ⟨pop_back_frame _ _ hw, rfl⟩
  | insert pos x =>
    simp only [Op.run, bind_eq_ok] at hr
    obtain ⟨⟨w, k, it⟩, hw, hr⟩ := hr
    cases hr
    exact insert_frame _ _ _ _ _ _ _ hw
  | insert_copy pos x =>
    simp only [Op.run, insert_copy, bind_eq_ok] at hr
    obtain ⟨⟨w, k, it⟩, hw, hr⟩ := hr
    cases hr
    exact insert_n_frame _ _ _ _ _ _ _ _ hw
  | insert_n pos count x =>
    simp only [Op.run, bind_eq_ok] at hr
    obtain ⟨⟨w, k, it⟩, hw, hr⟩ := hr
    cases hr
    exact insert_n_frame _ _ _ _ _ _ _ _ hw
  | insert_range pos src =>
    simp only [Op.run, bind_eq_ok] at hr
    obtain ⟨⟨w, k, it⟩, hw, hr⟩ := hr
    cases hr
    exact insert_range_frame _ _ _ _ _ _ _ hw
  | insert_ilist pos ilist =>
    simp only [Op.run, insert_ilist, bind_eq_ok] at hr
    obtain ⟨⟨w, k, it⟩, hw, hr⟩ := hr
    cases hr
    exact insert_range_frame _ _ _ _ _ _ _ hw
  | emplace pos x =>
    simp only [Op.run, emplace_eq_insert, bind_eq_ok] at hr
    obtain ⟨⟨w, k, it⟩, hw, hr⟩ := hr
    cases hr
    exact insert_frame _ _ _ _ _ _ _ hw
  | erase pos =>
    simp only [Op.run, erase, bind_eq_ok] at hr
    obtain ⟨⟨w, it⟩, hw, hr⟩ := hr
    cases hr
    exact Or.inl ⟨erase_range_frame _ _ _ _ _ hw, rfl⟩
  | erase_range first last =>
    simp only [Op.run, bind_eq_ok] at hr
    obtain ⟨⟨w, it⟩, hw, hr⟩ := hr
    cases hr
    exact Or.inl ⟨erase_range_frame _ _ _ _ _ hw, rfl⟩
  | resize count x => exact resize_frame h v v2 count x h2 hr
  | reserve n => exact cond_reallocate_frame _ h v v2 n h2 hr
  | shrink_to_fit => exact cond_reallocate_frame _ h v v2 _ h2 hr
  | assign count x => exact assign_frame h v v2 count x h2 hr
  | assign_range src => exact assign_range_frame h v v2 src h2 hr
  | assign_ilist init => exact assign_range_frame h v v2 init h2 hr
  | clear =>
    simp only [Op.run, bind_eq_ok] at hr
    obtain ⟨w, hw, hr⟩ := hr
    cases hr
    exact Or.inl ⟨(clear_frame _ _ hw).1, rfl⟩

/-! ## Reads, writes, comparison and copies -/

theorem front_spec {v : Vector α} {xs : List α} (hv : Models v xs) (hne : 0 < v.size_) :
    ∃ y, xs[0]? = some y ∧ front v = .ok y := by
  obtain ⟨hx, hle, hs, _⟩ := hv
  obtain ⟨y, hy⟩ : ∃ y, xs[0]? = some y := ⟨xs[0], List.getElem?_eq_getElem (by omega)⟩
  refine ⟨y, hy, ?_⟩
  have he : empty v = false := by simp [empty]; omega
  simp only [front, he]
  exact hs.load_ok (i := 0) (by omega) hy

theorem deref_spec {v : Vector α} {xs : List α} (hv : Models v xs) (i : Nat)
    (hi : i < xs.length) : deref v ((begin_ v).add i) = .ok xs[i] := by
  have hs := subscript_spec hv i hi
  simp only [deref, begin_, Iter.add, if_true, Nat.zero_add]
  exact hs

theorem subscript_assign_spec {v : Vector α} {xs : List α} (hv : Models v xs) (i : Nat)
    (hi : i < v.size_) (x : α) :
    ∃ v2, subscript_assign v i x = .ok v2 ∧ Models v2 (xs.set i x) ∧
      v2.data_ = v.data_ ∧ v2.size_ = v.size_ ∧ v2.capacity_ = v.capacity_ := by
  have hslot := hv.slot i (by have := hv.2.1; omega)
  obtain ⟨hx, hle, hs, hd⟩ := hv
  have hxi : xs[i]? = some xs[i] := List.getElem?_eq_getElem (by omega)
  rw [hxi] at hslot
  refine ⟨{ v with slots := v.slots.set i (some x) }, ?_, ⟨?_, hle, ?_, hd⟩, rfl, rfl, rfl⟩
  · simp only [subscript_assign, hslot]
  · simp [hx]
  · exact (hs.set i (some x)).congr (fun k _ => by
      simp only [Function.update_apply, List.getElem?_set]
      split_ifs <;> first
        | rfl
        | (exfalso; omega))

theorem mut_run_spec (h : Heap) {v : Vector α} {xs : List α} (hv : Models v xs)
    (m : Mut α) (hp : m.pre v) :
    (∃ v2 h2 ys, m.run h v = .ok (v2, h2) ∧ Models v2 ys) ∨
      m.run h v = .error (.thrown .runtime_error v) := by
  cases m with
  | call op => exact op_run_spec h hv op hp
  | write pos value =>
    obtain ⟨v2, hr, hm, _⟩ := subscript_assign_spec hv pos hp value
    exact Or.inl ⟨v2, h, _, by simp only [Mut.run, hr, ok_bind], hm⟩

theorem mut_run_frame (h : Heap) (v v2 : Vector α) (m : Mut α) (h2 : Heap)
    (hr : m.run h v = .ok (v2, h2)) : AllocStep h v v2 h2 := by
  cases m with
  | call op => exact op_run_frame h v v2 op h2 hr
  | write pos value =>
    simp only [Mut.run, bind_eq_ok] at hr
    obtain ⟨w, hw, hr⟩ := hr
    cases hr
    unfold subscript_assign at hw
    split at hw
    · cases hw
      exact Or.inl ⟨rfl, rfl⟩
    · cases hw

theorem equal_loop_same [DecidableEq α] {m1 m2 : Slots α} {c1 c2 : Nat} {xs : List α}
    (h1 : Holds m1 c1 (fun j => xs[j]?)) (h2 : Holds m2 c2 (fun j => xs[j]?))
    (hc1 : xs.length ≤ c1) (hc2 : xs.length ≤ c2) :
    ∀ n i, i + n ≤ xs.length → equal_loop m1 m2 n i = .ok true := by
  intro n
  induction n with
  | zero => intro i _; rfl
  | succ n ih =>
    intro i hi
    have hl1 : load m1 i = (.ok xs[i] : Except (Err α) α) :=
      h1.load_ok (i := i) (by omega) (List.getElem?_eq_getElem (by omega))
    have hl2 : load m2 i = (.ok xs[i] : Except (Err α) α) :=
      h2.load_ok (i := i) (by omega) (List.getElem?_eq_getElem (by omega))
    simp only [equal_loop, hl1, hl2, ok_bind, if_true]
    exact ih (i + 1) (by omega)

theorem operator_eq_same [DecidableEq α] {a b : Vector α} {xs : List α}
    (ha : Models a xs) (hb : Models b xs) : operator_eq a b = .ok true := by
  have hsz : size a = size b := by
    show a.size_ = b.size_
    rw [← ha.1, ← hb.1]
  simp only [operator_eq, hsz, if_true]
  have := equal_loop_same ha.2.2.1 hb.2.2.1 (by have := ha.1; have := ha.2.1; omega)
    (by have := hb.1; have := hb.2.1; omega) a.size_ 0 (by rw [ha.1]; omega)
  exact this

theorem ctor_copy_frame (h : Heap) (other v : Vector α) (h2 : Heap)
    (hr : ctor_copy h other = .ok (v, h2)) :
    (v.data_ = none ∧ h2 = h) ∨ (v.data_ = some h.news ∧ h2.news = h.news + 1) := by
  simp only [ctor_copy, bind_eq_ok] at hr
  obtain ⟨src, _, hr⟩ := hr
  exact assign_range_frame h Vector.new v src h2 hr

theorem assign_reuse (h : Heap) {v : Vector α} {xs : List α} (hv : Models v xs)
    (c : Nat) (x : α) (hc : c ≤ v.capacity_) :
    ∃ v2, assign h v c x = .ok (v2, h) ∧ v2.data_ = v.data_ := by
  obtain ⟨v2, h2, hr, _, _, hcap⟩ := assign_spec h hv c x
  rw [if_pos hc] at hcap
  have hfr := hr
  simp only [assign, bind_eq_ok] at hfr
  obtain ⟨v0, hcl, ⟨v1, h1⟩, hg, m, _, hfr⟩ := hfr
  cases hfr
  obtain ⟨hd, hc0⟩ := clear_frame v v0 hcl
  rw [if_neg (by omega)] at hg
  cases hg
  exact ⟨_, hr, hd⟩

theorem sampleFull_owned : Owned sampleHeap sampleFull := by
  intro p hp
  cases hp
  decide

theorem install_apart (mem : Nat → Slots α) (a b : Vector α) (hab : Apart a b) (p : Nat)
    (hp : b.data_ = some p) : install (install mem b) a p = b.slots := by
  have hb : install mem b p = b.slots := by
    simp only [install, hp, Function.update_same]
  cases ha : a.data_ with
  | none => simp only [install, ha, hp, Function.update_same]
  | some q =>
    have hne : p ≠ q := by
      intro hpq
      subst hpq
      exact hab p ha hp
    simp only [install, ha, hp, Function.update_same, Function.update_noteq hne]

/-! ## Capacity and storage across a call -/

theorem reallocate_capacity (h : Heap) (v v2 : Vector α) (n : Nat) (h2 : Heap)
    (hr : reallocate h v n = .ok (v2, h2)) :
    v2.data_ = some h.news ∧ v2.capacity_ = n ∧ v2.size_ = min v.size_ n := by
  simp only [reallocate, operator_new, bind_eq_ok] at hr
  obtain ⟨m, _, r, _, hr⟩ := hr
  cases hr
  exact ⟨rfl, rfl, rfl⟩

theorem cond_reallocate_capacity (c : Prop) [Decidable c] (h : Heap) (v v1 : Vector α)
    (n : Nat) (h1 : Heap)
    (hg : (if c then reallocate h v n else (.ok (v, h) : Except (Err α) (Vector α × Heap))) =
      .ok (v1, h1)) :
    (v1 = v ∧ h1 = h) ∨ (c ∧ v1.data_ = some h.news ∧ v1.capacity_ = n) := by
  by_cases hc : c
  · rw [if_pos hc] at hg
    obtain ⟨h2, h3, _⟩ := reallocate_capacity h v v1 n h1 hg
    exact Or.inr ⟨hc, h2, h3⟩
  · rw [if_neg hc] at hg
    cases hg
    exact Or.inl ⟨rfl, rfl⟩

theorem capStep_of_cond (c : Prop) [Decidable c] (h : Heap) (v v1 : Vector α)
    (n : Nat) (h1 : Heap) (hn : c → 0 < n)
    (hg : (if c then reallocate h v n else (.ok (v, h) : Except (Err α) (Vector α × Heap))) =
      .ok (v1, h1)) : CapStep v v1 := by
  rcases cond_reallocate_capacity c h v v1 n h1 hg with ⟨h2, _⟩ | ⟨hc, h2, h3⟩
  · rw [h2]
    exact Or.inl ⟨rfl, rfl⟩
  · exact Or.inr ⟨by rw [h2]; simp, by rw [h3]; exact hn hc⟩

theorem grow_positive (v : Vector α) : 0 < (if v.capacity_ = 0 then 1 else v.capacity_ * 2) := by
  split_ifs <;> omega

theorem op_run_capStep (h : Heap) (v v2 : Vector α) (op : Op α) (h2 : Heap)
    (hns : op ≠ Op.shrink_to_fit) (hr : op.run h v = .ok (v2, h2)) : CapStep v v2 := by
  cases op with
  | push_back x =>
    simp only [Op.run, push_back, bind_eq_ok] at hr
    obtain ⟨⟨v1, h1⟩, hg, m, _, hr⟩ := hr
    cases hr
    exact capStep_of_cond _ h v v1 _ h1 (fun _ => grow_positive v) hg
  | emplace_back x =>
    simp only [Op.run, emplace_back, bind_eq_ok] at hr
    obtain ⟨⟨w, k, y⟩, ⟨⟨v1, h1⟩, hg, m, _, r, _, hw⟩, hr⟩ := hr
    cases hr
    cases hw
    exact capStep_of_cond _ h v v1 _ h1 (fun _ => grow_positive v) hg
  | pop_back =>
    simp only [Op.run, bind_eq_ok] at hr
    obtain ⟨w, hw, hr⟩ := hr
    cases hr
    unfold pop_back at hw
    split at hw
    · cases hw
    · simp only [bind_eq_ok] at hw
      obtain ⟨m, _, hw⟩ := hw
      cases hw
      exact Or.inl ⟨rfl, rfl⟩
  | insert pos x =>
    simp only [Op.run, insert, bind_eq_ok] at hr
    obtain ⟨⟨w, k, it⟩, ⟨idx, _, ⟨v1, h1⟩, hg, m, _, m2, _, hw⟩, hr⟩ := hr
    cases hr
    cases hw
    exact capStep_of_cond _ h v v1 _ h1 (fun _ => grow_positive v) hg
  | emplace pos x =>
    simp only [Op.run, emplace, bind_eq_ok] at hr
    obtain ⟨⟨w, k, it⟩, ⟨idx, _, ⟨v1, h1⟩, hg, m, _, m2, _, hw⟩, hr⟩ := hr
    cases hr
    cases hw
    exact capStep_of_cond _ h v v1 _ h1 (fun _ => grow_positive v) hg
  | insert_copy pos x =>
    simp only [Op.run, insert_copy, bind_eq_ok] at hr
    obtain ⟨⟨w, k, it⟩, hw, hr⟩ := hr
    cases hr
    unfold insert_n at hw
    split at hw
    · cases hw
      exact Or.inl ⟨rfl, rfl⟩
    · simp only [bind_eq_ok] at hw
      obtain ⟨idx, _, ⟨v1, h1⟩, hg, m, _, m2, _, hw⟩ := hw
      cases hw
      exact capStep_of_cond _ h v v1 _ h1 (fun _ => by omega) hg
  | insert_n pos count x =>
    simp only [Op.run, bind_eq_ok] at hr
    obtain ⟨⟨w, k, it⟩, hw, hr⟩ := hr
    cases hr
    unfold insert_n at hw
    split at hw
    · cases hw
      exact Or.inl ⟨rfl, rfl⟩
    · simp only [bind_eq_ok] at hw
      obtain ⟨idx, _, ⟨v1, h1⟩, hg, m, _, m2, _, hw⟩ := hw
      cases hw
      exact capStep_of_cond _ h v v1 _ h1 (fun _ => by omega) hg
  | insert_range pos src =>
    simp only [Op.run, bind_eq_ok] at hr
    obtain ⟨⟨w, k, it⟩, hw, hr⟩ := hr
    cases hr
    simp only [insert_range] at hw
    split at hw
    · cases hw
      exact Or.inl ⟨rfl, rfl⟩
    · simp only [bind_eq_ok] at hw
      obtain ⟨idx, _, ⟨v1, h1⟩, hg, m, _, m2, _, hw⟩ := hw
      cases hw
      exact capStep_of_cond _ h v v1 _ h1 (fun _ => by omega) hg
  | insert_ilist pos ilist =>
    simp only [Op.run, insert_ilist, bind_eq_ok] at hr
    obtain ⟨⟨w, k, it⟩, hw, hr⟩ := hr
    cases hr
    simp only [insert_range] at hw
    split at hw
    · cases hw
      exact Or.inl ⟨rfl, rfl⟩
    · simp only [bind_eq_ok] at hw
      obtain ⟨idx, _, ⟨v1, h1⟩, hg, m, _, m2, _, hw⟩ := hw
      cases hw
      exact capStep_of_cond _ h v v1 _ h1 (fun _ => by omega) hg
  | erase pos =>
    simp only [Op.run, erase, erase_range, bind_eq_ok] at hr
    obtain ⟨⟨w, it⟩, ⟨s, _, e, _, hw⟩, hr⟩ := hr
    cases hr
    split at hw
    · cases hw
    · split at hw
      · cases hw
        exact Or.inl ⟨rfl, rfl⟩
      · simp only [bind_eq_ok] at hw
        obtain ⟨m, _, m2, _, hw⟩ := hw
        cases hw
        exact Or.inl ⟨rfl, rfl⟩
  | erase_range first last =>
    simp only [Op.run, erase_range, bind_eq_ok] at hr
    obtain ⟨⟨w, it⟩, ⟨s, _, e, _, hw⟩, hr⟩ := hr
    cases hr
    split at hw
    · cases hw
    · split at hw
      · cases hw
        exact Or.inl ⟨rfl, rfl⟩
      · simp only [bind_eq_ok] at hw
        obtain ⟨m, _, m2, _, hw⟩ := hw
        cases hw
        exact Or.inl ⟨rfl, rfl⟩
  | resize count x =>
    simp only [Op.run, resize, bind_eq_ok] at hr
    obtain ⟨⟨v1, h1⟩, hg, m, _, hr⟩ := hr
    cases hr
    exact capStep_of_cond _ h v v1 _ h1 (fun hc => by omega) hg
  | reserve n =>
    exact capStep_of_cond _ h v v2 n h2 (fun hc => by omega) hr
  | shrink_to_fit => exact absurd rfl hns
  | assign count x =>
    simp only [Op.run, assign, bind_eq_ok] at hr
    obtain ⟨v0, hcl, ⟨v1, h1⟩, hg, m, _, hr⟩ := hr
    cases hr
    obtain ⟨hd, hc⟩ := clear_frame v v0 hcl
    rcases capStep_of_cond _ h v0 v1 _ h1 (fun hc => by omega) hg with ⟨h3, h4⟩ | h3
    · exact Or.inl ⟨by rw [← hd]; exact h3, by rw [← hc]; exact h4⟩
    · exact Or.inr h3
  | assign_range src =>
    simp only [Op.run, assign_range, bind_eq_ok] at hr
    obtain ⟨v0, hcl, ⟨v1, h1⟩, hg, m, _, hr⟩ := hr
    cases hr
    obtain ⟨hd, hc⟩ := clear_frame v v0 hcl
    rcases capStep_of_cond _ h v0 v1 _ h1 (fun hc => by omega) hg with ⟨h3, h4⟩ | h3
    · exact Or.inl ⟨by rw [← hd]; exact h3, by rw [← hc]; exact h4⟩
    · exact Or.inr h3
  | assign_ilist init =>
    simp only [Op.run, assign_ilist, assign_range, bind_eq_ok] at hr
    obtain ⟨v0, hcl, ⟨v1, h1⟩, hg, m, _, hr⟩ := hr
    cases hr
    obtain ⟨hd, hc⟩ := clear_frame v v0 hcl
    rcases capStep_of_cond _ h v0 v1 _ h1 (fun hc => by omega) hg with ⟨h3, h4⟩ | h3
    · exact Or.inl ⟨by rw [← hd]; exact h3, by rw [← hc]; exact h4⟩
    · exact Or.inr h3
  | clear =>
    simp only [Op.run, bind_eq_ok] at hr
    obtain ⟨w, hw, hr⟩ := hr
    cases hr
    obtain ⟨hd, hc⟩ := clear_frame _ _ hw
    exact Or.inl ⟨hd, hc⟩

theorem nullIff_of_capStep {v v2 : Vector α} (hs : CapStep v v2) (hv : NullIff v) :
    NullIff v2 := by
  rcases hs with ⟨h1, h2⟩ | ⟨h1, h2⟩
  · simp only [NullIff, data, capacity] at hv ⊢
    rw [h1, h2]
    exact hv
  · simp only [NullIff, data, capacity]
    constructor
    · intro hn
      exact absurd hn h1
    · intro hc
      omega

theorem shrink_to_fit_nullIff (h : Heap) (v v2 : Vector α) (h2 : Heap)
    (hr : shrink_to_fit h v = .ok (v2, h2)) (hpos : 0 < v.size_) (hv : NullIff v) :
    NullIff v2 := by
  exact nullIff_of_capStep (capStep_of_cond _ h v v2 _ h2 (fun _ => hpos) hr) hv

theorem op_run_nullIff (h : Heap) (v v2 : Vector α) (op : Op α) (h2 : Heap)
    (hs : op = Op.shrink_to_fit → 0 < size v ∨ capacity v = 0)
    (hr : op.run h v = .ok (v2, h2)) (hv : NullIff v) : NullIff v2 := by
  by_cases hop : op = Op.shrink_to_fit
  · subst hop
    have hr2 : shrink_to_fit h v = .ok (v2, h2) := hr
    refine nullIff_of_capStep (capStep_of_cond _ h v v2 _ h2 (fun hc => ?_) hr2) hv
    rcases hs rfl with h3 | h3
    · exact h3
    · simp only [capacity] at h3
      omega
  · exact nullIff_of_capStep (op_run_capStep h v v2 op h2 hop hr) hv

theorem nullIff_new : NullIff (Vector.new : Vector α) :=
  ⟨fun _ => rfl, fun _ => rfl⟩

theorem ctor_nullIff (h : Heap) (op : Op α) (v : Vector α) (h2 : Heap)
    (hns : op ≠ Op.shrink_to_fit) (hr : op.run h Vector.new = .ok (v, h2)) : NullIff v :=
  nullIff_of_capStep (op_run_capStep h Vector.new v op h2 hns hr) nullIff_new

theorem ctor_copy_nullIff (h : Heap) (other v : Vector α) (h2 : Heap)
    (hr : ctor_copy h other = .ok (v, h2)) : NullIff v := by
  simp only [ctor_copy, bind_eq_ok] at hr
  obtain ⟨src, _, hr⟩ := hr
  exact ctor_nullIff h (.assign_range src) v h2 (by intro hc; cases hc) hr

theorem copy_assign_nullIff (h : Heap) (v other v2 : Vector α) (h2 : Heap)
    (hr : copy_assign h v other = .ok (v2, h2)) (hv : NullIff v) : NullIff v2 := by
  simp only [copy_assign, bind_eq_ok] at hr
  obtain ⟨src, _, hr⟩ := hr
  exact nullIff_of_capStep
    (op_run_capStep h v v2 (.assign_range src) h2 (by intro hc; cases hc) hr) hv

theorem move_assign_nullIff (h : Heap) (v other v2 o2 : Vector α) (h2 : Heap)
    (hr : move_assign h v other = .ok (v2, o2, h2)) (ho : NullIff other) :
    NullIff v2 ∧ NullIff o2 := by
  simp only [move_assign, bind_eq_ok] at hr
  obtain ⟨⟨w, k⟩, _, hr⟩ := hr
  cases hr
  exact ⟨ho, nullIff_new⟩

theorem op_run_thrown (h : Heap) {v : Vector α} (hv : Reachable v) (op : Op α) (hp : op.pre v)
    (e : Exn) (v2 : Vector α) (hr : op.run h v = .error (.thrown e v2)) : v2 = v := by
  obtain ⟨xs, hm⟩ := reachable_models hv
  rcases op_run_spec h hm op hp with ⟨w, k, ys, hok, _⟩ | herr
  · rw [hok] at hr
    cases hr
  · rw [herr] at hr
    cases hr
    rfl

theorem migrate_t_done (T : Elem α) (xs : List α) (cap ncap : Nat) (hx : xs.length ≤ cap) :
    ∀ (n i : Nat) (fresh old : Slots α) (w : World),
      i + n ≤ xs.length → i + n ≤ ncap →
      Holds fresh ncap (fun j => if j < i then xs[j]? else none) →
      Holds old cap (fun j => if j < i then (xs[j]?).map T.moved else xs[j]?) →
      (∀ j, j < n → T.throws (w.calls + j) = false) →
      ∃ fresh2 old2, migrate_t T n i fresh old w =
          .done (fresh2, old2, { w with calls := w.calls + n,
                                        constructed := w.constructed + n }) ∧
        Holds fresh2 ncap (fun j => if j < i + n then xs[j]? else none) ∧
        Holds old2 cap (fun j => if j < i + n then (xs[j]?).map T.moved else xs[j]?) := by
  intro n
  induction n with
  | zero =>
    intro i fresh old w _ _ hf ho _
    exact ⟨fresh, old, rfl, hf, ho⟩
  | succ n ih =>
    intro i fresh old w h1 h2 hf ho ht
    have hxi : xs[i]? = some xs[i] := List.getElem?_eq_getElem (by omega)
    have hload : load old i = .ok xs[i] :=
      ho.load_ok (i := i) (by omega) (by simp only [lt_irrefl, if_false]; exact hxi)
    obtain ⟨fresh1, hc, hf1⟩ := hf.construct_ok (i := i) (by omega) (by simp) xs[i]
    have ht0 : T.throws w.calls = false := ht 0 (by omega)
    obtain ⟨fresh2, old2, hr, hf2, ho2⟩ := ih (i + 1) fresh1
      (old.set i (some (T.moved xs[i])))
      { w with calls := w.calls + 1, constructed := w.constructed + 1 }
      (by omega) (by omega)
      (hf1.congr (fun j _ => by
        simp only [Function.update_apply]
        split_ifs <;> first | rfl | (exfalso; omega) | (subst_vars; exact hxi.symm)))
      ((ho.set i (some (T.moved xs[i]))).congr (fun j _ => by
        simp only [Function.update_apply]
        split_ifs <;> first | rfl | (exfalso; omega) | (subst_vars; rw [hxi]; rfl)))
      (fun j hj => by
        have := ht (j + 1) (by omega)
        rw [← this]
        congr 1
        show w.calls + 1 + j = w.calls + (j + 1)
        omega)
    refine ⟨fresh2, old2, ?_, ?_, ?_⟩
    · simp only [migrate_t, hload, hc, ht0, hr]
      simp only [Bool.false_eq_true, if_false, Outcome.done.injEq, Prod.mk.injEq,
        World.mk.injEq, true_and]
      exact ⟨by omega, by omega, trivial⟩
    · exact hf2.congr (fun j _ => by
        split_ifs <;> first | rfl | (exfalso; omega))
    · exact ho2.congr (fun j _ => by
        split_ifs <;> first | rfl | (exfalso; omega))

theorem migrate_t_threw (T : Elem α) (xs : List α) (cap ncap : Nat) (hx : xs.length ≤ cap) :
    ∀ (n i k : Nat) (fresh old : Slots α) (w : World),
      i + n ≤ xs.length → i + n ≤ ncap → k < n →
      Holds fresh ncap (fun j => if j < i then xs[j]? else none) →
      Holds old cap (fun j => if j < i then (xs[j]?).map T.moved else xs[j]?) →
      (∀ j, j < k → T.throws (w.calls + j) = false) → T.throws (w.calls + k) = true →
      ∃ fresh2 old2, migrate_t T n i fresh old w =
          .threw (fresh2, old2, { w with calls := w.calls + k + 1,
                                         constructed := w.constructed + k }) ∧
        Holds old2 cap (fun j => if j < i + k then (xs[j]?).map T.moved else xs[j]?) := by
  intro n
  induction n with
  | zero =>
    intro i k fresh old w _ _ hk
    omega
  | succ n ih =>
    intro i k fresh old w h1 h2 hk hf ho ht htk
    have hxi : xs[i]? = some xs[i] := List.getElem?_eq_getElem (by omega)
    have hload : load old i = .ok xs[i] :=
      ho.load_ok (i := i) (by omega) (by simp only [lt_irrefl, if_false]; exact hxi)
    obtain ⟨fresh1, hc, hf1⟩ := hf.construct_ok (i := i) (by omega) (by simp) xs[i]
    cases k with
    | zero =>
      have ht0 : T.throws w.calls = true := htk
      refine ⟨fresh, old, ?_, ho⟩
      simp only [migrate_t, hload, hc, ht0, if_true]
      rfl
    | succ k =>
      have ht0 : T.throws w.calls = false := ht 0 (by omega)
      obtain ⟨fresh2, old2, hr, ho2⟩ := ih (i + 1) k fresh1
        (old.set i (some (T.moved xs[i])))
        { w with calls := w.calls + 1, constructed := w.constructed + 1 }
        (by omega) (by omega) (by omega)
        (hf1.congr (fun j _ => by
          simp only [Function.update_apply]
          split_ifs <;> first | rfl | (exfalso; omega) | (subst_vars; exact hxi.symm)))
        ((ho.set i (some (T.moved xs[i]))).congr (fun j _ => by
          simp only [Function.update_apply]
          split_ifs <;> first | rfl | (exfalso; omega) | (subst_vars; rw [hxi]; rfl)))
        (fun j hj => by
          have := ht (j + 1) (by omega)
          rw [← this]
          congr 1
          show w.calls + 1 + j = w.calls + (j + 1)
          omega)
        (by
          rw [← htk]
          congr 1
          show w.calls + 1 + k = w.calls + (k + 1)
          omega)
      refine ⟨fresh2, old2, ?_, ?_⟩
      · simp only [migrate_t, hload, hc, ht0, hr]
        simp only [Bool.false_eq_true, if_false, Outcome.threw.injEq, Prod.mk.injEq,
          World.mk.injEq, true_and]
        exact ⟨by omega, by omega, trivial⟩
      · exact ho2.congr (fun j _ => by
          split_ifs <;> first | rfl | (exfalso; omega))

theorem getElem?_moved_front (f : α → α) (xs : List α) (k j : Nat) (hk : k ≤ xs.length) :
    ((xs.take k).map f ++ xs.drop k)[j]? = if j < k then (xs[j]?).map f else xs[j]? := by
  rw [List.getElem?_append, List.length_map, List.length_take, Nat.min_eq_left hk]
  split_ifs with h1
  · rw [List.getElem?_map, List.getElem?_take_of_lt h1]
  · rw [List.getElem?_drop]
    congr 1
    omega

theorem reallocate_t_done (T : Elem α) (w : World) {v : Vector α} {xs : List α}
    (hv : Models v xs) (n : Nat) (hn : v.size_ ≤ n)
    (ht : ∀ j, j < v.size_ → T.throws (w.calls + j) = false) :
    ∃ v2 w2, reallocate_t T w v n = .done (v2, w2) ∧ Models v2 xs ∧ v2.capacity_ = n ∧
      v2.size_ = v.size_ ∧ v2.data_ = some w.heap.news ∧
      w2.heap.news = w.heap.news + 1 ∧ w2.calls = w.calls + v.size_ ∧
      w2.constructed = w.constructed + v.size_ ∧ w2.destroyed = w.destroyed + v.size_ := by
  obtain ⟨hx, hle, hs, hd⟩ := hv
  obtain ⟨fresh2, old2, hr, hf2, ho2⟩ := migrate_t_done T xs v.capacity_ n (by omega)
    v.size_ 0 (List.replicate n none) v.slots
    { heap := { news := w.heap.news + 1, deletes := w.heap.deletes }, calls := w.calls,
      constructed := w.constructed, destroyed := w.destroyed }
    (by omega) (by omega)
    ((Holds.replicate n).congr (fun j _ => by simp))
    (hs.congr (fun j _ => by simp)) ht
  have hm : Models { v with slots := old2 } (xs.map T.moved) := by
    refine ⟨by simp [hx], hle, ho2.congr (fun j _ => ?_), hd⟩
    rw [List.getElem?_map]
    split_ifs with h1
    · rfl
    · rw [List.getElem?_eq_none (by omega)]
      rfl
  obtain ⟨v1, h1, hde, hnews⟩ := deallocate_ok
    ({ news := w.heap.news + 1, deletes := w.heap.deletes } : Heap) hm
  have hsz : (if v.data_.isSome then v.size_ else 0) = v.size_ := by
    cases hdd : v.data_ with
    | none =>
      have := hd hdd
      simp
      omega
    | some a => simp
  refine ⟨{ v1 with data_ := some w.heap.news, slots := fresh2, size_ := v.size_,
                    capacity_ := n },
    { heap := h1, calls := w.calls + v.size_, constructed := w.constructed + v.size_,
      destroyed := w.destroyed + (if v.data_.isSome then v.size_ else 0) },
    ?_, ⟨hx, hn, ?_, ?_⟩, rfl, rfl, rfl, ?_, ?_, ?_, ?_⟩
  · simp only [reallocate_t, operator_new, Nat.min_eq_left hn, zero_add] at hr ⊢
    simp only [hr, deallocate_t, hde]
  · exact hf2.congr (fun j _ => by
      split_ifs <;> first | rfl | (symm; exact List.getElem?_eq_none (by omega)))
  · intro hnone
    cases hnone
  · exact hnews
  · rfl
  · rfl
  · show w.destroyed + (if v.data_.isSome then v.size_ else 0) = w.destroyed + v.size_
    rw [hsz]

theorem reallocate_t_threw (T : Elem α) (w : World) {v : Vector α} {xs : List α}
    (hv : Models v xs) (n k : Nat) (hn : v.size_ ≤ n) (hk : k < v.size_)
    (ht : ∀ j, j < k → T.throws (w.calls + j) = false)
    (htk : T.throws (w.calls + k) = true) :
    ∃ old2, reallocate_t T w v n =
        .threw ({ v with slots := old2 },
          { heap := { news := w.heap.news + 1, deletes := w.heap.deletes + 1 },
            calls := w.calls + k + 1, constructed := w.constructed + k,
            destroyed := w.destroyed }) ∧
      Models { v with slots := old2 } ((xs.take k).map T.moved ++ xs.drop k) := by
  obtain ⟨hx, hle, hs, hd⟩ := hv
  obtain ⟨fresh2, old2, hr, ho2⟩ := migrate_t_threw T xs v.capacity_ n (by omega)
    v.size_ 0 k (List.replicate n none) v.slots
    { heap := { news := w.heap.news + 1, deletes := w.heap.deletes }, calls := w.calls,
      constructed := w.constructed, destroyed := w.destroyed }
    (by omega) (by omega) hk
    ((Holds.replicate n).congr (fun j _ => by simp))
    (hs.congr (fun j _ => by simp)) ht htk
  refine ⟨old2, ?_, ⟨?_, hle, ho2.congr (fun j _ => ?_), hd⟩⟩
  · simp only [reallocate_t, operator_new, Nat.min_eq_left hn, zero_add] at hr ⊢
    simp only [hr, operator_delete]
  · simp only [List.length_append, List.length_map, List.length_take, List.length_drop]
    show min k xs.length + (xs.length - k) = v.size_
    omega
  · rw [getElem?_moved_front T.moved xs k j (by omega), zero_add]

theorem dtor_t_done (w : World) {v : Vector α} {xs : List α} (hv : Models v xs) :
    ∃ v2 w2, dtor_t w v = .done (v2, w2) ∧ w2.constructed = w.constructed ∧
      w2.destroyed = w.destroyed + v.size_ ∧ w2.calls = w.calls := by
  obtain ⟨v1, h1, hde, _⟩ := deallocate_ok w.heap hv
  have hsz : (if v.data_.isSome then v.size_ else 0) = v.size_ := by
    cases hdd : v.data_ with
    | none =>
      have h2 := hv.2.2.2 hdd
      have h3 := hv.2.1
      simp
      omega
    | some a => simp
  refine ⟨v1, { heap := h1, calls := w.calls, constructed := w.constructed,
                destroyed := w.destroyed + (if v.data_.isSome then v.size_ else 0) },
    by simp only [dtor_t, deallocate_t, hde], rfl, ?_, rfl⟩
  show w.destroyed + (if v.data_.isSome then v.size_ else 0) = w.destroyed + v.size_
  rw [hsz]

theorem push_back_pow (h : Heap) {v : Vector α} {xs : List α} (hv : Models v xs) (x : α)
    (hinv : v.capacity_ = 0 ∨ ∃ k, v.capacity_ = 2 ^ k ∧ v.capacity_ < 2 * v.size_) :
    ∃ v2 h2, push_back h v x = .ok (v2, h2) ∧ Models v2 (xs ++ [x]) ∧
      ∃ k, v2.capacity_ = 2 ^ k ∧ v2.capacity_ < 2 * v2.size_ := by
  obtain ⟨v2, h2, hp, hm, hcap, _, _⟩ := push_back_spec h hv x
  refine ⟨v2, h2, hp, hm, ?_⟩
  have hsz : v2.size_ = v.size_ + 1 := by
    rw [← hm.1, ← hv.1]
    simp
  have hle := hv.2.1
  rcases hinv with h0 | ⟨k, hk, hlt⟩
  · have hs0 : v.size_ = 0 := by omega
    refine ⟨0, ?_, ?_⟩
    · rw [hcap, if_pos (by omega), h0]
      rfl
    · rw [hcap, if_pos (by omega), h0, hsz]
      show 1 < 2 * (v.size_ + 1)
      omega
  · by_cases hfull : v.size_ = v.capacity_
    · have hpos : 0 < 2 ^ k := Nat.pow_pos (by omega)
      refine ⟨k + 1, ?_, ?_⟩
      · rw [hcap, if_pos hfull, hk, Nat.pow_succ]
        omega
      · rw [hcap, if_pos hfull, hsz]
        omega
    · refine ⟨k, ?_, ?_⟩
      · rw [hcap, if_neg hfull, hk]
      · rw [hcap, if_neg hfull, hsz]
        omega

theorem push_all_pow (vals : List α) :
    ∀ (h : Heap) (v : Vector α) (xs : List α), Models v xs →
      (∃ k, v.capacity_ = 2 ^ k ∧ v.capacity_ < 2 * v.size_) →
      ∃ v2 h2, push_all h v vals = .ok (v2, h2) ∧ Models v2 (xs ++ vals) ∧
        ∃ k, v2.capacity_ = 2 ^ k ∧ v2.capacity_ < 2 * v2.size_ := by
  induction vals with
  | nil =>
    intro h v xs hv hinv
    exact ⟨v, h, rfl, by simpa using hv, hinv⟩
  | cons x rest ih =>
    intro h v xs hv hinv
    obtain ⟨v1, h1, hp, hm1, hinv1⟩ := push_back_pow h hv x (Or.inr hinv)
    obtain ⟨v2, h2, hq, hm2, hinv2⟩ := ih h1 v1 (xs ++ [x]) hm1 hinv1
    exact ⟨v2, h2, by simp only [push_all, hp, ok_bind, hq], by simpa using hm2, hinv2⟩


/-! ## Sizes of 64 bits and reference arguments -/

theorem operator_new_bytes_eq (w : Nat) (h : Heap) (n : Nat) (hw : 0 < w)
    (hn : n * w < sizeLimit) :
    (operator_new_bytes w h n : Nat × Slots α × Heap) = operator_new h n := by
  rw [operator_new_bytes, Nat.mod_eq_of_lt hn, Nat.mul_div_cancel n hw]

theorem reallocate_bytes_eq (w : Nat) (h : Heap) (v : Vector α) (n : Nat) (hw : 0 < w)
    (hn : n * w < sizeLimit) : reallocate_bytes w h v n = reallocate h v n := by
  rw [reallocate_bytes, reallocate, operator_new_bytes_eq w h n hw hn]

theorem reserve_bytes_eq (w : Nat) (h : Heap) (v : Vector α) (n : Nat) (hw : 0 < w)
    (hn : v.capacity_ < n → n * w < sizeLimit) : reserve_bytes w h v n = reserve h v n := by
  rw [reserve_bytes, reserve]
  by_cases hgt : n > v.capacity_
  · rw [if_pos hgt, if_pos hgt, reallocate_bytes_eq w h v n hw (hn hgt)]
  · rw [if_neg hgt, if_neg hgt]

/-- Every completed `reallocate_bytes` has called `operator new` exactly once. -/
theorem reallocate_bytes_news (w : Nat) (h : Heap) (v v2 : Vector α) (n : Nat) (h2 : Heap)
    (hr : reallocate_bytes w h v n = .ok (v2, h2)) : h2.news = h.news + 1 := by
  simp only [reallocate_bytes, operator_new_bytes, operator_new] at hr
  cases hf : forUp (fun i m => do
      let x ← load v.slots i
      construct m i x) (min v.size_ n) 0 (List.replicate (n * w % sizeLimit / w) none) with
  | error e =>
    rw [hf] at hr
    cases hr
  | ok m =>
    rw [hf, ok_bind] at hr
    cases hd : deallocate { news := h.news + 1, deletes := h.deletes } v with
    | error e =>
      rw [hd] at hr
      cases hr
    | ok r =>
      obtain ⟨v1, h1⟩ := r
      rw [hd, ok_bind] at hr
      cases hr
      exact deallocate_news _ v v1 _ hd

theorem push_back_bytes_room (w : Nat) (h : Heap) (v : Vector α) (x : α)
    (hroom : v.size_ < v.capacity_) (hcap : v.capacity_ < sizeLimit) :
    push_back_bytes w h v x = push_back h v x ∧
      ∀ v1 h1, push_back h v x = .ok (v1, h1) →
        v1.size_ = v.size_ + 1 ∧ v1.capacity_ = v.capacity_ := by
  have hne : ¬ v.size_ = v.capacity_ := by omega
  have hmod : (v.size_ + 1) % sizeLimit = v.size_ + 1 := Nat.mod_eq_of_lt (by omega)
  refine ⟨?_, ?_⟩
  · simp only [push_back_bytes, push_back, if_neg hne, ok_bind, hmod]
  · intro v1 h1 hp
    simp only [push_back, if_neg hne, ok_bind] at hp
    cases hc : construct v.slots v.size_ x with
    | error e =>
      rw [hc] at hp
      cases hp
    | ok m =>
      rw [hc, ok_bind] at hp
      cases hp
      exact ⟨rfl, rfl⟩

theorem push_all_bytes_eq (w : Nat) (vals : List α) :
    ∀ (h : Heap) (v : Vector α), v.size_ + vals.length ≤ v.capacity_ →
      v.capacity_ < sizeLimit → push_all_bytes w h v vals = push_all h v vals := by
  induction vals with
  | nil =>
    intro h v _ _
    rfl
  | cons x rest ih =>
    intro h v hroom hcap
    simp only [List.length_cons] at hroom
    obtain ⟨heq, hnext⟩ := push_back_bytes_room w h v x (by omega) hcap
    simp only [push_all_bytes, push_all, heq]
    cases hp : push_back h v x with
    | error e => rfl
    | ok r =>
      obtain ⟨v1, h1⟩ := r
      obtain ⟨hs, hc⟩ := hnext v1 h1 hp
      simp only [ok_bind]
      exact ih h1 v1 (by omega) (by omega)

theorem resize_ref_eq (w : Nat) (h : Heap) (v : Vector α) (n : Nat) (x : α) (hw : 0 < w)
    (hn : v.capacity_ < n → n * w < sizeLimit) :
    resize_ref w h v n (.outside x) = resize h v n x := by
  simp only [resize_ref, resize, Ref.read, ok_bind]
  by_cases hgt : n > v.capacity_
  · rw [if_pos hgt, if_pos hgt, reallocate_bytes_eq w h v n hw (hn hgt)]
  · rw [if_neg hgt, if_neg hgt]

theorem assign_ref_eq (w : Nat) (h : Heap) (v : Vector α) (c : Nat) (x : α) (hw : 0 < w)
    (hc : v.capacity_ < c → c * w < sizeLimit) :
    assign_ref w h v c (.outside x) = assign h v c x := by
  simp only [assign_ref, assign, Ref.read, ok_bind]
  cases hcl : clear v with
  | error e => rfl
  | ok v0 =>
    have hcap : v0.capacity_ = v.capacity_ := by
      simp only [clear] at hcl
      cases hf : forUp (fun i m => destroy m i) v.size_ 0 v.slots with
      | error e =>
        rw [hf] at hcl
        cases hcl
      | ok m =>
        rw [hf, ok_bind] at hcl
        cases hcl
        rfl
    simp only [ok_bind]
    by_cases hgt : c > v0.capacity_
    · rw [if_pos hgt, if_pos hgt, reallocate_bytes_eq w h v0 c hw (hc (by omega))]
    · rw [if_neg hgt, if_neg hgt]

theorem forDownGe_congr (body body2 : Nat → σ → Except (Err α) σ) (lo top : Nat)
    (hb : ∀ i s, lo ≤ i → i ≤ top → body i s = body2 i s) :
    ∀ hi, hi ≤ top → ∀ s, forDownGe body lo hi s = forDownGe body2 lo hi s := by
  intro hi
  induction hi with
  | zero =>
    intro _ s
    simp only [forDownGe]
    by_cases h0 : 0 ≥ lo
    · rw [if_pos h0, if_pos h0, hb 0 s h0 (Nat.zero_le _)]
    · rw [if_neg h0, if_neg h0]
  | succ i ih =>
    intro hle s
    simp only [forDownGe]
    by_cases h0 : i + 1 ≥ lo
    · rw [if_pos h0, if_pos h0, hb (i + 1) s h0 hle]
      cases body2 (i + 1) s with
      | error e => rfl
      | ok s1 =>
        simp only [ok_bind]
        exact ih (by omega) s1
    · rw [if_neg h0, if_neg h0]

theorem construct_length {m m2 : Slots α} {i : Nat} {x : α}
    (h : construct m i x = .ok m2) : m2.length = m.length := by
  simp only [construct] at h
  split at h
  · cases h
    simp
  · cases h

theorem construct_error {m : Slots α} {i : Nat} {x : α} {e : Err α}
    (h : construct m i x = .error e) : e = .undefined := by
  simp only [construct] at h
  split at h
  · cases h
  · cases h
    rfl

/-- A fill loop that runs past the end of the block is undefined behaviour. -/
theorem fill_overrun (x : α) (k : Nat) :
    ∀ (n lo : Nat) (m : Slots α), m.length < k + lo + (n + 1) →
      forUp (fun i m => construct m (k + i) x) (n + 1) lo m = .error .undefined := by
  intro n
  induction n with
  | zero =>
    intro lo m hlen
    have hnone : m[k + lo]? = none := List.getElem?_eq_none (by omega)
    simp only [forUp, construct, hnone]
    rfl
  | succ n ih =>
    intro lo m hlen
    rw [forUp]
    cases hc : construct m (k + lo) x with
    | error e =>
      rw [construct_error hc]
      rfl
    | ok m1 =>
      simp only [ok_bind]
      exact ih (lo + 1) m1 (by rw [construct_length hc]; omega)
theorem grow_ref_eq (w : Nat) (h : Heap) (v : Vector α) (c : Nat) (hw : 0 < w)
    (hsum : (v.size_ + c) * w < sizeLimit)
    (hdouble : v.capacity_ < v.size_ + c → v.capacity_ * 2 * w < sizeLimit) :
    (if (v.size_ + c) % sizeLimit > v.capacity_ then
        reallocate_bytes w h v (max (v.capacity_ * 2 % sizeLimit) ((v.size_ + c) % sizeLimit))
      else (.ok (v, h) : Except (Err α) (Vector α × Heap))) =
    (if v.size_ + c > v.capacity_ then
        reallocate h v (max (v.capacity_ * 2) (v.size_ + c))
      else .ok (v, h)) := by
  have hle : v.size_ + c ≤ (v.size_ + c) * w := Nat.le_mul_of_pos_right _ hw
  have hmod : (v.size_ + c) % sizeLimit = v.size_ + c := Nat.mod_eq_of_lt (by omega)
  rw [hmod]
  by_cases hgt : v.size_ + c > v.capacity_
  · have hd := hdouble hgt
    have hle2 : v.capacity_ * 2 ≤ v.capacity_ * 2 * w := Nat.le_mul_of_pos_right _ hw
    rw [if_pos hgt, if_pos hgt, Nat.mod_eq_of_lt (by omega), reallocate_bytes_eq w h v _ hw]
    rcases Nat.le_total (v.capacity_ * 2) (v.size_ + c) with hm | hm
    · rw [Nat.max_eq_right hm]
      exact hsum
    · rw [Nat.max_eq_left hm]
      exact hd
  · rw [if_neg hgt, if_neg hgt]

theorem shift_ref_eq (c index top : Nat) (m : Slots α) (hc : 0 < c) (hk : index ≤ top)
    (htop : top + c < sizeLimit) :
    forDownGe (fun i m => do
        let x ← load m ((i + sizeLimit - c) % sizeLimit)
        let m1 ← construct m i x
        destroy m1 ((i + sizeLimit - c) % sizeLimit))
      ((index + c) % sizeLimit) ((top + c + sizeLimit - 1) % sizeLimit) m =
    forDownGe (fun i m => do
        let x ← load m (i - c)
        let m1 ← construct m i x
        destroy m1 (i - c)) (index + c) (top + c - 1) m := by
  have hlo : (index + c) % sizeLimit = index + c := Nat.mod_eq_of_lt (by omega)
  have hhi : (top + c + sizeLimit - 1) % sizeLimit = top + c - 1 := by
    have h1 : top + c + sizeLimit - 1 = (top + c - 1) + sizeLimit := by omega
    rw [h1, Nat.add_mod_right, Nat.mod_eq_of_lt (by omega)]
  rw [hlo, hhi]
  apply forDownGe_congr _ _ (index + c) (top + c - 1) _ (top + c - 1) (Nat.le_refl _) m
  intro i s h1 h2
  have hidx : (i + sizeLimit - c) % sizeLimit = i - c := by
    have h3 : i + sizeLimit - c = (i - c) + sizeLimit := by omega
    rw [h3, Nat.add_mod_right, Nat.mod_eq_of_lt (by omega)]
  simp only [hidx]
theorem error_bind {ε β γ : Type} (e : ε) (f : β → Except ε γ) :
    ((Except.error e : Except ε β) >>= f) = .error e := rfl

theorem insert_n_ref_eq (w : Nat) (h : Heap) {v : Vector α} {xs : List α}
    (hv : Models v xs) (pos : Iter) (hk : pos.off ≤ v.size_) (c : Nat) (x : α) (hw : 0 < w)
    (hsum : (v.size_ + c) * w < sizeLimit)
    (hdouble : v.capacity_ < v.size_ + c → v.capacity_ * 2 * w < sizeLimit) :
    insert_n_ref w h v pos c (.outside x) = insert_n h v pos c x := by
  by_cases hc : c = 0
  · rw [insert_n_ref, insert_n, if_pos hc, if_pos hc]
  have hle : v.size_ + c ≤ (v.size_ + c) * w := Nat.le_mul_of_pos_right _ hw
  obtain ⟨v1, h1, hg, _, _, hsz, _⟩ := grow_n_spec h hv c
  rw [insert_n_ref, insert_n, if_neg hc, if_neg hc, grow_ref_eq w h v c hw hsum hdouble, hg]
  cases hi : index_of v pos with
  | error e => rw [error_bind, error_bind]
  | ok index =>
    have hoff : index = pos.off := by
      simp only [index_of] at hi
      split_ifs at hi
      cases hi
      rfl
    have hsz2 : (v1.size_ + c) % sizeLimit = v1.size_ + c := Nat.mod_eq_of_lt (by omega)
    rw [ok_bind, ok_bind, ok_bind, ok_bind]
    dsimp only
    rw [shift_ref_eq c index v1.size_ v1.slots (by omega) (by omega) (by omega), hsz2]
    simp only [Ref.read, ok_bind]
/-! ## The claims -/

/-- C1: calling `push_back` on a default-constructed `Vector` with the values `vals`, in
order, succeeds; afterwards `size()` is the number of values pushed and, for every
`i < size()`, element `i` (read with `operator[]` or with `at`) is the `i`-th pushed value. -/
theorem push_back_sequence (h : Heap) (vals : List α) :
    ∃ v h2, push_all h Vector.new vals = .ok (v, h2) ∧ size v = vals.length ∧
      ∀ (i : Nat) (hi : i < vals.length),
        subscript v i = .ok vals[i] ∧ at_ v i = .ok vals[i] := by
  obtain ⟨v, h2, hp, hm, _⟩ := push_all_spec vals h Vector.new [] models_new
  rw [List.nil_append] at hm
  refine ⟨v, h2, hp, hm.1.symm, fun i hi => ?_⟩
  have hs := subscript_spec hm i hi
  refine ⟨hs, ?_⟩
  have hlt : ¬ (i ≥ v.size_) := by rw [← hm.1]; omega
  simp only [at_, if_neg hlt]
  exact hs

/-- Witness for C1: three values pushed onto a fresh vector. -/
theorem push_back_sequence_witness :
    ∃ v h2, push_all { news := 0, deletes := 0 } (Vector.new : Vector Nat) [10, 20, 30] =
        .ok (v, h2) ∧ size v = 3 ∧ subscript v 1 = .ok 20 ∧ at_ v 1 = .ok 20 := by
  obtain ⟨v, h2, hp, hs, he⟩ := push_back_sequence { news := 0, deletes := 0 } [10, 20, 30]
  exact ⟨v, h2, hp, hs, he 1 (by decide)⟩

/-- C5 fails as stated: for the `Vector<int>` (elements of 4 bytes) `[1, 2]` of capacity 2,
`reserve(2^62 + 1)` asks `operator new` for `(2^62 + 1) * 4 mod 2^64 = 4` bytes, and moving
the second element into that block of one slot is undefined behaviour. -/
theorem reserve_overflow_fails :
    capacity sampleFull < 4611686018427387905 ∧
      reserve_bytes 4 sampleHeap sampleFull 4611686018427387905 = .error .undefined :=
  ⟨by decide, rfl⟩

/-- C5, amended: in every consistent state, for an element type of `w >= 1` bytes and every
`n` that is at most the capacity or has `n * w < 2^64`, `reserve(n)` succeeds (no
allocation failing) and leaves the capacity at `max(old capacity, n)`, so at least `n` and
never smaller than before; the size and the element sequence are unchanged, and the call
changes nothing at all when the capacity was already at least `n`. -/
theorem reserve_capacity (w : Nat) (h : Heap) (v : Vector α) (n : Nat) (hv : v.WF)
    (hw : 0 < w) (hn : capacity v < n → n * w < sizeLimit) :
    ∃ v2 h2, reserve_bytes w h v n = .ok (v2, h2) ∧ capacity v2 = max (capacity v) n ∧
      size v2 = size v ∧ v2.toList = v.toList ∧
      (n ≤ capacity v → v2 = v ∧ h2 = h) := by
  obtain ⟨v2, h2, hr, hm, hcap, hsz, hnop⟩ := reserve_spec h hv.models n
  rw [← reserve_bytes_eq w h v n hw hn] at hr
  exact ⟨v2, h2, hr, hcap, hsz, hm.toList_eq, hnop⟩

/-- Witness for C5: `reserve(5)` on the `Vector<int>` `[1, 2]` of capacity 2. -/
theorem reserve_capacity_witness :
    ∃ v2 h2, reserve_bytes 4 sampleHeap sampleFull 5 = .ok (v2, h2) ∧
      capacity v2 = 5 ∧ size v2 = 2 ∧ v2.toList = [1, 2] := by
  obtain ⟨v2, h2, hr, hcap, hsz, hl, _⟩ :=
    reserve_capacity 4 sampleHeap sampleFull 5 sampleFull_wf (by decide)
      (fun _ => by decide)
  exact ⟨v2, h2, hr, hcap, hsz, hl⟩

/-- C6 fails as stated: on an empty `Vector<int>`, `reserve(2^62 + 1)` returns with
`capacity() == 2^62 + 1` over a block of 4 bytes (one slot); the first push fills that
slot, the second one, still far below the reserved count, constructs past the end of the
block: undefined behaviour. -/
theorem reserve_push_overflow_fails :
    reserve_bytes 4 sampleHeap (Vector.new : Vector Nat) 4611686018427387905 =
        .ok ({ data_ := some 1, slots := [none], size_ := 0,
               capacity_ := 4611686018427387905 }, { news := 2, deletes := 0 }) ∧
      push_all_bytes 4 { news := 2, deletes := 0 }
        ({ data_ := some 1, slots := [none], size_ := 0,
           capacity_ := 4611686018427387905 } : Vector Nat) [7, 8] = .error .undefined :=
  ⟨rfl, rfl⟩

/-- C6, amended: for an element type of `w >= 1` bytes and a count `k` with
`max(capacity(), k) * w < 2^64`, after `reserve(k)` pushing values `vals` that keep the
number of elements at most `k` never reallocates.  A completed `reallocate` always
advances the allocator (it calls `operator new` first); after each of the pushes the
allocator is in the very state it had right after the `reserve`, and `capacity()` and the
pointer returned by `data()` are what they were right after the `reserve`. -/
theorem reserve_then_push_stable (w : Nat) (h : Heap) (v : Vector α) (k : Nat)
    (vals : List α) (hv : v.WF) (hk : size v + vals.length ≤ k) (hw : 0 < w)
    (hbytes : max (capacity v) k * w < sizeLimit) :
    (∀ (k1 k2 : Heap) (u u2 : Vector α) (n : Nat),
      reallocate_bytes w k1 u n = .ok (u2, k2) → k2.news = k1.news + 1) ∧
    ∃ v1 h1, reserve_bytes w h v k = .ok (v1, h1) ∧
      ∀ n, n ≤ vals.length →
        ∃ v2, push_all_bytes w h1 v1 (vals.take n) = .ok (v2, h1) ∧
          capacity v2 = capacity v1 ∧ data v2 = data v1 ∧
          v2.toList = v.toList ++ vals.take n := by
  refine ⟨fun k1 k2 u u2 n hr => reallocate_bytes_news w k1 u u2 n k2 hr, ?_⟩
  simp only [size, capacity] at hk hbytes
  have hle : max v.capacity_ k ≤ max v.capacity_ k * w := Nat.le_mul_of_pos_right _ hw
  have hkw : k * w ≤ max v.capacity_ k * w := Nat.mul_le_mul_right w (Nat.le_max_right _ _)
  obtain ⟨v1, h1, hr, hm, hcap, hsz, _⟩ := reserve_spec h hv.models k
  rw [← reserve_bytes_eq w h v k hw (fun _ => by omega)] at hr
  refine ⟨v1, h1, hr, fun n hn => ?_⟩
  obtain ⟨v2, h2, hp, hm2, hkeep⟩ := push_all_spec (vals.take n) h1 v1 _ hm
  have hroom : v1.size_ + (vals.take n).length ≤ v1.capacity_ := by
    rw [List.length_take, hcap, hsz]
    omega
  obtain ⟨hc, hd, hh⟩ := hkeep hroom
  rw [hh, ← push_all_bytes_eq w (vals.take n) h1 v1 hroom (by omega)] at hp
  exact ⟨v2, hp, hc, hd, hm2.toList_eq⟩

/-- Witness for C6: `reserve(4)` on the `Vector<int>` `[1, 2]`, then two pushes. -/
theorem reserve_then_push_stable_witness :
    ∃ v1 h1, reserve_bytes 4 sampleHeap sampleFull 4 = .ok (v1, h1) ∧
      ∃ v2, push_all_bytes 4 h1 v1 [7, 8] = .ok (v2, h1) ∧ capacity v2 = capacity v1 ∧
        data v2 = data v1 ∧ v2.toList = [1, 2, 7, 8] := by
  obtain ⟨_, v1, h1, hr, hall⟩ :=
    reserve_then_push_stable 4 sampleHeap sampleFull 4 [7, 8] sampleFull_wf (by decide)
      (by decide) (by decide)
  exact ⟨v1, h1, hr, hall 2 (by decide)⟩

/-- C7: in every consistent state `shrink_to_fit()` succeeds and leaves
`capacity() == size()`, with the size and the element sequence unchanged; when
`capacity() == size()` held already, nothing changes. -/
theorem shrink_to_fit_exact (h : Heap) (v : Vector α) (hv : v.WF) :
    ∃ v2 h2, shrink_to_fit h v = .ok (v2, h2) ∧ capacity v2 = size v2 ∧
      size v2 = size v ∧ v2.toList = v.toList ∧
      (capacity v = size v → v2 = v ∧ h2 = h) := by
  obtain ⟨v2, h2, hr, hm, hcap, hsz, hnop⟩ := shrink_to_fit_spec h hv.models
  exact ⟨v2, h2, hr, by simp only [size, capacity]; omega, hsz, hm.toList_eq, hnop⟩

/-- Witness for C7: `shrink_to_fit()` on the vector `[1, 2]` of capacity 4. -/
theorem shrink_to_fit_exact_witness :
    ∃ v2 h2, shrink_to_fit sampleHeap sampleRoomy = .ok (v2, h2) ∧
      capacity v2 = 2 ∧ v2.toList = [1, 2] := by
  obtain ⟨v2, h2, hr, hcap, hsz, hl, _⟩ := shrink_to_fit_exact sampleHeap sampleRoomy
    sampleRoomy_wf
  exact ⟨v2, h2, hr, by rw [hcap, hsz]; rfl, hl⟩

/-- C8: `pop_back()` fails if and only if the vector is empty; it then throws the
empty-container error (`std::runtime_error`) with the object exactly as it was.  On a
non-empty vector it succeeds, leaves the elements without the last one, makes the size one
smaller and leaves the capacity unchanged. -/
theorem pop_back_contract (v : Vector α) (hv : v.WF) :
    ((∃ e, pop_back v = .error e) ↔ empty v = true) ∧
    (empty v = true → pop_back v = .error (.thrown .runtime_error v)) ∧
    (empty v = false → ∃ v2, pop_back v = .ok v2 ∧ v2.toList = v.toList.dropLast ∧
      size v2 + 1 = size v ∧ capacity v2 = capacity v) := by
  obtain ⟨hthrow, hok⟩ := pop_back_spec hv.models
  have h1 : empty v = true → pop_back v = .error (.thrown .runtime_error v) := by
    intro he
    exact hthrow (by simpa [empty] using he)
  have h2 : empty v = false → ∃ v2, pop_back v = .ok v2 ∧
      v2.toList = v.toList.dropLast ∧ size v2 + 1 = size v ∧ capacity v2 = capacity v := by
    intro he
    have hpos : 0 < v.size_ := by
      simp only [empty, beq_eq_false_iff_ne, ne_eq] at he
      omega
    obtain ⟨v2, hr, hm, hsz, hcap, _⟩ := hok hpos
    exact ⟨v2, hr, hm.toList_eq, by simp only [size]; omega, hcap⟩
  refine ⟨⟨?_, fun he => ⟨_, h1 he⟩⟩, h1, h2⟩
  rintro ⟨e, he⟩
  cases hemp : empty v with
  | true => rfl
  | false =>
    obtain ⟨v2, hr, _⟩ := h2 hemp
    rw [hr] at he
    cases he

/-- Witness for C8: `pop_back()` on the vector `[1, 2]` of capacity 4. -/
theorem pop_back_contract_witness :
    ∃ v2, pop_back sampleRoomy = .ok v2 ∧
      v2.toList = [1] ∧ size v2 + 1 = 2 ∧ capacity v2 = 4 :=
  (pop_back_contract sampleRoomy sampleRoomy_wf).2.2 rfl

/-- C10 fails as stated, in three ways.  A value that is an element of the vector:
`v.insert(v.begin(), 1, v[1])` on `[1, 2]` of capacity 4 shifts first and reads the
reference afterwards, leaving `[1, 1, 2]` where the claim has `[2, 1, 2]`.  A count that
makes `size_ + count` wrap: with `count = 2^64 - 1` on the full `Vector<int>` `[1, 2]` the
sum is 1, no growth happens and the fill loop constructs past the end of the block.  A
doubled capacity whose byte count wraps: for elements of `2^62` bytes the full vector of
capacity 2 asks for `4 * 2^62 mod 2^64 = 0` bytes and moves its elements into that block. -/
theorem insert_alias_fails :
    (subscript sampleRoomy 1 = .ok 2 ∧
      insert_n_ref 4 sampleHeap sampleRoomy (begin_ sampleRoomy) 1 (.own 1) =
        .ok ({ data_ := some 0, slots := [some 1, some 1, some 2, none], size_ := 3,
               capacity_ := 4 }, sampleHeap, { base := some 0, off := 0 }) ∧
      ({ data_ := some 0, slots := [some 1, some 1, some 2, none], size_ := 3,
         capacity_ := 4 } : Vector Nat).toList = [1, 1, 2]) ∧
    insert_n_ref 4 sampleHeap sampleFull (end_ sampleFull) 18446744073709551615
        (.outside 7) = .error .undefined ∧
    insert_n_ref 4611686018427387904 sampleHeap sampleFull (end_ sampleFull) 1
        (.outside 7) = .error .undefined :=
  ⟨⟨rfl, rfl, rfl⟩, rfl, rfl⟩

/-- C10, amended: for a vector with elements `xs` of `w >= 1` bytes each, an index
`k <= size()`, a count `c` with `(size() + c) * w < 2^64` and, when `size() + c` exceeds
the capacity, `2 * capacity() * w < 2^64`, and a value `x` that is not an element of the
vector itself, `insert(begin() + k, c, x)` succeeds (no allocation failing), leaves the
elements `xs[0..k) ++ (c copies of x) ++ xs[k..)`, makes the size `c` larger and returns
the iterator `begin() + k` of the vector after the call; for `c == 0` the vector (and the
allocator) are unchanged and the position passed in is what is returned. -/
theorem insert_count (w : Nat) (h : Heap) (v : Vector α) (k c : Nat) (x : α) (hv : v.WF)
    (hk : k ≤ size v) (hw : 0 < w) (hsum : (size v + c) * w < sizeLimit)
    (hdouble : capacity v < size v + c → capacity v * 2 * w < sizeLimit) :
    ∃ v2 h2 it, insert_n_ref w h v ((begin_ v).add k) c (.outside x) = .ok (v2, h2, it) ∧
      v2.toList = v.toList.take k ++ List.replicate c x ++ v.toList.drop k ∧
      size v2 = size v + c ∧ it = (begin_ v2).add k ∧
      (c = 0 → v2 = v ∧ h2 = h ∧ it = (begin_ v).add k) := by
  obtain ⟨v2, h2, hr, hm, _, hnop⟩ := insert_n_spec h hv.models ((begin_ v).add k) rfl
    (by simpa [begin_, Iter.add] using hk) c x
  rw [← insert_n_ref_eq w h hv.models ((begin_ v).add k)
    (by simpa [begin_, Iter.add] using hk) c x hw hsum hdouble] at hr
  have hoff : ((begin_ v).add k).off = k := by simp [begin_, Iter.add]
  rw [hoff] at hr hm
  have hlen : v.toList.length = v.size_ := hv.models.1
  refine ⟨v2, h2, _, hr, hm.toList_eq, ?_, ?_, ?_⟩
  · have := hm.1
    simp only [List.length_append, List.length_take, List.length_replicate,
      List.length_drop] at this
    simp only [size] at hk ⊢
    omega
  · simp [begin_, Iter.add]
  · intro hc
    obtain ⟨hv2, hh2⟩ := hnop hc
    refine ⟨hv2, hh2, ?_⟩
    rw [hv2]
    simp [begin_, Iter.add]

/-- Witness for C10: `insert(begin() + 1, 3, 7)` on the full `Vector<int>` `[1, 2]`. -/
theorem insert_count_witness :
    ∃ v2 h2 it, insert_n_ref 4 sampleHeap sampleFull { base := some 0, off := 1 } 3
        (.outside 7) = .ok (v2, h2, it) ∧
      v2.toList = [1, 7, 7, 7, 2] ∧ size v2 = 5 ∧ it = (begin_ v2).add 1 := by
  obtain ⟨v2, h2, it, hr, hl, hs, hi, _⟩ :=
    insert_count 4 sampleHeap sampleFull 1 3 7 sampleFull_wf (by decide) (by decide)
      (by decide) (fun _ => by decide)
  exact ⟨v2, h2, it, hr, hl, hs, hi⟩
/-- C11: for a vector with elements `xs` and indices `i <= j <= size()`,
`erase(begin() + i, begin() + j)` succeeds, leaves the elements `xs[0..i) ++ xs[j..)`,
makes the size `j - i` smaller, leaves the capacity unchanged and returns the iterator
`begin() + i`: it refers to the element that followed the erased range (the old element
`j`) when there is one and is `end()` otherwise.  The call `erase(begin() + i)` is, by
definition, the case `j = i + 1`. -/
theorem erase_range_contract (v : Vector α) (i j : Nat) (hv : v.WF) (hij : i ≤ j)
    (hj : j ≤ size v) :
    ∃ v2 it, erase_range v ((begin_ v).add i) ((begin_ v).add j) = .ok (v2, it) ∧
      v2.toList = v.toList.take i ++ v.toList.drop j ∧
      size v2 + (j - i) = size v ∧ capacity v2 = capacity v ∧
      it = (begin_ v2).add i ∧
      (j < size v → deref v2 it = subscript v j ∧ ∃ y, subscript v j = .ok y) ∧
      (j = size v → it = end_ v2) ∧
      erase v ((begin_ v).add i) =
        erase_range v ((begin_ v).add i) ((begin_ v).add (i + 1)) := by
  have hm0 := hv.models
  have hlen : v.toList.length = v.size_ := hm0.1
  simp only [size] at hj
  obtain ⟨v2, hr, hm, hsz, hcap, _⟩ := erase_range_spec hm0 ((begin_ v).add i)
    ((begin_ v).add j) rfl rfl (by simpa [begin_, Iter.add] using hij)
    (by simpa [begin_, Iter.add] using hj)
  have hoi : ((begin_ v).add i).off = i := by simp [begin_, Iter.add]
  have hoj : ((begin_ v).add j).off = j := by simp [begin_, Iter.add]
  rw [hoi] at hr
  rw [hoi, hoj] at hm hsz
  have hit : ({ base := v2.data_, off := i } : Iter) = (begin_ v2).add i := by
    simp [begin_, Iter.add]
  rw [hit] at hr
  refine ⟨v2, _, hr, hm.toList_eq, ?_, hcap, rfl, ?_, ?_, rfl⟩
  · simp only [size]
    omega
  · intro hlt
    simp only [size] at hlt
    have hs := subscript_spec hm0 j (by omega)
    have hi2 : i < (v.toList.take i ++ v.toList.drop j).length := by
      simp only [List.length_append, List.length_take, List.length_drop]
      omega
    refine ⟨?_, _, hs⟩
    rw [deref_spec hm i hi2, hs]
    congr 1
    have h1 := getElem?_erase_range v.toList i (j - i) (by omega) i
    rw [show i + (j - i) = j by omega, if_neg (Nat.lt_irrefl i)] at h1
    rw [List.getElem?_eq_getElem hi2, List.getElem?_eq_getElem (by omega)] at h1
    exact Option.some.inj h1
  · intro heq
    simp only [size] at heq
    simp only [end_, begin_, Iter.add, Nat.zero_add, hsz]
    congr 1
    omega

/-- Witness for C11: `erase(begin() + 0, begin() + 1)` on the vector `[1, 2]`. -/
theorem erase_range_contract_witness :
    ∃ v2 it, erase_range sampleRoomy { base := some 0, off := 0 } { base := some 0, off := 1 } =
        .ok (v2, it) ∧
      v2.toList = [2] ∧ size v2 + 1 = 2 ∧ capacity v2 = 4 ∧ it = (begin_ v2).add 0 := by
  obtain ⟨v2, it, hr, hl, hs, hc, hi, _⟩ :=
    erase_range_contract sampleRoomy 0 1 sampleRoomy_wf (by decide) (by decide)
  exact ⟨v2, it, hr, hl, hs, hc, hi⟩

/-- C13 fails as stated, in two ways.  A value that is an element of the vector:
`v.resize(3, v[0])` on the full `Vector<int>` `[1, 2]` reallocates first, which frees the
block the reference points into, and reads the reference afterwards.  A count whose byte
count wraps: `resize(2^62 + 1, 9)` asks for `(2^62 + 1) * 4 mod 2^64 = 4` bytes and moves
the second element past the end of that block.  Both are undefined behaviour. -/
theorem resize_alias_fails :
    (subscript sampleFull 0 = .ok 1 ∧
      resize_ref 4 sampleHeap sampleFull 3 (.own 0) = .error .undefined) ∧
    resize_ref 4 sampleHeap sampleFull 4611686018427387905 (.outside 9) =
      .error .undefined :=
  ⟨⟨rfl, rfl⟩, rfl⟩

/-- C13, amended: for a vector with elements `xs` of `w >= 1` bytes each, a count `n` that
is at most the capacity or has `n * w < 2^64`, and a value `x` that is not an element of
the vector itself, `resize(n, x)` succeeds (no allocation failing) and leaves
`size() == n`; the elements are `xs` followed by `n - size` copies of `x` when `n > size`,
the first `n` elements of `xs` when `n < size`, and `xs` itself when `n == size`. -/
theorem resize_contract (w : Nat) (h : Heap) (v : Vector α) (n : Nat) (x : α) (hv : v.WF)
    (hw : 0 < w) (hn : capacity v < n → n * w < sizeLimit) :
    ∃ v2 h2, resize_ref w h v n (.outside x) = .ok (v2, h2) ∧ size v2 = n ∧
      (size v < n → v2.toList = v.toList ++ List.replicate (n - size v) x) ∧
      (n < size v → v2.toList = v.toList.take n) ∧
      (n = size v → v2.toList = v.toList) := by
  have hm0 := hv.models
  have hlen : v.toList.length = v.size_ := hm0.1
  obtain ⟨v2, h2, hr, hm, hsz, _⟩ := resize_spec h hm0 n x
  rw [← resize_ref_eq w h v n x hw hn] at hr
  refine ⟨v2, h2, hr, hsz, fun hgt => ?_, fun hlt => ?_, fun heq => ?_⟩
  · simp only [size] at hgt ⊢
    rw [hm.toList_eq, List.take_of_length_le (by omega)]
  · simp only [size] at hlt
    rw [hm.toList_eq, show n - v.size_ = 0 by omega]
    simp
  · simp only [size] at heq
    rw [hm.toList_eq, show n - v.size_ = 0 by omega, List.take_of_length_le (by omega)]
    simp

/-- Witness for C13: `resize(4, 9)` on the full `Vector<int>` `[1, 2]`. -/
theorem resize_contract_witness :
    ∃ v2 h2, resize_ref 4 sampleHeap sampleFull 4 (.outside 9) = .ok (v2, h2) ∧
      size v2 = 4 ∧ v2.toList = [1, 2, 9, 9] := by
  obtain ⟨v2, h2, hr, hs, hgrow, _⟩ :=
    resize_contract 4 sampleHeap sampleFull 4 9 sampleFull_wf (by decide)
      (fun _ => by decide)
  exact ⟨v2, h2, hr, hs, hgrow (by decide)⟩

/-- C14 fails as stated, in two ways.  A value that is an element of the vector:
`v.assign(3, v[0])` on the full `Vector<int>` `[1, 2]` destroys the elements, frees the
block the reference points into, and reads the reference afterwards.  A count whose byte
count wraps: `assign(2^62 + 1, 7)`, and the fill constructor with the same arguments, ask
for `(2^62 + 1) * 4 mod 2^64 = 4` bytes and construct the second copy past the end of that
block.  All three are undefined behaviour. -/
theorem assign_alias_fails :
    (subscript sampleFull 0 = .ok 1 ∧
      assign_ref 4 sampleHeap sampleFull 3 (.own 0) = .error .undefined) ∧
    assign_ref 4 sampleHeap sampleFull 4611686018427387905 (.outside 7) =
      .error .undefined ∧
    ctor_fill_ref 4 sampleHeap 4611686018427387905 (.outside (7 : Nat)) =
      .error .undefined :=
  ⟨⟨rfl, rfl⟩, rfl, rfl⟩

/-- C14, amended: in every consistent state, for elements of `w >= 1` bytes each, a count
`c` with `c * w < 2^64` and a value `x` that is not an element of the vector itself,
`assign(c, x)` succeeds (no allocation failing) and leaves exactly `c` elements, all equal
to `x`, with `size() == c`, whatever the contents were before.  When `c <= capacity()` the
capacity, the block and the allocator are as before (the storage is reused); otherwise the
capacity is `c`.  The constructor `Vector(size_type count, const T& value)` is the same
call on a fresh object and gives the same elements. -/
theorem assign_fill (w : Nat) (h : Heap) (v : Vector α) (c : Nat) (x : α) (hv : v.WF)
    (hw : 0 < w) (hc : c * w < sizeLimit) :
    ∃ v2 h2, assign_ref w h v c (.outside x) = .ok (v2, h2) ∧
      v2.toList = List.replicate c x ∧ size v2 = c ∧
      (c ≤ capacity v → capacity v2 = capacity v ∧ data v2 = data v ∧ h2 = h) ∧
      (capacity v < c → capacity v2 = c) ∧
      ∃ u k, ctor_fill_ref w h c (.outside x) = .ok (u, k) ∧
        u.toList = List.replicate c x ∧ size u = c := by
  have hm0 := hv.models
  obtain ⟨v2, h2, hr, hm, hsz, hcap⟩ := assign_spec h hm0 c x
  obtain ⟨u, k, hu, hmu, hszu, _⟩ := assign_spec h (models_new (α := α)) c x
  have hr2 := hr
  rw [← assign_ref_eq w h v c x hw (fun _ => hc)] at hr2
  rw [← assign_ref_eq w h Vector.new c x hw (fun _ => hc)] at hu
  refine ⟨v2, h2, hr2, hm.toList_eq, hsz, fun hle => ?_, fun hlt => ?_,
    u, k, hu, hmu.toList_eq, hszu⟩
  · simp only [capacity] at hle
    obtain ⟨v3, hr3, hd3⟩ := assign_reuse h hm0 c x hle
    rw [hr] at hr3
    cases hr3
    exact ⟨by rw [capacity, hcap, if_pos hle]; rfl, hd3, rfl⟩
  · simp only [capacity] at hlt
    rw [capacity, hcap, if_neg (by omega)]

/-- Witness for C14: `assign(3, 7)` on the `Vector<int>` `[1, 2]` of capacity 4. -/
theorem assign_fill_witness :
    ∃ v2 h2, assign_ref 4 sampleHeap sampleRoomy 3 (.outside 7) = .ok (v2, h2) ∧
      v2.toList = [7, 7, 7] ∧ size v2 = 3 ∧ capacity v2 = 4 ∧ data v2 = some 0 ∧
      h2 = sampleHeap := by
  obtain ⟨v2, h2, hr, hl, hs, hreuse, _⟩ :=
    assign_fill 4 sampleHeap sampleRoomy 3 7 sampleRoomy_wf (by decide) (by decide)
  obtain ⟨hc, hd, hh⟩ := hreuse (by decide)
  exact ⟨v2, h2, hr, hl, hs, hc, hd, hh⟩

/-- C15: in every consistent state `at(i)` fails if and only if `i >= size()`, and then it
throws the out-of-range error with the object as it was; in particular `at(size())` fails,
and so does `at(0)` on an empty vector.  For `i < size()` it returns element `i`, which is
also what the unchecked `operator[](i)` returns; `at` only reads. -/
theorem at_contract (v : Vector α) (i : Nat) (hv : v.WF) :
    ((∃ e, at_ v i = .error e) ↔ size v ≤ i) ∧
    (size v ≤ i → at_ v i = .error (.thrown .out_of_range v)) ∧
    (i < size v → ∃ y, v.toList[i]? = some y ∧ at_ v i = .ok y ∧ subscript v i = .ok y) ∧
    at_ v (size v) = .error (.thrown .out_of_range v) ∧
    (empty v = true → at_ v 0 = .error (.thrown .out_of_range v)) := by
  have hm0 := hv.models
  have hlen : v.toList.length = v.size_ := hm0.1
  have hfail : ∀ n, v.size_ ≤ n → at_ v n = .error (.thrown .out_of_range v) := by
    intro n hn
    simp only [at_, ge_iff_le, hn, if_true]
  have hgood : i < v.size_ → ∃ y, v.toList[i]? = some y ∧ at_ v i = .ok y ∧
      subscript v i = .ok y := by
    intro hi
    have hs := subscript_spec hm0 i (by omega)
    refine ⟨v.toList[i], List.getElem?_eq_getElem (by omega), ?_, hs⟩
    simp only [at_, ge_iff_le, if_neg (Nat.not_le.mpr hi)]
    exact hs
  refine ⟨⟨?_, fun hi => ⟨_, hfail i hi⟩⟩, hfail i, hgood, hfail _ (Nat.le_refl _), ?_⟩
  · rintro ⟨e, he⟩
    by_cases hi : i < v.size_
    · obtain ⟨y, _, hy, _⟩ := hgood hi
      rw [hy] at he
      cases he
    · exact Nat.not_lt.mp hi
  · intro he
    exact hfail 0 (by simp [empty] at he; omega)

/-- Witness for C15: `at(1)` on the vector `[1, 2]`. -/
theorem at_contract_witness :
    ∃ y, sampleFull.toList[1]? = some y ∧ at_ sampleFull 1 = .ok y ∧
      subscript sampleFull 1 = .ok y :=
  (at_contract sampleFull 1 sampleFull_wf).2.2.1 (by decide)

/-- C16: in every consistent state `front()` and `back()` fail if and only if the vector
is empty, and then they throw the empty-container error (`std::runtime_error`) with the
object as it was; on a non-empty vector `front()` returns element `0` and `back()` returns
element `size() - 1`. -/
theorem front_back_contract (v : Vector α) (hv : v.WF) :
    ((∃ e, front v = .error e) ↔ empty v = true) ∧
    ((∃ e, back v = .error e) ↔ empty v = true) ∧
    (empty v = true → front v = .error (.thrown .runtime_error v) ∧
      back v = .error (.thrown .runtime_error v)) ∧
    (empty v = false → ∃ y z, v.toList[0]? = some y ∧ front v = .ok y ∧
      subscript v 0 = .ok y ∧ v.toList[size v - 1]? = some z ∧ back v = .ok z ∧
      subscript v (size v - 1) = .ok z) := by
  have hm0 := hv.models
  have hlen : v.toList.length = v.size_ := hm0.1
  have hthrow : empty v = true → front v = .error (.thrown .runtime_error v) ∧
      back v = .error (.thrown .runtime_error v) := by
    intro he
    simp only [front, back, he, if_true, and_self]
  have hok : empty v = false → ∃ y z, v.toList[0]? = some y ∧ front v = .ok y ∧
      subscript v 0 = .ok y ∧ v.toList[size v - 1]? = some z ∧ back v = .ok z ∧
      subscript v (size v - 1) = .ok z := by
    intro he
    simp only [size]
    have hpos : 0 < v.size_ := by
      simp only [empty, beq_eq_false_iff_ne, ne_eq] at he
      omega
    obtain ⟨y, hy, hf⟩ := front_spec hm0 hpos
    obtain ⟨z, hz, hb⟩ := back_spec hm0 hpos
    have hs0 := subscript_spec hm0 0 (by omega)
    have hs1 := subscript_spec hm0 (v.size_ - 1) (by omega)
    rw [List.getElem?_eq_getElem (by omega)] at hy hz
    cases hy
    cases hz
    exact ⟨_, _, List.getElem?_eq_getElem (by omega), hf, hs0,
      List.getElem?_eq_getElem (by omega), hb, hs1⟩
  refine ⟨⟨?_, fun he => ⟨_, (hthrow he).1⟩⟩, ⟨?_, fun he => ⟨_, (hthrow he).2⟩⟩,
    hthrow, hok⟩
  · rintro ⟨e, he⟩
    cases hemp : empty v with
    | true => rfl
    | false =>
      obtain ⟨y, z, _, hf, _⟩ := hok hemp
      rw [hf] at he
      cases he
  · rintro ⟨e, he⟩
    cases hemp : empty v with
    | true => rfl
    | false =>
      obtain ⟨y, z, _, _, _, _, hb, _⟩ := hok hemp
      rw [hb] at he
      cases he

/-- Witness for C16: `front()` and `back()` on the vector `[1, 2]`. -/
theorem front_back_contract_witness :
    ∃ y z, sampleFull.toList[0]? = some y ∧ front sampleFull = .ok y ∧
      subscript sampleFull 0 = .ok y ∧ sampleFull.toList[size sampleFull - 1]? = some z ∧
      back sampleFull = .ok z ∧ subscript sampleFull (size sampleFull - 1) = .ok z :=
  (front_back_contract sampleFull sampleFull_wf).2.2.2 rfl

/-- C17: in every consistent state `clear()` succeeds; afterwards `size() == 0`, `empty()`
holds, no element is left, and `capacity()` is what it was before the call. -/
theorem clear_contract (v : Vector α) (hv : v.WF) :
    ∃ v2, clear v = .ok v2 ∧ size v2 = 0 ∧ empty v2 = true ∧ v2.toList = [] ∧
      capacity v2 = capacity v := by
  obtain ⟨v2, hr, hm, hcap, _, hsz⟩ := clear_spec hv.models
  exact ⟨v2, hr, hsz, by simp [empty, hsz], hm.toList_eq, hcap⟩

/-- Witness for C17: `clear()` on the vector `[1, 2]` of capacity 4. -/
theorem clear_contract_witness :
    ∃ v2, clear sampleRoomy = .ok v2 ∧ size v2 = 0 ∧ empty v2 = true ∧ v2.toList = [] ∧
      capacity v2 = 4 :=
  clear_contract sampleRoomy sampleRoomy_wf

/-- C18: `a.swap(b)` is a total function of the two objects (it cannot fail); afterwards
`a` has the elements, size, capacity and block `b` had, and `b` has those `a` had. -/
theorem swap_contract (a b : Vector α) :
    (swap a b).1.toList = b.toList ∧ size (swap a b).1 = size b ∧
    capacity (swap a b).1 = capacity b ∧ data (swap a b).1 = data b ∧
    (swap a b).2.toList = a.toList ∧ size (swap a b).2 = size a ∧
    capacity (swap a b).2 = capacity a ∧ data (swap a b).2 = data a :=
  ⟨rfl, rfl, rfl, rfl, rfl, rfl, rfl, rfl⟩

/-- C19: copy-constructing `b` from a consistent `a` succeeds and gives `b` the size and the
element sequence of `a` (`b == a` is true), in a block of its own: `a` and `b` never point
to the same block.  This stays so under every later mutation of `a` (a call of a mutating
member function with its precondition met, or a write to an element): the mutation
succeeds (or `pop_back` throws on an empty `a`), `a` ends up in its old block or in a
freshly allocated one, never in the block of `b`, so that in a common address space the
block of `b` still holds what it held.  The functions called on `a` have no access to the
members of `b`, whose elements, size and capacity are therefore those of the copy. -/
theorem copy_is_deep [DecidableEq α] (h : Heap) (a : Vector α) (ha : a.WF)
    (hown : Owned h a) :
    (∃ b h1, ctor_copy h a = .ok (b, h1) ∧ b.WF ∧ b.toList = a.toList ∧ size b = size a ∧
      operator_eq b a = .ok true ∧ Owned h1 a ∧ Owned h1 b ∧ Apart a b) ∧
    (∀ (k : Heap) (a1 b : Vector α) (m : Mut α),
      a1.WF → Owned k a1 → Owned k b → Apart a1 b → m.pre a1 →
      (∃ a2 k2, m.run k a1 = .ok (a2, k2) ∧ a2.WF ∧ Owned k2 a2 ∧ Owned k2 b ∧
        Apart a2 b ∧
        ∀ (mem : Nat → Slots α) (p : Nat), b.data_ = some p →
          install (install mem b) a2 p = b.slots) ∨
      m.run k a1 = .error (.thrown .runtime_error a1)) := by
  constructor
  · have hm0 := ha.models
    obtain ⟨b, h1, hr, hm, _⟩ := ctor_copy_spec h hm0
    have hfr := ctor_copy_frame h a b h1 hr
    refine ⟨b, h1, hr, hm.wf, hm.toList_eq, ?_, operator_eq_same hm hm0, ?_, ?_, ?_⟩
    · show b.size_ = a.size_
      rw [← hm.1, ← hm0.1]
    · intro p hp
      have := hown p hp
      rcases hfr with ⟨_, h2⟩ | ⟨_, h2⟩
      · rw [h2]; exact this
      · omega
    · intro p hp
      rcases hfr with ⟨h2, _⟩ | ⟨h2, h3⟩
      · rw [h2] at hp
        cases hp
      · rw [h2] at hp
        cases hp
        omega
    · intro p hp hbp
      have := hown p hp
      rcases hfr with ⟨h2, _⟩ | ⟨h2, _⟩
      · rw [h2] at hbp
        cases hbp
      · rw [h2] at hbp
        cases hbp
        omega
  · intro k a1 b m ha1 hoa hob hab hp
    rcases mut_run_spec k ha1.models m hp with ⟨a2, k2, ys, hr, hm⟩ | herr
    · left
      have hfr := mut_run_frame k a1 a2 m k2 hr
      have hoa2 : Owned k2 a2 := by
        intro p hp2
        rcases hfr with ⟨h2, h3⟩ | ⟨h2, h3⟩
        · rw [h3]
          exact hoa p (by rw [← h2]; exact hp2)
        · rw [h2] at hp2
          cases hp2
          omega
      have hob2 : Owned k2 b := by
        intro p hp2
        have := hob p hp2
        rcases hfr with ⟨_, h3⟩ | ⟨_, h3⟩
        · rw [h3]; exact this
        · omega
      have hab2 : Apart a2 b := by
        intro p hp2 hbp
        rcases hfr with ⟨h2, _⟩ | ⟨h2, _⟩
        · exact hab p (by rw [← h2]; exact hp2) hbp
        · rw [h2] at hp2
          cases hp2
          have := hob _ hbp
          omega
      exact ⟨a2, k2, hr, hm.wf, hoa2, hob2, hab2,
        fun mem p hbp => install_apart mem a2 b hab2 p hbp⟩
    · exact Or.inr herr

/-- Witness for C19: a copy of the vector `[1, 2]`. -/
theorem copy_is_deep_witness :
    ∃ b h1, ctor_copy sampleHeap sampleFull = .ok (b, h1) ∧ b.WF ∧
      b.toList = sampleFull.toList ∧ size b = size sampleFull ∧
      operator_eq b sampleFull = .ok true ∧ Owned h1 sampleFull ∧ Owned h1 b ∧
      Apart sampleFull b :=
  (copy_is_deep sampleHeap sampleFull sampleFull_wf sampleFull_owned).1

/-- C20: move-constructing `b` from `a` hands the block over: `b` has the elements of `a`
in their order and the size, capacity and block `a` had (so `b` is consistent whenever `a`
was), and `a` is left empty, with size 0, capacity 0 and a null `data_`, in a consistent
state that its destructor accepts. -/
theorem move_ctor_contract (a : Vector α) :
    (ctor_move a).1.toList = a.toList ∧ size (ctor_move a).1 = size a ∧
    capacity (ctor_move a).1 = capacity a ∧ data (ctor_move a).1 = data a ∧
    (a.WF → (ctor_move a).1.WF) ∧
    size (ctor_move a).2 = 0 ∧ capacity (ctor_move a).2 = 0 ∧
    data (ctor_move a).2 = none ∧ empty (ctor_move a).2 = true ∧
    (ctor_move a).2.toList = [] ∧ (ctor_move a).2.WF ∧
    ∀ h : Heap, dtor h (ctor_move a).2 = .ok h :=
  ⟨rfl, rfl, rfl, rfl, fun ha => ha, rfl, rfl, rfl, rfl, rfl, models_new.wf, fun _ => rfl⟩

/-- Witness for C20: moving out of the vector `[1, 2]`. -/
theorem move_ctor_contract_witness : (ctor_move sampleFull).1.WF :=
  (move_ctor_contract sampleFull).2.2.2.2.1 sampleFull_wf

/-- C21: the scenario on a `Vector<int>`.  From an empty vector, `push_back(1)`,
`push_back(2)`, `push_back(3)` give `[1, 2, 3]`; then `insert(begin() + 1, 99)` gives
`[1, 99, 2, 3]`; then `erase(begin() + 2)` gives `[1, 99, 3]`; then `pop_back()` gives
`[1, 99]`; then `clear()` gives size 0 with the capacity the vector had just before. -/
theorem scenario (h : Heap) :
    ∃ v3 h3 v4 h4 it4 v5 it5 v6 v7,
      push_all h (Vector.new : Vector Int) [1, 2, 3] = .ok (v3, h3) ∧
      v3.toList = [1, 2, 3] ∧
      insert h3 v3 ((begin_ v3).add 1) 99 = .ok (v4, h4, it4) ∧
      v4.toList = [1, 99, 2, 3] ∧
      erase v4 ((begin_ v4).add 2) = .ok (v5, it5) ∧ v5.toList = [1, 99, 3] ∧
      pop_back v5 = .ok v6 ∧ v6.toList = [1, 99] ∧
      clear v6 = .ok v7 ∧ size v7 = 0 ∧ capacity v7 = capacity v6 := by
  obtain ⟨v3, h3, hr3, hm3, _⟩ := push_all_spec [1, 2, 3] h (Vector.new : Vector Int) []
    models_new
  have hs3 : v3.size_ = 3 := hm3.1.symm
  obtain ⟨v4, h4, hr4, hm4, _⟩ := insert_spec h3 hm3 ((begin_ v3).add 1) rfl
    (by simp [begin_, Iter.add, hs3]) 99
  have hs4 : v4.size_ = 4 := hm4.1.symm
  obtain ⟨v5, hr5, hm5, _⟩ := erase_spec hm4 ((begin_ v4).add 2) rfl
    (by simp [begin_, Iter.add, hs4])
  have hs5 : v5.size_ = 3 := hm5.1.symm
  obtain ⟨v6, hr6, hm6, _⟩ := (pop_back_spec hm5).2 (by omega)
  obtain ⟨v7, hr7, _, hc7, _, hs7⟩ := clear_spec hm6
  exact ⟨v3, h3, v4, h4, _, v5, _, v6, v7, hr3, hm3.toList_eq, hr4, hm4.toList_eq, hr5,
    hm5.toList_eq, hr6, hm6.toList_eq, hr7, hs7, hc7⟩


/-- C22, what the code does: when the migration of a growing `push_back` on a full vector
throws at its element number `k` (counted from 0), the call throws; the new block is freed
and `data_`, `size()` and `capacity()` are as before, but the first `k` elements are left
moved-from, and the `k` elements already constructed in the new block are never destroyed:
after the destructor of the vector has run, the ledger shows `k` more constructions than
it would without the call. -/
theorem migration_failure_leaks (T : Elem α) (w : World) (v : Vector α) (x : α) (k : Nat)
    (hv : v.WF) (hfull : size v = capacity v) (hk : k < size v)
    (hbefore : ∀ j, j < k → T.throws (w.calls + j) = false)
    (hthrow : T.throws (w.calls + k) = true) :
    ∃ v2 w2 v3 w3, push_back_t T w v x = .threw (v2, w2) ∧
      data v2 = data v ∧ size v2 = size v ∧ capacity v2 = capacity v ∧ v2.WF ∧
      v2.toList = (v.toList.take k).map T.moved ++ v.toList.drop k ∧
      w2.heap.news = w.heap.news + 1 ∧ w2.heap.deletes = w.heap.deletes + 1 ∧
      w2.constructed = w.constructed + k ∧ w2.destroyed = w.destroyed ∧
      dtor_t w2 v2 = .done (v3, w3) ∧
      w3.constructed = w.constructed + k ∧ w3.destroyed = w.destroyed + size v := by
  have hfull2 : v.size_ = v.capacity_ := hfull
  have hk2 : k < v.size_ := hk
  obtain ⟨old2, hr, hm⟩ := reallocate_t_threw T w hv.models
    (if v.capacity_ = 0 then 1 else v.capacity_ * 2) k (by split_ifs <;> omega) hk2
    hbefore hthrow
  obtain ⟨v3, w3, hdt, h1, h2, _⟩ := dtor_t_done
    { heap := { news := w.heap.news + 1, deletes := w.heap.deletes + 1 },
      calls := w.calls + k + 1, constructed := w.constructed + k,
      destroyed := w.destroyed } hm
  refine ⟨{ v with slots := old2 },
    { heap := { news := w.heap.news + 1, deletes := w.heap.deletes + 1 },
      calls := w.calls + k + 1, constructed := w.constructed + k,
      destroyed := w.destroyed }, v3, w3, ?_, rfl, rfl, rfl, hm.wf, hm.toList_eq, rfl, rfl, rfl, rfl, hdt,
    h1, h2⟩
  simp only [push_back_t, hfull2, if_true, hr]

/-- Witness for C22: `push_back(3)` on the full vector `[1, 2]` with an element type whose
second constructor invocation throws. -/
theorem migration_failure_leaks_witness :
    ∃ v2 w2 v3 w3, push_back_t (throwsAt 1) sampleWorld sampleFull 3 = .threw (v2, w2) ∧
      data v2 = data sampleFull ∧ size v2 = size sampleFull ∧
      capacity v2 = capacity sampleFull ∧ v2.WF ∧
      v2.toList = (sampleFull.toList.take 1).map (throwsAt 1).moved ++
        sampleFull.toList.drop 1 ∧
      w2.heap.news = sampleWorld.heap.news + 1 ∧
      w2.heap.deletes = sampleWorld.heap.deletes + 1 ∧
      w2.constructed = sampleWorld.constructed + 1 ∧
      w2.destroyed = sampleWorld.destroyed ∧
      dtor_t w2 v2 = .done (v3, w3) ∧
      w3.constructed = sampleWorld.constructed + 1 ∧
      w3.destroyed = sampleWorld.destroyed + size sampleFull :=
  migration_failure_leaks (throwsAt 1) sampleWorld sampleFull 3 1 sampleFull_wf rfl
    (by decide) (by decide) rfl


/-- C23 fails as stated: on the full vector `[1, 2]`, with an element type whose third
constructor invocation throws, the two migrations of the growth succeed and the
construction of the appended element throws; the call leaves capacity 4, not 2. -/
theorem push_back_strong_fails :
    ∃ v1 w1 w2, reallocate_t (throwsAt 2) sampleWorld sampleFull 4 = .done (v1, w1) ∧
      construct_t (throwsAt 2) w1 v1.slots v1.size_ 3 = .threw (v1.slots, w2) ∧
      push_back_t (throwsAt 2) sampleWorld sampleFull 3 = .threw (v1, w2) ∧
      v1.toList = sampleFull.toList ∧ size v1 = size sampleFull ∧
      capacity sampleFull = 2 ∧ capacity v1 = 4 ∧ data v1 ≠ data sampleFull :=
  ⟨{ data_ := some 1, slots := [some 1, some 2, none, none], size_ := 2, capacity_ := 4 },
   { heap := { news := 2, deletes := 1 }, calls := 2, constructed := 4, destroyed := 2 },
   { heap := { news := 2, deletes := 1 }, calls := 3, constructed := 4, destroyed := 2 },
   rfl, rfl, rfl, rfl, rfl, rfl, rfl, by decide⟩

/-- C23, amended: if the construction of the appended element fails in `push_back` (the
migrations of a growth that ran first having succeeded), the call throws and the vector
has the same element sequence and the same size as before, in a consistent state, with
as many elements constructed as destroyed by the call.  With `size() < capacity()` the
object is exactly as before; with `size() == capacity()` the growth stays: the capacity
is `max(1, 2 * capacity())` and the elements live in the new block. -/
theorem push_back_element_failure (T : Elem α) (w : World) (v : Vector α) (x : α)
    (hv : v.WF)
    (hmig : size v = capacity v → ∀ j, j < size v → T.throws (w.calls + j) = false)
    (hthrow : T.throws (w.calls + (if size v = capacity v then size v else 0)) = true) :
    ∃ v2 w2, push_back_t T w v x = .threw (v2, w2) ∧ v2.WF ∧
      v2.toList = v.toList ∧ size v2 = size v ∧
      capacity v2 = (if size v = capacity v then max 1 (2 * capacity v) else capacity v) ∧
      (size v < capacity v → v2 = v) ∧
      (size v = capacity v → data v2 = some w.heap.news) ∧
      w2.constructed + w.destroyed = w.constructed + w2.destroyed := by
  have hm := hv.models
  simp only [size, capacity] at hmig hthrow ⊢
  by_cases hfull : v.size_ = v.capacity_
  · rw [if_pos hfull] at hthrow
    obtain ⟨v1, w1, hr, hm1, hcap, hsz, hdata, _, hcalls, hcon, hdes⟩ :=
      reallocate_t_done T w hm (if v.capacity_ = 0 then 1 else v.capacity_ * 2)
        (by split_ifs <;> omega) (hmig hfull)
    have hlt : v1.size_ < v1.capacity_ := by
      rw [hcap, hsz]
      split_ifs <;> omega
    obtain ⟨m, hc, _⟩ := hm1.2.2.1.construct_ok (i := v1.size_) hlt
      (List.getElem?_eq_none (by rw [hm1.1])) x
    have ht1 : T.throws w1.calls = true := by
      rw [hcalls]
      exact hthrow
    refine ⟨v1, { w1 with calls := w1.calls + 1 }, ?_, hm1.wf, ?_, hsz, ?_, ?_, ?_, ?_⟩
    · simp only [push_back_t, hfull, if_true, hr, construct_t, hc, ht1]
    · rw [hm1.toList_eq]
    · rw [if_pos hfull, hcap]
      split_ifs <;> omega
    · intro hlt2
      omega
    · intro _
      exact hdata
    · show w1.constructed + w.destroyed = w.constructed + w1.destroyed
      omega
  · rw [if_neg hfull, Nat.add_zero] at hthrow
    have hlt : v.size_ < v.capacity_ := by
      have := hm.2.1
      omega
    obtain ⟨m, hc, _⟩ := hm.2.2.1.construct_ok (i := v.size_) hlt
      (List.getElem?_eq_none (by rw [hm.1])) x
    refine ⟨v, { w with calls := w.calls + 1 }, ?_, hv, rfl, rfl, ?_, ?_, ?_, ?_⟩
    · simp only [push_back_t, hfull, if_false, construct_t, hc, hthrow, if_true]
    · rw [if_neg hfull]
    · intro _
      rfl
    · intro hc2
      exact absurd hc2 hfull
    · rfl

/-- Witness for C23: the full vector `[1, 2]` and an element type whose third constructor
invocation throws. -/
theorem push_back_element_failure_witness :
    ∃ v2 w2, push_back_t (throwsAt 2) sampleWorld sampleFull 3 = .threw (v2, w2) ∧ v2.WF ∧
      v2.toList = sampleFull.toList ∧ size v2 = size sampleFull ∧
      capacity v2 = (if size sampleFull = capacity sampleFull
        then max 1 (2 * capacity sampleFull) else capacity sampleFull) ∧
      (size sampleFull < capacity sampleFull → v2 = sampleFull) ∧
      (size sampleFull = capacity sampleFull → data v2 = some sampleWorld.heap.news) ∧
      w2.constructed + sampleWorld.destroyed = sampleWorld.constructed + w2.destroyed :=
  push_back_element_failure (throwsAt 2) sampleWorld sampleFull 3 sampleFull_wf
    (by decide) rfl


/-- C24 fails as stated: calling `reserve(1)` and then `shrink_to_fit()` on a
default-constructed vector reaches a state whose capacity is 0 while `data_` is not null
(`reallocate(0)` installs the block that `operator new` returned for zero slots). -/
theorem storage_absent_iff_fails :
    ¬ (∀ v : Vector Nat, Reachable v → (data v = none ↔ capacity v = 0)) := by
  intro hall
  have hreach : Reachable ({ data_ := some 1, slots := [], size_ := 0, capacity_ := 0 } :
      Vector Nat) :=
    Reachable.call { news := 1, deletes := 0 }
      { data_ := some 0, slots := [none], size_ := 0, capacity_ := 1 } Op.shrink_to_fit _
      { news := 2, deletes := 1 }
      (Reachable.call { news := 0, deletes := 0 } Vector.new (Op.reserve 1) _
        { news := 1, deletes := 0 } Reachable.ctor_default trivial rfl)
      trivial rfl
  have hiff := hall _ hreach
  have hnull := hiff.2 rfl
  cases hnull

/-- C24, amended: in every reachable state a null `data_` implies `capacity() == 0`. The
equivalence "`data_` is null iff `capacity() == 0`" holds after every constructor and is
preserved by every call that returns (and by one that throws, which leaves the object as it
was), by copy and move assignment and by `swap`, except by `shrink_to_fit()` on an empty
vector whose capacity is not 0. -/
theorem storage_absent_iff :
    (∀ v : Vector α, Reachable v → data v = none → capacity v = 0) ∧
    NullIff (Vector.new : Vector α) ∧
    (∀ (h : Heap) (count : Nat) (t0 : α) (v : Vector α) (h2 : Heap),
      ctor_count h count t0 = .ok (v, h2) → NullIff v) ∧
    (∀ (h : Heap) (count : Nat) (x : α) (v : Vector α) (h2 : Heap),
      ctor_fill h count x = .ok (v, h2) → NullIff v) ∧
    (∀ (h : Heap) (init : List α) (v : Vector α) (h2 : Heap),
      ctor_ilist h init = .ok (v, h2) → NullIff v) ∧
    (∀ (h : Heap) (src : List α) (v : Vector α) (h2 : Heap),
      ctor_range h src = .ok (v, h2) → NullIff v) ∧
    (∀ (h : Heap) (other v : Vector α) (h2 : Heap),
      ctor_copy h other = .ok (v, h2) → NullIff v) ∧
    (∀ other : Vector α, NullIff other →
      NullIff (ctor_move other).1 ∧ NullIff (ctor_move other).2) ∧
    (∀ (h : Heap) (v : Vector α) (op : Op α) (v2 : Vector α) (h2 : Heap),
      NullIff v → (op = Op.shrink_to_fit → 0 < size v ∨ capacity v = 0) →
      op.run h v = .ok (v2, h2) → NullIff v2) ∧
    (∀ (h : Heap) (v : Vector α) (op : Op α) (e : Exn) (v2 : Vector α),
      Reachable v → op.pre v → NullIff v →
      op.run h v = .error (.thrown e v2) → NullIff v2) ∧
    (∀ (h : Heap) (v other v2 : Vector α) (h2 : Heap),
      NullIff v → copy_assign h v other = .ok (v2, h2) → NullIff v2) ∧
    (∀ (h : Heap) (v other v2 o2 : Vector α) (h2 : Heap),
      NullIff other → move_assign h v other = .ok (v2, o2, h2) → NullIff v2 ∧ NullIff o2) ∧
    (∀ v other : Vector α, NullIff v → NullIff other →
      NullIff (swap v other).1 ∧ NullIff (swap v other).2) := by
  refine ⟨?_, nullIff_new, ?_, ?_, ?_, ?_, ?_, ?_, ?_, ?_, ?_, ?_, ?_⟩
  · intro v hr hn
    obtain ⟨xs, hm⟩ := reachable_models hr
    exact hm.2.2.2 hn
  · intro h count t0 v h2 hr
    exact ctor_nullIff h (.resize count t0) v h2 (by intro hc; cases hc) hr
  · intro h count x v h2 hr
    exact ctor_nullIff h (.assign count x) v h2 (by intro hc; cases hc) hr
  · intro h init v h2 hr
    exact ctor_nullIff h (.assign_ilist init) v h2 (by intro hc; cases hc) hr
  · intro h src v h2 hr
    exact ctor_nullIff h (.assign_range src) v h2 (by intro hc; cases hc) hr
  · intro h other v h2 hr
    exact ctor_copy_nullIff h other v h2 hr
  · intro other ho
    exact ⟨ho, nullIff_new⟩
  · intro h v op v2 h2 hv hs hr
    exact op_run_nullIff h v v2 op h2 hs hr hv
  · intro h v op e v2 hreach hp hv hr
    rw [op_run_thrown h hreach op hp e v2 hr]
    exact hv
  · intro h v other v2 h2 hv hr
    exact copy_assign_nullIff h v other v2 h2 hr hv
  · intro h v other v2 o2 h2 ho hr
    exact move_assign_nullIff h v other v2 o2 h2 hr ho
  · intro v other hv ho
    exact ⟨ho, hv⟩

/-- Witness for C24: `shrink_to_fit()` on the vector `[1, 2]` with capacity 4 keeps the
equivalence. -/
theorem storage_absent_iff_witness :
    NullIff ({ data_ := some 1, slots := [some 1, some 2], size_ := 2, capacity_ := 2 } :
      Vector Nat) :=
  (storage_absent_iff (α := Nat)).2.2.2.2.2.2.2.2.1 sampleHeap sampleRoomy Op.shrink_to_fit
    _ { news := 2, deletes := 1 } ⟨fun hc => (by cases hc), fun hc => (by cases hc)⟩
    (fun _ => Or.inl (by decide)) rfl

/-- C37: after `n >= 1` calls of `push_back` on a default-constructed `Vector` (the calls
succeed), `size()` is `n` and `capacity()` is the smallest power of two that is at least
`n`; so `size() <= capacity() < 2 * size()`. -/
theorem push_back_capacity_power_of_two (h : Heap) (vals : List α) (hne : vals ≠ []) :
    ∃ v h2 k, push_all h Vector.new vals = .ok (v, h2) ∧ size v = vals.length ∧
      capacity v = 2 ^ k ∧ vals.length ≤ 2 ^ k ∧ (∀ j, vals.length ≤ 2 ^ j → k ≤ j) ∧
      size v ≤ capacity v ∧ capacity v < 2 * size v := by
  cases vals with
  | nil => exact absurd rfl hne
  | cons x rest =>
    obtain ⟨v1, h1, hp, hm1, hinv1⟩ := push_back_pow h (models_new (α := α)) x (Or.inl rfl)
    obtain ⟨v2, h2, hq, hm2, k, hk, hlt⟩ := push_all_pow rest h1 v1 ([] ++ [x]) hm1 hinv1
    have hsz : v2.size_ = (x :: rest).length := by
      rw [← hm2.1]
      simp
    have hle := hm2.2.1
    refine ⟨v2, h2, k, by simp only [push_all, hp, ok_bind, hq], hsz, hk, ?_, ?_, hle, hlt⟩
    · rw [← hk, ← hsz]
      exact hle
    · intro j hj
      have h2j : 2 ^ k < 2 ^ (j + 1) := by
        rw [Nat.pow_succ, ← hk]
        omega
      have := (Nat.pow_lt_pow_iff_right (by omega : 1 < 2)).1 h2j
      omega

/-- Witness for C37: five values pushed onto a fresh vector leave capacity 8. -/
theorem push_back_capacity_power_of_two_witness :
    ∃ v h2 k, push_all sampleHeap (Vector.new : Vector Nat) [1, 2, 3, 4, 5] = .ok (v, h2) ∧
      size v = [1, 2, 3, 4, 5].length ∧ capacity v = 2 ^ k ∧
      [1, 2, 3, 4, 5].length ≤ 2 ^ k ∧ (∀ j, [1, 2, 3, 4, 5].length ≤ 2 ^ j → k ≤ j) ∧
      size v ≤ capacity v ∧ capacity v < 2 * size v :=
  push_back_capacity_power_of_two sampleHeap [1, 2, 3, 4, 5] (by simp)

end VecImpl

namespace AlgorithmsDemo

/-! ## Properties of the algorithms -/

theorem lastIndex_eq (n : Nat) (hn : n < 2147483648) : lastIndex n = (n : Int) - 1 := by
  simp only [lastIndex, wrap32]
  omega

theorem intOfSize_eq (n : Nat) (hn : n < 2147483648) : intOfSize n = (n : Int) := by
  simp only [intOfSize, wrap32]
  omega

theorem cdiv_two (a : Int) (ha : 0 ≤ a) : cdiv a 2 = a / 2 :=
  Int.tdiv_eq_ediv ha (by omega)

theorem rd_eq {β : Type} (arr : List β) (i : Int) (k : Nat) (hi : i = k) : rd arr i = arr[k]? := by
  subst hi
  simp [rd]

theorem sorted_getElem_le {arr : List Int} (hs : arr.Sorted (· ≤ ·)) {i j : Nat}
    (hij : i ≤ j) (hj : j < arr.length) : arr[i] ≤ arr[j] := by
  rcases Nat.lt_or_ge i j with h | h
  · exact (List.pairwise_iff_getElem.1 hs) i j (by omega) hj h
  · have : i = j := by omega
    subst this
    exact le_refl _

theorem binarySearchLoop_spec (arr : List Int) (target : Int) (hs : arr.Sorted (· ≤ ·)) :
    ∀ (fuel : Nat) (left right : Int), 0 ≤ left → right < arr.length →
      (right - left + 1).toNat < fuel →
      (∀ k : Nat, ∀ hk : k < arr.length, arr[k] = target → left ≤ k ∧ (k : Int) ≤ right) →
      ∃ r, binarySearchLoop arr target fuel left right = some r ∧
        ((r = -1 ∧ target ∉ arr) ∨
          (0 ≤ r ∧ r < arr.length ∧ rd arr r = some target)) := by
  intro fuel
  induction fuel with
  | zero =>
    intro left right _ _ hf
    omega
  | succ fuel ih =>
    intro left right hl hr hf hinv
    unfold binarySearchLoop
    by_cases hlr : left ≤ right
    · rw [if_pos hlr]
      have hdiv := cdiv_two (right - left) (by omega)
      have hm1 : left ≤ left + cdiv (right - left) 2 := by rw [hdiv]; omega
      have hm2 : left + cdiv (right - left) 2 ≤ right := by rw [hdiv]; omega
      generalize left + cdiv (right - left) 2 = mid at hm1 hm2
      have hmn : mid.toNat < arr.length := by omega
      have hrd : rd arr mid = some arr[mid.toNat] := by
        rw [rd_eq arr mid mid.toNat (by omega)]
        exact List.getElem?_eq_getElem hmn
      simp only [hrd]
      by_cases heq : arr[mid.toNat] = target
      · rw [if_pos heq]
        exact ⟨mid, rfl, Or.inr ⟨by omega, by omega, by rw [hrd, heq]⟩⟩
      · rw [if_neg heq]
        by_cases hlt : arr[mid.toNat] < target
        · rw [if_pos hlt]
          apply ih (mid + 1) right (by omega) hr (by omega)
          intro k hk hkt
          obtain ⟨h1, h2⟩ := hinv k hk hkt
          refine ⟨?_, h2⟩
          by_contra hc
          have hle : arr[k] ≤ arr[mid.toNat] := sorted_getElem_le hs (by omega) hmn
          rw [hkt] at hle
          omega
        · rw [if_neg hlt]
          apply ih left (mid - 1) hl (by omega) (by omega)
          intro k hk hkt
          obtain ⟨h1, h2⟩ := hinv k hk hkt
          refine ⟨h1, ?_⟩
          by_contra hc
          have hle : arr[mid.toNat] ≤ arr[k] := sorted_getElem_le hs (by omega) hk
          rw [hkt] at hle
          omega
    · rw [if_neg hlr]
      refine ⟨-1, rfl, Or.inl ⟨rfl, ?_⟩⟩
      intro hmem
      obtain ⟨k, hk, hkt⟩ := List.getElem_of_mem hmem
      obtain ⟨h1, h2⟩ := hinv k hk hkt
      omega

theorem rd_append_cons {β : Type} (A : List β) (x : β) (B : List β) (i : Int)
    (hi : i = A.length) : rd (A ++ x :: B) i = some x := by
  rw [rd_eq _ i A.length hi, List.getElem?_append_right (Nat.le_refl _)]
  simp

theorem wr_append_cons {β : Type} (A : List β) (x : β) (B : List β) (i : Int) (y : β)
    (hi : i = A.length) : wr (A ++ x :: B) i y = some (A ++ y :: B) := by
  subst hi
  have h1 : (0 : Int) ≤ (A.length : Int) ∧ (A.length : Int) < ((A ++ x :: B).length : Int) := by
    simp only [List.length_append, List.length_cons]
    omega
  simp only [wr, if_pos h1, Int.toNat_ofNat]
  simp

theorem swap_same (A : List Int) (x : Int) (B : List Int) (i j : Int)
    (hi : i = A.length) (hj : j = A.length) :
    swap (A ++ x :: B) i j = some (A ++ x :: B) := by
  simp only [swap, rd_append_cons A x B i hi, rd_append_cons A x B j hj,
    wr_append_cons A x B i x hi, wr_append_cons A x B j x hj]

theorem swap_apart (A : List Int) (x : Int) (B : List Int) (y : Int) (C : List Int)
    (i j : Int) (hi : i = A.length) (hj : j = A.length + 1 + B.length) :
    swap (A ++ x :: (B ++ y :: C)) i j = some (A ++ y :: (B ++ x :: C)) := by
  have e1 : A ++ x :: (B ++ y :: C) = (A ++ x :: B) ++ y :: C := by simp
  have e2 : A ++ y :: (B ++ y :: C) = (A ++ y :: B) ++ y :: C := by simp
  have e3 : A ++ y :: (B ++ x :: C) = (A ++ y :: B) ++ x :: C := by simp
  have hj1 : j = ((A ++ x :: B).length : Int) := by
    simp only [List.length_append, List.length_cons]
    omega
  have hj2 : j = ((A ++ y :: B).length : Int) := by
    simp only [List.length_append, List.length_cons]
    omega
  have r1 : rd (A ++ x :: (B ++ y :: C)) i = some x := rd_append_cons A x _ i hi
  have r2 : rd (A ++ x :: (B ++ y :: C)) j = some y := by
    rw [e1]
    exact rd_append_cons _ y C j hj1
  have w1 : wr (A ++ x :: (B ++ y :: C)) i y = some (A ++ y :: (B ++ y :: C)) :=
    wr_append_cons A x _ i y hi
  have w2 : wr (A ++ y :: (B ++ y :: C)) j x = some (A ++ y :: (B ++ x :: C)) := by
    rw [e2, e3]
    exact wr_append_cons _ y C j x hj2
  simp only [swap, r1, r2, w1, w2]

/-- The partition loop on a segment: `small` and `large` are the parts already classified,
`rest` is still to be read and `p` is the pivot at the end of the segment. -/
theorem partitionLoop_segment (p : Int) (pre post : List Int) :
    ∀ (rest small large : List Int) (j i : Int),
      j = pre.length + small.length + large.length →
      i = pre.length + small.length - 1 →
      (∀ x ∈ small, x ≤ p) → (∀ x ∈ large, p < x) →
      ∃ ls rs, partitionLoop p rest.length j i
          (pre ++ (small ++ (large ++ (rest ++ p :: post)))) =
          some ((pre.length : Int) + ls.length - 1, pre ++ (ls ++ (rs ++ p :: post))) ∧
        (ls ++ rs).Perm (small ++ (large ++ rest)) ∧
        (∀ x ∈ ls, x ≤ p) ∧ (∀ x ∈ rs, p < x) := by
  intro rest
  induction rest with
  | nil =>
    intro small large j i _ hi hs hl
    subst hi
    exact ⟨small, large, by simp [partitionLoop], by simp, hs, hl⟩
  | cons x rest ih =>
    intro small large j i hj hi hs hl
    have e1 : pre ++ (small ++ (large ++ (x :: rest ++ p :: post))) =
        (pre ++ (small ++ large)) ++ x :: (rest ++ p :: post) := by simp
    have hrd : rd (pre ++ (small ++ (large ++ (x :: rest ++ p :: post)))) j = some x := by
      rw [e1]
      exact rd_append_cons _ x _ j (by simp only [List.length_append]; omega)
    simp only [List.length_cons, partitionLoop, hrd]
    by_cases hx : x ≤ p
    · rw [if_pos hx]
      cases large with
      | nil =>
        have e2 : pre ++ (small ++ ([] ++ (x :: rest ++ p :: post))) =
            (pre ++ small) ++ x :: (rest ++ p :: post) := by simp
        have hsw := swap_same (pre ++ small) x (rest ++ p :: post) (i + 1) j
          (by simp only [List.length_append]; omega)
          (by simp only [List.length_append, List.length_nil] at hj ⊢; omega)
        rw [e2, hsw]
        obtain ⟨ls, rs, hr, hperm, h1, h2⟩ := ih (small ++ [x]) [] (j + 1) (i + 1)
          (by simp only [List.length_append, List.length_cons, List.length_nil] at hj ⊢; omega)
          (by simp only [List.length_append, List.length_cons, List.length_nil]; omega)
          (by
            intro y hy
            rcases List.mem_append.1 hy with h | h
            · exact hs y h
            · rw [List.mem_singleton.1 h]; exact hx)
          (by intro y hy; cases hy)
        refine ⟨ls, rs, ?_, ?_, h1, h2⟩
        · rw [← hr]
          simp
        · refine hperm.trans ?_
          simp
      | cons l large =>
        have e2 : pre ++ (small ++ (l :: large ++ (x :: rest ++ p :: post))) =
            (pre ++ small) ++ l :: (large ++ x :: (rest ++ p :: post)) := by simp
        have hsw := swap_apart (pre ++ small) l large x (rest ++ p :: post) (i + 1) j
          (by simp only [List.length_append]; omega)
          (by simp only [List.length_append, List.length_cons] at hj ⊢; omega)
        rw [e2, hsw]
        obtain ⟨ls, rs, hr, hperm, h1, h2⟩ := ih (small ++ [x]) (large ++ [l]) (j + 1) (i + 1)
          (by simp only [List.length_append, List.length_cons, List.length_nil] at hj ⊢; omega)
          (by simp only [List.length_append, List.length_cons, List.length_nil]; omega)
          (by
            intro y hy
            rcases List.mem_append.1 hy with h | h
            · exact hs y h
            · rw [List.mem_singleton.1 h]; exact hx)
          (by
            intro y hy
            rcases List.mem_append.1 hy with h | h
            · exact hl y (List.mem_cons_of_mem _ h)
            · rw [List.mem_singleton.1 h]; exact hl l (List.mem_cons_self _ _))
        refine ⟨ls, rs, ?_, ?_, h1, h2⟩
        · rw [← hr]
          simp
        · refine hperm.trans ?_
          rw [List.append_assoc small [x], List.append_assoc large [l]]
          refine List.Perm.append_left small ?_
          have : ([x] ++ (large ++ ([l] ++ rest))).Perm (l :: (large ++ x :: rest)) := by
            have h3 : ([x] ++ (large ++ ([l] ++ rest))).Perm (x :: l :: (large ++ rest)) := by
              simp only [List.singleton_append, List.perm_cons]
              exact List.perm_middle
            have h4 : (l :: (large ++ x :: rest)).Perm (l :: x :: (large ++ rest)) := by
              simp only [List.perm_cons]
              exact List.perm_middle
            exact h3.trans ((List.Perm.swap l x _).trans h4.symm)
          simpa using this
    · rw [if_neg hx]
      obtain ⟨ls, rs, hr, hperm, h1, h2⟩ := ih small (large ++ [x]) (j + 1) i
        (by simp only [List.length_append, List.length_cons, List.length_nil]; omega)
        hi hs
        (by
          intro y hy
          rcases List.mem_append.1 hy with h | h
          · exact hl y h
          · rw [List.mem_singleton.1 h]; omega)
      refine ⟨ls, rs, ?_, ?_, h1, h2⟩
      · rw [← hr]
        congr 1
        simp
      · refine hperm.trans ?_
        simp

theorem partition_segment (pre seg post : List Int) (p : Int) (low high : Int)
    (hlow : low = pre.length) (hhigh : high = pre.length + seg.length) :
    ∃ ls rs, partition (pre ++ (seg ++ p :: post)) low high =
        some ((pre.length : Int) + ls.length, pre ++ (ls ++ p :: (rs ++ post))) ∧
      (ls ++ rs).Perm seg ∧ (∀ x ∈ ls, x ≤ p) ∧ (∀ x ∈ rs, p < x) := by
  have e1 : pre ++ (seg ++ p :: post) = (pre ++ seg) ++ p :: post := by simp
  have hrd : rd (pre ++ (seg ++ p :: post)) high = some p := by
    rw [e1]
    exact rd_append_cons _ p post high (by simp only [List.length_append]; omega)
  have hcount : (high - low).toNat = seg.length := by omega
  obtain ⟨ls, rs, hloop, hperm, h1, h2⟩ := partitionLoop_segment p pre post seg [] [] low
    (low - 1) (by simp only [List.length_nil]; omega)
    (by simp only [List.length_nil]; omega)
    (by intro y hy; cases hy) (by intro y hy; cases hy)
  simp only [List.nil_append] at hloop hperm
  have hlen : ls.length + rs.length = seg.length := by
    have := hperm.length_eq
    simpa using this
  cases rs with
  | nil =>
    refine ⟨ls, [], ?_, hperm, h1, h2⟩
    have e2 : pre ++ (ls ++ ([] ++ p :: post)) = (pre ++ ls) ++ p :: post := by simp
    have hsw := swap_same (pre ++ ls) p post ((pre.length : Int) + ls.length - 1 + 1) high
      (by simp only [List.length_append]; omega)
      (by simp only [List.length_append, List.length_nil] at hlen ⊢; omega)
    rw [← e2] at hsw
    simp only [partition, hrd, hcount, hloop, hsw]
    simp
  | cons r rs =>
    refine ⟨ls, rs ++ [r], ?_, ?_, h1, ?_⟩
    · have e2 : pre ++ (ls ++ (r :: rs ++ p :: post)) =
          (pre ++ ls) ++ r :: (rs ++ p :: post) := by simp
      have hsw := swap_apart (pre ++ ls) r rs p post ((pre.length : Int) + ls.length - 1 + 1)
        high (by simp only [List.length_append]; omega)
        (by simp only [List.length_append, List.length_cons] at hlen ⊢; omega)
      rw [← e2] at hsw
      simp only [partition, hrd, hcount, hloop, hsw]
      simp
    · refine List.Perm.trans ?_ hperm
      refine List.Perm.append_left ls ?_
      exact (List.perm_append_singleton r rs)
    · intro y hy
      rcases List.mem_append.1 hy with h | h
      · exact h2 y (List.mem_cons_of_mem _ h)
      · rw [List.mem_singleton.1 h]
        exact h2 r (List.mem_cons_self _ _)

theorem quickSort_segment :
    ∀ (fuel : Nat) (pre seg post : List Int) (low high : Int),
      low = pre.length → high = pre.length + seg.length - 1 → seg.length < fuel →
      ∃ seg2, quickSort fuel (pre ++ (seg ++ post)) low high = some (pre ++ (seg2 ++ post)) ∧
        seg2.Perm seg ∧ seg2.Sorted (· ≤ ·) := by
  intro fuel
  induction fuel with
  | zero =>
    intro pre seg post low high _ _ hf
    omega
  | succ fuel ih =>
    intro pre seg post low high hlow hhigh hf
    unfold quickSort
    by_cases hlh : low < high
    · rw [if_pos hlh]
      have hne : seg ≠ [] := by
        intro hnil
        rw [hnil] at hhigh
        simp only [List.length_nil] at hhigh
        omega
      obtain ⟨seg0, p, hseg⟩ : ∃ seg0 p, seg = seg0 ++ [p] :=
        ⟨seg.dropLast, seg.getLast hne, (List.dropLast_append_getLast hne).symm⟩
      subst hseg
      have hl0 : (seg0 ++ [p]).length = seg0.length + 1 := by simp
      rw [hl0] at hhigh hf
      obtain ⟨ls, rs, hpart, hperm, h1, h2⟩ := partition_segment pre seg0 post p low high hlow
        (by omega)
      have e0 : pre ++ (seg0 ++ [p] ++ post) = pre ++ (seg0 ++ p :: post) := by simp
      have hlen : ls.length + rs.length = seg0.length := by
        have := hperm.length_eq
        simpa using this
      rw [e0, hpart]
      obtain ⟨ls2, hq1, hp1, hs1⟩ := ih pre ls (p :: (rs ++ post)) low
        ((pre.length : Int) + ls.length - 1) hlow rfl (by omega)
      simp only [hq1]
      have e1 : pre ++ (ls2 ++ p :: (rs ++ post)) = (pre ++ (ls2 ++ [p])) ++ (rs ++ post) := by
        simp
      have hl2 : ls2.length = ls.length := hp1.length_eq
      obtain ⟨rs2, hq2, hp2, hs2⟩ := ih (pre ++ (ls2 ++ [p])) rs post
        ((pre.length : Int) + ls.length + 1) high
        (by simp only [List.length_append, List.length_cons, List.length_nil]; omega)
        (by simp only [List.length_append, List.length_cons, List.length_nil]; omega)
        (by omega)
      rw [e1, hq2]
      refine ⟨ls2 ++ p :: rs2, by simp, ?_, ?_⟩
      · have h3 : (ls2 ++ p :: rs2).Perm (ls ++ p :: rs) :=
          List.Perm.append hp1 (List.Perm.cons p hp2)
        have h4 : (ls ++ p :: rs).Perm (p :: (ls ++ rs)) := List.perm_middle
        have h5 : (seg0 ++ [p]).Perm (p :: seg0) := List.perm_append_singleton p seg0
        exact h3.trans (h4.trans ((List.Perm.cons p hperm).trans h5.symm))
      · refine List.pairwise_append.2 ⟨hs1, ?_, ?_⟩
        · refine List.pairwise_cons.2 ⟨?_, hs2⟩
          intro y hy
          have := h2 y ((hp2.mem_iff).1 hy)
          omega
        · intro a ha b hb
          have ha2 : a ≤ p := h1 a ((hp1.mem_iff).1 ha)
          rcases List.mem_cons.1 hb with h | h
          · rw [h]; exact ha2
          · have := h2 b ((hp2.mem_iff).1 h)
            omega
    · rw [if_neg hlh]
      refine ⟨seg, rfl, List.Perm.refl _, ?_⟩
      have hlen : seg.length ≤ 1 := by omega
      match seg, hlen with
      | [], _ => exact List.sorted_nil
      | [a], _ => exact List.sorted_singleton a
      | _ :: _ :: _, h => simp at h

theorem wr_pad (out : List Int) (z : Int) (pad : List Int) (k : Int) (x : Int)
    (hk : k = out.length) : wr (out ++ z :: pad) k x = some ((out ++ [x]) ++ pad) := by
  rw [wr_append_cons out z pad k x hk]
  simp

theorem sorted_concat {out : List Int} {x : Int} (hs : out.Sorted (· ≤ ·))
    (hx : ∀ y ∈ out, y ≤ x) : (out ++ [x]).Sorted (· ≤ ·) := by
  refine List.pairwise_append.2 ⟨hs, List.pairwise_singleton _ _, ?_⟩
  intro a ha b hb
  rw [List.mem_singleton.1 hb]
  exact hx a ha

/-- The first loop of `merge` on two sorted runs `L` and `R`: `out` is the part of `temp`
already written and `pad` the part still to be written. -/
theorem mergeBoth_spec (pre post L R : List Int) (hL : L.Sorted (· ≤ ·))
    (hR : R.Sorted (· ≤ ·)) (mid right : Int) (hmid : mid = pre.length + L.length - 1)
    (hright : right = pre.length + L.length + R.length - 1) :
    ∀ (fuel : Nat) (La Lb Ra Rb out pad : List Int) (i j k : Int),
      L = La ++ Lb → R = Ra ++ Rb → i = pre.length + La.length →
      j = pre.length + L.length + Ra.length → k = out.length →
      pad.length = Lb.length + Rb.length → out.Sorted (· ≤ ·) → out.Perm (La ++ Ra) →
      (∀ x ∈ out, ∀ y ∈ Lb ++ Rb, x ≤ y) → Lb.length + Rb.length < fuel →
      ∃ La2 Lb2 Ra2 Rb2 out2 pad2,
        mergeBoth (pre ++ (L ++ (R ++ post))) mid right fuel i j k (out ++ pad) =
          some ((pre.length : Int) + La2.length, (pre.length : Int) + L.length + Ra2.length,
            (out2.length : Int), out2 ++ pad2) ∧
        L = La2 ++ Lb2 ∧ R = Ra2 ++ Rb2 ∧ pad2.length = Lb2.length + Rb2.length ∧
        out2.Sorted (· ≤ ·) ∧ out2.Perm (La2 ++ Ra2) ∧
        (∀ x ∈ out2, ∀ y ∈ Lb2 ++ Rb2, x ≤ y) ∧ (Lb2 = [] ∨ Rb2 = []) := by
  intro fuel
  induction fuel with
  | zero =>
    intro La Lb Ra Rb out pad i j k _ _ _ _ _ _ _ _ _ hf
    omega
  | succ fuel ih =>
    intro La Lb Ra Rb out pad i j k hLe hRe hi hj hk hpad hso hpo hbound hf
    have hLlen : L.length = La.length + Lb.length := by rw [hLe]; simp
    have hRlen : R.length = Ra.length + Rb.length := by rw [hRe]; simp
    unfold mergeBoth
    cases Lb with
    | nil =>
      have hc : ¬ (i ≤ mid ∧ j ≤ right) := by
        simp only [List.length_nil] at hLlen
        omega
      rw [if_neg hc]
      exact ⟨La, [], Ra, Rb, out, pad, by rw [hi, hj, hk], hLe, hRe, hpad, hso, hpo, hbound,
        Or.inl rfl⟩
    | cons x Lb =>
      cases Rb with
      | nil =>
        have hc : ¬ (i ≤ mid ∧ j ≤ right) := by
          simp only [List.length_nil] at hRlen
          omega
        rw [if_neg hc]
        exact ⟨La, x :: Lb, Ra, [], out, pad, by rw [hi, hj, hk], hLe, hRe, hpad, hso, hpo,
          hbound, Or.inr rfl⟩
      | cons y Rb =>
        have hc : i ≤ mid ∧ j ≤ right := by
          simp only [List.length_cons] at hLlen hRlen
          omega
        rw [if_pos hc]
        have hrx : rd (pre ++ (L ++ (R ++ post))) i = some x := by
          have e : pre ++ (L ++ (R ++ post)) = (pre ++ La) ++ x :: (Lb ++ (R ++ post)) := by
            rw [hLe]; simp
          rw [e]
          exact rd_append_cons _ x _ i (by simp only [List.length_append]; omega)
        have hry : rd (pre ++ (L ++ (R ++ post))) j = some y := by
          have e : pre ++ (L ++ (R ++ post)) = (pre ++ (L ++ Ra)) ++ y :: (Rb ++ post) := by
            rw [hRe]; simp
          rw [e]
          exact rd_append_cons _ y _ j (by simp only [List.length_append]; omega)
        simp only [hrx, hry]
        obtain ⟨z, pad1, hpad1⟩ : ∃ z pad1, pad = z :: pad1 := by
          cases pad with
          | nil =>
            exfalso
            simp only [List.length_nil, List.length_cons] at hpad
            omega
          | cons z pad1 => exact ⟨z, pad1, rfl⟩
        subst hpad1
        have hLs : ∀ w ∈ Lb, x ≤ w := by
          rw [hLe] at hL
          exact (List.pairwise_cons.1 (List.pairwise_append.1 hL).2.1).1
        have hRs : ∀ w ∈ Rb, y ≤ w := by
          rw [hRe] at hR
          exact (List.pairwise_cons.1 (List.pairwise_append.1 hR).2.1).1
        by_cases hxy : x ≤ y
        · rw [if_pos hxy, wr_pad out z pad1 k x hk]
          obtain ⟨La2, Lb2, Ra2, Rb2, out2, pad2, hr, h1, h2, h3, h4, h5, h6, h7⟩ :=
            ih (La ++ [x]) Lb Ra (y :: Rb) (out ++ [x]) pad1 (i + 1) j (k + 1)
              (by rw [hLe]; simp) hRe
              (by simp only [List.length_append, List.length_cons, List.length_nil]; omega)
              hj
              (by simp only [List.length_append, List.length_cons, List.length_nil]; omega)
              (by simp only [List.length_cons] at hpad ⊢; omega)
              (sorted_concat hso (fun w hw => hbound w hw x (by simp)))
              (by
                have h8 : (out ++ [x]).Perm ((La ++ Ra) ++ [x]) := List.Perm.append_right _ hpo
                refine h8.trans ?_
                rw [List.append_assoc, List.append_assoc]
                exact List.Perm.append_left La List.perm_append_comm)
              (by
                intro a ha b hb
                rcases List.mem_append.1 ha with h | h
                · exact hbound a h b (by
                    rcases List.mem_append.1 hb with h9 | h9
                    · exact List.mem_append_left _ (List.mem_cons_of_mem _ h9)
                    · exact List.mem_append_right _ h9)
                · rw [List.mem_singleton.1 h]
                  rcases List.mem_append.1 hb with h9 | h9
                  · exact hLs b h9
                  · rcases List.mem_cons.1 h9 with h10 | h10
                    · rw [h10]; exact hxy
                    · have := hRs b h10
                      omega)
              (by simp only [List.length_cons] at hf ⊢; omega)
          exact ⟨La2, Lb2, Ra2, Rb2, out2, pad2, hr, h1, h2, h3, h4, h5, h6, h7⟩
        · rw [if_neg hxy, wr_pad out z pad1 k y hk]
          obtain ⟨La2, Lb2, Ra2, Rb2, out2, pad2, hr, h1, h2, h3, h4, h5, h6, h7⟩ :=
            ih La (x :: Lb) (Ra ++ [y]) Rb (out ++ [y]) pad1 i (j + 1) (k + 1)
              hLe (by rw [hRe]; simp) hi
              (by simp only [List.length_append, List.length_cons, List.length_nil]; omega)
              (by simp only [List.length_append, List.length_cons, List.length_nil]; omega)
              (by simp only [List.length_cons] at hpad ⊢; omega)
              (sorted_concat hso (fun w hw => hbound w hw y (by simp)))
              (by
                have h8 : (out ++ [y]).Perm ((La ++ Ra) ++ [y]) := List.Perm.append_right _ hpo
                refine h8.trans ?_
                rw [List.append_assoc])
              (by
                intro a ha b hb
                rcases List.mem_append.1 ha with h | h
                · exact hbound a h b (by
                    rcases List.mem_append.1 hb with h9 | h9
                    · exact List.mem_append_left _ h9
                    · exact List.mem_append_right _ (List.mem_cons_of_mem _ h9))
                · rw [List.mem_singleton.1 h]
                  rcases List.mem_append.1 hb with h9 | h9
                  · rcases List.mem_cons.1 h9 with h10 | h10
                    · rw [h10]; omega
                    · have := hLs b h10
                      omega
                  · exact hRs b h9)
              (by simp only [List.length_cons] at hf ⊢; omega)
          exact ⟨La2, Lb2, Ra2, Rb2, out2, pad2, hr, h1, h2, h3, h4, h5, h6, h7⟩

/-- A copying loop of `merge`: the run `S` that starts at `i` is appended to the written
part of `temp`. -/
theorem mergeRest_spec (arr : List Int) (bound : Int) :
    ∀ (fuel : Nat) (A S B out pad : List Int) (i k : Int),
      arr = A ++ (S ++ B) → i = A.length → bound = A.length + S.length - 1 →
      k = out.length → S.length ≤ pad.length → S.length < fuel →
      ∃ pad2, mergeRest arr bound fuel i k (out ++ pad) =
          some (bound + 1, (out.length : Int) + S.length, (out ++ S) ++ pad2) ∧
        pad2.length + S.length = pad.length := by
  intro fuel
  induction fuel with
  | zero =>
    intro A S B out pad i k _ _ _ _ _ hf
    omega
  | succ fuel ih =>
    intro A S B out pad i k harr hi hb hk hpad hf
    unfold mergeRest
    cases S with
    | nil =>
      have hc : ¬ i ≤ bound := by
        simp only [List.length_nil] at hb
        omega
      rw [if_neg hc]
      refine ⟨pad, ?_, by simp⟩
      simp only [List.length_nil] at hb
      simp only [List.append_nil, List.length_nil, Nat.cast_zero, add_zero, Option.some.injEq,
        Prod.mk.injEq, and_true]
      omega
    | cons x S =>
      have hc : i ≤ bound := by
        simp only [List.length_cons] at hb
        omega
      rw [if_pos hc]
      have hrx : rd arr i = some x := by
        rw [harr]
        exact rd_append_cons A x _ i hi
      obtain ⟨z, pad1, hpad1⟩ : ∃ z pad1, pad = z :: pad1 := by
        cases pad with
        | nil =>
          exfalso
          simp only [List.length_nil, List.length_cons] at hpad
          omega
        | cons z pad1 => exact ⟨z, pad1, rfl⟩
      subst hpad1
      simp only [hrx, wr_pad out z pad1 k x hk]
      obtain ⟨pad2, hr, hlen⟩ := ih (A ++ [x]) S B (out ++ [x]) pad1 (i + 1) (k + 1)
        (by rw [harr]; simp)
        (by simp only [List.length_append, List.length_cons, List.length_nil]; omega)
        (by simp only [List.length_append, List.length_cons, List.length_nil] at hb ⊢; omega)
        (by simp only [List.length_append, List.length_cons, List.length_nil]; omega)
        (by simp only [List.length_cons] at hpad; omega)
        (by simp only [List.length_cons] at hf; omega)
      refine ⟨pad2, ?_, by simp only [List.length_cons]; omega⟩
      rw [hr]
      simp only [List.length_append, List.length_cons, List.length_nil, List.append_assoc,
        List.singleton_append, Option.some.injEq, Prod.mk.injEq, and_true, true_and]
      push_cast
      omega

theorem copyBack_spec (pre post : List Int) (left : Int) (hleft : left = pre.length) :
    ∀ (Tb Ta Sb : List Int) (i : Int), i = Ta.length → Sb.length = Tb.length →
      copyBack (Ta ++ Tb) left Tb.length i (pre ++ (Ta ++ (Sb ++ post))) =
        some (pre ++ ((Ta ++ Tb) ++ post)) := by
  intro Tb
  induction Tb with
  | nil =>
    intro Ta Sb i _ hlen
    have : Sb = [] := List.length_eq_zero.1 hlen
    subst this
    simp [copyBack]
  | cons x Tb ih =>
    intro Ta Sb i hi hlen
    obtain ⟨s, Sb1, hSb⟩ : ∃ s Sb1, Sb = s :: Sb1 := by
      cases Sb with
      | nil =>
        exfalso
        simp only [List.length_nil, List.length_cons] at hlen
        omega
      | cons s Sb1 => exact ⟨s, Sb1, rfl⟩
    subst hSb
    have hrx : rd (Ta ++ x :: Tb) i = some x := rd_append_cons Ta x Tb i hi
    have e : pre ++ (Ta ++ (s :: Sb1 ++ post)) = (pre ++ Ta) ++ s :: (Sb1 ++ post) := by simp
    have hw : wr (pre ++ (Ta ++ (s :: Sb1 ++ post))) (left + i) x =
        some (pre ++ ((Ta ++ [x]) ++ (Sb1 ++ post))) := by
      rw [e, wr_append_cons (pre ++ Ta) s _ (left + i) x
        (by simp only [List.length_append]; omega)]
      simp
    simp only [List.length_cons, copyBack, hrx, hw]
    have e2 : Ta ++ x :: Tb = (Ta ++ [x]) ++ Tb := by simp
    rw [e2]
    exact ih (Ta ++ [x]) Sb1 (i + 1)
      (by simp only [List.length_append, List.length_cons, List.length_nil]; omega)
      (by simp only [List.length_cons] at hlen; omega)

theorem merge_segment (fuel : Nat) (pre L R post : List Int) (hL : L.Sorted (· ≤ ·))
    (hR : R.Sorted (· ≤ ·)) (left mid right : Int) (hleft : left = pre.length)
    (hmid : mid = pre.length + L.length - 1)
    (hright : right = pre.length + L.length + R.length - 1)
    (hf : L.length + R.length < fuel) :
    ∃ seg2, merge fuel (pre ++ (L ++ (R ++ post))) left mid right =
        some (pre ++ (seg2 ++ post)) ∧
      seg2.Perm (L ++ R) ∧ seg2.Sorted (· ≤ ·) := by
  have hcount : (right - left + 1).toNat = L.length + R.length := by omega
  obtain ⟨La, Lb, Ra, Rb, out, pad, hr1, hLe, hRe, hpad, hso, hpo, hbound, hone⟩ :=
    mergeBoth_spec pre post L R hL hR mid right hmid hright fuel [] L [] R []
      (List.replicate (L.length + R.length) 0) left (mid + 1) 0 rfl rfl
      (by simp only [List.length_nil]; omega) (by simp only [List.length_nil]; omega)
      (by simp) (by simp) List.sorted_nil (List.Perm.refl _)
      (by intro x hx; cases hx) hf
  have hLlen : L.length = La.length + Lb.length := by rw [hLe]; simp
  have hRlen : R.length = Ra.length + Rb.length := by rw [hRe]; simp
  have holen : out.length = La.length + Ra.length := by
    have := hpo.length_eq
    simpa using this
  obtain ⟨pad3, hr2, hpad3⟩ := mergeRest_spec (pre ++ (L ++ (R ++ post))) mid fuel
    (pre ++ La) Lb (R ++ post) out pad ((pre.length : Int) + La.length) out.length
    (by rw [hLe]; simp) (by simp only [List.length_append]; omega)
    (by simp only [List.length_append]; omega) rfl (by omega) (by omega)
  obtain ⟨pad4, hr3, hpad4⟩ := mergeRest_spec (pre ++ (L ++ (R ++ post))) right fuel
    (pre ++ (L ++ Ra)) Rb post (out ++ Lb) pad3 ((pre.length : Int) + L.length + Ra.length)
    ((out.length : Int) + Lb.length)
    (by rw [hRe]; simp) (by simp only [List.length_append]; omega)
    (by simp only [List.length_append]; omega)
    (by simp only [List.length_append]; omega) (by omega) (by omega)
  have hp4 : pad4 = [] := List.length_eq_zero.1 (by omega)
  subst hp4
  have hk2 : ((((out ++ Lb).length : Int) + (Rb.length : Int)).toNat) =
      ((out ++ Lb) ++ Rb).length := by
    simp only [List.length_append]
    omega
  have hcopy := copyBack_spec pre post left hleft ((out ++ Lb) ++ Rb) [] (L ++ R) 0
    (by simp) (by simp only [List.length_append]; omega)
  simp only [List.nil_append, List.append_assoc L R post] at hcopy
  refine ⟨(out ++ Lb) ++ Rb, ?_, ?_, ?_⟩
  · simp only [List.nil_append, List.length_nil, Nat.cast_zero] at hr1
    simp only [merge, hcount, hr1, hr2, hr3, hk2, List.append_nil]
    exact hcopy
  · have h1 : ((out ++ Lb) ++ Rb).Perm (((La ++ Ra) ++ Lb) ++ Rb) :=
      List.Perm.append_right _ (List.Perm.append_right _ hpo)
    refine h1.trans ?_
    rw [hLe, hRe]
    have h2 : ((La ++ Ra) ++ Lb).Perm ((La ++ Lb) ++ Ra) := by
      rw [List.append_assoc, List.append_assoc]
      exact List.Perm.append_left La List.perm_append_comm
    refine (List.Perm.append_right Rb h2).trans ?_
    rw [List.append_assoc (La ++ Lb)]
  · have hLbs : Lb.Sorted (· ≤ ·) := by
      rw [hLe] at hL
      exact (List.pairwise_append.1 hL).2.1
    have hRbs : Rb.Sorted (· ≤ ·) := by
      rw [hRe] at hR
      exact (List.pairwise_append.1 hR).2.1
    refine List.pairwise_append.2 ⟨List.pairwise_append.2 ⟨hso, hLbs, ?_⟩, hRbs, ?_⟩
    · intro a ha b hb
      exact hbound a ha b (List.mem_append_left _ hb)
    · intro a ha b hb
      rcases List.mem_append.1 ha with h | h
      · exact hbound a h b (List.mem_append_right _ hb)
      · rcases hone with h0 | h0
        · rw [h0] at h
          cases h
        · rw [h0] at hb
          cases hb

theorem mergeSort_segment :
    ∀ (fuel : Nat) (pre seg post : List Int) (left right : Int),
      left = pre.length → right = pre.length + seg.length - 1 → seg.length + 1 < fuel →
      ∃ seg2, mergeSort fuel (pre ++ (seg ++ post)) left right = some (pre ++ (seg2 ++ post)) ∧
        seg2.Perm seg ∧ seg2.Sorted (· ≤ ·) := by
  intro fuel
  induction fuel with
  | zero =>
    intro pre seg post left right _ _ hf
    omega
  | succ fuel ih =>
    intro pre seg post left right hleft hright hf
    unfold mergeSort
    by_cases hlr : left < right
    · rw [if_pos hlr]
      have hdiv := cdiv_two (right - left) (by omega)
      have hm1 : left ≤ left + cdiv (right - left) 2 := by rw [hdiv]; omega
      have hm2 : left + cdiv (right - left) 2 < right := by rw [hdiv]; omega
      generalize left + cdiv (right - left) 2 = mid at hm1 hm2
      have hsplit : seg = seg.take (mid - left + 1).toNat ++ seg.drop (mid - left + 1).toNat :=
        (List.take_append_drop _ _).symm
      have hLlen : (seg.take (mid - left + 1).toNat).length = (mid - left + 1).toNat := by
        rw [List.length_take]
        omega
      have hRlen : (seg.drop (mid - left + 1).toNat).length =
          seg.length - (mid - left + 1).toNat := List.length_drop _ _
      generalize seg.take (mid - left + 1).toNat = L at hsplit hLlen
      generalize seg.drop (mid - left + 1).toNat = R at hsplit hRlen
      subst hsplit
      simp only [List.length_append] at hright hf hRlen
      obtain ⟨L2, hq1, hp1, hs1⟩ := ih pre L (R ++ post) left mid hleft (by omega) (by omega)
      have e0 : pre ++ (L ++ R ++ post) = pre ++ (L ++ (R ++ post)) := by simp
      rw [e0, hq1]
      have hL2 : L2.length = L.length := hp1.length_eq
      have e1 : pre ++ (L2 ++ (R ++ post)) = (pre ++ L2) ++ (R ++ post) := by simp
      obtain ⟨R2, hq2, hp2, hs2⟩ := ih (pre ++ L2) R post (mid + 1) right
        (by simp only [List.length_append]; omega)
        (by simp only [List.length_append]; omega) (by omega)
      simp only []
      rw [e1, hq2]
      have hR2 : R2.length = R.length := hp2.length_eq
      have e2 : pre ++ L2 ++ (R2 ++ post) = pre ++ (L2 ++ (R2 ++ post)) := by simp
      rw [e2]
      obtain ⟨seg2, hm, hp3, hs3⟩ := merge_segment fuel pre L2 R2 post hs1 hs2 left mid right
        hleft (by omega) (by omega) (by omega)
      exact ⟨seg2, hm, hp3.trans (List.Perm.append hp1 hp2), hs3⟩
    · rw [if_neg hlr]
      refine ⟨seg, rfl, List.Perm.refl _, ?_⟩
      have hlen : seg.length ≤ 1 := by omega
      match seg, hlen with
      | [], _ => exact List.sorted_nil
      | [a], _ => exact List.sorted_singleton a
      | _ :: _ :: _, h => simp at h

theorem getElem?_eq_some_getD (arr : List Int) (k : Nat) (hk : k < arr.length) :
    arr[k]? = some (arr.getD k 0) := by
  rw [List.getD_eq_getElem?_getD, List.getElem?_eq_getElem hk]
  rfl

theorem rd_nat (arr : List Int) (i : Int) (k : Nat) (hi : i = k) (hk : k < arr.length) :
    rd arr i = some (arr.getD k 0) := by
  rw [rd_eq arr i k hi, getElem?_eq_some_getD arr k hk]

theorem wr_nat (arr : List Int) (i : Int) (k : Nat) (x : Int) (hi : i = k)
    (hk : k < arr.length) : wr arr i x = some (arr.set k x) := by
  subst hi
  have h1 : (0 : Int) ≤ (k : Int) ∧ (k : Int) < (arr.length : Int) := by omega
  simp only [wr, if_pos h1, Int.toNat_ofNat]

theorem getD_set (arr : List Int) (i k : Nat) (x : Int) (hi : i < arr.length) :
    (arr.set i x).getD k 0 = if k = i then x else arr.getD k 0 := by
  simp only [List.getD_eq_getElem?_getD, List.getElem?_set]
  by_cases hki : k = i
  · subst hki
    simp [hi]
  · have hik : ¬ i = k := fun h => hki h.symm
    simp [hki, hik]

/-- The call `swap(arr[i], arr[j])` for two positions inside the vector, read position by
position. -/
theorem swap_pointwise (arr : List Int) (i j : Int) (a b : Nat) (hi : i = a) (hj : j = b)
    (ha : a < arr.length) (hb : b < arr.length) :
    ∃ out, swap arr i j = some out ∧ out.length = arr.length ∧
      ∀ k, out.getD k 0 =
        if k = b then arr.getD a 0 else if k = a then arr.getD b 0 else arr.getD k 0 := by
  refine ⟨(arr.set a (arr.getD b 0)).set b (arr.getD a 0), ?_, by simp, ?_⟩
  · simp only [swap, rd_nat arr i a hi ha, rd_nat arr j b hj hb,
      wr_nat arr i a _ hi ha, wr_nat (arr.set a (arr.getD b 0)) j b _ hj (by simp; exact hb)]
  · intro k
    rw [getD_set _ b k _ (by simp; exact hb), getD_set _ a k _ ha]

theorem swap_decompose (arr : List Int) (a b : Nat) (hab : a < b) (hb : b < arr.length) :
    ∃ A x B y C, arr = A ++ x :: (B ++ y :: C) ∧ A.length = a ∧ A.length + 1 + B.length = b := by
  refine ⟨arr.take a, arr[a], (arr.drop (a + 1)).take (b - a - 1), arr[b],
    arr.drop (b + 1), ?_, ?_, ?_⟩
  · have h1 : arr = arr.take a ++ arr.drop a := (List.take_append_drop a arr).symm
    have h2 : arr.drop a = arr[a] :: arr.drop (a + 1) := List.drop_eq_getElem_cons (by omega)
    have h3 : arr.drop (a + 1) =
        (arr.drop (a + 1)).take (b - a - 1) ++ (arr.drop (a + 1)).drop (b - a - 1) :=
      (List.take_append_drop _ _).symm
    have h4 : (arr.drop (a + 1)).drop (b - a - 1) = arr.drop b := by
      rw [List.drop_drop]
      congr 1
      omega
    have h5 : arr.drop b = arr[b] :: arr.drop (b + 1) := List.drop_eq_getElem_cons hb
    rw [h4, h5] at h3
    rw [h3] at h2
    rw [h2] at h1
    exact h1
  · rw [List.length_take]
    omega
  · rw [List.length_take, List.length_take, List.length_drop]
    omega

/-- The call `swap(arr[i], arr[j])` for two positions inside the vector rearranges the
elements. -/
theorem swap_perm (arr : List Int) (i j : Int) (a b : Nat) (hi : i = a) (hj : j = b)
    (ha : a < arr.length) (hb : b < arr.length) (out : List Int)
    (hs : swap arr i j = some out) : out.Perm arr := by
  have hswapped : ∀ (A : List Int) (x : Int) (B : List Int) (y : Int) (C : List Int),
      (A ++ y :: (B ++ x :: C)).Perm (A ++ x :: (B ++ y :: C)) := by
    intro A x B y C
    refine List.Perm.append_left A ?_
    have h1 : (y :: (B ++ x :: C)).Perm (y :: x :: (B ++ C)) :=
      List.Perm.cons y List.perm_middle
    have h2 : (x :: (B ++ y :: C)).Perm (x :: y :: (B ++ C)) :=
      List.Perm.cons x List.perm_middle
    exact h1.trans ((List.Perm.swap x y _).trans h2.symm)
  rcases Nat.lt_trichotomy a b with hlt | heq | hgt
  · obtain ⟨A, x, B, y, C, harr, hA, hB⟩ := swap_decompose arr a b hlt hb
    subst harr
    rw [swap_apart A x B y C i j (by omega) (by omega)] at hs
    cases hs
    exact hswapped A x B y C
  · subst heq
    have hdec : arr = arr.take a ++ arr[a] :: arr.drop (a + 1) := by
      have h1 : arr = arr.take a ++ arr.drop a := (List.take_append_drop a arr).symm
      rw [List.drop_eq_getElem_cons ha] at h1
      exact h1
    have hl : (arr.take a).length = a := by
      rw [List.length_take]
      omega
    rw [hdec, swap_same _ _ _ i j (by omega) (by omega)] at hs
    cases hs
    rw [← hdec]
  · obtain ⟨A, x, B, y, C, harr, hA, hB⟩ := swap_decompose arr b a hgt ha
    subst harr
    have e1 : A ++ x :: (B ++ y :: C) = (A ++ x :: B) ++ y :: C := by simp
    have e2 : A ++ y :: (B ++ y :: C) = (A ++ y :: B) ++ y :: C := by simp
    have r1 : rd (A ++ x :: (B ++ y :: C)) i = some y := by
      rw [e1]
      exact rd_append_cons _ y C i
        (by simp only [List.length_append, List.length_cons]; omega)
    have r2 : rd (A ++ x :: (B ++ y :: C)) j = some x :=
      rd_append_cons A x _ j (by omega)
    have w1 : wr (A ++ x :: (B ++ y :: C)) i x = some (A ++ x :: (B ++ x :: C)) := by
      rw [e1, wr_append_cons _ y C i x
        (by simp only [List.length_append, List.length_cons]; omega)]
      simp
    have w2 : wr (A ++ x :: (B ++ x :: C)) j y = some (A ++ y :: (B ++ x :: C)) :=
      wr_append_cons A x _ j y (by omega)
    simp only [swap, r1, r2, w1, w2] at hs
    cases hs
    exact hswapped A x B y C

theorem pickLarger_nat (arr : List Int) (n c l : Nat) (hn : n ≤ arr.length) (hl : l < n) :
    ∃ l1 : Nat, pickLarger arr n c l = some (l1 : Int) ∧
      ((l1 = c ∧ c < n ∧ arr.getD l 0 < arr.getD c 0) ∨
        (l1 = l ∧ (c < n → arr.getD c 0 ≤ arr.getD l 0))) := by
  unfold pickLarger
  by_cases hc : c < n
  · have hc2 : (c : Int) < (n : Int) := by omega
    rw [if_pos hc2, rd_nat arr c c rfl (by omega), rd_nat arr l l rfl (by omega)]
    by_cases hgt : arr.getD c 0 > arr.getD l 0
    · exact ⟨c, by simp only [if_pos hgt], Or.inl ⟨rfl, hc, hgt⟩⟩
    · exact ⟨l, by simp only [if_neg hgt], Or.inr ⟨rfl, fun _ => by omega⟩⟩
  · have hc2 : ¬ (c : Int) < (n : Int) := by omega
    rw [if_neg hc2]
    exact ⟨l, rfl, Or.inr ⟨rfl, fun h => absurd h hc⟩⟩

/-- The two comparisons of `heapify` choose the position of the largest of a node and its
children. -/
theorem largest_spec (arr : List Int) (n i : Nat) (hn : n ≤ arr.length)
    (hn30 : n < 1073741824) (hi : i < n) :
    ∃ l1 l2 : Nat, pickLarger arr n (wrap32 (2 * (i : Int) + 1)) i = some (l1 : Int) ∧
      pickLarger arr n (wrap32 (2 * (i : Int) + 2)) l1 = some (l2 : Int) ∧ l2 < n ∧
      (l2 = i ∨ l2 = 2 * i + 1 ∨ l2 = 2 * i + 2) ∧ arr.getD i 0 ≤ arr.getD l2 0 ∧
      (l2 = i ∨ arr.getD i 0 < arr.getD l2 0) ∧
      (2 * i + 1 < n → arr.getD (2 * i + 1) 0 ≤ arr.getD l2 0) ∧
      (2 * i + 2 < n → arr.getD (2 * i + 2) 0 ≤ arr.getD l2 0) := by
  have hw1 : wrap32 (2 * (i : Int) + 1) = ((2 * i + 1 : Nat) : Int) := by
    simp only [wrap32]
    omega
  have hw2 : wrap32 (2 * (i : Int) + 2) = ((2 * i + 2 : Nat) : Int) := by
    simp only [wrap32]
    omega
  rw [hw1, hw2]
  obtain ⟨l1, hp1, hc1⟩ := pickLarger_nat arr n (2 * i + 1) i hn hi
  have hl1 : l1 < n := by
    rcases hc1 with ⟨h, h2, _⟩ | ⟨h, _⟩ <;> omega
  obtain ⟨l2, hp2, hc2⟩ := pickLarger_nat arr n (2 * i + 2) l1 hn hl1
  refine ⟨l1, l2, hp1, hp2, ?_⟩
  rcases hc1 with ⟨h1, h2, h3⟩ | ⟨h1, h2⟩ <;> rcases hc2 with ⟨h4, h5, h6⟩ | ⟨h4, h5⟩
  · subst h1 h4
    exact ⟨h5, Or.inr (Or.inr rfl), by omega, Or.inr (by omega), fun _ => by omega,
      fun _ => le_refl _⟩
  · subst h1 h4
    exact ⟨h2, Or.inr (Or.inl rfl), by omega, Or.inr h3, fun _ => le_refl _, h5⟩
  · subst h1 h4
    exact ⟨h5, Or.inr (Or.inr rfl), by omega, Or.inr h6, fun h => by have := h2 h; omega,
      fun _ => le_refl _⟩
  · subst h1 h4
    exact ⟨hi, Or.inl rfl, le_refl _, Or.inl rfl, h2, h5⟩

theorem heapify_succ (fuel : Nat) (arr : List Int) (n i : Int) :
    heapify (fuel + 1) arr n i =
      match pickLarger arr n (wrap32 (2 * i + 1)) i with
      | none => none
      | some largest1 =>
          match pickLarger arr n (wrap32 (2 * i + 2)) largest1 with
          | none => none
          | some largest =>
              if largest ≠ i then
                match swap arr i largest with
                | none => none
                | some arr1 => heapify fuel arr1 n largest
              else some arr := rfl

theorem heapify_step (fuel : Nat) (arr : List Int) (n i l1 l2 : Int)
    (h1 : pickLarger arr n (wrap32 (2 * i + 1)) i = some l1)
    (h2 : pickLarger arr n (wrap32 (2 * i + 2)) l1 = some l2) :
    heapify (fuel + 1) arr n i =
      if l2 ≠ i then
        match swap arr i l2 with
        | none => none
        | some arr1 => heapify fuel arr1 n l2
      else some arr := by
  rw [heapify_succ, h1]
  show (match pickLarger arr n (wrap32 (2 * i + 2)) l1 with
    | none => none
    | some largest =>
        if largest ≠ i then
          match swap arr i largest with
          | none => none
          | some arr1 => heapify fuel arr1 n largest
        else some arr) = _
  rw [h2]

theorem heapify_spec :
    ∀ (fuel : Nat) (arr : List Int) (n lo i : Nat), n ≤ arr.length → n < 1073741824 →
      lo ≤ i → i < n → n - i < fuel →
      (∀ k, lo ≤ k → k < n → k ≠ i → HeapAt arr n k) →
      (∀ k c, lo ≤ k → k < n → (i = 2 * k + 1 ∨ i = 2 * k + 2) →
        (c = 2 * i + 1 ∨ c = 2 * i + 2) → c < n → arr.getD c 0 ≤ arr.getD k 0) →
      ∃ out, heapify fuel arr n i = some out ∧ out.length = arr.length ∧ out.Perm arr ∧
        (∀ k, lo ≤ k → k < n → HeapAt out n k) ∧
        (∀ k, n ≤ k → out.getD k 0 = arr.getD k 0) ∧
        (∀ k, k < n → ∃ k2, k2 < n ∧ out.getD k 0 = arr.getD k2 0) := by
  intro fuel
  induction fuel with
  | zero =>
    intro arr n lo i _ _ _ _ hf
    omega
  | succ fuel ih =>
    intro arr n lo i hn hn30 hlo hi hf hP1 hP2
    obtain ⟨l1, c, hp1, hp2, hcn, hcases, hge, hgt, hch1, hch2⟩ :=
      largest_spec arr n i hn hn30 hi
    rw [heapify_step fuel arr n i l1 c hp1 hp2]
    by_cases hci : c = i
    · subst hci
      rw [if_neg (not_not.2 rfl)]
      refine ⟨arr, rfl, rfl, List.Perm.refl _, ?_, fun _ _ => rfl, fun k hk => ⟨k, hk, rfl⟩⟩
      intro k hk1 hk2
      by_cases hkc : k = c
      · subst hkc
        exact ⟨hch1, hch2⟩
      · exact hP1 k hk1 hk2 hkc
    · have hne : (c : Int) ≠ (i : Int) := by omega
      rw [if_pos hne]
      have hcgt : arr.getD i 0 < arr.getD c 0 := by
        rcases hgt with h | h
        · exact absurd h hci
        · exact h
      have hchild : c = 2 * i + 1 ∨ c = 2 * i + 2 := by
        rcases hcases with h | h
        · exact absurd h hci
        · exact h
      obtain ⟨a1, hsw, hlen1, hpt⟩ := swap_pointwise arr i c i c rfl rfl (by omega) (by omega)
      have hperm1 := swap_perm arr i c i c rfl rfl (by omega) (by omega) a1 hsw
      have h_c : a1.getD c 0 = arr.getD i 0 := by
        rw [hpt c, if_pos rfl]
      have h_i : a1.getD i 0 = arr.getD c 0 := by
        rw [hpt i, if_neg (fun h => hci h.symm), if_pos rfl]
      have h_o : ∀ k, k ≠ c → k ≠ i → a1.getD k 0 = arr.getD k 0 := by
        intro k hk1 hk2
        rw [hpt k, if_neg hk1, if_neg hk2]
      rw [hsw]
      obtain ⟨out, hr, hlen, hperm, hheap, hframe, hfront⟩ := ih a1 n lo c (by omega) hn30
        (by omega) hcn (by omega)
        (by
          intro k hk1 hk2 hk3
          by_cases hki : k = i
          · subst hki
            constructor
            · intro h
              rw [h_i]
              by_cases h2 : 2 * k + 1 = c
              · rw [h2, h_c]
                omega
              · rw [h_o _ h2 (by omega)]
                exact hch1 h
            · intro h
              rw [h_i]
              by_cases h2 : 2 * k + 2 = c
              · rw [h2, h_c]
                omega
              · rw [h_o _ h2 (by omega)]
                exact hch2 h
          · have hk := hP1 k hk1 hk2 hki
            rw [HeapAt, h_o k hk3 hki]
            constructor
            · intro h
              by_cases h2 : 2 * k + 1 = i
              · rw [h2, h_i]
                exact hP2 k c hk1 hk2 (Or.inl h2.symm) hchild hcn
              · rw [h_o _ (by omega) h2]
                exact hk.1 h
            · intro h
              by_cases h2 : 2 * k + 2 = i
              · rw [h2, h_i]
                exact hP2 k c hk1 hk2 (Or.inr h2.symm) hchild hcn
              · rw [h_o _ (by omega) h2]
                exact hk.2 h)
        (by
          intro k c2 hk1 hk2 hk3 hc2 hc2n
          have hki : k = i := by omega
          subst hki
          rw [h_i, h_o c2 (by omega) (by omega)]
          have hc := hP1 c (by omega) hcn hci
          rcases hc2 with h | h
          · rw [h]
            exact hc.1 (by omega)
          · rw [h]
            exact hc.2 (by omega))
      refine ⟨out, hr, by omega, hperm.trans hperm1, hheap, ?_, ?_⟩
      · intro k hk
        rw [hframe k hk, h_o k (by omega) (by omega)]
      · intro k hk
        obtain ⟨k2, hk2, he⟩ := hfront k hk
        by_cases h1 : k2 = c
        · exact ⟨i, hi, by rw [he, h1, h_c]⟩
        · by_cases h2 : k2 = i
          · exact ⟨c, hcn, by rw [he, h2, h_i]⟩
          · exact ⟨k2, hk2, by rw [he, h_o k2 h1 h2]⟩

theorem heapBuild_spec (fuel : Nat) (n : Nat) (hn30 : n < 1073741824) (hf : n < fuel) :
    ∀ (count : Nat) (arr : List Int) (i : Int), i = (count : Int) - 1 → n ≤ arr.length →
      count ≤ n →
      (∀ k, count ≤ k → k < n → HeapAt arr n k) →
      ∃ out, heapBuild fuel n count i arr = some out ∧ out.length = arr.length ∧
        out.Perm arr ∧ (∀ k, k < n → HeapAt out n k) ∧
        (∀ k, n ≤ k → out.getD k 0 = arr.getD k 0) := by
  intro count
  induction count with
  | zero =>
    intro arr i _ _ _ hheap
    exact ⟨arr, rfl, rfl, List.Perm.refl _, fun k hk => hheap k (Nat.zero_le _) hk,
      fun _ _ => rfl⟩
  | succ count ih =>
    intro arr i hi hn hc hheap
    have hic : i = ((count : Nat) : Int) := by
      rw [hi]
      push_cast
      omega
    subst hic
    obtain ⟨a1, hr1, hlen1, hperm1, hheap1, hframe1, _⟩ := heapify_spec fuel arr n count count
      hn hn30 (le_refl _) (by omega) (by omega)
      (fun k hk1 hk2 hk3 => hheap k (by omega) hk2)
      (fun k c hk1 _ hk3 _ _ => by omega)
    obtain ⟨out, hr, hlen, hperm, hheap2, hframe2⟩ := ih a1 ((count : Int) - 1) rfl
      (by omega) (by omega) hheap1
    refine ⟨out, ?_, by omega, hperm.trans hperm1, hheap2, ?_⟩
    · simp only [heapBuild, hr1, hr]
    · intro k hk
      rw [hframe2 k hk, hframe1 k hk]

/-- In a heap the root is the largest element. -/
theorem heap_root_max (arr : List Int) (n : Nat) (hheap : ∀ k, k < n → HeapAt arr n k) :
    ∀ k, k < n → arr.getD k 0 ≤ arr.getD 0 0 := by
  intro k
  induction k using Nat.strong_induction_on with
  | _ k ih =>
    intro hk
    rcases Nat.eq_zero_or_pos k with h0 | hpos
    · subst h0
      exact le_refl _
    · have hp : (k - 1) / 2 < k := by omega
      have hpar := ih ((k - 1) / 2) hp (by omega)
      have hh := hheap ((k - 1) / 2) (by omega)
      rcases Nat.even_or_odd k with he | ho
      · obtain ⟨t, ht⟩ := he
        have hk2 : 2 * ((k - 1) / 2) + 2 = k := by omega
        have := hh.2 (by omega)
        rw [hk2] at this
        omega
      · obtain ⟨t, ht⟩ := ho
        have hk2 : 2 * ((k - 1) / 2) + 1 = k := by omega
        have := hh.1 (by omega)
        rw [hk2] at this
        omega

theorem heapExtract_spec (fuel : Nat) (N : Nat) (hN30 : N < 1073741824) (hf : N < fuel) :
    ∀ (count : Nat) (arr : List Int) (i : Int), i = (count : Int) → arr.length = N →
      count + 1 ≤ N →
      (∀ k, k < count + 1 → HeapAt arr (count + 1) k) →
      (∀ k l, k < count + 1 → count + 1 ≤ l → l < N → arr.getD k 0 ≤ arr.getD l 0) →
      (∀ l1 l2, count + 1 ≤ l1 → l1 ≤ l2 → l2 < N → arr.getD l1 0 ≤ arr.getD l2 0) →
      ∃ out, heapExtract fuel count i arr = some out ∧ out.length = N ∧ out.Perm arr ∧
        (∀ l1 l2, l1 ≤ l2 → l2 < N → out.getD l1 0 ≤ out.getD l2 0) := by
  intro count
  induction count with
  | zero =>
    intro arr i _ hlen _ _ hsplit hsorted
    refine ⟨arr, rfl, hlen, List.Perm.refl _, ?_⟩
    intro l1 l2 h12 h2
    rcases Nat.eq_zero_or_pos l1 with h0 | hpos
    · subst h0
      rcases Nat.eq_zero_or_pos l2 with h3 | h3
      · subst h3
        exact le_refl _
      · exact hsplit 0 l2 (by omega) (by omega) h2
    · exact hsorted l1 l2 (by omega) h12 h2
  | succ count ih =>
    intro arr i hi hlen hc hheap hsplit hsorted
    subst hi
    obtain ⟨a1, hsw, hlen1, hpt⟩ := swap_pointwise arr 0 ((count + 1 : Nat) : Int) 0
      (count + 1) rfl rfl (by omega) (by omega)
    have hperm1 := swap_perm arr 0 ((count + 1 : Nat) : Int) 0 (count + 1) rfl rfl
      (by omega) (by omega) a1 hsw
    have h_last : a1.getD (count + 1) 0 = arr.getD 0 0 := by
      rw [hpt (count + 1), if_pos rfl]
    have h_first : a1.getD 0 0 = arr.getD (count + 1) 0 := by
      rw [hpt 0, if_neg (by omega), if_pos rfl]
    have h_o : ∀ k, k ≠ count + 1 → k ≠ 0 → a1.getD k 0 = arr.getD k 0 := by
      intro k hk1 hk2
      rw [hpt k, if_neg hk1, if_neg hk2]
    have hmax := heap_root_max arr (count + 1 + 1) hheap
    obtain ⟨a2, hr2, hlen2, hperm2, hheap2, hframe2, hfront2⟩ := heapify_spec fuel a1
      (count + 1) 0 0 (by omega) (by omega) (le_refl _) (by omega) (by omega)
      (by
        intro k _ hk2 hk3
        have hk := hheap k (by omega)
        rw [HeapAt, h_o k (by omega) hk3]
        constructor
        · intro h
          rw [h_o _ (by omega) (by omega)]
          exact hk.1 (by omega)
        · intro h
          rw [h_o _ (by omega) (by omega)]
          exact hk.2 (by omega))
      (fun k c _ _ hk3 _ _ => by omega)
    have hval : ∀ k, k < count + 1 → ∃ k3, k3 < count + 1 + 1 ∧
        a2.getD k 0 = arr.getD k3 0 := by
      intro k hk
      obtain ⟨k2, hk2, he⟩ := hfront2 k hk
      rcases Nat.eq_zero_or_pos k2 with h0 | hpos
      · exact ⟨count + 1, by omega, by rw [he, h0, h_first]⟩
      · exact ⟨k2, by omega, by rw [he, h_o k2 (by omega) (by omega)]⟩
    have hafter : ∀ l, count + 1 < l → a2.getD l 0 = arr.getD l 0 := by
      intro l hl
      rw [hframe2 l (by omega), h_o l (by omega) (by omega)]
    have hlast2 : a2.getD (count + 1) 0 = arr.getD 0 0 := by
      rw [hframe2 (count + 1) (le_refl _), h_last]
    obtain ⟨out, hr, hleno, hpermo, hsortedo⟩ := ih a2 (((count + 1 : Nat) : Int) - 1)
      (by push_cast; omega) (by omega) (by omega) (fun k hk => hheap2 k (Nat.zero_le _) hk)
      (by
        intro k l hk hl1 hl2
        obtain ⟨k3, hk3, he⟩ := hval k hk
        rw [he]
        rcases Nat.eq_or_lt_of_le hl1 with h | h
        · rw [← h, hlast2]
          exact hmax k3 hk3
        · rw [hafter l h]
          rcases Nat.lt_or_ge k3 (count + 1 + 1) with h3 | h3
          · exact hsplit k3 l h3 (by omega) hl2
          · omega)
      (by
        intro l1 l2 h1 h12 h2
        rcases Nat.eq_or_lt_of_le h1 with h | h
        · rcases Nat.eq_or_lt_of_le h12 with h3 | h3
          · rw [h3]
          · rw [← h, hlast2, hafter l2 (by omega)]
            exact hsplit 0 l2 (by omega) (by omega) h2
        · rw [hafter l1 h, hafter l2 (by omega)]
          exact hsorted l1 l2 (by omega) h12 h2)
    have hr3 : heapify fuel a1 ((count + 1 : Nat) : Int) 0 = some a2 := hr2
    refine ⟨out, ?_, hleno, hpermo.trans (hperm2.trans hperm1), hsortedo⟩
    simp only [heapExtract, hsw, hr3]
    exact hr

theorem sorted_of_pointwise (out : List Int)
    (h : ∀ l1 l2, l1 ≤ l2 → l2 < out.length → out.getD l1 0 ≤ out.getD l2 0) :
    out.Sorted (· ≤ ·) := by
  refine List.pairwise_iff_getElem.2 ?_
  intro i j hi hj hij
  have := h i j (by omega) hj
  rw [List.getD_eq_getElem _ _ hi, List.getD_eq_getElem _ _ hj] at this
  exact this

theorem wrap32_eq (x : Int) (hx : InInt x) : wrap32 x = x := by
  obtain ⟨h1, h2⟩ := hx
  simp only [wrap32]
  omega

theorem intAdd_one (d : Nat) (h : d + 1 < 2147483648) :
    intAdd (d : Int) 1 = ((d + 1 : Nat) : Int) := by
  simp only [intAdd, wrap32]
  omega

theorem subSum_succ (nums : List Int) (s l : Nat) (h : s + l < nums.length) :
    subSum nums s (l + 1) = subSum nums s l + nums.getD (s + l) 0 := by
  unfold subSum
  have hl : l < (nums.drop s).length := by
    rw [List.length_drop]
    omega
  rw [List.take_succ, List.sum_append, List.getElem?_drop, List.getElem?_eq_getElem h,
    List.getD_eq_getElem _ _ h]
  simp

theorem subSum_zero (nums : List Int) (s : Nat) : subSum nums s 0 = 0 := by
  simp [subSum]

theorem subSum_one (nums : List Int) (i : Nat) (h : i < nums.length) :
    subSum nums i 1 = nums.getD i 0 := by
  have := subSum_succ nums i 0 (by omega)
  simpa [subSum_zero] using this

theorem maxSubarrayLoop_succ (nums : List Int) (fuel : Nat) (i cur mx x : Int)
    (hlt : i % 18446744073709551616 < nums.length) (hx : rd nums i = some x) :
    maxSubarrayLoop nums (fuel + 1) i cur mx =
      maxSubarrayLoop nums fuel (intAdd i 1) (max x (intAdd cur x))
        (max mx (max x (intAdd cur x))) := by
  rw [maxSubarrayLoop, if_pos hlt, hx]

theorem maxSubarrayLoop_exit (nums : List Int) (fuel : Nat) (i cur mx : Int)
    (hge : ¬ i % 18446744073709551616 < nums.length) :
    maxSubarrayLoop nums (fuel + 1) i cur mx = some mx := by
  rw [maxSubarrayLoop, if_neg hge]

theorem maxSubarrayLoop_spec (nums : List Int) (hn : nums.length < 2147483648)
    (hr : ∀ s l, 1 ≤ l → s + l ≤ nums.length → InInt (subSum nums s l)) :
    ∀ (c fuel i : Nat) (cur mx : Int), c < fuel → 1 ≤ i → i + c = nums.length →
      (∃ s, s < i ∧ cur = subSum nums s (i - s)) →
      (∀ s, s < i → subSum nums s (i - s) ≤ cur) →
      (∃ s l, 1 ≤ l ∧ s + l ≤ i ∧ mx = subSum nums s l) →
      (∀ s l, 1 ≤ l → s + l ≤ i → subSum nums s l ≤ mx) →
      ∃ r, maxSubarrayLoop nums fuel i cur mx = some r ∧
        (∃ s l, 1 ≤ l ∧ s + l ≤ nums.length ∧ r = subSum nums s l) ∧
        (∀ s l, 1 ≤ l → s + l ≤ nums.length → subSum nums s l ≤ r) := by
  intro c
  induction c with
  | zero =>
    intro fuel i cur mx hf _ hi _ _ hmx1 hmx2
    obtain ⟨f, rfl⟩ : ∃ f, fuel = f + 1 := ⟨fuel - 1, by omega⟩
    have hge : ¬ (i : Int) % 18446744073709551616 < (nums.length : Int) := by omega
    rw [maxSubarrayLoop_exit nums f _ cur mx hge]
    have : i = nums.length := by omega
    subst this
    exact ⟨mx, rfl, hmx1, hmx2⟩
  | succ c ih =>
    intro fuel i cur mx hf h1 hi hc1 hc2 hmx1 hmx2
    obtain ⟨f, rfl⟩ : ∃ f, fuel = f + 1 := ⟨fuel - 1, by omega⟩
    have hin : i < nums.length := by omega
    have hnext : i + 1 < 2147483648 := by omega
    have hlt : (i : Int) % 18446744073709551616 < (nums.length : Int) := by omega
    have hx : rd nums (i : Int) = some (nums.getD i 0) := rd_nat nums i i rfl hin
    have hstep : ∀ s, s < i → subSum nums s (i + 1 - s) = subSum nums s (i - s) + nums.getD i 0 := by
      intro s hs
      have e1 : i + 1 - s = (i - s) + 1 := by omega
      rw [e1, subSum_succ nums s (i - s) (by omega)]
      have e2 : s + (i - s) = i := by omega
      rw [e2]
    have hone : subSum nums i 1 = nums.getD i 0 := subSum_one nums i hin
    obtain ⟨s0, hs0, hcur⟩ := hc1
    have hadd : intAdd cur (nums.getD i 0) = cur + nums.getD i 0 := by
      unfold intAdd
      apply wrap32_eq
      rw [hcur, ← hstep s0 hs0]
      exact hr s0 (i + 1 - s0) (by omega) (by omega)
    rw [maxSubarrayLoop_succ nums f i cur mx _ hlt hx, hadd, intAdd_one i hnext]
    apply ih f (i + 1) _ _ (by omega) (by omega) (by omega)
    · rcases le_total (nums.getD i 0) (cur + nums.getD i 0) with hle | hle
      · exact ⟨s0, by omega, by rw [max_eq_right hle, hstep s0 hs0, hcur]⟩
      · exact ⟨i, by omega, by
          rw [max_eq_left hle]
          have e : i + 1 - i = 1 := by omega
          rw [e, hone]⟩
    · intro s hs
      rcases Nat.lt_or_ge s i with h | h
      · rw [hstep s h]
        have := hc2 s h
        exact le_trans (by omega) (le_max_right _ _)
      · have e : s = i := by omega
        subst e
        have e2 : s + 1 - s = 1 := by omega
        rw [e2, hone]
        exact le_max_left _ _
    · obtain ⟨s, l, hl, hsl, hm⟩ := hmx1
      rcases le_total mx (max (nums.getD i 0) (cur + nums.getD i 0)) with hle | hle
      · rw [max_eq_right hle]
        rcases le_total (nums.getD i 0) (cur + nums.getD i 0) with hle2 | hle2
        · exact ⟨s0, i + 1 - s0, by omega, by omega, by
            rw [max_eq_right hle2, hstep s0 hs0, hcur]⟩
        · exact ⟨i, 1, le_refl _, le_refl _, by rw [max_eq_left hle2, hone]⟩
      · rw [max_eq_left hle]
        exact ⟨s, l, hl, by omega, hm⟩
    · intro s l hl hsl
      rcases Nat.lt_or_ge (s + l) (i + 1) with h | h
      · exact le_trans (hmx2 s l hl (by omega)) (le_max_left _ _)
      · have e : l = i + 1 - s := by omega
        rw [e]
        refine le_trans ?_ (le_max_right _ _)
        rcases Nat.lt_or_ge s i with h2 | h2
        · rw [hstep s h2]
          have := hc2 s h2
          exact le_trans (by omega) (le_max_right _ _)
        · have e3 : s = i := by omega
          subst e3
          have e2 : s + 1 - s = 1 := by omega
          rw [e2, hone]
          exact le_max_left _ _

theorem rd_getD {β : Type} (arr : List β) (d : β) (i : Int) (k : Nat) (hi : i = k)
    (hk : k < arr.length) : rd arr i = some (arr.getD k d) := by
  rw [rd_eq arr i k hi, List.getD_eq_getElem?_getD, List.getElem?_eq_getElem hk]
  rfl

theorem wr_set {β : Type} (arr : List β) (i : Int) (k : Nat) (x : β) (hi : i = k)
    (hk : k < arr.length) : wr arr i x = some (arr.set k x) := by
  subst hi
  have h1 : (0 : Int) ≤ (k : Int) ∧ (k : Int) < (arr.length : Int) := by omega
  simp only [wr, if_pos h1, Int.toNat_ofNat]

theorem getD_set_eq {β : Type} (arr : List β) (i k : Nat) (x d : β) (hi : i < arr.length) :
    (arr.set i x).getD k d = if k = i then x else arr.getD k d := by
  simp only [List.getD_eq_getElem?_getD, List.getElem?_set]
  by_cases hki : k = i
  · subst hki
    simp [hi]
  · have hik : ¬ i = k := fun h => hki h.symm
    simp [hki, hik]

theorem rd2_get2 (dp : List (List Int)) (rows cols : Nat) (hs : Shape dp rows cols)
    (i j : Int) (a b : Nat) (hi : i = a) (hj : j = b) (ha : a < rows) (hb : b < cols) :
    rd2 dp i j = some (get2 dp a b) := by
  have h1 : rd dp i = some (dp.getD a []) := rd_getD dp [] i a hi (by rw [hs.1]; exact ha)
  have h2 : rd (dp.getD a []) j = some ((dp.getD a []).getD b 0) :=
    rd_getD _ 0 j b hj (by rw [hs.2 a ha]; exact hb)
  simp only [rd2, h1, h2, get2]

theorem wr2_get2 (dp : List (List Int)) (rows cols : Nat) (hs : Shape dp rows cols)
    (i j : Int) (a b : Nat) (x : Int) (hi : i = a) (hj : j = b) (ha : a < rows)
    (hb : b < cols) :
    ∃ dp1, wr2 dp i j x = some dp1 ∧ Shape dp1 rows cols ∧
      ∀ a2 b2, get2 dp1 a2 b2 = if a2 = a ∧ b2 = b then x else get2 dp a2 b2 := by
  have hal : a < dp.length := by rw [hs.1]; exact ha
  have hbl : b < (dp.getD a []).length := by rw [hs.2 a ha]; exact hb
  have h1 : rd dp i = some (dp.getD a []) := rd_getD dp [] i a hi hal
  have h2 : wr (dp.getD a []) j x = some ((dp.getD a []).set b x) := wr_set _ j b x hj hbl
  have h3 : wr dp i ((dp.getD a []).set b x) = some (dp.set a ((dp.getD a []).set b x)) :=
    wr_set dp i a _ hi hal
  refine ⟨dp.set a ((dp.getD a []).set b x), by simp only [wr2, h1, h2, h3], ⟨?_, ?_⟩, ?_⟩
  · rw [List.length_set]
    exact hs.1
  · intro a2 ha2
    rw [getD_set_eq dp a a2 _ [] hal]
    by_cases h : a2 = a
    · rw [if_pos h, List.length_set]
      exact hs.2 a ha
    · rw [if_neg h]
      exact hs.2 a2 ha2
  · intro a2 b2
    unfold get2
    rw [getD_set_eq dp a a2 _ [] hal]
    by_cases h : a2 = a
    · subst h
      rw [if_pos rfl, getD_set_eq _ b b2 x 0 hbl]
      by_cases h2 : b2 = b
      · rw [if_pos h2, if_pos ⟨rfl, h2⟩]
      · rw [if_neg h2, if_neg (fun hc => h2 hc.2)]
    · rw [if_neg h, if_neg (fun hc => h hc.1)]

theorem getD_replicate {β : Type} (n k : Nat) (x d : β) :
    (List.replicate n x).getD k d = if k < n then x else d := by
  rw [List.getD_eq_getElem?_getD, List.getElem?_replicate]
  split_ifs <;> rfl

theorem shape_replicate (rows cols : Nat) :
    Shape (List.replicate rows (List.replicate cols (0 : Int))) rows cols := by
  refine ⟨by simp, fun a ha => ?_⟩
  rw [getD_replicate, if_pos ha]
  simp

theorem get2_replicate (rows cols a b : Nat) :
    get2 (List.replicate rows (List.replicate cols (0 : Int))) a b = 0 := by
  unfold get2
  rw [getD_replicate]
  split_ifs
  · rw [getD_replicate]
    split_ifs <;> rfl
  · rfl

theorem charAt_getD (s : List Char) (i : Int) (k : Nat) (hi : i = k) (hk : k < s.length) :
    charAt s i = some (s.getD k (Char.ofNat 0)) := by
  have hne : ¬ i = (s.length : Int) := by omega
  rw [charAt, if_neg hne]
  exact rd_getD s _ i k hi hk

theorem lcsLen_cons (x y : Char) (xs ys : List Char) :
    lcsLen (x :: xs) (y :: ys) =
      if x = y then lcsLen xs ys + 1 else max (lcsLen xs (y :: ys)) (lcsLen (x :: xs) ys) := by
  rw [lcsLen]

theorem lcsLen_nil_right (xs : List Char) : lcsLen xs [] = 0 := by
  cases xs <;> rw [lcsLen]

theorem lcsLen_nil_left (ys : List Char) : lcsLen [] ys = 0 := by
  rw [lcsLen]

theorem lcsLen_le_left : ∀ (k : Nat) (xs ys : List Char), xs.length + ys.length = k →
    lcsLen xs ys ≤ xs.length := by
  intro k
  induction k using Nat.strong_induction_on with
  | _ k ih =>
    intro xs ys hk
    cases xs with
    | nil => rw [lcsLen_nil_left]; exact Nat.zero_le _
    | cons x xs =>
      cases ys with
      | nil => rw [lcsLen_nil_right]; exact Nat.zero_le _
      | cons y ys =>
        simp only [List.length_cons] at hk
        rw [lcsLen_cons]
        have h1 := ih (xs.length + ys.length) (by omega) xs ys rfl
        have h2 := ih (xs.length + (y :: ys).length) (by simp only [List.length_cons]; omega)
          xs (y :: ys) rfl
        have h3 := ih ((x :: xs).length + ys.length) (by simp only [List.length_cons]; omega)
          (x :: xs) ys rfl
        simp only [List.length_cons] at h3 ⊢
        split_ifs
        · omega
        · exact max_le (by omega) h3

theorem lcsLen_spec : ∀ (k : Nat) (xs ys : List Char), xs.length + ys.length = k →
    IsLCSLength xs ys (lcsLen xs ys) := by
  intro k
  induction k using Nat.strong_induction_on with
  | _ k ih =>
    intro xs ys hk
    cases xs with
    | nil =>
      rw [lcsLen_nil_left]
      refine ⟨⟨[], List.Sublist.refl _, List.nil_sublist _, rfl⟩, fun zs h1 _ => ?_⟩
      rw [List.sublist_nil.1 h1]
      exact Nat.le_refl _
    | cons x xs =>
      cases ys with
      | nil =>
        rw [lcsLen_nil_right]
        refine ⟨⟨[], List.nil_sublist _, List.Sublist.refl _, rfl⟩, fun zs _ h2 => ?_⟩
        rw [List.sublist_nil.1 h2]
        exact Nat.le_refl _
      | cons y ys =>
        simp only [List.length_cons] at hk
        obtain ⟨⟨z1, a1, b1, c1⟩, u1⟩ := ih (xs.length + ys.length) (by omega) xs ys rfl
        obtain ⟨⟨z2, a2, b2, c2⟩, u2⟩ := ih (xs.length + (y :: ys).length)
          (by simp only [List.length_cons]; omega) xs (y :: ys) rfl
        obtain ⟨⟨z3, a3, b3, c3⟩, u3⟩ := ih ((x :: xs).length + ys.length)
          (by simp only [List.length_cons]; omega) (x :: xs) ys rfl
        rw [lcsLen_cons]
        by_cases hxy : x = y
        · subst hxy
          rw [if_pos rfl]
          refine ⟨⟨x :: z1, a1.cons₂ x, b1.cons₂ x, by simp [c1]⟩, fun zs h1 h2 => ?_⟩
          cases zs with
          | nil => exact Nat.zero_le _
          | cons z zs =>
            have t1 : zs.Sublist xs := (List.Sublist.of_cons_cons h1)
            have t2 : zs.Sublist ys := (List.Sublist.of_cons_cons h2)
            have := u1 zs t1 t2
            simp only [List.length_cons]
            omega
        · rw [if_neg hxy]
          refine ⟨?_, fun zs h1 h2 => ?_⟩
          · rcases le_total (lcsLen xs (y :: ys)) (lcsLen (x :: xs) ys) with hle | hle
            · rw [max_eq_right hle]
              exact ⟨z3, a3, b3.cons y, c3⟩
            · rw [max_eq_left hle]
              exact ⟨z2, a2.cons x, b2, c2⟩
          · rcases List.sublist_cons_iff.1 h1 with t1 | ⟨r, hr, t1⟩
            · exact le_trans (u2 zs t1 h2) (le_max_left _ _)
            · subst hr
              rcases List.sublist_cons_iff.1 h2 with t2 | ⟨r2, hr2, t2⟩
              · exact le_trans (u3 _ h1 t2) (le_max_right _ _)
              · exfalso
                apply hxy
                injection hr2

theorem lcsInner_match (text1 text2 : List Char) (dp dp1 : List (List Int)) (i j : Int)
    (c : Nat) (a : Char) (d : Int) (h1 : charAt text1 (i - 1) = some a)
    (h2 : charAt text2 (j - 1) = some a) (h3 : rd2 dp (i - 1) (j - 1) = some d)
    (h4 : wr2 dp i j (intAdd d 1) = some dp1) :
    lcsInner text1 text2 i (c + 1) j dp = lcsInner text1 text2 i c (j + 1) dp1 := by
  simp only [lcsInner, h1, h2, h3, h4, if_true]

theorem lcsInner_differ (text1 text2 : List Char) (dp dp1 : List (List Int)) (i j : Int)
    (c : Nat) (a b : Char) (u l : Int) (hab : a ≠ b) (h1 : charAt text1 (i - 1) = some a)
    (h2 : charAt text2 (j - 1) = some b) (h3 : rd2 dp (i - 1) j = some u)
    (h4 : rd2 dp i (j - 1) = some l) (h5 : wr2 dp i j (max u l) = some dp1) :
    lcsInner text1 text2 i (c + 1) j dp = lcsInner text1 text2 i c (j + 1) dp1 := by
  simp only [lcsInner, h1, h2, h3, h4, h5, if_neg hab]

theorem lcsOuter_step (text1 text2 : List Char) (dp dp1 : List (List Int)) (n i : Int)
    (c : Nat) (h1 : lcsInner text1 text2 i n.toNat 1 dp = some dp1) :
    lcsOuter text1 text2 n (c + 1) i dp = lcsOuter text1 text2 n c (i + 1) dp1 := by
  simp only [lcsOuter, h1]

theorem take_succ_reverse (s : List Char) (a : Nat) (ha : a < s.length) :
    (s.take (a + 1)).reverse = s.getD a (Char.ofNat 0) :: (s.take a).reverse := by
  rw [List.take_succ, List.getElem?_eq_getElem ha, List.getD_eq_getElem _ _ ha]
  simp

theorem lcsTab_zero_left (s t : List Char) (b : Nat) : lcsTab s t 0 b = 0 := by
  simp [lcsTab, lcsLen_nil_left]

theorem lcsTab_zero_right (s t : List Char) (a : Nat) : lcsTab s t a 0 = 0 := by
  simp [lcsTab, lcsLen_nil_right]

theorem lcsTab_succ (s t : List Char) (a b : Nat) (ha : a < s.length) (hb : b < t.length) :
    lcsTab s t (a + 1) (b + 1) =
      if s.getD a (Char.ofNat 0) = t.getD b (Char.ofNat 0) then lcsTab s t a b + 1
      else max (lcsTab s t a (b + 1)) (lcsTab s t (a + 1) b) := by
  unfold lcsTab
  rw [take_succ_reverse s a ha, take_succ_reverse t b hb, lcsLen_cons]

theorem lcsTab_le (s t : List Char) (a b : Nat) : lcsTab s t a b ≤ a := by
  unfold lcsTab
  refine le_trans (lcsLen_le_left _ _ _ rfl) ?_
  rw [List.length_reverse, List.length_take]
  exact Nat.min_le_left _ _

/-- One row of the table: the loop over `j` for the row `i`. -/
theorem lcsInner_spec (s t : List Char) (hm : s.length < 2147483647) (a : Nat)
    (ha1 : 1 ≤ a) (ha2 : a ≤ s.length) :
    ∀ (c b : Nat) (dp : List (List Int)), 1 ≤ b → b + c = t.length + 1 →
      Shape dp (s.length + 1) (t.length + 1) →
      (∀ a2 b2, a2 ≤ s.length → b2 ≤ t.length → (a2 < a ∨ (a2 = a ∧ b2 < b) ∨ b2 = 0) →
        get2 dp a2 b2 = (lcsTab s t a2 b2 : Int)) →
      ∃ dp1, lcsInner s t a c b dp = some dp1 ∧ Shape dp1 (s.length + 1) (t.length + 1) ∧
        ∀ a2 b2, a2 ≤ s.length → b2 ≤ t.length →
          (a2 < a ∨ (a2 = a ∧ b2 < t.length + 1) ∨ b2 = 0) →
          get2 dp1 a2 b2 = (lcsTab s t a2 b2 : Int) := by
  intro c
  induction c with
  | zero =>
    intro b dp _ hb hs hfill
    have : b = t.length + 1 := by omega
    subst this
    exact ⟨dp, rfl, hs, hfill⟩
  | succ c ih =>
    intro b dp hb1 hb hs hfill
    have hbn : b ≤ t.length := by omega
    have hc1 : charAt s ((a : Int) - 1) = some (s.getD (a - 1) (Char.ofNat 0)) :=
      charAt_getD s _ (a - 1) (by omega) (by omega)
    have hc2 : charAt t ((b : Int) - 1) = some (t.getD (b - 1) (Char.ofNat 0)) :=
      charAt_getD t _ (b - 1) (by omega) (by omega)
    have htab := lcsTab_succ s t (a - 1) (b - 1) (by omega) (by omega)
    have ea : a - 1 + 1 = a := by omega
    have eb : b - 1 + 1 = b := by omega
    rw [ea, eb] at htab
    have hnext : ∀ dp1, Shape dp1 (s.length + 1) (t.length + 1) →
        (∀ a2 b2, get2 dp1 a2 b2 =
          if a2 = a ∧ b2 = b then (lcsTab s t a b : Int) else get2 dp a2 b2) →
        ∃ dp2, lcsInner s t a c ((b : Int) + 1) dp1 = some dp2 ∧
          Shape dp2 (s.length + 1) (t.length + 1) ∧
          ∀ a2 b2, a2 ≤ s.length → b2 ≤ t.length →
            (a2 < a ∨ (a2 = a ∧ b2 < t.length + 1) ∨ b2 = 0) →
            get2 dp2 a2 b2 = (lcsTab s t a2 b2 : Int) := by
      intro dp1 hs1 hpt
      have hcast : ((b : Int) + 1) = ((b + 1 : Nat) : Int) := by push_cast; rfl
      rw [hcast]
      apply ih (b + 1) dp1 (by omega) (by omega) hs1
      intro a2 b2 h1 h2 h3
      rw [hpt a2 b2]
      by_cases hab : a2 = a ∧ b2 = b
      · rw [if_pos hab, hab.1, hab.2]
      · rw [if_neg hab]
        apply hfill a2 b2 h1 h2
        rcases h3 with h | ⟨h, h4⟩ | h
        · exact Or.inl h
        · refine Or.inr (Or.inl ⟨h, ?_⟩)
          have : b2 ≠ b := fun hc => hab ⟨h, hc⟩
          omega
        · exact Or.inr (Or.inr h)
    by_cases heq : s.getD (a - 1) (Char.ofNat 0) = t.getD (b - 1) (Char.ofNat 0)
    · rw [if_pos heq] at htab
      have hd : rd2 dp ((a : Int) - 1) ((b : Int) - 1) =
          some (get2 dp (a - 1) (b - 1)) :=
        rd2_get2 dp _ _ hs _ _ (a - 1) (b - 1) (by omega) (by omega) (by omega) (by omega)
      have hdv : get2 dp (a - 1) (b - 1) = (lcsTab s t (a - 1) (b - 1) : Int) :=
        hfill _ _ (by omega) (by omega) (Or.inl (by omega))
      have hle := lcsTab_le s t (a - 1) (b - 1)
      have hadd : intAdd (get2 dp (a - 1) (b - 1)) 1 = (lcsTab s t a b : Int) := by
        unfold intAdd
        rw [wrap32_eq _ (by rw [hdv]; constructor <;> omega), hdv, htab]
        push_cast
        rfl
      obtain ⟨dp1, hw, hs1, hpt⟩ := wr2_get2 dp _ _ hs (a : Int) (b : Int) a b
        (intAdd (get2 dp (a - 1) (b - 1)) 1) rfl rfl (by omega) (by omega)
      have hc2b : charAt t ((b : Int) - 1) = some (s.getD (a - 1) (Char.ofNat 0)) := by
        rw [heq]
        exact charAt_getD t _ (b - 1) (by omega) (by omega)
      rw [lcsInner_match s t dp dp1 a b c _ _ hc1 hc2b hd hw]
      exact hnext dp1 hs1 (fun a2 b2 => by rw [hpt a2 b2, hadd])
    · rw [if_neg heq] at htab
      have hu : rd2 dp ((a : Int) - 1) (b : Int) = some (get2 dp (a - 1) b) :=
        rd2_get2 dp _ _ hs _ _ (a - 1) b (by omega) rfl (by omega) (by omega)
      have hl : rd2 dp (a : Int) ((b : Int) - 1) = some (get2 dp a (b - 1)) :=
        rd2_get2 dp _ _ hs _ _ a (b - 1) rfl (by omega) (by omega) (by omega)
      have huv : get2 dp (a - 1) b = (lcsTab s t (a - 1) b : Int) :=
        hfill _ _ (by omega) hbn (Or.inl (by omega))
      have hlv : get2 dp a (b - 1) = (lcsTab s t a (b - 1) : Int) :=
        hfill _ _ ha2 (by omega) (Or.inr (Or.inl ⟨rfl, by omega⟩))
      have hmax : max (get2 dp (a - 1) b) (get2 dp a (b - 1)) = (lcsTab s t a b : Int) := by
        rw [huv, hlv, htab]
        push_cast
        rfl
      obtain ⟨dp1, hw, hs1, hpt⟩ := wr2_get2 dp _ _ hs (a : Int) (b : Int) a b
        (max (get2 dp (a - 1) b) (get2 dp a (b - 1))) rfl rfl (by omega) (by omega)
      rw [lcsInner_differ s t dp dp1 a b c _ _ _ _ heq hc1 hc2 hu hl hw]
      exact hnext dp1 hs1 (fun a2 b2 => by rw [hpt a2 b2, hmax])

theorem lcsOuter_spec (s t : List Char) (hm : s.length < 2147483647) :
    ∀ (c a : Nat) (dp : List (List Int)), 1 ≤ a → a + c = s.length + 1 →
      Shape dp (s.length + 1) (t.length + 1) →
      (∀ a2 b2, a2 ≤ s.length → b2 ≤ t.length → (a2 < a ∨ b2 = 0) →
        get2 dp a2 b2 = (lcsTab s t a2 b2 : Int)) →
      ∃ dp1, lcsOuter s t (t.length : Int) c a dp = some dp1 ∧
        Shape dp1 (s.length + 1) (t.length + 1) ∧
        ∀ a2 b2, a2 ≤ s.length → b2 ≤ t.length →
          get2 dp1 a2 b2 = (lcsTab s t a2 b2 : Int) := by
  intro c
  induction c with
  | zero =>
    intro a dp _ ha hs hfill
    exact ⟨dp, rfl, hs, fun a2 b2 h1 h2 => hfill a2 b2 h1 h2 (Or.inl (by omega))⟩
  | succ c ih =>
    intro a dp ha1 ha hs hfill
    obtain ⟨dp1, hr, hs1, hfill1⟩ := lcsInner_spec s t hm a ha1 (by omega) t.length 1 dp
      (le_refl _) (by omega) hs
      (fun a2 b2 h1 h2 h3 => hfill a2 b2 h1 h2 (by
        rcases h3 with h | ⟨_, h⟩ | h
        · exact Or.inl h
        · exact Or.inr (by omega)
        · exact Or.inr h))
    have hcnt : ((t.length : Int)).toNat = t.length := Int.toNat_ofNat _
    have hr2 : lcsInner s t (a : Int) ((t.length : Int)).toNat 1 dp = some dp1 := by
      rw [hcnt]
      exact hr
    rw [lcsOuter_step s t dp dp1 _ _ c hr2]
    have hcast : ((a : Int) + 1) = ((a + 1 : Nat) : Int) := by push_cast; rfl
    rw [hcast]
    apply ih (a + 1) dp1 (by omega) (by omega) hs1
    intro a2 b2 h1 h2 h3
    apply hfill1 a2 b2 h1 h2
    rcases h3 with h | h
    · rcases Nat.lt_or_ge a2 a with h4 | h4
      · exact Or.inl h4
      · exact Or.inr (Or.inl ⟨by omega, by omega⟩)
    · exact Or.inr (Or.inr h)

theorem isLCSLength_reverse (xs ys : List Char) (k : Nat)
    (h : IsLCSLength xs.reverse ys.reverse k) : IsLCSLength xs ys k := by
  obtain ⟨⟨zs, h1, h2, h3⟩, hu⟩ := h
  refine ⟨⟨zs.reverse, ?_, ?_, by rw [List.length_reverse]; exact h3⟩, fun ws w1 w2 => ?_⟩
  · have := List.reverse_sublist.2 h1
    rw [List.reverse_reverse] at this
    exact this
  · have := List.reverse_sublist.2 h2
    rw [List.reverse_reverse] at this
    exact this
  · have := hu ws.reverse (List.reverse_sublist.2 w1) (List.reverse_sublist.2 w2)
    rw [List.length_reverse] at this
    exact this

theorem weightSum_nonneg (sel : List (Int × Int)) (h : ∀ p ∈ sel, 0 ≤ p.1) :
    0 ≤ weightSum sel := by
  induction sel with
  | nil => simp [weightSum]
  | cons p sel ih =>
    have h1 := h p (List.mem_cons_self _ _)
    have h2 := ih (fun q hq => h q (List.mem_cons_of_mem _ hq))
    simp only [weightSum, List.map_cons, List.sum_cons] at h2 ⊢
    omega

theorem best_spec (items : List (Int × Int)) (hw : ∀ p ∈ items, 0 ≤ p.1) :
    ∀ w : Int, 0 ≤ w → IsKnapsackOpt items w (best items w) := by
  induction items with
  | nil =>
    intro w hw0
    refine ⟨⟨[], List.Sublist.refl _, by simpa [weightSum] using hw0, by simp [valueSum, best]⟩,
      fun sel h1 _ => ?_⟩
    rw [List.sublist_nil.1 h1]
    simp [valueSum, best]
  | cons p rest ih =>
    intro w hw0
    have hrest : ∀ q ∈ rest, 0 ≤ q.1 := fun q hq => hw q (List.mem_cons_of_mem _ hq)
    have hp : 0 ≤ p.1 := hw p (List.mem_cons_self _ _)
    obtain ⟨⟨s1, a1, b1, c1⟩, u1⟩ := ih hrest w hw0
    rw [best]
    by_cases hle : p.1 ≤ w
    · rw [if_pos hle]
      obtain ⟨⟨s2, a2, b2, c2⟩, u2⟩ := ih hrest (w - p.1) (by omega)
      refine ⟨?_, fun sel h1 h2 => ?_⟩
      · rcases le_total (best rest w) (best rest (w - p.1) + p.2) with h | h
        · rw [max_eq_right h]
          refine ⟨p :: s2, a2.cons₂ p, ?_, ?_⟩
          · simp only [weightSum, List.map_cons, List.sum_cons] at b2 ⊢
            omega
          · simp only [valueSum, List.map_cons, List.sum_cons] at c2 ⊢
            omega
        · rw [max_eq_left h]
          exact ⟨s1, a1.cons p, b1, c1⟩
      · rcases List.sublist_cons_iff.1 h1 with t | ⟨r, hr, t⟩
        · exact le_trans (u1 sel t h2) (le_max_left _ _)
        · subst hr
          have hwr : weightSum r ≤ w - p.1 := by
            simp only [weightSum, List.map_cons, List.sum_cons] at h2 ⊢
            omega
          have := u2 r t hwr
          refine le_trans ?_ (le_max_right _ _)
          simp only [valueSum, List.map_cons, List.sum_cons] at this ⊢
          omega
    · rw [if_neg hle]
      refine ⟨⟨s1, a1.cons p, b1, c1⟩, fun sel h1 h2 => ?_⟩
      rcases List.sublist_cons_iff.1 h1 with t | ⟨r, hr, t⟩
      · exact u1 sel t h2
      · exfalso
        subst hr
        have hnn := weightSum_nonneg r (fun q hq => hrest q (t.subset hq))
        simp only [weightSum, List.map_cons, List.sum_cons] at h2 hnn
        omega

theorem best_zero (items : List (Int × Int)) (hw : ∀ p ∈ items, 1 ≤ p.1) :
    best items 0 = 0 := by
  induction items with
  | nil => rfl
  | cons p rest ih =>
    have hp : 1 ≤ p.1 := hw p (List.mem_cons_self _ _)
    rw [best, if_neg (by omega)]
    exact ih (fun q hq => hw q (List.mem_cons_of_mem _ hq))

theorem isKnapsackOpt_reverse (items : List (Int × Int)) (cap r : Int)
    (h : IsKnapsackOpt items.reverse cap r) : IsKnapsackOpt items cap r := by
  obtain ⟨⟨sel, h1, h2, h3⟩, hu⟩ := h
  have hws : ∀ l : List (Int × Int), weightSum l.reverse = weightSum l := by
    intro l
    simp [weightSum, List.sum_reverse]
  have hvs : ∀ l : List (Int × Int), valueSum l.reverse = valueSum l := by
    intro l
    simp [valueSum, List.sum_reverse]
  refine ⟨⟨sel.reverse, ?_, by rw [hws]; exact h2, by rw [hvs]; exact h3⟩,
    fun ws w1 w2 => ?_⟩
  · have := List.reverse_sublist.2 h1
    rw [List.reverse_reverse] at this
    exact this
  · have := hu ws.reverse (List.reverse_sublist.2 w1) (by rw [hws]; exact w2)
    rw [hvs] at this
    exact this

theorem knapsackInner_take (weights values : List Int) (dp dp1 : List (List Int))
    (i w : Int) (c : Nat) (wt u d v : Int) (hwt : wt ≤ w)
    (h1 : rd weights (i - 1) = some wt) (h2 : rd2 dp (i - 1) w = some u)
    (h3 : rd2 dp (i - 1) (w - wt) = some d) (h4 : rd values (i - 1) = some v)
    (h5 : wr2 dp i w (max u (intAdd d v)) = some dp1) :
    knapsackInner weights values i (c + 1) w dp =
      knapsackInner weights values i c (w + 1) dp1 := by
  simp only [knapsackInner, h1, if_pos hwt, h2, h3, h4, h5]

theorem knapsackInner_skip (weights values : List Int) (dp dp1 : List (List Int))
    (i w : Int) (c : Nat) (wt u : Int) (hwt : ¬ wt ≤ w)
    (h1 : rd weights (i - 1) = some wt) (h2 : rd2 dp (i - 1) w = some u)
    (h5 : wr2 dp i w u = some dp1) :
    knapsackInner weights values i (c + 1) w dp =
      knapsackInner weights values i c (w + 1) dp1 := by
  simp only [knapsackInner, h1, if_neg hwt, h2, h5]

theorem knapsackOuter_step (weights values : List Int) (dp dp1 : List (List Int))
    (capacity i : Int) (c : Nat)
    (h1 : knapsackInner weights values i capacity.toNat 1 dp = some dp1) :
    knapsackOuter weights values capacity (c + 1) i dp =
      knapsackOuter weights values capacity c (i + 1) dp1 := by
  simp only [knapsackOuter, h1]

theorem ksTab_zero_row (weights values : List Int) (w : Nat) : ksTab weights values 0 w = 0 := by
  simp [ksTab, best]

theorem take_succ_reverse_items (items : List (Int × Int)) (a : Nat) (ha : a < items.length) :
    (items.take (a + 1)).reverse = items.getD a (0, 0) :: (items.take a).reverse := by
  rw [List.take_succ, List.getElem?_eq_getElem ha, List.getD_eq_getElem _ _ ha]
  simp

theorem zip_getD (weights values : List Int) (a : Nat) (h1 : a < weights.length)
    (h2 : a < values.length) :
    (weights.zip values).getD a (0, 0) = (weights.getD a 0, values.getD a 0) := by
  have hl : a < (weights.zip values).length := by
    rw [List.length_zip]
    omega
  rw [List.getD_eq_getElem _ _ hl, List.getElem_zip, List.getD_eq_getElem _ _ h1,
    List.getD_eq_getElem _ _ h2]

theorem ksTab_succ (weights values : List Int) (a w : Nat) (h1 : a < weights.length)
    (h2 : a < values.length) :
    ksTab weights values (a + 1) w =
      if weights.getD a 0 ≤ (w : Int) then
        max (ksTab weights values a w)
          (best ((weights.zip values).take a).reverse ((w : Int) - weights.getD a 0) +
            values.getD a 0)
      else ksTab weights values a w := by
  unfold ksTab
  have hl : a < (weights.zip values).length := by
    rw [List.length_zip]
    omega
  rw [take_succ_reverse_items _ a hl, zip_getD weights values a h1 h2, best]

theorem items_weight_pos (weights values : List Int) (hpos : ∀ wt ∈ weights, 1 ≤ wt) (a : Nat) :
    ∀ p ∈ ((weights.zip values).take a).reverse, 1 ≤ p.1 := by
  intro p hp
  have h1 : p ∈ weights.zip values := List.mem_of_mem_take (List.mem_reverse.1 hp)
  exact hpos p.1 (List.of_mem_zip (a := p.1) (b := p.2) h1).1

theorem ksTab_zero_col (weights values : List Int) (hpos : ∀ wt ∈ weights, 1 ≤ wt) (a : Nat) :
    ksTab weights values a 0 = 0 := by
  unfold ksTab
  exact best_zero _ (items_weight_pos weights values hpos a)

/-- The value read at `dp[i-1][w - weights[i-1]]` plus `values[i-1]` is the value of a
selection of the items, so it is in range. -/
theorem take_value_inInt (weights values : List Int) (hpos : ∀ wt ∈ weights, 1 ≤ wt)
    (hr : ∀ sel, sel.Sublist (weights.zip values) → InInt (valueSum sel))
    (a : Nat) (h1 : a < weights.length) (h2 : a < values.length) (w : Int) (hw : 0 ≤ w) :
    InInt (best ((weights.zip values).take a).reverse w + values.getD a 0) := by
  have hnn : ∀ p ∈ ((weights.zip values).take a).reverse, 0 ≤ p.1 := by
    intro p hp
    have := items_weight_pos weights values hpos a p hp
    omega
  obtain ⟨⟨sel, s1, _, s3⟩, _⟩ := best_spec _ hnn w hw
  have hl : a < (weights.zip values).length := by
    rw [List.length_zip]
    omega
  have hsub : ((weights.getD a 0, values.getD a 0) :: sel).Sublist
      ((weights.zip values).take (a + 1)).reverse := by
    rw [take_succ_reverse_items _ a hl, zip_getD weights values a h1 h2]
    exact s1.cons₂ _
  have hsub2 : ((weights.getD a 0, values.getD a 0) :: sel).reverse.Sublist
      (weights.zip values) := by
    have := List.reverse_sublist.2 hsub
    rw [List.reverse_reverse] at this
    exact this.trans (List.take_sublist _ _)
  have := hr _ hsub2
  have hv : valueSum ((weights.getD a 0, values.getD a 0) :: sel).reverse =
      best ((weights.zip values).take a).reverse w + values.getD a 0 := by
    simp only [valueSum, List.map_reverse, List.sum_reverse, List.map_cons, List.sum_cons]
    simp only [valueSum] at s3
    omega
  rw [hv] at this
  exact this

/-- One row of the table: the loop over `w` for the row `i`. -/
theorem knapsackInner_spec (weights values : List Int) (cap : Nat)
    (hlen : weights.length = values.length) (hpos : ∀ wt ∈ weights, 1 ≤ wt)
    (hr : ∀ sel, sel.Sublist (weights.zip values) → InInt (valueSum sel))
    (a : Nat) (ha1 : 1 ≤ a) (ha2 : a ≤ weights.length) :
    ∀ (c b : Nat) (dp : List (List Int)), 1 ≤ b → b + c = cap + 1 →
      Shape dp (weights.length + 1) (cap + 1) →
      (∀ a2 b2, a2 ≤ weights.length → b2 ≤ cap → (a2 < a ∨ (a2 = a ∧ b2 < b) ∨ b2 = 0) →
        get2 dp a2 b2 = ksTab weights values a2 b2) →
      ∃ dp1, knapsackInner weights values a c b dp = some dp1 ∧
        Shape dp1 (weights.length + 1) (cap + 1) ∧
        ∀ a2 b2, a2 ≤ weights.length → b2 ≤ cap →
          (a2 < a ∨ (a2 = a ∧ b2 < cap + 1) ∨ b2 = 0) →
          get2 dp1 a2 b2 = ksTab weights values a2 b2 := by
  intro c
  induction c with
  | zero =>
    intro b dp _ hb hs hfill
    have : b = cap + 1 := by omega
    subst this
    exact ⟨dp, rfl, hs, hfill⟩
  | succ c ih =>
    intro b dp hb1 hb hs hfill
    have hbn : b ≤ cap := by omega
    have hwt : rd weights ((a : Int) - 1) = some (weights.getD (a - 1) 0) :=
      rd_nat weights _ (a - 1) (by omega) (by omega)
    have hv : rd values ((a : Int) - 1) = some (values.getD (a - 1) 0) :=
      rd_nat values _ (a - 1) (by omega) (by omega)
    have hwpos : 1 ≤ weights.getD (a - 1) 0 := by
      have hlt : a - 1 < weights.length := by omega
      rw [List.getD_eq_getElem _ _ hlt]
      exact hpos _ (List.getElem_mem hlt)
    have htab := ksTab_succ weights values (a - 1) b (by omega) (by omega)
    have ea : a - 1 + 1 = a := by omega
    rw [ea] at htab
    have hu : rd2 dp ((a : Int) - 1) (b : Int) = some (get2 dp (a - 1) b) :=
      rd2_get2 dp _ _ hs _ _ (a - 1) b (by omega) rfl (by omega) (by omega)
    have huv : get2 dp (a - 1) b = ksTab weights values (a - 1) b :=
      hfill _ _ (by omega) hbn (Or.inl (by omega))
    have hnext : ∀ dp1, Shape dp1 (weights.length + 1) (cap + 1) →
        (∀ a2 b2, get2 dp1 a2 b2 =
          if a2 = a ∧ b2 = b then ksTab weights values a b else get2 dp a2 b2) →
        ∃ dp2, knapsackInner weights values a c ((b : Int) + 1) dp1 = some dp2 ∧
          Shape dp2 (weights.length + 1) (cap + 1) ∧
          ∀ a2 b2, a2 ≤ weights.length → b2 ≤ cap →
            (a2 < a ∨ (a2 = a ∧ b2 < cap + 1) ∨ b2 = 0) →
            get2 dp2 a2 b2 = ksTab weights values a2 b2 := by
      intro dp1 hs1 hpt
      have hcast : ((b : Int) + 1) = ((b + 1 : Nat) : Int) := by push_cast; rfl
      rw [hcast]
      apply ih (b + 1) dp1 (by omega) (by omega) hs1
      intro a2 b2 h1 h2 h3
      rw [hpt a2 b2]
      by_cases hab : a2 = a ∧ b2 = b
      · rw [if_pos hab, hab.1, hab.2]
      · rw [if_neg hab]
        apply hfill a2 b2 h1 h2
        rcases h3 with h | ⟨h, h4⟩ | h
        · exact Or.inl h
        · refine Or.inr (Or.inl ⟨h, ?_⟩)
          have : b2 ≠ b := fun hc => hab ⟨h, hc⟩
          omega
        · exact Or.inr (Or.inr h)
    by_cases hle : weights.getD (a - 1) 0 ≤ (b : Int)
    · rw [if_pos hle] at htab
      have hidx : (b : Int) - weights.getD (a - 1) 0 =
          ((b - (weights.getD (a - 1) 0).toNat : Nat) : Int) := by omega
      have hd : rd2 dp ((a : Int) - 1) ((b : Int) - weights.getD (a - 1) 0) =
          some (get2 dp (a - 1) (b - (weights.getD (a - 1) 0).toNat)) :=
        rd2_get2 dp _ _ hs _ _ (a - 1) _ (by omega) hidx (by omega) (by omega)
      have hdv : get2 dp (a - 1) (b - (weights.getD (a - 1) 0).toNat) =
          best ((weights.zip values).take (a - 1)).reverse
            ((b : Int) - weights.getD (a - 1) 0) := by
        rw [hfill _ _ (by omega) (by omega) (Or.inl (by omega)), ksTab, hidx]
      have hin := take_value_inInt weights values hpos hr (a - 1) (by omega) (by omega)
        ((b : Int) - weights.getD (a - 1) 0) (by omega)
      have hadd : intAdd (get2 dp (a - 1) (b - (weights.getD (a - 1) 0).toNat))
          (values.getD (a - 1) 0) =
          best ((weights.zip values).take (a - 1)).reverse
            ((b : Int) - weights.getD (a - 1) 0) + values.getD (a - 1) 0 := by
        unfold intAdd
        rw [hdv]
        exact wrap32_eq _ hin
      obtain ⟨dp1, hw, hs1, hpt⟩ := wr2_get2 dp _ _ hs (a : Int) (b : Int) a b
        (max (get2 dp (a - 1) b)
          (intAdd (get2 dp (a - 1) (b - (weights.getD (a - 1) 0).toNat))
            (values.getD (a - 1) 0))) rfl rfl (by omega) (by omega)
      rw [knapsackInner_take weights values dp dp1 a b c _ _ _ _ hle hwt hu hd hv hw]
      exact hnext dp1 hs1 (fun a2 b2 => by rw [hpt a2 b2, hadd, huv, htab])
    · rw [if_neg hle] at htab
      obtain ⟨dp1, hw, hs1, hpt⟩ := wr2_get2 dp _ _ hs (a : Int) (b : Int) a b
        (get2 dp (a - 1) b) rfl rfl (by omega) (by omega)
      rw [knapsackInner_skip weights values dp dp1 a b c _ _ hle hwt hu hw]
      exact hnext dp1 hs1 (fun a2 b2 => by rw [hpt a2 b2, huv, htab])

theorem knapsackOuter_spec (weights values : List Int) (cap : Nat)
    (hlen : weights.length = values.length) (hpos : ∀ wt ∈ weights, 1 ≤ wt)
    (hr : ∀ sel, sel.Sublist (weights.zip values) → InInt (valueSum sel)) :
    ∀ (c a : Nat) (dp : List (List Int)), 1 ≤ a → a + c = weights.length + 1 →
      Shape dp (weights.length + 1) (cap + 1) →
      (∀ a2 b2, a2 ≤ weights.length → b2 ≤ cap → (a2 < a ∨ b2 = 0) →
        get2 dp a2 b2 = ksTab weights values a2 b2) →
      ∃ dp1, knapsackOuter weights values (cap : Int) c a dp = some dp1 ∧
        Shape dp1 (weights.length + 1) (cap + 1) ∧
        ∀ a2 b2, a2 ≤ weights.length → b2 ≤ cap →
          get2 dp1 a2 b2 = ksTab weights values a2 b2 := by
  intro c
  induction c with
  | zero =>
    intro a dp _ ha hs hfill
    exact ⟨dp, rfl, hs, fun a2 b2 h1 h2 => hfill a2 b2 h1 h2 (Or.inl (by omega))⟩
  | succ c ih =>
    intro a dp ha1 ha hs hfill
    obtain ⟨dp1, hrun, hs1, hfill1⟩ := knapsackInner_spec weights values cap hlen hpos hr a
      ha1 (by omega) cap 1 dp (le_refl _) (by omega) hs
      (fun a2 b2 h1 h2 h3 => hfill a2 b2 h1 h2 (by
        rcases h3 with h | ⟨_, h⟩ | h
        · exact Or.inl h
        · exact Or.inr (by omega)
        · exact Or.inr h))
    have hcnt : ((cap : Int)).toNat = cap := Int.toNat_ofNat _
    have hr2 : knapsackInner weights values (a : Int) ((cap : Int)).toNat 1 dp = some dp1 := by
      rw [hcnt]
      exact hrun
    rw [knapsackOuter_step weights values dp dp1 _ _ c hr2]
    have hcast : ((a : Int) + 1) = ((a + 1 : Nat) : Int) := by push_cast; rfl
    rw [hcast]
    apply ih (a + 1) dp1 (by omega) (by omega) hs1
    intro a2 b2 h1 h2 h3
    apply hfill1 a2 b2 h1 h2
    rcases h3 with h | h
    · rcases Nat.lt_or_ge a2 a with h4 | h4
      · exact Or.inl h4
      · exact Or.inr (Or.inl ⟨by omega, by omega⟩)
    · exact Or.inr (Or.inr h)

theorem valueSum_sublist_bounds {sel items : List (Int × Int)} (hs : sel.Sublist items)
    (hnn : ∀ p ∈ items, 0 ≤ p.2) : 0 ≤ valueSum sel ∧ valueSum sel ≤ valueSum items := by
  induction hs with
  | slnil => simp [valueSum]
  | cons p _ ih =>
    have h1 := ih (fun q hq => hnn q (List.mem_cons_of_mem _ hq))
    have h2 := hnn p (List.mem_cons_self _ _)
    simp only [valueSum, List.map_cons, List.sum_cons] at h1 ⊢
    omega
  | cons₂ p _ ih =>
    have h1 := ih (fun q hq => hnn q (List.mem_cons_of_mem _ hq))
    have h2 := hnn p (List.mem_cons_self _ _)
    simp only [valueSum, List.map_cons, List.sum_cons] at h1 ⊢
    omega

/-- Non-negative values whose total fits an `int` keep the value of every selection in
range. -/
theorem valueSum_inInt (items : List (Int × Int)) (hnn : ∀ p ∈ items, 0 ≤ p.2)
    (htotal : valueSum items < 2147483648) :
    ∀ sel, sel.Sublist items → InInt (valueSum sel) := by
  intro sel hs
  obtain ⟨h1, h2⟩ := valueSum_sublist_bounds hs hnn
  constructor <;> omega

theorem border_zero (p : List Char) (q : Nat) : Border p q 0 :=
  ⟨Nat.zero_le _, fun _ ht => absurd ht (Nat.not_lt_zero _)⟩

theorem border_trans (p : List Char) (i len k : Nat) (h1 : Border p len k)
    (h2 : Border p i len) : Border p i k := by
  obtain ⟨hk, hb1⟩ := h1
  obtain ⟨hl, hb2⟩ := h2
  refine ⟨by omega, fun t ht => ?_⟩
  rw [hb1 t ht, hb2 (len - k + t) (by omega)]
  have e : i - len + (len - k + t) = i - k + t := by omega
  rw [e]

theorem border_of_border (p : List Char) (i len k : Nat) (h1 : Border p i k)
    (h2 : Border p i len) (hk : k ≤ len) : Border p len k := by
  obtain ⟨_, hb1⟩ := h1
  obtain ⟨hl, hb2⟩ := h2
  refine ⟨hk, fun t ht => ?_⟩
  rw [hb2 (len - k + t) (by omega), hb1 t ht]
  have e : i - len + (len - k + t) = i - k + t := by omega
  rw [e]

theorem border_pred (p : List Char) (i k : Nat) (h : Border p (i + 1) (k + 1)) :
    Border p i k := by
  obtain ⟨hk, hb⟩ := h
  refine ⟨by omega, fun t ht => ?_⟩
  rw [hb t (by omega)]
  have e : i + 1 - (k + 1) + t = i - k + t := by omega
  rw [e]

theorem border_last (p : List Char) (i k : Nat) (h : Border p (i + 1) (k + 1)) :
    p.getD k (Char.ofNat 0) = p.getD i (Char.ofNat 0) := by
  obtain ⟨hk, hb⟩ := h
  rw [hb k (by omega)]
  have e : i + 1 - (k + 1) + k = i := by omega
  rw [e]

theorem border_succ (p : List Char) (i k : Nat) (h : Border p i k)
    (hlast : p.getD k (Char.ofNat 0) = p.getD i (Char.ofNat 0)) :
    Border p (i + 1) (k + 1) := by
  obtain ⟨hk, hb⟩ := h
  refine ⟨by omega, fun t ht => ?_⟩
  have e : i + 1 - (k + 1) + t = i - k + t := by omega
  rw [e]
  by_cases htk : t < k
  · exact hb t htk
  · have e1 : t = k := by omega
    have e2 : i - k + t = i := by omega
    rw [e2, e1]
    exact hlast

/-- Every non-empty proper border of the next prefix extends a proper border of this one. -/
theorem border_next_le (p : List Char) (i L k : Nat) (hL : IsLongestBorder p (i + 1) L)
    (hk : k < i + 2) (hb : Border p (i + 2) k) (hk0 : k ≠ 0) : k - 1 ≤ L := by
  obtain ⟨k1, rfl⟩ : ∃ k1, k = k1 + 1 := ⟨k - 1, by omega⟩
  have := hL.2.2 k1 (by omega) (border_pred p (i + 1) k1 hb)
  omega

theorem occursAt_iff (text pattern : List Char) (s : Nat) (hm : 0 < pattern.length) :
    OccursAt text pattern s ↔
      (s + pattern.length ≤ text.length ∧
        ∀ t, t < pattern.length →
          text.getD (s + t) (Char.ofNat 0) = pattern.getD t (Char.ofNat 0)) := by
  constructor
  · intro h
    have hlen : ((text.drop s).take pattern.length).length = pattern.length := by
      rw [show (text.drop s).take pattern.length = pattern from h]
    rw [List.length_take, List.length_drop] at hlen
    refine ⟨by omega, fun t ht => ?_⟩
    have h2 : ((text.drop s).take pattern.length)[t]? = pattern[t]? := by
      rw [show (text.drop s).take pattern.length = pattern from h]
    rw [List.getElem?_take_of_lt ht, List.getElem?_drop] at h2
    rw [List.getD_eq_getElem?_getD, List.getD_eq_getElem?_getD, h2]
  · rintro ⟨hlen, hpt⟩
    show (text.drop s).take pattern.length = pattern
    apply List.ext_getElem?
    intro t
    by_cases ht : t < pattern.length
    · rw [List.getElem?_take_of_lt ht, List.getElem?_drop]
      have := hpt t ht
      rw [List.getD_eq_getElem?_getD, List.getD_eq_getElem?_getD,
        List.getElem?_eq_getElem (by omega : s + t < text.length),
        List.getElem?_eq_getElem ht] at this
      rw [List.getElem?_eq_getElem (by omega : s + t < text.length),
        List.getElem?_eq_getElem ht]
      exact congrArg some this
    · rw [List.getElem?_eq_none (by rw [List.length_take]; omega),
        List.getElem?_eq_none (by omega)]

theorem computeLPSLoop_done (pattern : List Char) (m : Int) (fuel : Nat) (len i : Int)
    (lps : List Int) (h : ¬ i < m) :
    computeLPSLoop pattern m (fuel + 1) len i lps = some lps := by
  simp only [computeLPSLoop, if_neg h]

theorem computeLPSLoop_match (pattern : List Char) (m : Int) (fuel : Nat) (len i : Int)
    (lps lps1 : List Int) (a b : Char) (h : i < m) (h1 : charAt pattern i = some a)
    (h2 : charAt pattern len = some b) (hab : a = b) (h3 : wr lps i (len + 1) = some lps1) :
    computeLPSLoop pattern m (fuel + 1) len i lps =
      computeLPSLoop pattern m fuel (len + 1) (i + 1) lps1 := by
  simp only [computeLPSLoop, if_pos h, h1, h2, if_pos hab, h3]

theorem computeLPSLoop_back (pattern : List Char) (m : Int) (fuel : Nat) (len i l : Int)
    (lps : List Int) (a b : Char) (h : i < m) (h1 : charAt pattern i = some a)
    (h2 : charAt pattern len = some b) (hab : ¬ a = b) (hlen : len ≠ 0)
    (h3 : rd lps (len - 1) = some l) :
    computeLPSLoop pattern m (fuel + 1) len i lps =
      computeLPSLoop pattern m fuel l i lps := by
  simp only [computeLPSLoop, if_pos h, h1, h2, if_neg hab, if_pos hlen, h3]

theorem computeLPSLoop_skip (pattern : List Char) (m : Int) (fuel : Nat) (len i : Int)
    (lps lps1 : List Int) (a b : Char) (h : i < m) (h1 : charAt pattern i = some a)
    (h2 : charAt pattern len = some b) (hab : ¬ a = b) (hlen : ¬ len ≠ 0)
    (h3 : wr lps i 0 = some lps1) :
    computeLPSLoop pattern m (fuel + 1) len i lps =
      computeLPSLoop pattern m fuel len (i + 1) lps1 := by
  simp only [computeLPSLoop, if_pos h, h1, h2, if_neg hab, if_neg hlen, h3]

/-- Writing the entry of the next prefix keeps the entries of the shorter ones. -/
theorem lps_table_extend (pattern : List Char) (lps : List Int) (i L : Nat)
    (hi : i < lps.length) (hL : IsLongestBorder pattern (i + 1) L)
    (htab : ∀ q, 1 ≤ q → q ≤ i →
      ∃ k : Nat, lps.getD (q - 1) 0 = (k : Int) ∧ IsLongestBorder pattern q k) :
    ∀ q, 1 ≤ q → q ≤ i + 1 →
      ∃ k : Nat, (lps.set i (L : Int)).getD (q - 1) 0 = (k : Int) ∧
        IsLongestBorder pattern q k := by
  intro q hq1 hq2
  rw [getD_set_eq lps i (q - 1) _ 0 hi]
  by_cases hqi : q - 1 = i
  · rw [if_pos hqi]
    have e : q = i + 1 := by omega
    subst e
    exact ⟨L, rfl, hL⟩
  · rw [if_neg hqi]
    exact htab q hq1 (by omega)

theorem computeLPSLoop_spec (pattern : List Char) (m : Nat) (hm : m = pattern.length) :
    ∀ (fuel len i : Nat) (lps : List Int),
      2 * (m - i) + len < fuel → 1 ≤ i → i ≤ m → lps.length = m → len < i →
      Border pattern i len →
      (i < m → ∀ k, k < i + 1 → Border pattern (i + 1) k → k ≠ 0 → k - 1 ≤ len) →
      (∀ q, 1 ≤ q → q ≤ i →
        ∃ k : Nat, lps.getD (q - 1) 0 = (k : Int) ∧ IsLongestBorder pattern q k) →
      ∃ out, computeLPSLoop pattern (m : Int) fuel (len : Int) (i : Int) lps = some out ∧
        out.length = m ∧
        ∀ q, 1 ≤ q → q ≤ m →
          ∃ k : Nat, out.getD (q - 1) 0 = (k : Int) ∧ IsLongestBorder pattern q k := by
  intro fuel
  induction fuel with
  | zero => intro len i lps hf; omega
  | succ fuel ih =>
    intro len i lps hf hi1 him hlen hli hbord hnext htab
    by_cases hlt : i < m
    · have hc1 : charAt pattern (i : Int) = some (pattern.getD i (Char.ofNat 0)) :=
        charAt_getD pattern _ i rfl (by omega)
      have hc2 : charAt pattern (len : Int) = some (pattern.getD len (Char.ofNat 0)) :=
        charAt_getD pattern _ len rfl (by omega)
      have hltI : (i : Int) < (m : Int) := by omega
      by_cases hab : pattern.getD i (Char.ofNat 0) = pattern.getD len (Char.ofNat 0)
      · -- the characters agree: the border grows by one
        have hw : wr lps (i : Int) ((len : Int) + 1) =
            some (lps.set i ((len + 1 : Nat) : Int)) := by
          rw [wr_set lps _ i _ rfl (by omega)]
          rfl
        rw [computeLPSLoop_match pattern _ fuel _ _ lps _ _ _ hltI hc1 hc2 hab hw]
        have hb1 : Border pattern (i + 1) (len + 1) := border_succ pattern i len hbord hab.symm
        have hL : IsLongestBorder pattern (i + 1) (len + 1) := by
          refine ⟨by omega, hb1, fun k2 hk2 hbk => ?_⟩
          by_cases hk0 : k2 = 0
          · omega
          · have := hnext hlt k2 hk2 hbk hk0
            omega
        have := ih (len + 1) (i + 1) (lps.set i ((len + 1 : Nat) : Int)) (by omega) (by omega)
          (by omega) (by rw [List.length_set]; exact hlen) (by omega) hb1
          (fun _ k hk hbk hk0 => border_next_le pattern i (len + 1) k hL hk hbk hk0)
          (lps_table_extend pattern lps i (len + 1) (by omega) hL htab)
        exact this
      · by_cases hl0 : len = 0
        · -- no border can be extended: the entry is zero
          have hlen0 : ¬ (len : Int) ≠ 0 := by omega
          have hw : wr lps (i : Int) 0 = some (lps.set i ((0 : Nat) : Int)) := by
            rw [wr_set lps _ i _ rfl (by omega)]
            rfl
          rw [computeLPSLoop_skip pattern _ fuel _ _ lps _ _ _ hltI hc1 hc2 hab hlen0 hw]
          have hL : IsLongestBorder pattern (i + 1) 0 := by
            refine ⟨by omega, border_zero pattern _, fun k2 hk2 hbk => ?_⟩
            by_cases hk0 : k2 = 0
            · omega
            · have h1 := hnext hlt k2 hk2 hbk hk0
              have e : k2 = 0 + 1 := by omega
              subst e
              have := border_last pattern i 0 hbk
              rw [hl0] at hab
              exact absurd this.symm hab
          have hb0 : Border pattern (i + 1) len := by
            rw [hl0]
            exact border_zero pattern _
          have := ih len (i + 1) (lps.set i ((0 : Nat) : Int)) (by omega) (by omega)
            (by omega) (by rw [List.length_set]; exact hlen) (by omega) hb0
            (fun _ k hk hbk hk0 => by
              have := border_next_le pattern i 0 k hL hk hbk hk0
              omega)
            (lps_table_extend pattern lps i 0 (by omega) hL htab)
          exact this
        · -- fall back to the longest border of the current border
          have hlenI : (len : Int) ≠ 0 := by omega
          obtain ⟨l, hl, hlb⟩ := htab len (by omega) (by omega)
          have hr : rd lps ((len : Int) - 1) = some (l : Int) := by
            rw [rd_getD lps 0 _ (len - 1) (by omega) (by omega), hl]
          rw [computeLPSLoop_back pattern _ fuel _ _ _ lps _ _ hltI hc1 hc2 hab hlenI hr]
          have hll : l < len := hlb.1
          refine ih l i lps (by omega) hi1 him hlen (by omega)
            (border_trans pattern i len l hlb.2.1 hbord) ?_ htab
          intro _ k hk hbk hk0
          obtain ⟨k1, rfl⟩ : ∃ k1, k = k1 + 1 := ⟨k - 1, by omega⟩
          have h1 := hnext hlt (k1 + 1) hk hbk hk0
          have hne : k1 ≠ len := by
            intro e
            subst e
            exact hab (border_last pattern i k1 hbk).symm
          have hb2 : Border pattern i k1 := border_pred pattern i k1 hbk
          have hb3 : Border pattern len k1 :=
            border_of_border pattern i len k1 hb2 hbord (by omega)
          have := hlb.2.2 k1 (by omega) hb3
          omega
    · have hge : ¬ (i : Int) < (m : Int) := by omega
      rw [computeLPSLoop_done pattern _ fuel _ _ lps hge]
      have e : i = m := by omega
      subst e
      exact ⟨lps, rfl, hlen, htab⟩

theorem computeLPS_spec (pattern : List Char) (fuel : Nat) (hm : 0 < pattern.length)
    (hsize : pattern.length < 2147483648) (hf : 2 * pattern.length ≤ fuel) :
    ∃ lps, computeLPS fuel pattern = some lps ∧ lps.length = pattern.length ∧
      ∀ q, 1 ≤ q → q ≤ pattern.length →
        ∃ k : Nat, lps.getD (q - 1) 0 = (k : Int) ∧ IsLongestBorder pattern q k := by
  have h := computeLPSLoop_spec pattern pattern.length rfl fuel 0 1
    (List.replicate pattern.length 0) (by omega) (Nat.le_refl _) (by omega)
    (List.length_replicate _ _) (by omega) (border_zero pattern 1)
    (fun _ k hk _ hk0 => by omega)
    (fun q hq1 hq2 => by
      have e : q = 1 := by omega
      subst e
      refine ⟨0, ?_, by omega, border_zero pattern 1, fun k2 hk2 _ => by omega⟩
      rw [getD_replicate, if_pos (by omega)]
      rfl)
  obtain ⟨out, ho, hrest⟩ := h
  refine ⟨out, ?_, hrest⟩
  show computeLPSFrom fuel (intOfSize pattern.length) pattern = some out
  rw [intOfSize_eq _ hsize]
  show computeLPSLoop pattern (pattern.length : Int) fuel 0 1
    (List.replicate (pattern.length : Int).toNat 0) = some out
  rw [Int.toNat_ofNat]
  exact ho

theorem KMPLoop_exit (text pattern : List Char) (lps : List Int) (n m : Int) (fuel : Nat)
    (i j : Int) (h : ¬ i < n) :
    KMPLoop text pattern lps n m (fuel + 1) i j = some (-1) := by
  simp only [KMPLoop, if_neg h]

theorem KMPLoop_found (text pattern : List Char) (lps : List Int) (n m : Int) (fuel : Nat)
    (i j : Int) (a b : Char) (h : i < n) (h1 : charAt text i = some a)
    (h2 : charAt pattern j = some b) (hab : a = b) (hjm : j + 1 = m) :
    KMPLoop text pattern lps n m (fuel + 1) i j = some (i + 1 - (j + 1)) := by
  simp only [KMPLoop, if_pos h, h1, h2, if_pos hab, if_pos hjm]

theorem KMPLoop_match_back (text pattern : List Char) (lps : List Int) (n m : Int)
    (fuel : Nat) (i j i1 j1 l : Int) (a b c d : Char) (hi1 : i + 1 = i1) (hj1 : j + 1 = j1)
    (h : i < n) (h1 : charAt text i = some a) (h2 : charAt pattern j = some b) (hab : a = b)
    (hjm : ¬ j1 = m) (hin : i1 < n) (h3 : charAt text i1 = some c)
    (h4 : charAt pattern j1 = some d) (hcd : c ≠ d) (hj0 : j1 ≠ 0)
    (h5 : rd lps (j1 - 1) = some l) :
    KMPLoop text pattern lps n m (fuel + 1) i j = KMPLoop text pattern lps n m fuel i1 l := by
  subst hi1 hj1
  simp only [KMPLoop, if_pos h, h1, h2, if_pos hab, if_neg hjm, if_pos hin, h3, h4, if_pos hcd,
    if_pos hj0, h5]

theorem KMPLoop_match_keep (text pattern : List Char) (lps : List Int) (n m : Int)
    (fuel : Nat) (i j i1 j1 : Int) (a b c d : Char) (hi1 : i + 1 = i1) (hj1 : j + 1 = j1)
    (h : i < n) (h1 : charAt text i = some a) (h2 : charAt pattern j = some b) (hab : a = b)
    (hjm : ¬ j1 = m) (hin : i1 < n) (h3 : charAt text i1 = some c)
    (h4 : charAt pattern j1 = some d) (hcd : ¬ c ≠ d) :
    KMPLoop text pattern lps n m (fuel + 1) i j = KMPLoop text pattern lps n m fuel i1 j1 := by
  subst hi1 hj1
  simp only [KMPLoop, if_pos h, h1, h2, if_pos hab, if_neg hjm, if_pos hin, h3, h4, if_neg hcd]

theorem KMPLoop_match_end (text pattern : List Char) (lps : List Int) (n m : Int)
    (fuel : Nat) (i j i1 j1 : Int) (a b : Char) (hi1 : i + 1 = i1) (hj1 : j + 1 = j1)
    (h : i < n) (h1 : charAt text i = some a) (h2 : charAt pattern j = some b) (hab : a = b)
    (hjm : ¬ j1 = m) (hin : ¬ i1 < n) :
    KMPLoop text pattern lps n m (fuel + 1) i j = KMPLoop text pattern lps n m fuel i1 j1 := by
  subst hi1 hj1
  simp only [KMPLoop, if_pos h, h1, h2, if_pos hab, if_neg hjm, if_neg hin]

theorem KMPLoop_differ_back (text pattern : List Char) (lps : List Int) (n m : Int)
    (fuel : Nat) (i j l : Int) (a b : Char) (h : i < n) (h1 : charAt text i = some a)
    (h2 : charAt pattern j = some b) (hab : ¬ a = b) (hjm : ¬ j = m) (hj0 : j ≠ 0)
    (h5 : rd lps (j - 1) = some l) :
    KMPLoop text pattern lps n m (fuel + 1) i j = KMPLoop text pattern lps n m fuel i l := by
  have hab2 : a ≠ b := hab
  simp only [KMPLoop, if_pos h, h1, h2, if_neg hab, if_neg hjm, if_pos hab2, if_pos hj0, h5]

theorem KMPLoop_differ_skip (text pattern : List Char) (lps : List Int) (n m : Int)
    (fuel : Nat) (i j i1 : Int) (a b : Char) (hi1 : i + 1 = i1) (h : i < n)
    (h1 : charAt text i = some a) (h2 : charAt pattern j = some b) (hab : ¬ a = b)
    (hjm : ¬ j = m) (hj0 : ¬ j ≠ 0) :
    KMPLoop text pattern lps n m (fuel + 1) i j = KMPLoop text pattern lps n m fuel i1 j := by
  subst hi1
  have hab2 : a ≠ b := hab
  simp only [KMPLoop, if_pos h, h1, h2, if_neg hab, if_neg hjm, if_pos hab2, if_neg hj0]

/-- After a mismatch at `text[i]` against `pattern[j]`, the longest border of the matched
part is matched too, and no occurrence starts before it. -/
theorem kmp_fallback (text pattern : List Char) (i j l : Nat) (hj : j < pattern.length)
    (hji : j ≤ i)
    (hmatch : ∀ t, t < j →
      pattern.getD t (Char.ofNat 0) = text.getD (i - j + t) (Char.ofNat 0))
    (hmis : ¬ text.getD i (Char.ofNat 0) = pattern.getD j (Char.ofNat 0))
    (hl : IsLongestBorder pattern j l)
    (hnone : ∀ s, s < i - j → ¬ OccursAt text pattern s) :
    (∀ t, t < l → pattern.getD t (Char.ofNat 0) = text.getD (i - l + t) (Char.ofNat 0)) ∧
      ∀ s, s < i - l → ¬ OccursAt text pattern s := by
  obtain ⟨hlj, ⟨_, hbl⟩, hmax⟩ := hl
  constructor
  · intro t ht
    rw [hbl t ht, hmatch (j - l + t) (by omega)]
    have e : i - j + (j - l + t) = i - l + t := by omega
    rw [e]
  · intro s hs hocc
    obtain ⟨hlen, hpt⟩ := (occursAt_iff text pattern s (by omega)).1 hocc
    by_cases h1 : s < i - j
    · exact hnone s h1 hocc
    · by_cases h2 : s = i - j
      · have := hpt j hj
        have e : s + j = i := by omega
        rw [e] at this
        exact hmis this
      · have hb : Border pattern j (i - s) := by
          refine ⟨by omega, fun t ht => ?_⟩
          rw [hmatch (j - (i - s) + t) (by omega), ← hpt t (by omega)]
          have e : i - j + (j - (i - s) + t) = s + t := by omega
          rw [e]
        have := hmax (i - s) (by omega) hb
        omega

theorem KMPLoop_spec (text pattern : List Char) (lps : List Int) (n m : Nat)
    (hn : n = text.length) (hm : m = pattern.length) (hm0 : 0 < m) (hlps : lps.length = m)
    (htab : ∀ q, 1 ≤ q → q ≤ m →
      ∃ k : Nat, lps.getD (q - 1) 0 = (k : Int) ∧ IsLongestBorder pattern q k) :
    ∀ (fuel i j : Nat), 2 * (n - i) + j < fuel → j < m → j ≤ i → i ≤ n →
      (∀ t, t < j →
        pattern.getD t (Char.ofNat 0) = text.getD (i - j + t) (Char.ofNat 0)) →
      (∀ s, s < i - j → ¬ OccursAt text pattern s) →
      ∃ r, KMPLoop text pattern lps (n : Int) (m : Int) fuel (i : Int) (j : Int) = some r ∧
        IsFirstOccurrence text pattern r := by
  intro fuel
  induction fuel with
  | zero => intro i j hf; omega
  | succ fuel ih =>
    intro i j hf hjm hji hin hmatch hnone
    by_cases hlt : i < n
    · have hltI : (i : Int) < (n : Int) := by omega
      have hc1 : charAt text (i : Int) = some (text.getD i (Char.ofNat 0)) :=
        charAt_getD text _ i rfl (by omega)
      have hc2 : charAt pattern (j : Int) = some (pattern.getD j (Char.ofNat 0)) :=
        charAt_getD pattern _ j rfl (by omega)
      by_cases hab : text.getD i (Char.ofNat 0) = pattern.getD j (Char.ofNat 0)
      · -- the characters agree: both indices advance
        have hmatch1 : ∀ t, t < j + 1 →
            pattern.getD t (Char.ofNat 0) = text.getD (i + 1 - (j + 1) + t) (Char.ofNat 0) := by
          intro t ht
          have e : i + 1 - (j + 1) + t = i - j + t := by omega
          rw [e]
          by_cases htj : t < j
          · exact hmatch t htj
          · have e1 : t = j := by omega
            have e2 : i - j + t = i := by omega
            rw [e2, e1]
            exact hab.symm
        have hnone1 : ∀ s, s < i + 1 - (j + 1) → ¬ OccursAt text pattern s := by
          intro s hs
          exact hnone s (by omega)
        by_cases hfull : j + 1 = m
        · have hfullI : (j : Int) + 1 = (m : Int) := by omega
          rw [KMPLoop_found text pattern lps _ _ fuel _ _ _ _ hltI hc1 hc2 hab hfullI]
          refine ⟨_, rfl, Or.inr ?_⟩
          have e : ((i : Int) + 1 - ((j : Int) + 1)).toNat = i + 1 - (j + 1) := by omega
          rw [e]
          refine ⟨by omega, ?_, hnone1⟩
          refine (occursAt_iff text pattern _ (by omega)).2 ⟨by omega, fun t ht => ?_⟩
          exact (hmatch1 t (by omega)).symm
        · have hfullI : ¬ ((j + 1 : Nat) : Int) = (m : Int) := by omega
          by_cases hin1 : i + 1 < n
          · have hin1I : ((i + 1 : Nat) : Int) < (n : Int) := by omega
            have hc3 : charAt text ((i + 1 : Nat) : Int) =
                some (text.getD (i + 1) (Char.ofNat 0)) :=
              charAt_getD text _ (i + 1) rfl (by omega)
            have hc4 : charAt pattern ((j + 1 : Nat) : Int) =
                some (pattern.getD (j + 1) (Char.ofNat 0)) :=
              charAt_getD pattern _ (j + 1) rfl (by omega)
            by_cases hcd : text.getD (i + 1) (Char.ofNat 0) = pattern.getD (j + 1) (Char.ofNat 0)
            · rw [KMPLoop_match_keep text pattern lps _ _ fuel _ _ _ _ _ _ _ _
                (Nat.cast_succ i).symm (Nat.cast_succ j).symm hltI hc1 hc2 hab hfullI hin1I
                hc3 hc4 (not_not.2 hcd)]
              exact ih (i + 1) (j + 1) (by omega) (by omega) (by omega) (by omega) hmatch1
                hnone1
            · obtain ⟨l, hl, hlb⟩ := htab (j + 1) (by omega) (by omega)
              have hr : rd lps (((j + 1 : Nat) : Int) - 1) = some (l : Int) := by
                rw [rd_getD lps 0 _ (j + 1 - 1) (by omega) (by omega), hl]
              have hj0 : ((j + 1 : Nat) : Int) ≠ 0 := by omega
              rw [KMPLoop_match_back text pattern lps _ _ fuel _ _ _ _ _ _ _ _ _
                (Nat.cast_succ i).symm (Nat.cast_succ j).symm hltI hc1 hc2 hab hfullI hin1I
                hc3 hc4 hcd hj0 hr]
              have hll : l < j + 1 := hlb.1
              obtain ⟨hm2, hn2⟩ := kmp_fallback text pattern (i + 1) (j + 1) l (by omega)
                (by omega) hmatch1 hcd hlb hnone1
              exact ih (i + 1) l (by omega) (by omega) (by omega) (by omega) hm2 hn2
          · have hin1I : ¬ ((i + 1 : Nat) : Int) < (n : Int) := by omega
            rw [KMPLoop_match_end text pattern lps _ _ fuel _ _ _ _ _ _
              (Nat.cast_succ i).symm (Nat.cast_succ j).symm hltI hc1 hc2 hab hfullI hin1I]
            exact ih (i + 1) (j + 1) (by omega) (by omega) (by omega) (by omega) hmatch1
              hnone1
      · have hjmI : ¬ (j : Int) = (m : Int) := by omega
        by_cases hj0 : j = 0
        · -- nothing is matched: the text index advances
          have hj0I : ¬ (j : Int) ≠ 0 := by omega
          rw [KMPLoop_differ_skip text pattern lps _ _ fuel _ _ _ _ _
            (Nat.cast_succ i).symm hltI hc1 hc2 hab hjmI hj0I]
          refine ih (i + 1) j (by omega) hjm (by omega) (by omega) ?_ ?_
          · intro t ht
            omega
          · intro s hs hocc
            obtain ⟨hlen, hpt⟩ := (occursAt_iff text pattern s (by omega)).1 hocc
            by_cases h1 : s < i - j
            · exact hnone s h1 hocc
            · have e : s + j = i := by omega
              have := hpt j (by omega)
              rw [e] at this
              exact hab this
        · -- fall back to the longest border of the matched part
          obtain ⟨l, hl, hlb⟩ := htab j (by omega) (by omega)
          have hr : rd lps ((j : Int) - 1) = some (l : Int) := by
            rw [rd_getD lps 0 _ (j - 1) (by omega) (by omega), hl]
          have hj0I : (j : Int) ≠ 0 := by omega
          rw [KMPLoop_differ_back text pattern lps _ _ fuel _ _ _ _ _ hltI hc1 hc2 hab hjmI
            hj0I hr]
          have hll : l < j := hlb.1
          obtain ⟨hm2, hn2⟩ := kmp_fallback text pattern i j l (by omega) hji hmatch hab hlb
            hnone
          exact ih i l (by omega) (by omega) (by omega) hin hm2 hn2
    · have hge : ¬ (i : Int) < (n : Int) := by omega
      rw [KMPLoop_exit text pattern lps _ _ fuel _ _ hge]
      refine ⟨_, rfl, Or.inl ⟨rfl, fun s hocc => ?_⟩⟩
      obtain ⟨hlen, _⟩ := (occursAt_iff text pattern s (by omega)).1 hocc
      by_cases h1 : s < i - j
      · exact hnone s h1 hocc
      · omega

theorem computeLPS_eq (fuel : Nat) (pattern : List Char) (m : Int)
    (hm : intOfSize pattern.length = m) :
    computeLPS fuel pattern =
      computeLPSLoop pattern m fuel 0 1 (List.replicate m.toNat 0) := by
  unfold computeLPS
  rw [hm, computeLPSFrom]

theorem KMP_eq (fuel : Nat) (text pattern : List Char) (lps : List Int) (n m : Int)
    (hlps : computeLPS fuel pattern = some lps) (hn : intOfSize text.length = n)
    (hm : intOfSize pattern.length = m) :
    KMP fuel text pattern = KMPLoop text pattern lps n m fuel 0 0 := by
  unfold KMP
  rw [hlps]
  show KMPFrom fuel lps (intOfSize text.length) (intOfSize pattern.length) text pattern = _
  rw [hn, hm]
  rfl

theorem intSub_one (d : Nat) (h : d + 1 < 2147483648) :
    intSub ((d + 1 : Nat) : Int) 1 = (d : Int) := by
  simp only [intSub, wrap32]
  omega

theorem count_cons_nat (k0 k : Nat) (rest : List Int) :
    ((k0 : Int) :: rest).count (k : Int) = rest.count (k : Int) + if k = k0 then 1 else 0 := by
  rw [List.count_cons]
  by_cases h : k = k0
  · subst h
    simp
  · have h2 : ¬ (k0 : Int) = (k : Int) := by omega
    simp [h, h2]

theorem node_of_range (n : Nat) (x : Int) (h : 0 ≤ x ∧ x < (n : Int)) :
    ∃ k : Nat, k < n ∧ x = (k : Int) :=
  ⟨x.toNat, by omega, by omega⟩

theorem countNeighbors_step (neighbor d : Int) (rest indegree indegree1 : List Int)
    (h1 : rd indegree neighbor = some d)
    (h2 : wr indegree neighbor (intAdd d 1) = some indegree1) :
    countNeighbors (neighbor :: rest) indegree = countNeighbors rest indegree1 := by
  simp only [countNeighbors, h1, h2]

theorem countNeighbors_spec (n : Nat) :
    ∀ (adj indegree : List Int) (f : Nat → Nat), indegree.length = n →
      (∀ v, v ∈ adj → 0 ≤ v ∧ v < (n : Int)) →
      (∀ k, k < n → indegree.getD k 0 = ((f k : Nat) : Int)) →
      (∀ k, k < n → f k + adj.count (k : Int) < 2147483648) →
      ∃ out, countNeighbors adj indegree = some out ∧ out.length = n ∧
        ∀ k, k < n → out.getD k 0 = ((f k + adj.count (k : Int) : Nat) : Int) := by
  intro adj
  induction adj with
  | nil =>
    intro indegree f hlen _ hf _
    exact ⟨indegree, rfl, hlen, fun k hk => by rw [hf k hk]; rfl⟩
  | cons neighbor rest ih =>
    intro indegree f hlen hrange hf hbound
    obtain ⟨k0, hk0, rfl⟩ := node_of_range n neighbor (hrange neighbor (List.mem_cons_self _ _))
    have hb0 := hbound k0 hk0
    rw [count_cons_nat, if_pos rfl] at hb0
    have hr : rd indegree (k0 : Int) = some ((f k0 : Nat) : Int) := by
      rw [rd_getD indegree 0 _ k0 rfl (by omega), hf k0 hk0]
    have hw : wr indegree (k0 : Int) (intAdd ((f k0 : Nat) : Int) 1) =
        some (indegree.set k0 ((f k0 + 1 : Nat) : Int)) := by
      rw [wr_set indegree _ k0 _ rfl (by omega), intAdd_one _ (by omega)]
    rw [countNeighbors_step _ _ rest indegree _ hr hw]
    obtain ⟨out, ho, holen, hout⟩ := ih (indegree.set k0 ((f k0 + 1 : Nat) : Int))
      (fun k => f k + if k = k0 then 1 else 0) (by rw [List.length_set]; exact hlen)
      (fun v hv => hrange v (List.mem_cons_of_mem _ hv))
      (fun k hk => by
        rw [getD_set_eq indegree k0 k _ 0 (by omega)]
        show _ = ((f k + (if k = k0 then 1 else 0) : Nat) : Int)
        by_cases hkk : k = k0
        · subst hkk
          rw [if_pos rfl, if_pos rfl]
        · rw [if_neg hkk, if_neg hkk, hf k hk]
          rfl)
      (fun k hk => by
        have := hbound k hk
        rw [count_cons_nat] at this
        show f k + (if k = k0 then 1 else 0) + rest.count (k : Int) < 2147483648
        omega)
    refine ⟨out, ho, holen, fun k hk => ?_⟩
    rw [hout k hk, count_cons_nat]
    congr 1
    omega

theorem inDegreeUpTo_succ (graph : List (List Int)) (i k : Nat) :
    inDegreeUpTo graph (i + 1) k = inDegreeUpTo graph i k + (graph.getD i []).count (k : Int) :=
  Finset.sum_range_succ _ _

theorem inDegreeUpTo_eq (graph : List (List Int)) (k : Nat) :
    ∀ i, i ≤ graph.length → inDegreeUpTo graph i k = inDegree (graph.take i) (k : Int) := by
  intro i
  induction i with
  | zero => intro _; rfl
  | succ i ih =>
    intro hi
    rw [inDegreeUpTo_succ, ih (by omega)]
    have e : graph.take (i + 1) = graph.take i ++ [graph.getD i []] := by
      rw [List.take_succ, List.getD_eq_getElem?_getD, List.getElem?_eq_getElem (by omega)]
      rfl
    rw [e]
    simp only [inDegree, List.map_append, List.sum_append, List.map_cons, List.map_nil,
      List.sum_cons, List.sum_nil, Nat.add_zero]

theorem inDegreeUpTo_mono (graph : List (List Int)) (k : Nat) (i j : Nat) (h : i ≤ j) :
    inDegreeUpTo graph i k ≤ inDegreeUpTo graph j k :=
  Finset.sum_le_sum_of_subset (Finset.range_mono h)

theorem inDegreeUpTo_length (graph : List (List Int)) (k : Nat) :
    inDegreeUpTo graph graph.length k = inDegree graph (k : Int) := by
  rw [inDegreeUpTo_eq graph k _ (Nat.le_refl _), List.take_length]

theorem countLoop_step (graph : List (List Int)) (c : Nat) (i : Int)
    (adj indegree indegree1 : List Int) (h1 : rd graph i = some adj)
    (h2 : countNeighbors adj indegree = some indegree1) :
    countLoop graph (c + 1) i indegree = countLoop graph c (i + 1) indegree1 := by
  simp only [countLoop, h1, h2]

theorem countLoop_spec (graph : List (List Int))
    (hwf : ∀ adj, adj ∈ graph → ∀ v, v ∈ adj → 0 ≤ v ∧ v < (graph.length : Int))
    (hdeg : ∀ v, inDegree graph v < 2147483648) :
    ∀ (c i : Nat) (indegree : List Int), i + c = graph.length →
      indegree.length = graph.length →
      (∀ k, k < graph.length → indegree.getD k 0 = ((inDegreeUpTo graph i k : Nat) : Int)) →
      ∃ out, countLoop graph c (i : Int) indegree = some out ∧ out.length = graph.length ∧
        ∀ k, k < graph.length → out.getD k 0 = ((inDegree graph (k : Int) : Nat) : Int) := by
  intro c
  induction c with
  | zero =>
    intro i indegree hi hlen hf
    have e : i = graph.length := by omega
    subst e
    exact ⟨indegree, rfl, hlen, fun k hk => by rw [hf k hk, inDegreeUpTo_length]⟩
  | succ c ih =>
    intro i indegree hi hlen hf
    have hr : rd graph (i : Int) = some (graph.getD i []) :=
      rd_getD graph [] _ i rfl (by omega)
    have hmem : graph.getD i [] ∈ graph := by
      rw [List.getD_eq_getElem?_getD, List.getElem?_eq_getElem (by omega : i < graph.length)]
      exact List.getElem_mem _
    obtain ⟨out1, ho1, hlen1, hout1⟩ := countNeighbors_spec graph.length (graph.getD i [])
      indegree (fun k => inDegreeUpTo graph i k) hlen (hwf _ hmem) hf
      (fun k hk => by
        have h1 := inDegreeUpTo_mono graph k (i + 1) graph.length (by omega)
        rw [inDegreeUpTo_succ, inDegreeUpTo_length] at h1
        have := hdeg (k : Int)
        show inDegreeUpTo graph i k + (graph.getD i []).count (k : Int) < 2147483648
        omega)
    rw [countLoop_step graph c _ _ indegree _ hr ho1]
    have := ih (i + 1) out1 (by omega) hlen1 (fun k hk => by
      rw [hout1 k hk, inDegreeUpTo_succ])
    rw [Nat.cast_succ] at this
    exact this

theorem pending_nil (graph : List (List Int)) (k : Nat) :
    pending graph [] k = inDegree graph (k : Int) := by
  rw [← inDegreeUpTo_length]
  simp only [pending, inDegreeUpTo, List.not_mem_nil, if_false]

theorem pending_le (graph : List (List Int)) (done : List Int) (k : Nat) :
    pending graph done k ≤ inDegree graph (k : Int) := by
  rw [← inDegreeUpTo_length]
  apply Finset.sum_le_sum
  intro u _
  show (if (u : Int) ∈ done then 0 else (graph.getD u []).count (k : Int)) ≤ _
  split_ifs
  · exact Nat.zero_le _
  · exact Nat.le_refl _

theorem pending_snoc (graph : List (List Int)) (done : List Int) (u0 k : Nat)
    (hu : u0 < graph.length) (hnot : (u0 : Int) ∉ done) :
    pending graph done k =
      pending graph (done ++ [(u0 : Int)]) k + (graph.getD u0 []).count (k : Int) := by
  have hsingle : Finset.sum (Finset.range graph.length)
      (fun u => if u = u0 then (graph.getD u []).count (k : Int) else 0) =
      (graph.getD u0 []).count (k : Int) := by
    rw [Finset.sum_ite_eq' (Finset.range graph.length) u0, if_pos (Finset.mem_range.2 hu)]
  rw [← hsingle]
  unfold pending
  rw [← Finset.sum_add_distrib]
  apply Finset.sum_congr rfl
  intro u _
  by_cases huu : u = u0
  · subst huu
    rw [if_neg hnot, if_pos (List.mem_append_right _ (List.mem_singleton_self _)), if_pos rfl,
      Nat.zero_add]
  · have hiff : (u : Int) ∈ done ++ [(u0 : Int)] ↔ (u : Int) ∈ done := by
      rw [List.mem_append, List.mem_singleton]
      constructor
      · rintro (h | h)
        · exact h
        · exact absurd (by omega : u = u0) huu
      · exact Or.inl
    rw [if_neg huu, Nat.add_zero]
    by_cases hd : (u : Int) ∈ done
    · rw [if_pos hd, if_pos (hiff.2 hd)]
    · rw [if_neg hd, if_neg (fun h => hd (hiff.1 h))]

theorem hasEdge_lt (graph : List (List Int)) (u v : Nat) (h : HasEdge graph u v) :
    u < graph.length := by
  by_contra hlt
  have : graph.getD u [] = [] := by
    rw [List.getD_eq_getElem?_getD, List.getElem?_eq_none (by omega)]
    rfl
  unfold HasEdge at h
  rw [this] at h
  exact absurd h (List.not_mem_nil _)

theorem pending_eq_zero (graph : List (List Int)) (done : List Int) (k : Nat)
    (h : pending graph done k = 0) (u : Nat) (hedge : HasEdge graph u k) :
    (u : Int) ∈ done := by
  by_contra hnot
  have hu := hasEdge_lt graph u k hedge
  have := (Finset.sum_eq_zero_iff.1 h) u (Finset.mem_range.2 hu)
  rw [if_neg hnot] at this
  exact absurd hedge (List.count_eq_zero.1 this)

theorem pending_pos (graph : List (List Int)) (done : List Int) (k : Nat)
    (h : pending graph done k ≠ 0) :
    ∃ u, u < graph.length ∧ (u : Int) ∉ done ∧ HasEdge graph u k := by
  by_contra hno
  apply h
  apply Finset.sum_eq_zero
  intro u hu
  by_cases hd : (u : Int) ∈ done
  · rw [if_pos hd]
  · rw [if_neg hd]
    apply List.count_eq_zero.2
    intro hmem
    exact hno ⟨u, Finset.mem_range.1 hu, hd, hmem⟩

theorem seedLoop_step (indegree : List Int) (c : Nat) (i d : Int) (q : List Int)
    (h : rd indegree i = some d) :
    seedLoop indegree (c + 1) i q =
      seedLoop indegree c (i + 1) (if d = 0 then q ++ [i] else q) := by
  simp only [seedLoop, h]

theorem seedLoop_spec (indegree : List Int) (n : Nat) (hlen : indegree.length = n) :
    ∀ (c i : Nat) (q : List Int), i + c = n → q.Nodup →
      (∀ x, x ∈ q → ∃ k : Nat, k < i ∧ x = (k : Int) ∧ indegree.getD k 0 = 0) →
      (∀ k, k < i → indegree.getD k 0 = 0 → (k : Int) ∈ q) →
      ∃ out, seedLoop indegree c (i : Int) q = some out ∧ out.Nodup ∧
        (∀ x, x ∈ out → ∃ k : Nat, k < n ∧ x = (k : Int) ∧ indegree.getD k 0 = 0) ∧
        (∀ k, k < n → indegree.getD k 0 = 0 → (k : Int) ∈ out) := by
  intro c
  induction c with
  | zero =>
    intro i q hi hnd h1 h2
    have e : i = n := by omega
    subst e
    exact ⟨q, rfl, hnd, h1, h2⟩
  | succ c ih =>
    intro i q hi hnd h1 h2
    have hr : rd indegree (i : Int) = some (indegree.getD i 0) :=
      rd_getD indegree 0 _ i rfl (by omega)
    rw [seedLoop_step indegree c _ _ q hr]
    have hfresh : (i : Int) ∉ q := by
      intro hmem
      obtain ⟨k, hk, hx, _⟩ := h1 _ hmem
      omega
    by_cases hd : indegree.getD i 0 = 0
    · rw [if_pos hd]
      have := ih (i + 1) (q ++ [(i : Int)]) (by omega)
        (List.Nodup.append hnd (List.nodup_singleton _) (by
          intro x hx1 hx2
          rw [List.mem_singleton] at hx2
          subst hx2
          exact hfresh hx1))
        (fun x hx => by
          rw [List.mem_append, List.mem_singleton] at hx
          rcases hx with hx | hx
          · obtain ⟨k, hk, hxk, hz⟩ := h1 x hx
            exact ⟨k, by omega, hxk, hz⟩
          · exact ⟨i, by omega, hx, hd⟩)
        (fun k hk hz => by
          rw [List.mem_append, List.mem_singleton]
          by_cases hki : k = i
          · subst hki
            exact Or.inr rfl
          · exact Or.inl (h2 k (by omega) hz))
      rw [Nat.cast_succ] at this
      exact this
    · rw [if_neg hd]
      have := ih (i + 1) q (by omega) hnd
        (fun x hx => by
          obtain ⟨k, hk, hxk, hz⟩ := h1 x hx
          exact ⟨k, by omega, hxk, hz⟩)
        (fun k hk hz => by
          by_cases hki : k = i
          · subst hki
            exact absurd hz hd
          · exact h2 k (by omega) hz)
      rw [Nat.cast_succ] at this
      exact this

theorem relaxNeighbors_step (neighbor d : Int) (rest indegree indegree1 q : List Int)
    (h1 : rd indegree neighbor = some d)
    (h2 : wr indegree neighbor (intSub d 1) = some indegree1) :
    relaxNeighbors (neighbor :: rest) indegree q =
      relaxNeighbors rest indegree1 (if intSub d 1 = 0 then q ++ [neighbor] else q) := by
  simp only [relaxNeighbors, h1, h2]

theorem relaxNeighbors_spec (n : Nat) (done : List Int) (f : Nat → Nat) :
    ∀ (adj indegree q : List Int), indegree.length = n →
      (∀ v, v ∈ adj → 0 ≤ v ∧ v < (n : Int)) →
      (∀ k, k < n → indegree.getD k 0 = ((f k + adj.count (k : Int) : Nat) : Int)) →
      (∀ k, k < n → f k + adj.count (k : Int) < 2147483648) →
      (done ++ q).Nodup →
      (∀ x, x ∈ done ++ q → 0 ≤ x ∧ x < (n : Int)) →
      (∀ k, k < n → ((k : Int) ∈ done ++ q ↔ indegree.getD k 0 = 0)) →
      ∃ ind1 q2, relaxNeighbors adj indegree q = some (ind1, q2) ∧ ind1.length = n ∧
        (∀ k, k < n → ind1.getD k 0 = ((f k : Nat) : Int)) ∧
        (done ++ q2).Nodup ∧
        (∀ x, x ∈ done ++ q2 → 0 ≤ x ∧ x < (n : Int)) ∧
        (∀ k, k < n → ((k : Int) ∈ done ++ q2 ↔ ind1.getD k 0 = 0)) := by
  intro adj
  induction adj with
  | nil =>
    intro indegree q hlen _ hf _ hnd hrange hiff
    exact ⟨indegree, q, rfl, hlen, fun k hk => by rw [hf k hk]; rfl, hnd, hrange, hiff⟩
  | cons neighbor rest ih =>
    intro indegree q hlen hadj hf hbound hnd hrange hiff
    obtain ⟨k0, hk0, rfl⟩ := node_of_range n neighbor (hadj neighbor (List.mem_cons_self _ _))
    have hb0 := hbound k0 hk0
    have hf0 := hf k0 hk0
    rw [count_cons_nat, if_pos rfl] at hb0 hf0
    have hr : rd indegree (k0 : Int) =
        some ((f k0 + rest.count (k0 : Int) + 1 : Nat) : Int) := by
      rw [rd_getD indegree 0 _ k0 rfl (by omega), hf0]
      rfl
    have hsub : intSub ((f k0 + rest.count (k0 : Int) + 1 : Nat) : Int) 1 =
        ((f k0 + rest.count (k0 : Int) : Nat) : Int) := intSub_one _ (by omega)
    have hw : wr indegree (k0 : Int) (intSub ((f k0 + rest.count (k0 : Int) + 1 : Nat) : Int) 1)
        = some (indegree.set k0 ((f k0 + rest.count (k0 : Int) : Nat) : Int)) := by
      rw [wr_set indegree _ k0 _ rfl (by omega), hsub]
    rw [relaxNeighbors_step _ _ rest indegree _ q hr hw, hsub]
    have hfresh : (k0 : Int) ∉ done ++ q := by
      intro hmem
      have := (hiff k0 hk0).1 hmem
      rw [hf0] at this
      omega
    have hf1 : ∀ k, k < n → (indegree.set k0 ((f k0 + rest.count (k0 : Int) : Nat) : Int)).getD
        k 0 = ((f k + rest.count (k : Int) : Nat) : Int) := by
      intro k hk
      rw [getD_set_eq indegree k0 k _ 0 (by omega)]
      by_cases hkk : k = k0
      · subst hkk
        rw [if_pos rfl]
      · rw [if_neg hkk, hf k hk, count_cons_nat, if_neg hkk]
        rfl
    have hb1 : ∀ k, k < n → f k + rest.count (k : Int) < 2147483648 := by
      intro k hk
      have := hbound k hk
      rw [count_cons_nat] at this
      omega
    have hadj1 : ∀ v, v ∈ rest → 0 ≤ v ∧ v < (n : Int) :=
      fun v hv => hadj v (List.mem_cons_of_mem _ hv)
    have hother : ∀ k, k < n → k ≠ k0 →
        (indegree.set k0 ((f k0 + rest.count (k0 : Int) : Nat) : Int)).getD k 0 =
          indegree.getD k 0 := by
      intro k hk hkk
      rw [getD_set_eq indegree k0 k _ 0 (by omega), if_neg hkk]
    by_cases hz : ((f k0 + rest.count (k0 : Int) : Nat) : Int) = 0
    · rw [if_pos hz]
      refine ih _ (q ++ [(k0 : Int)]) (by rw [List.length_set]; exact hlen) hadj1 hf1 hb1 ?_ ?_ ?_
      · rw [← List.append_assoc]
        refine List.Nodup.append hnd (List.nodup_singleton _) ?_
        intro x hx1 hx2
        rw [List.mem_singleton] at hx2
        subst hx2
        exact hfresh hx1
      · intro x hx
        rw [← List.append_assoc, List.mem_append, List.mem_singleton] at hx
        rcases hx with hx | hx
        · exact hrange x hx
        · subst hx
          omega
      · intro k hk
        rw [← List.append_assoc, List.mem_append, List.mem_singleton]
        by_cases hkk : k = k0
        · subst hkk
          rw [hf1 k hk]
          exact ⟨fun _ => hz, fun _ => Or.inr rfl⟩
        · rw [hother k hk hkk, ← hiff k hk]
          constructor
          · rintro (h | h)
            · exact h
            · exact absurd (by omega : k = k0) hkk
          · exact Or.inl
    · rw [if_neg hz]
      refine ih _ q (by rw [List.length_set]; exact hlen) hadj1 hf1 hb1 hnd hrange ?_
      intro k hk
      by_cases hkk : k = k0
      · subst hkk
        rw [hf1 k hk]
        exact ⟨fun h => absurd h hfresh, fun h => absurd h hz⟩
      · rw [hother k hk hkk]
        exact hiff k hk

theorem nodup_range_subperm (n : Nat) (l : List Int) (hnd : l.Nodup)
    (hrange : ∀ x, x ∈ l → 0 ≤ x ∧ x < (n : Int)) :
    l.Subperm ((List.range n).map (fun (k : Nat) => (k : Int))) := by
  apply List.subperm_of_subset hnd
  intro x hx
  obtain ⟨k, hk, rfl⟩ := node_of_range n x (hrange x hx)
  exact List.mem_map.2 ⟨k, List.mem_range.2 hk, rfl⟩

theorem nodup_range_length (n : Nat) (l : List Int) (hnd : l.Nodup)
    (hrange : ∀ x, x ∈ l → 0 ≤ x ∧ x < (n : Int)) : l.length ≤ n := by
  have := (nodup_range_subperm n l hnd hrange).length_le
  rw [List.length_map, List.length_range] at this
  exact this

theorem nodup_range_full (n : Nat) (l : List Int) (hnd : l.Nodup)
    (hrange : ∀ x, x ∈ l → 0 ≤ x ∧ x < (n : Int)) (hlen : n ≤ l.length) (k : Nat)
    (hk : k < n) : (k : Int) ∈ l := by
  have hperm := (nodup_range_subperm n l hnd hrange).perm_of_length_le
    (by rw [List.length_map, List.length_range]; exact hlen)
  exact hperm.symm.subset (List.mem_map.2 ⟨k, List.mem_range.2 hk, rfl⟩)

theorem drainLoop_done (graph : List (List Int)) (fuel : Nat) (indegree result : List Int) :
    drainLoop graph (fuel + 1) indegree [] result = some result := by
  simp only [drainLoop]

theorem drainLoop_step (graph : List (List Int)) (fuel : Nat) (node : Int)
    (adj indegree indegree1 q1 q2 result : List Int) (h1 : rd graph node = some adj)
    (h2 : relaxNeighbors adj indegree q1 = some (indegree1, q2)) :
    drainLoop graph (fuel + 1) indegree (node :: q1) result =
      drainLoop graph fuel indegree1 q2 (result ++ [node]) := by
  simp only [drainLoop, h1, h2]

theorem drainLoop_spec (graph : List (List Int))
    (hwf : ∀ adj, adj ∈ graph → ∀ v, v ∈ adj → 0 ≤ v ∧ v < (graph.length : Int))
    (hdeg : ∀ v, inDegree graph v < 2147483648) :
    ∀ (fuel : Nat) (indegree q result : List Int),
      graph.length - result.length < fuel →
      indegree.length = graph.length →
      (∀ k, k < graph.length → indegree.getD k 0 = ((pending graph result k : Nat) : Int)) →
      (result ++ q).Nodup →
      (∀ x, x ∈ result ++ q → 0 ≤ x ∧ x < (graph.length : Int)) →
      (∀ k, k < graph.length → ((k : Int) ∈ result ++ q ↔ indegree.getD k 0 = 0)) →
      (∀ (j v : Nat), result[j]? = some (v : Int) → ∀ u, HasEdge graph u v →
        ∃ i : Nat, i < j ∧ result[i]? = some (u : Int)) →
      ∃ out, drainLoop graph fuel indegree q result = some out ∧ out.Nodup ∧
        (∀ x, x ∈ out → 0 ≤ x ∧ x < (graph.length : Int)) ∧
        (∀ k, k < graph.length → ((k : Int) ∈ out ↔ pending graph out k = 0)) ∧
        (∀ (j v : Nat), out[j]? = some (v : Int) → ∀ u, HasEdge graph u v →
          ∃ i : Nat, i < j ∧ out[i]? = some (u : Int)) := by
  intro fuel
  induction fuel with
  | zero => intro indegree q result hf; omega
  | succ fuel ih =>
    intro indegree q result hf hlen hpend hnd hrange hiff hord
    cases q with
    | nil =>
      rw [drainLoop_done]
      rw [List.append_nil] at hnd hrange
      refine ⟨result, rfl, hnd, hrange, fun k hk => ?_, hord⟩
      have := hiff k hk
      rw [List.append_nil, hpend k hk] at this
      rw [this]
      omega
    | cons node q1 =>
      have hnode : node ∈ result ++ node :: q1 :=
        List.mem_append_right _ (List.mem_cons_self _ _)
      obtain ⟨k0, hk0, rfl⟩ := node_of_range graph.length node (hrange node hnode)
      have hr : rd graph (k0 : Int) = some (graph.getD k0 []) :=
        rd_getD graph [] _ k0 rfl hk0
      have hmem : graph.getD k0 [] ∈ graph := by
        rw [List.getD_eq_getElem?_getD, List.getElem?_eq_getElem hk0]
        exact List.getElem_mem _
      have hnot : (k0 : Int) ∉ result := by
        intro hin
        exact (List.nodup_append.1 hnd).2.2 hin (List.mem_cons_self _ _) 
      have hassoc : (result ++ [(k0 : Int)]) ++ q1 = result ++ (k0 : Int) :: q1 := by
        rw [List.append_assoc]
        rfl
      have hsplit : ∀ k, pending graph result k =
          pending graph (result ++ [(k0 : Int)]) k + (graph.getD k0 []).count (k : Int) :=
        fun k => pending_snoc graph result k0 k hk0 hnot
      obtain ⟨ind1, q2, hrel, hlen1, hpend1, hnd1, hrange1, hiff1⟩ :=
        relaxNeighbors_spec graph.length (result ++ [(k0 : Int)])
          (fun k => pending graph (result ++ [(k0 : Int)]) k) (graph.getD k0 []) indegree q1
          hlen (hwf _ hmem)
          (fun k hk => by rw [hpend k hk, hsplit k])
          (fun k hk => by
            have h1 := pending_le graph result k
            have h2 := hdeg (k : Int)
            have h3 := hsplit k
            show pending graph (result ++ [(k0 : Int)]) k + (graph.getD k0 []).count (k : Int)
              < 2147483648
            omega)
          (by rw [hassoc]; exact hnd)
          (fun x hx => by rw [hassoc] at hx; exact hrange x hx)
          (fun k hk => by rw [hassoc]; exact hiff k hk)
      rw [drainLoop_step graph fuel _ _ indegree ind1 q1 q2 result hr hrel]
      have hshort : (result ++ (k0 : Int) :: q1).length ≤ graph.length :=
        nodup_range_length graph.length _ hnd hrange
      rw [List.length_append, List.length_cons] at hshort
      have hzero : pending graph result k0 = 0 := by
        have := (hiff k0 hk0).1 hnode
        rw [hpend k0 hk0] at this
        omega
      refine ih ind1 q2 (result ++ [(k0 : Int)])
        (by rw [List.length_append, List.length_singleton]; omega) hlen1 hpend1 hnd1 hrange1
        hiff1 ?_
      intro j v hj u hedge
      by_cases hjl : j < result.length
      · rw [List.getElem?_append_left hjl] at hj
        obtain ⟨i, hi, hget⟩ := hord j v hj u hedge
        exact ⟨i, hi, by rw [List.getElem?_append_left (by omega)]; exact hget⟩
      · have hjlen : j < (result ++ [(k0 : Int)]).length := by
          by_contra hge
          rw [List.getElem?_eq_none (by omega)] at hj
          exact absurd hj (by simp)
        rw [List.length_append, List.length_singleton] at hjlen
        have hje : j = result.length := by omega
        subst hje
        rw [List.getElem?_append_right (Nat.le_refl _), Nat.sub_self] at hj
        have hv : (k0 : Int) = (v : Int) := by
          simpa using hj
        have hvk : v = k0 := by omega
        subst hvk
        have huin := pending_eq_zero graph result v hzero u hedge
        obtain ⟨i, hi, hget⟩ := List.getElem_of_mem huin
        refine ⟨i, hi, ?_⟩
        rw [List.getElem?_append_left hi, List.getElem?_eq_getElem hi, hget]

theorem hasEdge_range (graph : List (List Int))
    (hwf : ∀ adj, adj ∈ graph → ∀ v, v ∈ adj → 0 ≤ v ∧ v < (graph.length : Int))
    (u v : Nat) (h : HasEdge graph u v) : v < graph.length := by
  have hu := hasEdge_lt graph u v h
  have hmem : graph.getD u [] ∈ graph := by
    rw [List.getD_eq_getElem?_getD, List.getElem?_eq_getElem hu]
    exact List.getElem_mem _
  have := hwf _ hmem _ h
  omega

theorem inDegree_le_edges (graph : List (List Int)) (v : Int) :
    inDegree graph v ≤ (graph.map List.length).sum := by
  unfold inDegree
  induction graph with
  | nil => exact Nat.le_refl _
  | cons adj rest ih =>
    rw [List.map_cons, List.map_cons, List.sum_cons, List.sum_cons]
    exact Nat.add_le_add (List.count_le_length _ _) ih

/-- Along a path, the start stands before the end in an ordered list. -/
theorem ordered_path (graph : List (List Int)) (out : List Int)
    (hord : ∀ (j v : Nat), out[j]? = some (v : Int) → ∀ u, HasEdge graph u v →
      ∃ i : Nat, i < j ∧ out[i]? = some (u : Int))
    (u v : Nat) (h : Relation.TransGen (HasEdge graph) u v) :
    ∀ j : Nat, out[j]? = some (v : Int) → ∃ i : Nat, i < j ∧ out[i]? = some (u : Int) := by
  induction h with
  | single h => exact fun j hj => hord j _ hj u h
  | tail _ h2 ih =>
    intro j hj
    obtain ⟨i1, hi1, hget1⟩ := hord j _ hj _ h2
    obtain ⟨i, hi, hget⟩ := ih i1 hget1
    exact ⟨i, by omega, hget⟩

theorem ordered_acyclic (graph : List (List Int)) (out : List Int)
    (hwf : ∀ adj, adj ∈ graph → ∀ v, v ∈ adj → 0 ≤ v ∧ v < (graph.length : Int))
    (hord : ∀ (j v : Nat), out[j]? = some (v : Int) → ∀ u, HasEdge graph u v →
      ∃ i : Nat, i < j ∧ out[i]? = some (u : Int))
    (hall : ∀ k, k < graph.length → (k : Int) ∈ out) : ¬ HasCycle graph := by
  rintro ⟨v, hcyc⟩
  have hv : v < graph.length := by
    cases hcyc with
    | single h => exact hasEdge_range graph hwf _ _ h
    | tail _ h => exact hasEdge_range graph hwf _ _ h
  have hdesc : ∀ j : Nat, out[j]? = some (v : Int) → False := by
    intro j
    induction j using Nat.strong_induction_on with
    | _ j ih =>
      intro hj
      obtain ⟨i, hi, hget⟩ := ordered_path graph out hord v v hcyc j hj
      exact ih i hi hget
  obtain ⟨j, hj, hget⟩ := List.getElem_of_mem (hall v hv)
  exact hdesc j (by rw [List.getElem?_eq_getElem hj, hget])

theorem acyclic_complete (graph : List (List Int)) (out : List Int)
    (hacyc : ¬ HasCycle graph)
    (hiff : ∀ k, k < graph.length → ((k : Int) ∈ out ↔ pending graph out k = 0)) :
    ∀ k, k < graph.length → (k : Int) ∈ out := by
  intro k hk
  by_contra hnot
  let r : Fin graph.length → Fin graph.length → Prop :=
    fun a b => Relation.TransGen (HasEdge graph) (a : Nat) (b : Nat)
  haveI : IsTrans (Fin graph.length) r := ⟨fun _ _ _ h1 h2 => Relation.TransGen.trans h1 h2⟩
  haveI : IsIrrefl (Fin graph.length) r := ⟨fun a h => hacyc ⟨(a : Nat), h⟩⟩
  have wf : WellFounded r := Finite.wellFounded_of_trans_of_irrefl r
  obtain ⟨m, hm, hmin⟩ := wf.has_min {a : Fin graph.length | ((a : Nat) : Int) ∉ out}
    ⟨⟨k, hk⟩, hnot⟩
  have hpos : pending graph out (m : Nat) ≠ 0 := fun h => hm ((hiff _ m.isLt).2 h)
  obtain ⟨u, hu, hunot, hedge⟩ := pending_pos graph out _ hpos
  exact hmin ⟨u, hu⟩ hunot (Relation.TransGen.single hedge)

theorem bigUnsorted_length : bigUnsorted.length = 2147483649 := by
  rw [bigUnsorted, List.length_cons, List.length_replicate]

theorem bigUnsorted_not_sorted : ¬ bigUnsorted.Sorted (· ≤ ·) := by
  intro h
  rw [bigUnsorted] at h
  have := List.rel_of_sorted_cons h 0 (List.mem_replicate.2 ⟨by decide, rfl⟩)
  omega

theorem lastIndex_big : lastIndex 2147483649 = -2147483648 := by decide

theorem intOfSize_big : intOfSize 2147483649 = -2147483647 := by decide

theorem lcs_eq (text1 text2 : List Char) (m n : Int) (hm : intOfSize text1.length = m)
    (hn : intOfSize text2.length = n) :
    longestCommonSubsequence text1 text2 = lcsFrom m n text1 text2 := by
  unfold longestCommonSubsequence
  rw [hm, hn]

/-- With `m = 0` the loops of `longestCommonSubsequence` do not run. -/
theorem lcsFrom_no_rows (n : Int) (text1 text2 : List Char) :
    lcsFrom 0 n text1 text2 =
      rd2 (List.replicate (intAdd 0 1).toNat (List.replicate (intAdd n 1).toNat 0)) 0 n := by
  rw [lcsFrom]
  rfl

/-- With `m = 1` and `n = 0` the inner loop of `longestCommonSubsequence` does not run. -/
theorem lcsFrom_no_cols (text1 text2 : List Char) :
    lcsFrom 1 0 text1 text2 =
      rd2 (List.replicate (intAdd 1 1).toNat (List.replicate (intAdd 0 1).toNat 0)) 1 0 := by
  rw [lcsFrom]
  rfl

theorem knapsack_eq (capacity : Int) (weights values : List Int) (n : Int)
    (hn : intOfSize weights.length = n) :
    knapsack capacity weights values = knapsackFrom n capacity weights values := by
  unfold knapsack
  rw [hn]

/-- With `n = 0` the loops of `knapsack` do not run. -/
theorem knapsackFrom_no_items (capacity : Int) (weights values : List Int) :
    knapsackFrom 0 capacity weights values =
      rd2 (List.replicate (intAdd 0 1).toNat (List.replicate (intAdd capacity 1).toNat 0))
        0 capacity := by
  rw [knapsackFrom]
  rfl

theorem hugeText_length : hugeText.length = 4294967296 := by
  rw [hugeText, List.length_replicate]

theorem singleton_sublist_hugeText : ['a'].Sublist hugeText := by
  rw [hugeText]
  exact List.singleton_sublist.2 (List.mem_replicate.2 ⟨by decide, rfl⟩)

theorem intOfSize_huge : intOfSize 4294967296 = 0 := by decide

theorem maxSubarraySum_eq (nums : List Int) (x : Int) (h : rd nums 0 = some x) :
    maxSubarraySum nums = maxSubarrayLoop nums nums.length 1 x x := by
  unfold maxSubarraySum
  rw [h]

theorem getElem?_zeros_append (n k : Nat) (tail : List Int) (hk : k < n) :
    (List.replicate n (0 : Int) ++ tail)[k]? = some 0 := by
  rw [List.getElem?_append_left (by rw [List.length_replicate]; exact hk),
    List.getElem?_replicate, if_pos hk]

theorem intAdd_zero_zero : intAdd 0 0 = 0 := by decide

theorem intAdd_last : intAdd ((2147483647 : Nat) : Int) 1 = -2147483648 := by decide

/-- On a vector of 2^31 + 1 elements that starts with 2^31 zeros, the loop of
`maxSubarraySum` keeps both sums at 0 until its counter reaches 2^31 - 1; the increment then
gives -2^31, which the comparison with the size reads as a huge unsigned number: the loop
ends without a look at the last element. -/
theorem maxSubarrayLoop_zeros (nums : List Int) (hlen : nums.length = 2147483649)
    (hz : ∀ k, k < 2147483648 → nums[k]? = some 0) :
    ∀ (c fuel i : Nat), i + c = 2147483647 → 1 ≤ i → c + 1 < fuel →
      maxSubarrayLoop nums fuel (i : Int) 0 0 = some 0 := by
  have hstep : ∀ (f i : Nat), i < 2147483648 →
      maxSubarrayLoop nums (f + 1) (i : Int) 0 0 =
        maxSubarrayLoop nums f (intAdd (i : Int) 1) 0 0 := by
    intro f i hi
    have hlt : (i : Int) % 18446744073709551616 < (nums.length : Int) := by omega
    have hx : rd nums (i : Int) = some 0 := by rw [rd_eq nums _ i rfl, hz i hi]
    rw [maxSubarrayLoop_succ nums f _ 0 0 0 hlt hx, intAdd_zero_zero]
    rfl
  intro c
  induction c with
  | zero =>
    intro fuel i hi _ hf
    obtain ⟨f, rfl⟩ : ∃ f, fuel = f + 2 := ⟨fuel - 2, by omega⟩
    have e : i = 2147483647 := by omega
    subst e
    have hge : ¬ (-2147483648 : Int) % 18446744073709551616 < (nums.length : Int) := by
      omega
    rw [hstep (f + 1) 2147483647 (by omega), intAdd_last,
      maxSubarrayLoop_exit nums f _ 0 0 hge]
  | succ c ih =>
    intro fuel i hi h1 hf
    obtain ⟨f, rfl⟩ : ∃ f, fuel = f + 1 := ⟨fuel - 1, by omega⟩
    rw [hstep f i (by omega), intAdd_one i (by omega)]
    exact ih f (i + 1) (by omega) (by omega) (by omega)

theorem bigNums_length : bigNums.length = 2147483649 := by
  rw [bigNums, List.length_append, List.length_replicate, List.length_singleton]

theorem sum_sublist_bounds {sel nums : List Int} (hs : sel.Sublist nums)
    (hnn : ∀ x ∈ nums, 0 ≤ x) : 0 ≤ sel.sum ∧ sel.sum ≤ nums.sum := by
  induction hs with
  | slnil => simp
  | cons x _ ih =>
    have h1 := ih (fun y hy => hnn y (List.mem_cons_of_mem _ hy))
    have h2 := hnn x (List.mem_cons_self _ _)
    rw [List.sum_cons]
    omega
  | cons₂ x _ ih =>
    have h1 := ih (fun y hy => hnn y (List.mem_cons_of_mem _ hy))
    have h2 := hnn x (List.mem_cons_self _ _)
    rw [List.sum_cons, List.sum_cons]
    omega

theorem subSum_zeros_five (n s l : Nat) :
    InInt (subSum (List.replicate n (0 : Int) ++ [5]) s l) := by
  have hsub : (((List.replicate n (0 : Int) ++ [5]).drop s).take l).Sublist
      (List.replicate n (0 : Int) ++ [5]) :=
    (List.take_sublist _ _).trans (List.drop_sublist _ _)
  have hnn : ∀ x ∈ List.replicate n (0 : Int) ++ [5], 0 ≤ x := by
    intro x hx
    rw [List.mem_append, List.mem_singleton] at hx
    rcases hx with hx | hx
    · rw [(List.mem_replicate.1 hx).2]
    · omega
  have htotal : (List.replicate n (0 : Int) ++ [5]).sum = 5 := by
    rw [List.sum_append, List.sum_replicate]
    simp
  obtain ⟨h1, h2⟩ := sum_sublist_bounds hsub hnn
  rw [htotal] at h2
  unfold subSum InInt
  omega

theorem topologicalSort_eq (fuel : Nat) (graph : List (List Int)) (n : Int)
    (indegree q result : List Int) (hn : intOfSize graph.length = n)
    (h1 : countLoop graph n.toNat 0 (List.replicate n.toNat 0) = some indegree)
    (h2 : seedLoop indegree n.toNat 0 [] = some q)
    (h3 : drainLoop graph fuel indegree q [] = some result) :
    topologicalSort fuel graph =
      if (result.length : Int) = n % 18446744073709551616 then some result else some [] := by
  unfold topologicalSort
  rw [hn, topologicalSortFrom, h1]
  show (match seedLoop indegree n.toNat 0 [] with
    | none => none
    | some q =>
        match drainLoop graph fuel indegree q [] with
        | none => none
        | some result =>
            if (result.length : Int) = n % 18446744073709551616 then some result
            else some []) = _
  rw [h2]
  show (match drainLoop graph fuel indegree q [] with
    | none => none
    | some result =>
        if (result.length : Int) = n % 18446744073709551616 then some result
        else some []) = _
  rw [h3]

theorem countLoop_zero (graph : List (List Int)) (i : Int) (indegree : List Int) :
    countLoop graph 0 i indegree = some indegree := rfl

theorem countNeighbors_nil (indegree : List Int) : countNeighbors [] indegree = some indegree :=
  rfl

theorem relaxNeighbors_nil (indegree q : List Int) :
    relaxNeighbors [] indegree q = some (indegree, q) := rfl

theorem rd_head {β : Type} (x : β) (rest : List β) : rd (x :: rest) 0 = some x := by
  rw [rd, if_pos (le_refl _)]
  show (x :: rest)[0]? = some x
  rw [List.getElem?_cons_zero]

theorem rd_second {β : Type} (x y : β) (rest : List β) : rd (x :: y :: rest) 1 = some y := by
  rw [rd, if_pos (by decide)]
  show (x :: y :: rest)[0 + 1]? = some y
  rw [List.getElem?_cons_succ, List.getElem?_cons_zero]

theorem wr_second {β : Type} (x y z : β) : wr [x, y] 1 z = some [x, z] := by
  have h : (0 : Int) ≤ 1 ∧ (1 : Int) < (([x, y] : List β).length : Int) := by
    constructor
    · decide
    · show (1 : Int) < ((2 : Nat) : Int)
      decide
  rw [wr, if_pos h]
  rfl

/-- Counting `k` edges into node 1 of a graph of two nodes adds `k` to its in-degree, in
32 bits. -/
theorem countNeighbors_ones (a : Int) :
    ∀ (k : Nat) (b : Int),
      countNeighbors (List.replicate k 1) [a, b] = some [a, wrap32 (wrap32 b + k)] ∨
        ¬ InInt b := by
  intro k
  induction k with
  | zero =>
    intro b
    by_cases hb : InInt b
    · left
      rw [List.replicate_zero, countNeighbors_nil, wrap32_eq b hb, Nat.cast_zero, add_zero,
        wrap32_eq b hb]
    · exact Or.inr hb
  | succ k ih =>
    intro b
    by_cases hb : InInt b
    · left
      have hr : rd [a, b] 1 = some b := rd_second a b []
      have hw : wr [a, b] 1 (intAdd b 1) = some [a, intAdd b 1] := wr_second a b _
      have hin : InInt (intAdd b 1) := by
        unfold intAdd wrap32 InInt
        omega
      rw [List.replicate_succ, countNeighbors_step 1 b _ [a, b] _ hr hw]
      rcases ih (intAdd b 1) with h | h
      · rw [h]
        have e : wrap32 (wrap32 (intAdd b 1) + (k : Int)) =
            wrap32 (wrap32 b + ((k + 1 : Nat) : Int)) := by
          unfold intAdd wrap32
          unfold InInt at hb
          omega
        rw [e]
      · exact absurd hin h
    · exact Or.inr hb

/-- Removing `k` edges into node 1 of a graph of two nodes, when its in-degree does not
pass through zero on the way: nothing is pushed. -/
theorem relaxNeighbors_ones (a : Int) (rest : List Int) :
    ∀ (k : Nat) (b : Int) (q : List Int), InInt b →
      (∀ j : Nat, 1 ≤ j → j ≤ k → wrap32 (b - j) ≠ 0) →
      relaxNeighbors (List.replicate k 1 ++ rest) [a, b] q =
        relaxNeighbors rest [a, wrap32 (b - k)] q := by
  intro k
  induction k with
  | zero =>
    intro b q hb _
    rw [List.replicate_zero, List.nil_append, Nat.cast_zero, sub_zero, wrap32_eq b hb]
  | succ k ih =>
    intro b q hb hno
    have hr : rd [a, b] 1 = some b := rd_second a b []
    have hw : wr [a, b] 1 (intSub b 1) = some [a, intSub b 1] := wr_second a b _
    have hin : InInt (intSub b 1) := by
      unfold intSub wrap32 InInt
      omega
    have hne : ¬ intSub b 1 = 0 := by
      have := hno 1 (le_refl _) (by omega)
      rw [Nat.cast_one] at this
      exact this
    rw [List.replicate_succ, List.cons_append,
      relaxNeighbors_step 1 b _ [a, b] _ q hr hw, if_neg hne,
      ih (intSub b 1) q hin (fun j h1 h2 => by
        have := hno (j + 1) (by omega) (by omega)
        have e : wrap32 (intSub b 1 - (j : Int)) = wrap32 (b - ((j + 1 : Nat) : Int)) := by
          unfold intSub wrap32
          omega
        rw [e]
        exact this)]
    have e : wrap32 (intSub b 1 - (k : Int)) = wrap32 (b - ((k + 1 : Nat) : Int)) := by
      unfold intSub wrap32
      omega
    rw [e]

theorem hugeGraph_getD (u : Nat) : hugeGraph.getD u [] = [] := by
  rw [hugeGraph, List.getD_eq_getElem?_getD, List.getElem?_replicate]
  split_ifs <;> rfl

theorem hugeGraph_acyclic : ¬ HasCycle hugeGraph := by
  have hno : ∀ u v, ¬ HasEdge hugeGraph u v := by
    intro u v h
    unfold HasEdge at h
    rw [hugeGraph_getD] at h
    exact absurd h (List.not_mem_nil _)
  rintro ⟨v, h⟩
  cases h with
  | single e => exact hno _ _ e
  | tail _ e => exact hno _ _ e

theorem multiGraph_edge (u v : Nat) (h : HasEdge multiGraph u v) : u = 0 ∧ v = 1 := by
  unfold HasEdge at h
  rcases u with _ | _ | u
  · have h2 : (v : Int) ∈ List.replicate 4294967296 (1 : Int) := h
    have := List.eq_of_mem_replicate h2
    exact ⟨rfl, by omega⟩
  · exact absurd (show (v : Int) ∈ ([] : List Int) from h) (List.not_mem_nil _)
  · exact absurd (show (v : Int) ∈ ([] : List Int) from h) (List.not_mem_nil _)

theorem multiGraph_acyclic : ¬ HasCycle multiGraph := by
  have hpath : ∀ u v, Relation.TransGen (HasEdge multiGraph) u v → u = 0 ∧ v = 1 := by
    intro u v h
    induction h with
    | single e => exact multiGraph_edge _ _ e
    | tail _ e ih => exact ⟨ih.1, (multiGraph_edge _ _ e).2⟩
  rintro ⟨v, h⟩
  have := hpath v v h
  omega

/-- At the node `2^30 - 1` of a heap of `2^30` elements the position `2 * i + 2` of the
right child is `2^31`, as an `int` `-2^31`; it passes the test `right < n` and the read of
`arr[right]` is out of range. -/
theorem heapify_overflow (fuel : Nat) (arr : List Int) :
    heapify fuel arr 1073741824 1073741823 = none := by
  cases fuel with
  | zero => rfl
  | succ f =>
    have h1 : wrap32 (2 * 1073741823 + 1) = 2147483647 := by decide
    have h2 : wrap32 (2 * 1073741823 + 2) = -2147483648 := by decide
    have p1 : pickLarger arr 1073741824 2147483647 1073741823 = some 1073741823 := by
      rw [pickLarger, if_neg (by decide)]
    have hrd : rd arr (-2147483648) = none := by
      rw [rd, if_neg (by decide)]
    have p2 : pickLarger arr 1073741824 (-2147483648) 1073741823 = none := by
      rw [pickLarger, if_pos (by decide), hrd]
    rw [heapify_succ, h1, h2, p1]
    simp only [p2]

theorem deepUnsorted_length : deepUnsorted.length = 1073741824 := by
  rw [deepUnsorted, List.length_append, List.length_replicate]
  rfl

/-- The first call of `heapify` in `heapSort` on `deepUnsorted`: the node `2^29 - 1` is
smaller than its left child, the last element, and `heapify` moves on to that child. -/
theorem heapify_deep (fuel : Nat) :
    heapify fuel deepUnsorted 1073741824 536870911 = none := by
  cases fuel with
  | zero => rfl
  | succ f =>
    have h1 : wrap32 (2 * 536870911 + 1) = 1073741823 := by decide
    have h2 : wrap32 (2 * 536870911 + 2) = 1073741824 := by decide
    have r1 : rd deepUnsorted 1073741823 = some 1 := by
      rw [rd_eq deepUnsorted 1073741823 1073741823 rfl, deepUnsorted,
        List.getElem?_append_right (by rw [List.length_replicate]),
        List.length_replicate]
      rfl
    have r2 : rd deepUnsorted 536870911 = some 0 := by
      rw [rd_eq deepUnsorted 536870911 536870911 rfl, deepUnsorted]
      exact getElem?_zeros_append 1073741823 536870911 [1] (by decide)
    have p1 : pickLarger deepUnsorted 1073741824 1073741823 536870911 =
        some 1073741823 := by
      rw [pickLarger, if_pos (by decide), r1, r2]
      rfl
    have p2 : pickLarger deepUnsorted 1073741824 1073741824 1073741823 =
        some 1073741823 := by
      rw [pickLarger, if_neg (by decide)]
    rw [heapify_succ, h1, h2, p1]
    simp only [p2]
    rw [if_pos (by decide)]
    cases swap deepUnsorted 536870911 1073741823 with
    | none => rfl
    | some arr1 => exact heapify_overflow f arr1

/-- On `deepUnsorted` the first iteration of the first loop of `heapSort` fails, whatever
the fuel. -/
theorem heapSort_deep (fuel : Nat) : heapSort fuel deepUnsorted = none := by
  have hn : intOfSize 1073741824 = 1073741824 := by decide
  have hc : (cdiv 1073741824 2).toNat = 536870911 + 1 := by decide
  have hi : cdiv 1073741824 2 - 1 = 536870911 := by decide
  rw [heapSort, deepUnsorted_length, hn, heapSortFrom, hc, hi, heapBuild, heapify_deep]
/-- With `n = 0` the inner loop of `longestCommonSubsequence` never runs and the table is
left as it is. -/
theorem lcsOuter_no_cols (text1 text2 : List Char) :
    ∀ (c : Nat) (i : Int) (dp : List (List Int)), lcsOuter text1 text2 0 c i dp = some dp := by
  intro c
  induction c with
  | zero =>
    intro i dp
    rfl
  | succ c ih =>
    intro i dp
    rw [lcsOuter]
    show lcsOuter text1 text2 0 c (i + 1) dp = some dp
    exact ih (i + 1) dp

/-- For a first string of 2^31 - 1 characters the table has `m + 1 = -2^31` rows, that is
none, and the read of the result is out of range. -/
theorem lcs_long : longestCommonSubsequence longText [] = none := by
  have hlen : longText.length = 2147483647 := by
    rw [longText, List.length_replicate]
  have hm : intOfSize longText.length = 2147483647 := by rw [hlen]; decide
  have hrows : (intAdd 2147483647 1).toNat = 0 := by decide
  rw [lcs_eq longText [] 2147483647 0 hm (by decide), lcsFrom, hrows, lcsOuter_no_cols]
  rfl

/-- With capacity 0 the inner loop of `knapsack` never runs and the table is left as it
is. -/
theorem knapsackOuter_no_capacity (weights values : List Int) :
    ∀ (c : Nat) (i : Int) (dp : List (List Int)),
      knapsackOuter weights values 0 c i dp = some dp := by
  intro c
  induction c with
  | zero =>
    intro i dp
    rfl
  | succ c ih =>
    intro i dp
    rw [knapsackOuter]
    show knapsackOuter weights values 0 c (i + 1) dp = some dp
    exact ih (i + 1) dp

/-- For 2^31 - 1 items the table has `n + 1 = -2^31` rows, that is none, and the read of
the result is out of range. -/
theorem knapsack_many : knapsack 0 manyWeights manyValues = none := by
  have hlen : manyWeights.length = 2147483647 := by
    rw [manyWeights, List.length_replicate]
  have hn : intOfSize manyWeights.length = 2147483647 := by rw [hlen]; decide
  have hrows : (intAdd 2147483647 1).toNat = 0 := by decide
  rw [knapsack_eq 0 manyWeights manyValues 2147483647 hn, knapsackFrom, hrows,
    knapsackOuter_no_capacity]
  rfl

theorem knapsack_many_opt : IsKnapsackOpt (List.zip manyWeights manyValues) 0 0 := by
  refine ⟨⟨[], List.nil_sublist _, le_refl _, rfl⟩, fun sel hs _ => ?_⟩
  have hzero : valueSum sel = 0 := by
    rw [valueSum]
    apply List.sum_eq_zero
    intro x hx
    obtain ⟨p, hp, rfl⟩ := List.mem_map.1 hx
    have h1 : (p.1, p.2) ∈ List.zip manyWeights manyValues := hs.subset hp
    have h2 : p.2 ∈ manyValues := (List.of_mem_zip h1).2
    rw [manyValues] at h2
    exact (List.mem_replicate.1 h2).2
  rw [hzero]

theorem lcs_long_opt : IsLCSLength longText [] 0 := by
  refine ⟨⟨[], List.nil_sublist _, List.Sublist.refl _, rfl⟩, fun zs _ h2 => ?_⟩
  rw [List.sublist_nil.1 h2]
  exact le_refl _
/-- One step down the left spine of a heap of `m <= 2^30` elements: the node `p` holds 0,
every other node holds 1, so `heapify` swaps `p` with its left child `q = 2 * p + 1` and
goes on there. -/
theorem heapify_spine_step (m p q : Nat) (hq : q = 2 * p + 1) (hlt : q < m)
    (hm : m ≤ 1073741824)
    (hnext : ∀ arr : List Int, arr.length = m → arr.getD q 0 = 0 →
      (∀ k, k ≠ q → k < m → arr.getD k 0 = 1) →
      ∀ fuel, heapify fuel arr (m : Int) (q : Int) = none)
    (arr : List Int) (hlen : arr.length = m) (h0 : arr.getD p 0 = 0)
    (h1 : ∀ k, k ≠ p → k < m → arr.getD k 0 = 1) (fuel : Nat) :
    heapify fuel arr (m : Int) (p : Int) = none := by
  cases fuel with
  | zero => rfl
  | succ f =>
    have e1 : wrap32 (2 * (p : Int) + 1) = (q : Int) := by
      rw [wrap32_eq _ ⟨by omega, by omega⟩]
      omega
    have e2 : wrap32 (2 * (p : Int) + 2) = ((q + 1 : Nat) : Int) := by
      rw [wrap32_eq _ ⟨by omega, by omega⟩]
      omega
    have hq1 : arr.getD q 0 = 1 := h1 q (by omega) hlt
    obtain ⟨l1, hp1, hl1⟩ := pickLarger_nat arr m q p (by omega) (by omega)
    have hl1q : l1 = q := by
      rcases hl1 with ⟨h, _, _⟩ | ⟨_, h⟩
      · exact h
      · have := h hlt
        omega
    subst hl1q
    obtain ⟨l2, hp2, hl2⟩ := pickLarger_nat arr m (l1 + 1) l1 (by omega) hlt
    have hl2q : l2 = l1 := by
      rcases hl2 with ⟨_, h, hgt⟩ | ⟨h, _⟩
      · have := h1 (l1 + 1) (by omega) h
        omega
      · exact h
    subst hl2q
    obtain ⟨out, hs, holen, hout⟩ := swap_pointwise arr (p : Int) (l2 : Int) p l2 rfl rfl
      (by omega) (by omega)
    have hne : (l2 : Int) ≠ (p : Int) := by omega
    rw [heapify_succ, e1, e2, hp1]
    simp only [hp2, if_pos hne, hs]
    refine hnext out (by omega) ?_ ?_ f
    · rw [hout l2, if_pos rfl, h0]
    · intro k hk hkm
      rw [hout k, if_neg hk]
      by_cases hkp : k = p
      · rw [if_pos hkp, hq1]
      · rw [if_neg hkp, h1 k hkp hkm]

/-- In a vector of `2^30` elements whose node `2^k - 1` holds 0 while every other node
holds 1, `heapify` at that node walks down the left spine to the node `2^30 - 1`, where
the position of the right child is no `int`. -/
theorem heapify_spine :
    ∀ (j k : Nat), j + k = 30 → ∀ arr : List Int, arr.length = 1073741824 →
      arr.getD (2 ^ k - 1) 0 = 0 →
      (∀ i, i ≠ 2 ^ k - 1 → i < 1073741824 → arr.getD i 0 = 1) →
      ∀ fuel, heapify fuel arr ((1073741824 : Nat) : Int) ((2 ^ k - 1 : Nat) : Int) = none := by
  intro j
  induction j with
  | zero =>
    intro k hk arr _ _ _ fuel
    have hk30 : k = 30 := by omega
    subst hk30
    exact heapify_overflow fuel arr
  | succ j ih =>
    intro k hk arr hlen h0 h1 fuel
    have hpos : 1 ≤ 2 ^ k := Nat.one_le_two_pow
    have hsucc : 2 ^ (k + 1) = 2 * 2 ^ k := by rw [Nat.pow_succ]; omega
    have hle : 2 ^ (k + 1) ≤ 2 ^ 30 := Nat.pow_le_pow_right (by decide) (by omega)
    have h30 : (2 : Nat) ^ 30 = 1073741824 := by decide
    exact heapify_spine_step 1073741824 (2 ^ k - 1) (2 ^ (k + 1) - 1) (by omega) (by omega)
      (le_refl _) (ih (k + 1) (by omega)) arr hlen h0 h1 fuel

/-- C26 fails as stated: for the vector of 2^31 + 1 elements `{1, 0, 0, ..., 0}` the
argument `arr.size() - 1` converts to the `int` -2^31, so the call
`quickSort(arr, 0, arr.size() - 1)` finds `low < high` false and returns at once, leaving
the vector as it was, which is not sorted. -/
theorem quickSort_big_fails :
    quickSort 1 bigUnsorted 0 (lastIndex bigUnsorted.length) = some bigUnsorted ∧
      ¬ bigUnsorted.Sorted (· ≤ ·) := by
  refine ⟨?_, bigUnsorted_not_sorted⟩
  rw [bigUnsorted_length, lastIndex_big, quickSort, if_neg (by decide)]

/-- C26, amended: for every vector of fewer than 2^31 elements (so that `arr.size() - 1`
converts to an `int` that is at least -1), the call `quickSort(arr, 0, arr.size() - 1)`
returns (a fuel above the size is enough for the recursion) and leaves a vector that is
sorted in non-decreasing order and a permutation of the original contents. -/
theorem quickSort_contract (arr : List Int) (fuel : Nat) (hn : arr.length < 2147483648)
    (hf : arr.length < fuel) :
    ∃ out, quickSort fuel arr 0 (lastIndex arr.length) = some out ∧
      out.Sorted (· ≤ ·) ∧ out.Perm arr := by
  obtain ⟨seg2, hq, hp, hs⟩ := quickSort_segment fuel [] arr [] 0 (lastIndex arr.length) rfl
    (by rw [lastIndex_eq _ hn]; simp) hf
  simp only [List.nil_append, List.append_nil] at hq
  exact ⟨seg2, hq, hs, hp⟩

/-- Witness for C26: the vector of the test, `{64, 34, 25, 12, 22, 11, 90}`. -/
theorem quickSort_contract_witness :
    ∃ out, quickSort 8 sampleUnsorted 0 (lastIndex sampleUnsorted.length) = some out ∧
      out.Sorted (· ≤ ·) ∧ out.Perm sampleUnsorted :=
  quickSort_contract sampleUnsorted 8 (by decide) (by decide)


/-- C27 fails as stated: for the vector of 2^31 + 1 elements `{1, 0, 0, ..., 0}` the
argument `arr.size() - 1` converts to the `int` -2^31, so the call
`mergeSort(arr, 0, arr.size() - 1)` finds `left < right` false and returns at once,
leaving the vector as it was, which is not sorted. -/
theorem mergeSort_big_fails :
    mergeSort 1 bigUnsorted 0 (lastIndex bigUnsorted.length) = some bigUnsorted ∧
      ¬ bigUnsorted.Sorted (· ≤ ·) := by
  refine ⟨?_, bigUnsorted_not_sorted⟩
  rw [bigUnsorted_length, lastIndex_big, mergeSort, if_neg (by decide)]

/-- C27, amended: for every vector of fewer than 2^31 elements (so that `arr.size() - 1`
converts to an `int` that is at least -1), the call `mergeSort(arr, 0, arr.size() - 1)`
returns (a fuel above the size plus one is enough for the recursion and for the loops of
`merge`) and leaves a vector that is sorted in non-decreasing order and a permutation of
the original contents. -/
theorem mergeSort_contract (arr : List Int) (fuel : Nat) (hn : arr.length < 2147483648)
    (hf : arr.length + 1 < fuel) :
    ∃ out, mergeSort fuel arr 0 (lastIndex arr.length) = some out ∧
      out.Sorted (· ≤ ·) ∧ out.Perm arr := by
  obtain ⟨seg2, hq, hp, hs⟩ := mergeSort_segment fuel [] arr [] 0 (lastIndex arr.length) rfl
    (by rw [lastIndex_eq _ hn]; simp) hf
  simp only [List.nil_append, List.append_nil] at hq
  exact ⟨seg2, hq, hs, hp⟩

/-- Witness for C27: the vector of the test, `{64, 34, 25, 12, 22, 11, 90}`. -/
theorem mergeSort_contract_witness :
    ∃ out, mergeSort 9 sampleUnsorted 0 (lastIndex sampleUnsorted.length) = some out ∧
      out.Sorted (· ≤ ·) ∧ out.Perm sampleUnsorted :=
  mergeSort_contract sampleUnsorted 9 (by decide) (by decide)


/-- C28 fails as stated.  For the vector of 2^31 + 1 elements `{1, 0, 0, ..., 0}` the
statement `int n = arr.size()` gives `n = -2^31 + 1`, so neither loop of `heapSort` runs
and the call leaves the vector as it was, which is not sorted.  For the vector of 2^30
elements `{0, ..., 0, 1}` the first call `heapify(arr, n, 2^29 - 1)` swaps the node with
its left child `2^30 - 1` and calls `heapify` there; the position `2 * i + 2` of the right
child is then `2^31`, as an `int` `-2^31`, and the read `arr[right]` is out of range: no
fuel makes the call return a vector. -/
theorem heapSort_big_fails :
    (heapSort 1 bigUnsorted = some bigUnsorted ∧ ¬ bigUnsorted.Sorted (· ≤ ·)) ∧
    (deepUnsorted.length = 1073741824 ∧ ∀ fuel, heapSort fuel deepUnsorted = none) := by
  refine ⟨⟨?_, bigUnsorted_not_sorted⟩, deepUnsorted_length, heapSort_deep⟩
  show heapSortFrom 1 (intOfSize bigUnsorted.length) bigUnsorted = some bigUnsorted
  rw [bigUnsorted_length, intOfSize_big]
  have h1 : (cdiv (-2147483647) 2).toNat = 0 := by decide
  have h2 : ((-2147483647 : Int) - 1).toNat = 0 := by decide
  rw [heapSortFrom, h1, h2]
  rfl

/-- C28, amended: for every vector of fewer than 2^30 elements (so that `int n = arr.size()`
and the child positions `2 * i + 1` and `2 * i + 2` computed by `heapify` fit an `int`),
the call `heapSort(arr)` returns (a fuel above the size is enough for the recursion of
`heapify`) and leaves a vector that is sorted in non-decreasing order and a permutation of
the original contents. -/
theorem heapSort_contract (arr : List Int) (fuel : Nat) (hn : arr.length < 1073741824)
    (hf : arr.length < fuel) :
    ∃ out, heapSort fuel arr = some out ∧ out.Sorted (· ≤ ·) ∧ out.Perm arr := by
  have hsize : intOfSize arr.length = (arr.length : Int) := intOfSize_eq _ (by omega)
  have hhalf : (cdiv (arr.length : Int) 2).toNat = arr.length / 2 := by
    rw [cdiv_two _ (by omega)]
    omega
  have hhalf2 : cdiv (arr.length : Int) 2 - 1 = ((arr.length / 2 : Nat) : Int) - 1 := by
    rw [cdiv_two _ (by omega)]
    omega
  obtain ⟨a1, hr1, hlen1, hperm1, hheap1, _⟩ := heapBuild_spec fuel arr.length hn hf
    (arr.length / 2) arr (((arr.length / 2 : Nat) : Int) - 1) rfl (le_refl _) (by omega)
    (fun k hk1 hk2 => ⟨fun h => by omega, fun h => by omega⟩)
  rcases Nat.eq_zero_or_pos arr.length with h0 | hpos
  · have hcnt0 : ((arr.length : Int) - 1).toNat = 0 := by omega
    have ha1 : a1 = [] := List.length_eq_zero.1 (by omega)
    refine ⟨a1, ?_, by rw [ha1]; exact List.sorted_nil, hperm1⟩
    show heapSortFrom fuel (intOfSize arr.length) arr = some a1
    rw [hsize, heapSortFrom, hhalf, hhalf2, hr1]
    show heapExtract fuel ((arr.length : Int) - 1).toNat ((arr.length : Int) - 1) a1 = some a1
    rw [hcnt0]
    rfl
  · obtain ⟨out, hr2, hlen2, hperm2, hsorted⟩ := heapExtract_spec fuel arr.length hn hf
      (arr.length - 1) a1 ((arr.length : Int) - 1) (by omega) hlen1 (by omega)
      (by
        intro k hk
        have := hheap1 k (by omega)
        have e : arr.length - 1 + 1 = arr.length := by omega
        rw [e]
        exact this)
      (fun k l _ hl1 hl2 => by omega)
      (fun l1 l2 hl1 _ hl2 => by omega)
    refine ⟨out, ?_, sorted_of_pointwise out (by rw [hlen2]; exact hsorted),
      hperm2.trans hperm1⟩
    have hcnt : ((arr.length : Int) - 1).toNat = arr.length - 1 := by omega
    show heapSortFrom fuel (intOfSize arr.length) arr = some out
    rw [hsize, heapSortFrom, hhalf, hhalf2, hr1]
    show heapExtract fuel ((arr.length : Int) - 1).toNat ((arr.length : Int) - 1) a1 = some out
    rw [hcnt]
    exact hr2

/-- Witness for C28: the vector of the test, `{64, 34, 25, 12, 22, 11, 90}`. -/
theorem heapSort_contract_witness :
    ∃ out, heapSort 8 sampleUnsorted = some out ∧ out.Sorted (· ≤ ·) ∧
      out.Perm sampleUnsorted :=
  heapSort_contract sampleUnsorted 8 (by decide) (by decide)


/-- C29 fails as stated: on the sorted vector of 2^31 + 1 zeros, `int right =
arr.size() - 1` is -2^31, the loop `while (left <= right)` does not run, and the search
for 0 returns -1 although 0 occurs in the vector. -/
theorem binarySearch_big_fails :
    binarySearch 1 bigSorted 0 = some (-1) ∧ bigSorted.Sorted (· ≤ ·) ∧
      (0 : Int) ∈ bigSorted := by
  refine ⟨?_, ?_, List.mem_replicate.2 ⟨by decide, rfl⟩⟩
  · have hlen : bigSorted.length = 2147483649 := by rw [bigSorted, List.length_replicate]
    rw [binarySearch, hlen, lastIndex_big, binarySearchLoop, if_neg (by decide)]
  · rw [bigSorted]
    exact List.pairwise_replicate.2 (Or.inr (le_refl _))

/-- C29, amended: on a vector of fewer than 2^31 elements (so that `arr.size() - 1`
converts to an `int` that is at least -1) sorted in non-decreasing order,
`binarySearch(arr, target)` returns (a fuel above the size is enough for its loop); the
result is -1 exactly when `target` does not occur in `arr`, and otherwise it is an index
`i` with `0 <= i < arr.size()` and `arr[i] == target`. -/
theorem binarySearch_contract (arr : List Int) (target : Int) (fuel : Nat)
    (hs : arr.Sorted (· ≤ ·)) (hn : arr.length < 2147483648) (hf : arr.length < fuel) :
    ∃ r, binarySearch fuel arr target = some r ∧ (r = -1 ↔ target ∉ arr) ∧
      (r ≠ -1 → 0 ≤ r ∧ r < arr.length ∧ rd arr r = some target) := by
  obtain ⟨r, hr, hcase⟩ := binarySearchLoop_spec arr target hs fuel 0
    (lastIndex arr.length) (le_refl _) (by rw [lastIndex_eq _ hn]; omega)
    (by rw [lastIndex_eq _ hn]; omega)
    (fun k hk _ => ⟨by omega, by rw [lastIndex_eq _ hn]; omega⟩)
  refine ⟨r, hr, ?_, ?_⟩
  · rcases hcase with ⟨h1, h2⟩ | ⟨h1, h2, h3⟩
    · exact ⟨fun _ => h2, fun _ => h1⟩
    · constructor
      · intro hneg
        omega
      · intro hnot
        exfalso
        apply hnot
        rw [rd_eq arr r r.toNat (by omega)] at h3
        obtain ⟨hlt, hget⟩ := List.getElem?_eq_some.1 h3
        rw [← hget]
        exact List.getElem_mem hlt
  · intro hne
    rcases hcase with ⟨h1, _⟩ | h
    · exact absurd h1 hne
    · exact h

/-- Witness for C29: the search for 7 in the vector of the test,
`{1, 3, 5, 7, 9, 11, 13, 15, 17, 19}`. -/
theorem binarySearch_contract_witness :
    ∃ r, binarySearch 11 sampleSorted 7 = some r ∧ (r = -1 ↔ (7 : Int) ∉ sampleSorted) ∧
      (r ≠ -1 → 0 ≤ r ∧ r < sampleSorted.length ∧ rd sampleSorted r = some 7) :=
  binarySearch_contract sampleSorted 7 11 (by decide) (by decide) (by decide)

/-- C30 fails as stated, for a long text and for a long pattern.  With a text of 2^31
characters `a` and the pattern "a", `int n = text.length()` is -2^31, the loop does not
run and the result is -1 although the pattern occurs at index 0.  With the text "a" and a
pattern of 2^32 + 1 characters `a`, `int m = pattern.length()` is 1, the first comparison
matches and the result is 0 although the pattern, longer than the text, does not occur. -/
theorem KMP_big_fails :
    (KMP 1 bigText ['a'] = some (-1) ∧ OccursAt bigText ['a'] 0) ∧
      (KMP 1 ['a'] bigPattern = some 0 ∧ ¬ OccursAt ['a'] bigPattern 0) := by
  have hone : computeLPS 1 ['a'] = some [0] := by decide
  have htext : bigText.length = 2147483648 := by rw [bigText, List.length_replicate]
  have hpat : bigPattern.length = 4294967297 := by rw [bigPattern, List.length_replicate]
  have hn1 : intOfSize ['a'].length = 1 := by decide
  refine ⟨⟨?_, ?_⟩, ?_, ?_⟩
  · have hn : intOfSize bigText.length = -2147483648 := by rw [htext]; decide
    have hx : ¬ (0 : Int) < -2147483648 := by decide
    rw [KMP_eq 1 bigText ['a'] [0] (-2147483648) 1 hone hn hn1]
    exact KMPLoop_exit bigText ['a'] [0] (-2147483648) 1 0 0 0 hx
  · show (bigText.drop 0).take 1 = ['a']
    rw [List.drop_zero, bigText]
    exact (List.take_replicate 'a' 1 2147483648).trans rfl
  · have hm : intOfSize bigPattern.length = 1 := by rw [hpat]; decide
    have hdone : ¬ (1 : Int) < 1 := by decide
    have hlps : computeLPS 1 bigPattern = some [0] := by
      rw [computeLPS_eq 1 bigPattern 1 hm]
      exact computeLPSLoop_done bigPattern 1 0 0 1 _ hdone
    have hc : charAt bigPattern 0 = some 'a' := by
      have hne : ¬ (0 : Int) = (bigPattern.length : Int) := by rw [hpat]; decide
      rw [charAt, if_neg hne, rd, if_pos (le_refl _), bigPattern]
      show (List.replicate 4294967297 'a')[0]? = some 'a'
      rw [List.getElem?_replicate, if_pos (by decide)]
    have ht : charAt ['a'] 0 = some 'a' := by decide
    have hlt : (0 : Int) < 1 := by decide
    have hfull : (0 : Int) + 1 = 1 := by decide
    rw [KMP_eq 1 ['a'] bigPattern [0] 1 1 hlps hn1 hm,
      KMPLoop_found ['a'] bigPattern [0] 1 1 0 0 0 'a' 'a' hlt ht hc rfl hfull]
    rfl
  · intro h
    rw [OccursAt] at h
    have hl := congrArg List.length h
    rw [List.length_take, hpat] at hl
    simp only [List.drop_zero, List.length_singleton] at hl
    omega

/-- C30, amended: for every text and every non-empty pattern of fewer than 2^31
characters each (so that both lengths fit an `int`), `StringAlgorithms::KMP(text, pattern)`
terminates (any fuel above twice the two lengths is enough) and returns the smallest index
at which the pattern occurs in the text, or `-1` when the pattern does not occur in the
text. -/
theorem KMP_contract (text pattern : List Char) (fuel : Nat) (hne : pattern ≠ [])
    (htext : text.length < 2147483648) (hpat : pattern.length < 2147483648)
    (hfuel : 2 * (text.length + pattern.length) < fuel) :
    ∃ r, KMP fuel text pattern = some r ∧
      ((r = -1 ∧ ∀ s, ¬ OccursAt text pattern s) ∨
        (0 ≤ r ∧ OccursAt text pattern r.toNat ∧
          ∀ s, s < r.toNat → ¬ OccursAt text pattern s)) := by
  have hm0 : 0 < pattern.length := List.length_pos.2 hne
  obtain ⟨lps, hlps, hlen, htab⟩ := computeLPS_spec pattern fuel hm0 hpat (by omega)
  obtain ⟨r, hr, hfirst⟩ := KMPLoop_spec text pattern lps text.length pattern.length rfl rfl
    hm0 hlen htab fuel 0 0 (by omega) hm0 (Nat.le_refl _) (Nat.zero_le _)
    (fun _ ht => absurd ht (Nat.not_lt_zero _)) (fun _ hs => absurd hs (Nat.not_lt_zero _))
  refine ⟨r, ?_, hfirst⟩
  rw [KMP_eq fuel text pattern lps _ _ hlps (intOfSize_eq _ htext) (intOfSize_eq _ hpat)]
  exact hr

/-- Witness for C30: the text and the pattern of the string matching test. -/
theorem KMP_contract_witness :
    ∃ r, KMP 100 sampleText samplePattern = some r ∧
      ((r = -1 ∧ ∀ s, ¬ OccursAt sampleText samplePattern s) ∨
        (0 ≤ r ∧ OccursAt sampleText samplePattern r.toNat ∧
          ∀ s, s < r.toNat → ¬ OccursAt sampleText samplePattern s)) :=
  KMP_contract sampleText samplePattern 100 (by decide) (by decide) (by decide) (by decide)

/-- C31 fails as stated, for a graph with too many nodes and for a node with too many
incoming edges.  For the graph of 2^32 + 1 nodes without edges `int n = graph.size()` is 1
and the result is the list of node 0 alone, which is no order of all the nodes.  For the
graph of two nodes with 2^32 edges from node 0 to node 1 the in-degree of node 1, counted
in 32 bits, is 0: node 1 is put into the queue at the start and again when its in-degree
comes back to 0, the result has three entries and the function returns the empty list
although the graph has no cycle. -/
theorem topologicalSort_big_fails :
    (topologicalSort 2 hugeGraph = some [0] ∧ ¬ HasCycle hugeGraph ∧
        ¬ IsTopologicalOrder hugeGraph [0]) ∧
      (topologicalSort 4 multiGraph = some [] ∧ ¬ HasCycle multiGraph ∧
        ¬ IsTopologicalOrder multiGraph []) := by
  refine ⟨⟨?_, hugeGraph_acyclic, ?_⟩, ?_, multiGraph_acyclic, ?_⟩
  · have hlen : hugeGraph.length = 4294967297 := by rw [hugeGraph, List.length_replicate]
    have hn : intOfSize hugeGraph.length = 1 := by rw [hlen]; decide
    have hrow : rd hugeGraph 0 = some [] := by
      rw [rd_eq hugeGraph 0 0 rfl, hugeGraph, List.getElem?_replicate, if_pos (by decide)]
    have h1 : countLoop hugeGraph (1 : Int).toNat 0 (List.replicate (1 : Int).toNat 0) =
        some [0] := by
      show countLoop hugeGraph (0 + 1) 0 [0] = some [0]
      rw [countLoop_step hugeGraph 0 0 [] [0] [0] hrow (countNeighbors_nil _), countLoop_zero]
    have h2 : seedLoop [0] (1 : Int).toNat 0 [] = some [0] := by decide
    have h3 : drainLoop hugeGraph 2 [0] [0] [] = some [0] := by
      show drainLoop hugeGraph (1 + 1) [0] [0] [] = some [0]
      rw [drainLoop_step hugeGraph 1 0 [] [0] [0] [] [] [] hrow (relaxNeighbors_nil _ _)]
      exact drainLoop_done hugeGraph 0 [0] ([] ++ [0])
    rw [topologicalSort_eq 2 hugeGraph 1 [0] [0] [0] hn h1 h2 h3]
    decide
  · intro h
    have h1 := h.1
    rw [hugeGraph, List.length_replicate] at h1
    exact absurd h1 (by decide)
  · have hn : intOfSize multiGraph.length = 2 := by decide
    have hrow0 : rd multiGraph 0 = some (List.replicate 4294967296 1) := rd_head _ _
    have hrow1 : rd multiGraph 1 = some [] := rd_second _ _ _
    have hsplit : List.replicate 4294967296 (1 : Int) = List.replicate 4294967295 1 ++ [1] :=
      List.replicate_succ' 4294967295 1
    have hcount : countNeighbors (List.replicate 4294967296 1) [0, 0] = some [0, 0] := by
      rcases countNeighbors_ones 0 4294967296 0 with h | h
      · rw [h]
        decide
      · exact absurd ⟨by decide, by decide⟩ h
    have h1 : countLoop multiGraph (2 : Int).toNat 0 (List.replicate (2 : Int).toNat 0) =
        some [0, 0] := by
      show countLoop multiGraph (1 + 1) 0 [0, 0] = some [0, 0]
      rw [countLoop_step multiGraph 1 0 _ [0, 0] [0, 0] hrow0 hcount]
      show countLoop multiGraph (0 + 1) 1 [0, 0] = some [0, 0]
      rw [countLoop_step multiGraph 0 1 [] [0, 0] [0, 0] hrow1 (countNeighbors_nil _),
        countLoop_zero]
    have h2 : seedLoop [0, 0] (2 : Int).toNat 0 [] = some [0, 1] := by decide
    have hrelax : relaxNeighbors (List.replicate 4294967296 1) [0, 0] [1] =
        some ([0, 0], [1, 1]) := by
      have hno : ∀ j : Nat, 1 ≤ j → j ≤ 4294967295 → wrap32 ((0 : Int) - j) ≠ 0 := by
        intro j h1 h2
        unfold wrap32
        omega
      have hlast : wrap32 ((0 : Int) - ((4294967295 : Nat) : Int)) = 1 := by decide
      rw [hsplit, relaxNeighbors_ones 0 [1] 4294967295 0 [1] ⟨by decide, by decide⟩ hno, hlast]
      decide
    have h3 : drainLoop multiGraph 4 [0, 0] [0, 1] [] = some [0, 1, 1] := by
      show drainLoop multiGraph (3 + 1) [0, 0] [0, 1] [] = some [0, 1, 1]
      rw [drainLoop_step multiGraph 3 0 _ [0, 0] [0, 0] [1] [1, 1] [] hrow0 hrelax]
      show drainLoop multiGraph (2 + 1) [0, 0] [1, 1] [0] = some [0, 1, 1]
      rw [drainLoop_step multiGraph 2 1 [] [0, 0] [0, 0] [1] [1] [0] hrow1
        (relaxNeighbors_nil _ _)]
      show drainLoop multiGraph (1 + 1) [0, 0] [1] [0, 1] = some [0, 1, 1]
      rw [drainLoop_step multiGraph 1 1 [] [0, 0] [0, 0] [] [] [0, 1] hrow1
        (relaxNeighbors_nil _ _)]
      exact drainLoop_done multiGraph 0 [0, 0] [0, 1, 1]
    rw [topologicalSort_eq 4 multiGraph 2 [0, 0] [0, 1] [0, 1, 1] hn h1 h2 h3]
    decide
  · intro h
    exact absurd h.1 (by decide)

/-- C31, amended: for every directed graph given as an adjacency list over the nodes
`0..n-1` in which the number of nodes and the number of edges into each node are below
2^31 (so that `n` and every in-degree fit an `int`), `GraphAlgorithms::topologicalSort`
terminates (any fuel above `n` is enough) and returns the empty list if the graph has a
cycle, and otherwise a list that contains every node exactly once and in which `u` stands
before `v` for every edge from `u` to `v`. -/
theorem topologicalSort_contract (graph : List (List Int)) (fuel : Nat)
    (hsize : graph.length < 2147483648)
    (hwf : ∀ adj, adj ∈ graph → ∀ v, v ∈ adj → 0 ≤ v ∧ v < (graph.length : Int))
    (hdeg : ∀ v, inDegree graph v < 2147483648) (hfuel : graph.length < fuel) :
    ∃ result, topologicalSort fuel graph = some result ∧
      (HasCycle graph → result = []) ∧
      (¬ HasCycle graph →
        result.length = graph.length ∧
          (∀ k, k < graph.length → result.count (k : Int) = 1) ∧
          ∀ u v, HasEdge graph u v →
            ∃ i j : Nat, i < j ∧ result[i]? = some (u : Int) ∧
              result[j]? = some (v : Int)) := by
  obtain ⟨indegree, hcount, hlen, hind⟩ := countLoop_spec graph hwf hdeg graph.length 0
    (List.replicate graph.length 0) (by omega) (List.length_replicate _ _)
    (fun k hk => by
      rw [getD_replicate, if_pos hk]
      rfl)
  obtain ⟨q, hseed, hqnd, hq1, hq2⟩ := seedLoop_spec indegree graph.length hlen graph.length 0
    [] (by omega) List.nodup_nil (fun x hx => absurd hx (List.not_mem_nil _))
    (fun k hk => absurd hk (Nat.not_lt_zero _))
  obtain ⟨out, hdrain, hnd, hrange, hiff, hord⟩ := drainLoop_spec graph hwf hdeg fuel indegree
    q [] (by rw [List.length_nil]; omega) hlen
    (fun k hk => by rw [hind k hk, pending_nil])
    (by rw [List.nil_append]; exact hqnd)
    (fun x hx => by
      rw [List.nil_append] at hx
      obtain ⟨k, hk, hxk, _⟩ := hq1 x hx
      omega)
    (fun k hk => by
      rw [List.nil_append]
      constructor
      · intro hmem
        obtain ⟨k2, _, hxk, hz⟩ := hq1 _ hmem
        have e : k = k2 := by omega
        rw [e]
        exact hz
      · exact hq2 k hk)
    (fun j v hj => by
      rw [List.getElem?_nil] at hj
      exact absurd hj (by simp))
  have hrun : topologicalSort fuel graph =
      if (out.length : Int) = (graph.length : Int) % 18446744073709551616 then some out
      else some [] := by
    show topologicalSortFrom fuel (intOfSize graph.length) graph = _
    rw [intOfSize_eq _ hsize, topologicalSortFrom, Int.toNat_ofNat]
    rw [Nat.cast_zero] at hcount hseed
    rw [hcount]
    show (match seedLoop indegree graph.length 0 [] with
      | none => none
      | some q =>
          match drainLoop graph fuel indegree q [] with
          | none => none
          | some result =>
              if (result.length : Int) = (graph.length : Int) % 18446744073709551616 then
                some result
              else some []) = _
    rw [hseed]
    show (match drainLoop graph fuel indegree q [] with
      | none => none
      | some result =>
          if (result.length : Int) = (graph.length : Int) % 18446744073709551616 then
            some result
          else some []) = _
    rw [hdrain]
  by_cases hfull : out.length = graph.length
  · have hcond : (out.length : Int) = (graph.length : Int) % 18446744073709551616 := by omega
    rw [if_pos hcond] at hrun
    have hall : ∀ k, k < graph.length → (k : Int) ∈ out :=
      nodup_range_full graph.length out hnd hrange (by omega)
    refine ⟨out, hrun, fun hcyc => absurd hcyc (ordered_acyclic graph out hwf hord hall),
      fun _ => ⟨hfull, fun k hk => List.count_eq_one_of_mem hnd (hall k hk), ?_⟩⟩
    intro u v hedge
    have hv := hasEdge_range graph hwf u v hedge
    obtain ⟨j, hj, hget⟩ := List.getElem_of_mem (hall v hv)
    have hgetj : out[j]? = some (v : Int) := by rw [List.getElem?_eq_getElem hj, hget]
    obtain ⟨i, hi, hgeti⟩ := hord j v hgetj u hedge
    exact ⟨i, j, hi, hgeti, hgetj⟩
  · have hcond : ¬ (out.length : Int) = (graph.length : Int) % 18446744073709551616 := by
      omega
    rw [if_neg hcond] at hrun
    refine ⟨[], hrun, fun _ => rfl, fun hacyc => ?_⟩
    exfalso
    apply hfull
    have hall := acyclic_complete graph out hacyc hiff
    have h1 := nodup_range_length graph.length out hnd hrange
    have h2 : ((List.range graph.length).map (fun (k : Nat) => (k : Int))).Subperm out := by
      apply List.subperm_of_subset
      · exact (List.nodup_range _).map (fun a b h => by omega)
      · intro x hx
        obtain ⟨k, hk, rfl⟩ := List.mem_map.1 hx
        exact hall k (List.mem_range.1 hk)
    have h3 := h2.length_le
    rw [List.length_map, List.length_range] at h3
    omega

/-- Witness for C31: the graph of the topological sort test. -/
theorem topologicalSort_contract_witness :
    ∃ result, topologicalSort 7 sampleGraph = some result ∧
      (HasCycle sampleGraph → result = []) ∧
      (¬ HasCycle sampleGraph →
        result.length = sampleGraph.length ∧
          (∀ k, k < sampleGraph.length → result.count (k : Int) = 1) ∧
          ∀ u v, HasEdge sampleGraph u v →
            ∃ i j : Nat, i < j ∧ result[i]? = some (u : Int) ∧ result[j]? = some (v : Int)) :=
  topologicalSort_contract sampleGraph 7 (by decide) (by decide)
    (fun v => Nat.lt_of_le_of_lt (inDegree_le_edges sampleGraph v) (by decide)) (by decide)


/-- C32 fails as stated: for the vector of 2^31 zeros followed by a five, every sum of a
contiguous subarray is 0 or 5 and so a value of type `int`, but the `int` counter of the
loop leaves the range of `int` after 2^31 - 1 steps, the loop ends before the last element
and `maxSubarraySum` returns 0, although the subarray that holds the last element alone
has the sum 5. -/
theorem maxSubarraySum_big_fails :
    maxSubarraySum bigNums = some 0 ∧ subSum bigNums 2147483648 1 = 5 ∧
      ∀ s l, InInt (subSum bigNums s l) := by
  have hz : ∀ k, k < 2147483648 → bigNums[k]? = some 0 := fun k hk =>
    getElem?_zeros_append 2147483648 k [5] hk
  have h0 : rd bigNums 0 = some 0 := by rw [rd_eq bigNums 0 0 rfl, hz 0 (by decide)]
  refine ⟨?_, ?_, fun s l => subSum_zeros_five 2147483648 s l⟩
  · rw [maxSubarraySum_eq bigNums 0 h0, bigNums_length]
    exact maxSubarrayLoop_zeros bigNums bigNums_length hz 2147483646 2147483649 1 (by decide)
      (by decide) (by decide)
  · rw [subSum_one bigNums 2147483648 (by rw [bigNums_length]; decide), bigNums,
      List.getD_eq_getElem?_getD,
      List.getElem?_append_right (by rw [List.length_replicate]),
      List.length_replicate, Nat.sub_self]
    rfl

/-- C32, amended: for a non-empty vector `nums` of fewer than 2^31 elements (so that the
`int` counter of the loop reaches every index) in which the sum of every non-empty
contiguous subarray is a value of type `int`, `maxSubarraySum(nums)` returns the sum of
some non-empty contiguous subarray, and no non-empty contiguous subarray of `nums` has a
larger sum. -/
theorem maxSubarraySum_contract (nums : List Int) (hne : nums ≠ [])
    (hn : nums.length < 2147483648)
    (hr : ∀ s l, 1 ≤ l → s + l ≤ nums.length → InInt (subSum nums s l)) :
    ∃ r, maxSubarraySum nums = some r ∧
      (∃ s l, 1 ≤ l ∧ s + l ≤ nums.length ∧ r = subSum nums s l) ∧
      (∀ s l, 1 ≤ l → s + l ≤ nums.length → subSum nums s l ≤ r) := by
  have hpos : 0 < nums.length := List.length_pos.2 hne
  have hx : rd nums 0 = some (nums.getD 0 0) := rd_nat nums 0 0 rfl hpos
  have hone : subSum nums 0 1 = nums.getD 0 0 := subSum_one nums 0 hpos
  have hloop := maxSubarrayLoop_spec nums hn hr (nums.length - 1) nums.length 1
    (nums.getD 0 0) (nums.getD 0 0) (by omega) (le_refl _) (by omega)
    ⟨0, by omega, hone.symm⟩
    (fun s hs => by
      have e : s = 0 := by omega
      subst e
      rw [hone])
    ⟨0, 1, le_refl _, le_refl _, hone.symm⟩
    (fun s l hl hsl => by
      have e : s = 0 := by omega
      have e2 : l = 1 := by omega
      subst e e2
      rw [hone])
  obtain ⟨r, hrun, h1, h2⟩ := hloop
  refine ⟨r, ?_, h1, h2⟩
  rw [maxSubarraySum, hx]
  exact hrun

/-- Witness for C32: the vector of the test, `{-2, 1, -3, 4, -1, 2, 1, -5, 4}`. -/
theorem maxSubarraySum_contract_witness :
    ∃ r, maxSubarraySum sampleNums = some r ∧
      (∃ s l, 1 ≤ l ∧ s + l ≤ sampleNums.length ∧ r = subSum sampleNums s l) ∧
      (∀ s l, 1 ≤ l → s + l ≤ sampleNums.length → subSum sampleNums s l ≤ r) :=
  maxSubarraySum_contract sampleNums (by decide) (by decide) (by
    intro s l hl hsl
    have hs : s < 10 := by
      have : sampleNums.length = 9 := rfl
      omega
    have hl2 : l < 10 := by
      have : sampleNums.length = 9 := rfl
      omega
    unfold InInt
    interval_cases s <;> interval_cases l <;> simp [subSum, sampleNums])


/-- C33 fails as stated, in four ways.  A zero weight: with capacity 0 and one item of
weight 0 and value 5 the function returns 0, although the selection of that item has total
weight 0 and value 5 (the loop over `w` starts at 1, so column 0 of the table is never
computed).  A total value that is no `int`: for the items of weight 1 and values 2^31 - 1
and 1 and capacity 2, the sum of the two values is reduced to 32 bits and the result is
2^31 - 1, although both items fit.  Too many items: for 2^32 items of weight 1, the first
of value 1, `int n = weights.size()` is 0 and the result is 0 although the first item
fits capacity 1.  Capacity 2^31 - 1: `capacity + 1` is not an `int`, the rows of the table
cannot be made and no value is returned, although with no items the answer is 0.  The
same happens to `n + 1` for 2^31 - 1 items (of weight 1 and value 0, with capacity 0). -/
theorem knapsack_fails :
    (knapsack 0 [0] [5] = some 0 ∧ ¬ IsKnapsackOpt (List.zip [0] [5]) 0 0) ∧
    (knapsack 2 [1, 1] [2147483647, 1] = some 2147483647 ∧
      ¬ IsKnapsackOpt (List.zip [1, 1] [2147483647, 1]) 2 2147483647) ∧
    (knapsack 1 hugeWeights hugeValues = some 0 ∧
      ¬ IsKnapsackOpt (List.zip hugeWeights hugeValues) 1 0) ∧
    (knapsack 2147483647 [] [] = none ∧ IsKnapsackOpt (List.zip [] []) 2147483647 0) ∧
    (knapsack 0 manyWeights manyValues = none ∧
      IsKnapsackOpt (List.zip manyWeights manyValues) 0 0) := by
  refine ⟨⟨by decide, fun h => ?_⟩, ⟨by decide, fun h => ?_⟩, ⟨?_, fun h => ?_⟩,
    ⟨by decide, ?_⟩, knapsack_many, knapsack_many_opt⟩
  · have := h.2 [(0, 5)] (List.Sublist.refl _) (by simp [weightSum])
    simp [valueSum] at this
  · have := h.2 [(1, 2147483647), (1, 1)] (List.Sublist.refl _) (by simp [weightSum])
    simp [valueSum] at this
  · have hlen : hugeWeights.length = 4294967296 := by
      rw [hugeWeights, List.length_cons, List.length_replicate]
    have hn : intOfSize hugeWeights.length = 0 := by rw [hlen]; decide
    rw [knapsack_eq 1 hugeWeights hugeValues 0 hn, knapsackFrom_no_items]
    decide
  · have hsub : [((1 : Int), (1 : Int))].Sublist (List.zip hugeWeights hugeValues) := by
      rw [hugeWeights, hugeValues, List.zip_cons_cons]
      exact List.singleton_sublist.2 (List.mem_cons_self _ _)
    have := h.2 [(1, 1)] hsub (by simp [weightSum])
    simp [valueSum] at this
  · refine ⟨⟨[], List.Sublist.refl _, by simp [weightSum], by simp [valueSum]⟩, ?_⟩
    intro sel hs _
    have : sel = [] := List.sublist_nil.1 hs
    rw [this]
    simp [valueSum]

/-- C33, amended: for a capacity with `0 <= capacity < 2^31 - 1`, equal-length lists of
fewer than 2^31 - 1 item weights, all `>= 1`, and values such that the total value of
every selection of items fits an `int`, `knapsack(capacity, weights, values)` returns the
largest total value of a selection of the items, each used at most once, whose total
weight is at most `capacity`. -/
theorem knapsack_contract (capacity : Int) (weights values : List Int)
    (hcap : 0 ≤ capacity) (hcap2 : capacity < 2147483647)
    (hlen : weights.length = values.length) (hn : weights.length < 2147483647)
    (hpos : ∀ wt ∈ weights, 1 ≤ wt)
    (hr : ∀ sel, sel.Sublist (weights.zip values) → InInt (valueSum sel)) :
    ∃ r, knapsack capacity weights values = some r ∧
      IsKnapsackOpt (weights.zip values) capacity r := by
  obtain ⟨cap, hcapeq⟩ : ∃ cap : Nat, capacity = (cap : Int) := ⟨capacity.toNat, by omega⟩
  subst hcapeq
  have hsize : intOfSize weights.length = (weights.length : Int) := intOfSize_eq _ (by omega)
  obtain ⟨dp, hrun, hs, hfill⟩ := knapsackOuter_spec weights values cap hlen hpos hr
    weights.length 1
    (List.replicate (weights.length + 1) (List.replicate (cap + 1) 0))
    (le_refl _) (by omega) (shape_replicate _ _)
    (fun a2 b2 _ _ h3 => by
      rw [get2_replicate]
      rcases h3 with h | h
      · have : a2 = 0 := by omega
        rw [this, ksTab_zero_row]
      · rw [h, ksTab_zero_col weights values hpos])
  have hfinal : rd2 dp (weights.length : Int) (cap : Int) =
      some (get2 dp weights.length cap) :=
    rd2_get2 dp _ _ hs _ _ weights.length cap rfl rfl (by omega) (by omega)
  refine ⟨ksTab weights values weights.length cap, ?_, ?_⟩
  · show knapsackFrom (intOfSize weights.length) (cap : Int) weights values = _
    rw [hsize, knapsackFrom]
    simp only [intAdd_one weights.length (by omega), intAdd_one cap (by omega),
      Int.toNat_ofNat]
    rw [Nat.cast_one] at hrun
    rw [hrun]
    show rd2 dp (weights.length : Int) (cap : Int) = _
    rw [hfinal, hfill _ _ (le_refl _) (le_refl _)]
  · apply isKnapsackOpt_reverse
    have htake : (weights.zip values).take weights.length = weights.zip values := by
      apply List.take_of_length_le
      rw [List.length_zip]
      omega
    unfold ksTab
    rw [htake]
    apply best_spec _ _ _ (by omega)
    intro p hp
    have h1 : p ∈ weights.zip values := List.mem_reverse.1 hp
    have := hpos p.1 (List.of_mem_zip (a := p.1) (b := p.2) h1).1
    omega

/-- Witness for C33: the items of the test, weights `{1, 3, 4, 5}` and values
`{1, 4, 5, 7}`, with capacity 7. -/
theorem knapsack_contract_witness :
    ∃ r, knapsack 7 sampleWeights sampleValues = some r ∧
      IsKnapsackOpt (sampleWeights.zip sampleValues) 7 r :=
  knapsack_contract 7 sampleWeights sampleValues (by decide) (by decide) rfl (by decide)
    (by decide)
    (valueSum_inInt _ (by decide) (by decide))

/-- C34 fails as stated, for a long first and for a long second string.  For a string of
2^32 characters `a` and the string "a", the length of the long string converts to the
`int` 0, no loop runs over it and the result is 0, although "a" is a common subsequence
of length 1.  For a string of 2^31 - 1 characters and the empty string, the table size
`m + 1` (or `n + 1`) is not an `int`; reduced to 32 bits it is negative, the table (or its
rows) cannot be made and no value is returned, although the answer is 0. -/
theorem longestCommonSubsequence_big_fails :
    ((longestCommonSubsequence hugeText ['a'] = some 0 ∧ ¬ IsLCSLength hugeText ['a'] 0) ∧
      (longestCommonSubsequence ['a'] hugeText = some 0 ∧
        ¬ IsLCSLength ['a'] hugeText 0)) ∧
    ((longestCommonSubsequence longText [] = none ∧ IsLCSLength longText [] 0) ∧
      (longestCommonSubsequence [] longText = none ∧ IsLCSLength [] longText 0)) := by
  have hm : intOfSize hugeText.length = 0 := by rw [hugeText_length]; decide
  have h1 : intOfSize ['a'].length = 1 := by decide
  have hself : ['a'].Sublist ['a'] := List.Sublist.refl _
  have hlen : longText.length = 2147483647 := by
    rw [longText, List.length_replicate]
  have hlong : intOfSize longText.length = 2147483647 := by rw [hlen]; decide
  refine ⟨⟨⟨?_, ?_⟩, ?_, ?_⟩, ⟨lcs_long, lcs_long_opt⟩, ?_, ?_⟩
  · rw [lcs_eq hugeText ['a'] 0 1 hm h1, lcsFrom_no_rows]
    decide
  · intro h
    have := h.2 ['a'] singleton_sublist_hugeText hself
    simp at this
  · rw [lcs_eq ['a'] hugeText 1 0 h1 hm, lcsFrom_no_cols]
    decide
  · intro h
    have := h.2 ['a'] hself singleton_sublist_hugeText
    simp at this
  · rw [lcs_eq [] longText 0 2147483647 (by decide) hlong, lcsFrom_no_rows]
    decide
  · refine ⟨⟨[], List.Sublist.refl _, List.nil_sublist _, rfl⟩, fun zs h2 _ => ?_⟩
    rw [List.sublist_nil.1 h2]
    exact le_refl _

/-- C34, amended: for two strings of fewer than 2^31 - 1 characters each (so that the
lengths and the table sizes `m + 1` and `n + 1` fit an `int`),
`longestCommonSubsequence(text1, text2)` returns the length of a longest string that is a
subsequence of both: some common subsequence has that length and none is longer. -/
theorem longestCommonSubsequence_contract (text1 text2 : List Char)
    (h1 : text1.length < 2147483647) (h2 : text2.length < 2147483647) :
    ∃ k : Nat, longestCommonSubsequence text1 text2 = some (k : Int) ∧
      IsLCSLength text1 text2 k := by
  have hsize1 : intOfSize text1.length = (text1.length : Int) := intOfSize_eq _ (by omega)
  have hsize2 : intOfSize text2.length = (text2.length : Int) := intOfSize_eq _ (by omega)
  obtain ⟨dp, hr, hs, hfill⟩ := lcsOuter_spec text1 text2 h1 text1.length 1
    (List.replicate (text1.length + 1) (List.replicate (text2.length + 1) 0))
    (le_refl _) (by omega) (shape_replicate _ _)
    (fun a2 b2 _ _ h3 => by
      rw [get2_replicate]
      rcases h3 with h | h
      · have : a2 = 0 := by omega
        rw [this, lcsTab_zero_left]
        rfl
      · rw [h, lcsTab_zero_right]
        rfl)
  have hfinal : rd2 dp (text1.length : Int) (text2.length : Int) =
      some (get2 dp text1.length text2.length) :=
    rd2_get2 dp _ _ hs _ _ text1.length text2.length rfl rfl (by omega) (by omega)
  refine ⟨lcsTab text1 text2 text1.length text2.length, ?_, ?_⟩
  · show lcsFrom (intOfSize text1.length) (intOfSize text2.length) text1 text2 = _
    rw [hsize1, hsize2, lcsFrom]
    simp only [intAdd_one text1.length (by omega), intAdd_one text2.length (by omega),
      Int.toNat_ofNat]
    rw [Nat.cast_one] at hr
    rw [hr]
    show rd2 dp (text1.length : Int) (text2.length : Int) = _
    rw [hfinal, hfill _ _ (le_refl _) (le_refl _)]
  · apply isLCSLength_reverse
    have := lcsLen_spec _ text1.reverse text2.reverse rfl
    unfold lcsTab
    rw [List.take_length, List.take_length]
    exact this

/-- Witness for C34: the strings of the test, "abcde" and "ace". -/
theorem longestCommonSubsequence_contract_witness :
    ∃ k : Nat, longestCommonSubsequence sampleText1 sampleText2 = some (k : Int) ∧
      IsLCSLength sampleText1 sampleText2 k :=
  longestCommonSubsequence_contract sampleText1 sampleText2 (by decide) (by decide)

end AlgorithmsDemo

namespace AdvancedStructures

open AlgorithmsDemo

/-! ## Properties of the max-heap -/

theorem heapifyDownLoop_succ (fuel : Nat) (heap : List Int) (size index : Int) :
    heapifyDownLoop (fuel + 1) heap size index =
      match pickLarger heap size (wrap32 (2 * index + 1)) index with
      | none => none
      | some largest1 =>
          match pickLarger heap size (wrap32 (2 * index + 2)) largest1 with
          | none => none
          | some largest =>
              if largest = index then some heap
              else
                match swap heap index largest with
                | none => none
                | some heap1 => heapifyDownLoop fuel heap1 size largest := rfl

/-- The loop of `heapifyDown` computes what the recursive `heapify` of the sorting
algorithms computes. -/
theorem heapifyDownLoop_eq_heapify :
    ∀ (fuel : Nat) (heap : List Int) (size index : Int),
      heapifyDownLoop fuel heap size index = heapify fuel heap size index := by
  intro fuel
  induction fuel with
  | zero =>
    intro heap size index
    rfl
  | succ fuel ih =>
    intro heap size index
    rw [heapifyDownLoop_succ, heapify_succ]
    cases pickLarger heap size (wrap32 (2 * index + 1)) index with
    | none => rfl
    | some l1 =>
      show (match pickLarger heap size (wrap32 (2 * index + 2)) l1 with
        | none => none
        | some largest =>
            if largest = index then some heap
            else
              match swap heap index largest with
              | none => none
              | some heap1 => heapifyDownLoop fuel heap1 size largest) =
        (match pickLarger heap size (wrap32 (2 * index + 2)) l1 with
        | none => none
        | some largest =>
            if largest ≠ index then
              match swap heap index largest with
              | none => none
              | some arr1 => heapify fuel arr1 size largest
            else some heap)
      cases pickLarger heap size (wrap32 (2 * index + 2)) l1 with
      | none => rfl
      | some l2 =>
        show (if l2 = index then some heap
            else
              match swap heap index l2 with
              | none => none
              | some heap1 => heapifyDownLoop fuel heap1 size l2) =
          (if l2 ≠ index then
              match swap heap index l2 with
              | none => none
              | some arr1 => heapify fuel arr1 size l2
            else some heap)
        by_cases hl : l2 = index
        · rw [if_pos hl, if_neg (not_not.2 hl)]
        · rw [if_neg hl, if_pos hl]
          cases swap heap index l2 with
          | none => rfl
          | some h1 => exact ih h1 size l2

theorem isHeap_parent (heap : List Int) (h : IsHeap heap) (k : Nat) (hk1 : 1 ≤ k)
    (hk : k < heap.length) : heap.getD k 0 ≤ heap.getD ((k - 1) / 2) 0 := by
  have hh := h ((k - 1) / 2) (by omega)
  rcases Nat.even_or_odd k with he | ho
  · obtain ⟨t, ht⟩ := he
    have hk2 : 2 * ((k - 1) / 2) + 2 = k := by omega
    have := hh.2 (by omega)
    rw [hk2] at this
    exact this
  · obtain ⟨t, ht⟩ := ho
    have hk2 : 2 * ((k - 1) / 2) + 1 = k := by omega
    have := hh.1 (by omega)
    rw [hk2] at this
    exact this

theorem isHeap_of_parent (heap : List Int)
    (h : ∀ k, 1 ≤ k → k < heap.length → heap.getD k 0 ≤ heap.getD ((k - 1) / 2) 0) :
    IsHeap heap := by
  intro k _
  constructor
  · intro hc
    have := h (2 * k + 1) (by omega) hc
    have e : (2 * k + 1 - 1) / 2 = k := by omega
    rw [e] at this
    exact this
  · intro hc
    have := h (2 * k + 2) (by omega) hc
    have e : (2 * k + 2 - 1) / 2 = k := by omega
    rw [e] at this
    exact this

theorem heapifyUp_break (fuel : Nat) (heap : List Int) (index p x : Int) (hi : index > 0)
    (h1 : rd heap (cdiv (index - 1) 2) = some p) (h2 : rd heap index = some x)
    (hge : p ≥ x) : heapifyUp (fuel + 1) heap index = some heap := by
  simp only [heapifyUp, if_pos hi, h1, h2, if_pos hge]

theorem heapifyUp_swap (fuel : Nat) (heap heap1 : List Int) (index p x : Int)
    (hi : index > 0) (h1 : rd heap (cdiv (index - 1) 2) = some p)
    (h2 : rd heap index = some x) (hge : ¬ p ≥ x)
    (h3 : swap heap (cdiv (index - 1) 2) index = some heap1) :
    heapifyUp (fuel + 1) heap index = heapifyUp fuel heap1 (cdiv (index - 1) 2) := by
  simp only [heapifyUp, if_pos hi, h1, h2, if_neg hge, h3]

theorem heapifyUp_done (fuel : Nat) (heap : List Int) (index : Int) (hi : ¬ index > 0) :
    heapifyUp (fuel + 1) heap index = some heap := by
  simp only [heapifyUp, if_neg hi]

theorem heapifyUp_spec :
    ∀ (fuel : Nat) (heap : List Int) (idx : Nat), idx < heap.length → idx < fuel →
      (∀ k, 1 ≤ k → k < heap.length → k ≠ idx →
        heap.getD k 0 ≤ heap.getD ((k - 1) / 2) 0) →
      (∀ k, 1 ≤ k → k < heap.length → (k - 1) / 2 = idx → 1 ≤ idx →
        heap.getD k 0 ≤ heap.getD ((idx - 1) / 2) 0) →
      ∃ out, heapifyUp fuel heap idx = some out ∧ out.length = heap.length ∧
        out.Perm heap ∧
        ∀ k, 1 ≤ k → k < heap.length → out.getD k 0 ≤ out.getD ((k - 1) / 2) 0 := by
  intro fuel
  induction fuel with
  | zero =>
    intro heap idx _ hf
    omega
  | succ fuel ih =>
    intro heap idx hidx hf hA hB
    rcases Nat.eq_zero_or_pos idx with h0 | hpos
    · subst h0
      refine ⟨heap, heapifyUp_done fuel heap _ (by simp), rfl, List.Perm.refl _, ?_⟩
      intro k hk1 hk
      exact hA k hk1 hk (by omega)
    · have hi : ((idx : Nat) : Int) > 0 := by omega
      have hpar : cdiv ((idx : Int) - 1) 2 = (((idx - 1) / 2 : Nat) : Int) := by
        rw [cdiv_two _ (by omega)]
        omega
      have hplt : (idx - 1) / 2 < idx := by omega
      have h1 : rd heap (cdiv ((idx : Int) - 1) 2) = some (heap.getD ((idx - 1) / 2) 0) :=
        rd_nat heap _ _ hpar (by omega)
      have h2 : rd heap (idx : Int) = some (heap.getD idx 0) := rd_nat heap _ idx rfl hidx
      by_cases hge : heap.getD ((idx - 1) / 2) 0 ≥ heap.getD idx 0
      · refine ⟨heap, heapifyUp_break fuel heap _ _ _ hi h1 h2 hge, rfl, List.Perm.refl _, ?_⟩
        intro k hk1 hk
        by_cases hki : k = idx
        · rw [hki]
          exact hge
        · exact hA k hk1 hk hki
      · obtain ⟨a1, hsw, hlen1, hpt⟩ := swap_pointwise heap (cdiv ((idx : Int) - 1) 2)
          (idx : Int) ((idx - 1) / 2) idx hpar rfl (by omega) hidx
        have hperm1 := swap_perm heap _ _ ((idx - 1) / 2) idx hpar rfl (by omega) hidx a1 hsw
        have h_i : a1.getD idx 0 = heap.getD ((idx - 1) / 2) 0 := by
          rw [hpt idx, if_pos rfl]
        have h_p : a1.getD ((idx - 1) / 2) 0 = heap.getD idx 0 := by
          rw [hpt ((idx - 1) / 2), if_neg (by omega), if_pos rfl]
        have h_o : ∀ k, k ≠ idx → k ≠ (idx - 1) / 2 → a1.getD k 0 = heap.getD k 0 := by
          intro k hk1 hk2
          rw [hpt k, if_neg hk1, if_neg hk2]
        rw [heapifyUp_swap fuel heap a1 _ _ _ hi h1 h2 hge hsw, hpar]
        obtain ⟨out, hr, hlen, hperm, hheap⟩ := ih a1 ((idx - 1) / 2) (by omega) (by omega)
          (by
            intro k hk1 hk hkp
            rw [hlen1] at hk
            by_cases hki : k = idx
            · rw [hki, h_i, h_p]
              omega
            · rw [h_o k hki hkp]
              by_cases hpk : (k - 1) / 2 = idx
              · rw [hpk, h_i]
                exact hB k hk1 hk hpk (by omega)
              · by_cases hpk2 : (k - 1) / 2 = (idx - 1) / 2
                · rw [hpk2, h_p]
                  have := hA k hk1 hk hki
                  rw [hpk2] at this
                  omega
                · rw [h_o _ hpk hpk2]
                  exact hA k hk1 hk hki)
          (by
            intro k hk1 hk hkp hp1
            rw [hlen1] at hk
            have hgp : ((idx - 1) / 2 - 1) / 2 < (idx - 1) / 2 := by omega
            rw [h_o (((idx - 1) / 2 - 1) / 2) (by omega) (by omega)]
            have hpar2 := hA ((idx - 1) / 2) hp1 (by omega) (by omega)
            by_cases hki : k = idx
            · rw [hki, h_i]
              exact hpar2
            · rw [h_o k hki (by omega)]
              have := hA k hk1 hk hki
              rw [hkp] at this
              omega)
        refine ⟨out, hr, by omega, hperm.trans hperm1, ?_⟩
        intro k hk1 hk
        exact hheap k hk1 (by omega)

theorem getD_append_left (heap : List Int) (v : Int) (k : Nat) (hk : k < heap.length) :
    (heap ++ [v]).getD k 0 = heap.getD k 0 := by
  rw [List.getD_eq_getElem?_getD, List.getD_eq_getElem?_getD, List.getElem?_append_left hk]

theorem isHeap_nil : IsHeap [] := by
  intro k hk
  simp at hk

theorem heap_push_spec (fuel : Nat) (heap : List Int) (v : Int) (hh : IsHeap heap)
    (hn : heap.length + 1 < 2147483648) (hf : heap.length < fuel) :
    ∃ out, push fuel heap v = .ok out ∧ IsHeap out ∧ out.Perm (heap ++ [v]) ∧
      out.length = heap.length + 1 := by
  have hlen : (heap ++ [v]).length = heap.length + 1 := by simp
  have hlast : lastIndex (heap ++ [v]).length = (heap.length : Int) := by
    rw [hlen, lastIndex_eq _ hn]
    push_cast
    omega
  obtain ⟨out, hr, hl, hperm, hheap⟩ := heapifyUp_spec fuel (heap ++ [v]) heap.length
    (by omega) hf
    (by
      intro k hk1 hk hne
      rw [hlen] at hk
      rw [getD_append_left heap v k (by omega), getD_append_left heap v _ (by omega)]
      exact isHeap_parent heap hh k hk1 (by omega))
    (by
      intro k hk1 hk hpar _
      rw [hlen] at hk
      omega)
  refine ⟨out, ?_, ?_, hperm, by omega⟩
  · rw [push, hlast, hr]
    rfl
  · apply isHeap_of_parent
    intro k hk1 hk
    exact hheap k hk1 (by omega)

theorem heap_push_all_spec (fuel : Nat) (vals : List Int) :
    ∀ (heap : List Int), IsHeap heap → heap.length + vals.length < 2147483648 →
      heap.length + vals.length ≤ fuel →
      ∃ out, push_all fuel heap vals = .ok out ∧ IsHeap out ∧ out.Perm (heap ++ vals) := by
  induction vals with
  | nil =>
    intro heap hh _ _
    exact ⟨heap, rfl, hh, by simp⟩
  | cons v rest ih =>
    intro heap hh hn hf
    simp only [List.length_cons] at hn hf
    obtain ⟨h1, hp, hh1, hperm1, hl1⟩ := heap_push_spec fuel heap v hh (by omega) (by omega)
    obtain ⟨out, hr, hh2, hperm2⟩ := ih h1 hh1 (by omega) (by omega)
    refine ⟨out, by simp only [push_all, hp, hr], hh2, ?_⟩
    refine hperm2.trans ?_
    have := List.Perm.append_right rest hperm1
    simpa using this

theorem heap_max (heap : List Int) (hh : IsHeap heap) :
    ∀ y ∈ heap, y ≤ heap.getD 0 0 := by
  intro y hy
  obtain ⟨k, hk, hky⟩ := List.getElem_of_mem hy
  have := heap_root_max heap heap.length hh k hk
  rw [List.getD_eq_getElem _ _ hk, hky] at this
  exact this

theorem heap_pop_spec (fuel : Nat) (heap : List Int) (hh : IsHeap heap) (hne : heap ≠ [])
    (hn : heap.length < 1073741824) (hf : heap.length < fuel) :
    ∃ x rest, pop fuel heap = .ok (x, rest) ∧ x = heap.getD 0 0 ∧ (∀ y ∈ heap, y ≤ x) ∧
      IsHeap rest ∧ (x :: rest).Perm heap := by
  have hmax := heap_max heap hh
  cases heap with
  | nil => exact absurd rfl hne
  | cons x0 tl =>
    have hemp : empty (x0 :: tl) = false := rfl
    have hrd0 : rd (x0 :: tl) 0 = some x0 := rd_append_cons [] x0 tl 0 rfl
    rcases List.eq_nil_or_concat tl with htl | ⟨mid, last, htl⟩
    · subst htl
      refine ⟨x0, [], ?_, rfl, hmax, isHeap_nil, List.Perm.refl _⟩
      have hw : wr [x0] 0 x0 = some [x0] := wr_append_cons [] x0 [] 0 x0 rfl
      simp only [pop, hemp, hrd0, List.getLast?_singleton, hw]
      rfl
    · rw [List.concat_eq_append] at htl
      subst htl
      have hlastq : (x0 :: (mid ++ [last])).getLast? = some last := by
        rw [← List.cons_append, List.getLast?_append]
        rfl
      have hw : wr (x0 :: (mid ++ [last])) 0 last = some (last :: (mid ++ [last])) :=
        wr_append_cons [] x0 _ 0 last rfl
      have hdrop : (last :: (mid ++ [last])).dropLast = last :: mid := by
        rw [← List.cons_append, List.dropLast_concat]
      have hemp1 : empty (last :: mid) = false := rfl
      have hlen : (x0 :: (mid ++ [last])).length = mid.length + 2 := by simp
      have hlen1 : (last :: mid).length = mid.length + 1 := by simp
      rw [hlen] at hn hf
      have hsize : intOfSize (last :: mid).length = ((last :: mid).length : Int) :=
        intOfSize_eq _ (by rw [hlen1]; omega)
      have hsame : ∀ j, 1 ≤ j → j < mid.length + 1 →
          (last :: mid).getD j 0 = (x0 :: (mid ++ [last])).getD j 0 := by
        intro j hj1 hj
        obtain ⟨j2, hj2⟩ : ∃ j2, j = j2 + 1 := ⟨j - 1, by omega⟩
        subst hj2
        rw [List.getD_cons_succ, List.getD_cons_succ, getD_append_left mid last j2 (by omega)]
      obtain ⟨out, hr, hlo, hperm, hheap, _, _⟩ := heapify_spec fuel (last :: mid)
        (last :: mid).length 0 0 (le_refl _) (by rw [hlen1]; omega) (le_refl _)
        (by rw [hlen1]; omega) (by rw [hlen1]; omega)
        (by
          intro k _ hk hk0
          rw [hlen1] at hk ⊢
          have hk2 := hh k (by rw [hlen]; omega)
          rw [hlen] at hk2
          constructor
          · intro hc
            rw [hsame _ (by omega) hc, hsame k (by omega) hk]
            exact hk2.1 (by omega)
          · intro hc
            rw [hsame _ (by omega) hc, hsame k (by omega) hk]
            exact hk2.2 (by omega))
        (fun k c _ _ hk3 _ _ => by omega)
      have hdown : heapifyDown fuel (last :: mid) 0 = some out := by
        rw [heapifyDown, hsize, heapifyDownLoop_eq_heapify]
        exact hr
      refine ⟨x0, out, ?_, rfl, hmax, ?_, ?_⟩
      · simp only [pop, hemp, hrd0, hlastq, hw, hdrop, hemp1, hdown]
        rfl
      · intro k hk
        rw [hlo] at hk ⊢
        exact hheap k (Nat.zero_le _) hk
      · have h1 : (x0 :: out).Perm (x0 :: last :: mid) := List.Perm.cons x0 hperm
        refine h1.trans (List.Perm.cons x0 ?_)
        exact (List.perm_append_singleton last mid).symm

theorem drain_spec (fuel : Nat) :
    ∀ (n : Nat) (heap : List Int), IsHeap heap → heap.length < 1073741824 →
      heap.length < fuel → heap.length < n →
      ∃ out, drain fuel n heap = .ok out ∧ out.Perm heap ∧ out.Sorted (· ≥ ·) := by
  intro n
  induction n with
  | zero =>
    intro heap _ _ _ hn
    omega
  | succ n ih =>
    intro heap hh h30 hf hn
    cases heap with
    | nil => exact ⟨[], rfl, List.Perm.refl _, List.sorted_nil⟩
    | cons x0 tl =>
      have hemp : empty (x0 :: tl) = false := rfl
      obtain ⟨x, rest, hp, _, hmax, hrest, hperm⟩ := heap_pop_spec fuel (x0 :: tl) hh
        (by simp) h30 hf
      have hl : rest.length + 1 = (x0 :: tl).length := by
        have := hperm.length_eq
        simpa using this
      obtain ⟨out, hr, hperm2, hsorted⟩ := ih rest hrest (by omega) (by omega) (by omega)
      refine ⟨x :: out, by simp only [drain, hemp, hp, hr]; rfl, ?_, ?_⟩
      · exact (List.Perm.cons x hperm2).trans hperm
      · refine List.sorted_cons.2 ⟨fun y hy => ?_, hsorted⟩
        have hy2 : y ∈ rest := (hperm2.mem_iff).1 hy
        have hy3 : y ∈ x :: rest := List.mem_cons_of_mem _ hy2
        exact hmax y ((hperm.mem_iff).1 hy3)

theorem push_eq (fuel : Nat) (heap heap1 heap2 : List Int) (value index : Int)
    (h1 : heap ++ [value] = heap1) (hi : lastIndex heap1.length = index)
    (hup : heapifyUp fuel heap1 index = some heap2) : push fuel heap value = .ok heap2 := by
  unfold push
  rw [h1, hi, hup]
  rfl

theorem lastIndex_le (n : Nat) (h1 : 1 ≤ n) (hn : n ≤ 2147483648) :
    lastIndex n = (n : Int) - 1 := by
  simp only [lastIndex, wrap32]
  omega

theorem rd_zeros (n : Nat) (i : Int) (k : Nat) (hi : i = k) (hk : k < n) :
    rd (List.replicate n (0 : Int)) i = some 0 := by
  rw [rd_eq _ i k hi, List.getElem?_replicate, if_pos hk]

/-- Pushing a zero into a heap of fewer than 2^31 zeros leaves a heap of zeros. -/
theorem push_zero (k : Nat) (hk : k < 2147483648) :
    push 1 (List.replicate k 0) 0 = .ok (List.replicate (k + 1) 0) := by
  have h1 : List.replicate k (0 : Int) ++ [0] = List.replicate (k + 1) 0 :=
    (List.replicate_succ' k 0).symm
  have hi : lastIndex (List.replicate (k + 1) (0 : Int)).length = (k : Int) := by
    rw [List.length_replicate, lastIndex_le (k + 1) (by omega) (by omega)]
    omega
  refine push_eq 1 _ _ _ 0 (k : Int) h1 hi ?_
  by_cases hpos : (k : Int) > 0
  · have hp : (cdiv ((k : Int) - 1) 2) = (((k - 1) / 2 : Nat) : Int) := by
      rw [cdiv_two _ (by omega)]
      omega
    exact heapifyUp_break 0 _ _ 0 0 hpos (rd_zeros _ _ ((k - 1) / 2) hp (by omega))
      (rd_zeros _ _ k rfl (by omega)) (le_refl _)
  · exact heapifyUp_done 0 _ _ hpos

theorem push_all_cons (fuel : Nat) (heap heap1 : List Int) (v : Int) (rest : List Int)
    (h : push fuel heap v = .ok heap1) :
    push_all fuel heap (v :: rest) = push_all fuel heap1 rest := by
  rw [push_all, h]

theorem push_all_zeros (rest : List Int) :
    ∀ (j k : Nat), k + j ≤ 2147483648 →
      push_all 1 (List.replicate k 0) (List.replicate j 0 ++ rest) =
        push_all 1 (List.replicate (k + j) 0) rest := by
  intro j
  induction j with
  | zero =>
    intro k _
    rw [List.replicate_zero, List.nil_append, Nat.add_zero]
  | succ j ih =>
    intro k hk
    rw [List.replicate_succ, List.cons_append,
      push_all_cons 1 _ _ 0 _ (push_zero k (by omega)), ih (k + 1) (by omega)]
    have e : k + 1 + j = k + (j + 1) := by omega
    rw [e]

theorem top_eq (heap : List Int) (x : Int) (h : rd heap 0 = some x) : top heap = .ok x := by
  cases heap with
  | nil => exact absurd h (by simp [rd])
  | cons y rest =>
    unfold top
    rw [h]
    rfl

theorem pop_eq (fuel : Nat) (heap heap1 heap2 : List Int) (r b : Int)
    (h0 : rd heap 0 = some r) (hl : heap.getLast? = some b) (hw : wr heap 0 b = some heap1)
    (hd : empty heap1.dropLast = false)
    (hh : heapifyDown fuel heap1.dropLast 0 = some heap2) :
    pop fuel heap = .ok (r, heap2) := by
  cases heap with
  | nil => exact absurd h0 (by simp [rd])
  | cons y rest =>
    unfold pop
    rw [h0, hl]
    show (if empty (y :: rest) = true then Except.error HeapFault.runtime_error
      else
        match wr (y :: rest) 0 b with
        | none => Except.error HeapFault.undefined
        | some heap1 =>
            if empty heap1.dropLast = true then Except.ok (r, heap1.dropLast)
            else
              match heapifyDown fuel heap1.dropLast 0 with
              | none => Except.error HeapFault.undefined
              | some heap2 => Except.ok (r, heap2)) = _
    rw [hw]
    show (if empty (y :: rest) = true then Except.error HeapFault.runtime_error
      else
        if empty heap1.dropLast = true then Except.ok (r, heap1.dropLast)
        else
          match heapifyDown fuel heap1.dropLast 0 with
          | none => Except.error HeapFault.undefined
          | some heap2 => Except.ok (r, heap2)) = _
    rw [hd, hh]
    rfl

/-- When `int size = heap.size()` is not above 1, `heapifyDown(0)` changes nothing. -/
theorem heapifyDown_small (fuel : Nat) (heap : List Int) (size : Int)
    (hs : intOfSize heap.length = size) (hsmall : ¬ 1 < size) :
    heapifyDown (fuel + 1) heap 0 = some heap := by
  have h2 : ¬ (2 : Int) < size := by omega
  have p1 : pickLarger heap size 1 0 = some 0 := by rw [pickLarger, if_neg hsmall]
  have p2 : pickLarger heap size 2 0 = some 0 := by rw [pickLarger, if_neg h2]
  have e1 : wrap32 (2 * 0 + 1) = 1 := by decide
  have e2 : wrap32 (2 * 0 + 2) = 2 := by decide
  unfold heapifyDown
  rw [hs, heapifyDownLoop_succ, e1, e2, p1]
  show (match pickLarger heap size 2 0 with
    | none => none
    | some largest =>
        if largest = 0 then some heap
        else
          match AlgorithmsDemo.swap heap 0 largest with
          | none => none
          | some heap1 => heapifyDownLoop fuel heap1 size largest) = some heap
  rw [p2]
  rfl

theorem rd_const_append (n k : Nat) (c : Int) (tail : List Int) (i : Int) (hi : i = k)
    (hk : k < n) : rd (List.replicate n c ++ tail) i = some c := by
  rw [rd_eq _ i k hi, List.getElem?_append_left (by rw [List.length_replicate]; exact hk),
    List.getElem?_replicate, if_pos hk]

theorem rd_append_last (n : Nat) (c v : Int) (i : Int) (hi : i = n) :
    rd (List.replicate n c ++ [v]) i = some v := by
  rw [rd_eq _ i n hi, List.getElem?_append_right (by rw [List.length_replicate]),
    List.length_replicate, Nat.sub_self]
  rfl

/-- Pushing a value that is not above `c` into a heap of fewer than 2^31 copies of `c`
appends it: the loop of `heapifyUp` stops at its first comparison. -/
theorem push_below (fuel k : Nat) (c v : Int) (hv : v ≤ c) (hk : k < 2147483648) :
    push (fuel + 1) (List.replicate k c) v = .ok (List.replicate k c ++ [v]) := by
  have hi : lastIndex (List.replicate k c ++ [v]).length = (k : Int) := by
    rw [List.length_append, List.length_replicate, List.length_singleton,
      lastIndex_le (k + 1) (by omega) (by omega)]
    omega
  refine push_eq (fuel + 1) _ _ _ v (k : Int) rfl hi ?_
  by_cases hpos : (k : Int) > 0
  · have hp : (cdiv ((k : Int) - 1) 2) = (((k - 1) / 2 : Nat) : Int) := by
      rw [cdiv_two _ (by omega)]
      omega
    exact heapifyUp_break fuel _ _ c v hpos
      (rd_const_append k ((k - 1) / 2) c [v] _ hp (by omega))
      (rd_append_last k c v _ rfl) hv
  · exact heapifyUp_done fuel _ _ hpos

theorem push_all_ones (fuel : Nat) (rest : List Int) :
    ∀ (j k : Nat), k + j ≤ 2147483648 →
      push_all (fuel + 1) (List.replicate k 1) (List.replicate j 1 ++ rest) =
        push_all (fuel + 1) (List.replicate (k + j) 1) rest := by
  intro j
  induction j with
  | zero =>
    intro k _
    rfl
  | succ j ih =>
    intro k hk
    have hp : push (fuel + 1) (List.replicate k 1) 1 = .ok (List.replicate (k + 1) 1) := by
      rw [push_below fuel k 1 1 (le_refl _) (by omega), List.replicate_succ' k 1]
    rw [List.replicate_succ, List.cons_append, push_all_cons (fuel + 1) _ _ 1 _ hp,
      ih (k + 1) (by omega)]
    have e : k + 1 + j = k + (j + 1) := by omega
    rw [e]

theorem push_all_deep (fuel : Nat) : push_all (fuel + 1) [] deepValues = .ok deepValues := by
  have h := push_all_ones fuel [0] 1073741824 0 (by decide)
  rw [List.replicate_zero, Nat.zero_add] at h
  have hall : push_all (fuel + 1) [] deepValues =
      push_all (fuel + 1) (List.replicate 1073741824 1) [0] := h
  have hp : push (fuel + 1) (List.replicate 1073741824 1) 0 = .ok deepValues :=
    push_below fuel 1073741824 1 0 (by decide) (by decide)
  rw [hall, push_all_cons (fuel + 1) _ _ 0 [] hp]
  rfl

theorem pop_undefined (fuel : Nat) (heap heap1 : List Int) (r b : Int)
    (h0 : rd heap 0 = some r) (hl : heap.getLast? = some b) (hw : wr heap 0 b = some heap1)
    (hd : empty heap1.dropLast = false)
    (hh : heapifyDown fuel heap1.dropLast 0 = none) :
    pop fuel heap = .error .undefined := by
  cases heap with
  | nil => exact absurd h0 (by simp [rd])
  | cons y rest =>
    unfold pop
    rw [h0, hl]
    show (if empty (y :: rest) = true then Except.error HeapFault.runtime_error
      else
        match wr (y :: rest) 0 b with
        | none => Except.error HeapFault.undefined
        | some heap1 =>
            if empty heap1.dropLast = true then Except.ok (r, heap1.dropLast)
            else
              match heapifyDown fuel heap1.dropLast 0 with
              | none => Except.error HeapFault.undefined
              | some heap2 => Except.ok (r, heap2)) = _
    rw [hw]
    show (if empty (y :: rest) = true then Except.error HeapFault.runtime_error
      else
        if empty heap1.dropLast = true then Except.ok (r, heap1.dropLast)
        else
          match heapifyDown fuel heap1.dropLast 0 with
          | none => Except.error HeapFault.undefined
          | some heap2 => Except.ok (r, heap2)) = _
    rw [hd, hh]
    rfl

/-- The first `pop()` after the pushes of `deepValues`: the zero moved to the root sinks
down the left spine of the 2^30 remaining elements to the node `2^30 - 1`, where
`2 * index + 2` is no `int`. -/
theorem pop_deep (fuel : Nat) : pop fuel deepValues = .error .undefined := by
  have hsplit : List.replicate 1073741824 (1 : Int) = 1 :: List.replicate 1073741823 1 :=
    List.replicate_succ 1 1073741823
  have hform : deepValues = 1 :: (List.replicate 1073741823 1 ++ [0]) := by
    rw [deepValues, hsplit]
    rfl
  have hlen0 : deepValues.length = 1073741825 := by
    rw [deepValues, List.length_append, List.length_replicate]
    rfl
  have hlast : deepValues.getLast? = some 0 := by
    rw [deepValues, List.getLast?_append]
    rfl
  have hw : wr deepValues 0 0 = some (0 :: (List.replicate 1073741823 1 ++ [0])) := by
    have hc : (0 : Int) ≤ 0 ∧ (0 : Int) < (deepValues.length : Int) := by
      rw [hlen0]
      decide
    rw [wr, if_pos hc, hform]
    rfl
  have hdrop : (0 :: (List.replicate 1073741823 (1 : Int) ++ [0])).dropLast =
      0 :: List.replicate 1073741823 1 := by
    rw [← List.cons_append, List.dropLast_concat]
  have hlen : (0 :: List.replicate 1073741823 (1 : Int)).length = 1073741824 := by
    rw [List.length_cons, List.length_replicate]
  refine pop_undefined fuel deepValues _ 1 0 ?_ hlast hw ?_ ?_
  · rw [hform]
    exact rd_head _ _
  · rw [hdrop]
    rfl
  · rw [hdrop, heapifyDown, heapifyDownLoop_eq_heapify, hlen]
    have hn : intOfSize 1073741824 = ((1073741824 : Nat) : Int) := by decide
    rw [hn]
    refine heapify_spine 30 0 rfl _ hlen ?_ ?_ fuel
    · rfl
    · intro i hi hlt
      have hi1 : 1 ≤ i := by
        have : i ≠ 0 := hi
        omega
      obtain ⟨t, rfl⟩ : ∃ t, i = t + 1 := ⟨i - 1, by omega⟩
      rw [List.getD_cons_succ, getD_replicate, if_pos (by omega)]

/-! ## The claims -/

/-- C35 fails as stated.  Push 2^31 zeros and then a five into an empty `MaxHeap`: for
the last push `heap.size() - 1` converts to the `int` -2^31, `heapifyUp` does not enter its
loop and the five stays in the last position.  The first `pop()` returns 0 although 5 is
in the heap, and the next value at the top is 5: the values do not come out in
non-increasing order.  Push 2^30 ones and then a zero: every push returns, and in the
first `pop()` the zero moved to the root sinks down the left spine to the position
`2^30 - 1`, where `2 * index + 2` is `2^31`, as an `int` `-2^31`, and `heap[right]` is read
out of range: no fuel makes that `pop()` return. -/
theorem maxHeap_big_fails :
    (push_all 1 [] bigNums = .ok bigNums ∧ (5 : Int) ∈ bigNums ∧
      pop 1 bigNums = .ok (0, 5 :: List.replicate 2147483647 0) ∧
      top (5 :: List.replicate 2147483647 0) = .ok 5) ∧
    (deepValues.length = 1073741825 ∧
      (∀ fuel, push_all (fuel + 1) [] deepValues = .ok deepValues) ∧
      ∀ fuel, pop fuel deepValues = .error .undefined) := by
  have hsplit : List.replicate 2147483648 (0 : Int) = 0 :: List.replicate 2147483647 0 :=
    List.replicate_succ 0 2147483647
  have hdeep : deepValues.length = 1073741825 := by
    rw [deepValues, List.length_append, List.length_replicate]
    rfl
  refine ⟨⟨?_, ?_, ?_, top_eq _ 5 (rd_head _ _)⟩, hdeep, push_all_deep, pop_deep⟩
  · have h := push_all_zeros [5] 2147483648 0 (by decide)
    rw [List.replicate_zero, Nat.zero_add] at h
    have hi : lastIndex bigNums.length = -2147483648 := by
      rw [bigNums_length]
      exact lastIndex_big
    have hp : push 1 (List.replicate 2147483648 0) 5 = .ok bigNums :=
      push_eq 1 _ bigNums bigNums 5 (-2147483648) rfl hi
        (heapifyUp_done 0 bigNums (-2147483648) (by decide))
    have hall : push_all 1 [] bigNums = push_all 1 (List.replicate 2147483648 0) [5] := h
    rw [hall, push_all_cons 1 _ _ 5 [] hp]
    rfl
  · rw [bigNums]
    exact List.mem_append_right _ (List.mem_singleton_self _)
  · have hform : bigNums = 0 :: (List.replicate 2147483647 0 ++ [5]) := by
      rw [bigNums, hsplit]
      rfl
    have hlen : (5 :: List.replicate 2147483647 (0 : Int)).length = 2147483648 := by
      rw [List.length_cons, List.length_replicate]
    have hdrop : (5 :: (List.replicate 2147483647 (0 : Int) ++ [5])).dropLast =
        5 :: List.replicate 2147483647 0 := by
      rw [← List.cons_append, List.dropLast_concat]
    have hlast : bigNums.getLast? = some 5 := by
      rw [bigNums, List.getLast?_append]
      rfl
    have hw : wr bigNums 0 5 = some (5 :: (List.replicate 2147483647 0 ++ [5])) := by
      have hc : (0 : Int) ≤ 0 ∧ (0 : Int) < (bigNums.length : Int) := by
        rw [bigNums_length]
        decide
      rw [wr, if_pos hc, hform]
      rfl
    have hsize : intOfSize (5 :: List.replicate 2147483647 (0 : Int)).length =
        -2147483648 := by
      rw [hlen]
      decide
    refine pop_eq 1 bigNums _ _ 0 5 ?_ hlast hw ?_ ?_
    · rw [hform]
      exact rd_head _ _
    · rw [hdrop]
      rfl
    · rw [hdrop]
      exact heapifyDown_small 0 _ (-2147483648) hsize (by decide)

/-- C35, amended: fewer than 2^30 values `vals` (so that positions and the child
positions `2 * index + 1` and `2 * index + 2` fit an `int`) pushed into an empty `MaxHeap`
are returned by `pop()`, called until `empty()`, in non-increasing order: the calls return
(a fuel above the number of values is enough for every loop) and the values popped are a
rearrangement of `vals` in which no value is followed by a larger one.  Each `pop()` on a
non-empty heap returns an element that no element of the heap exceeds and removes one
occurrence of it, leaving a heap; `top()` returns that element; `pop()` and `top()` on an
empty heap throw `std::runtime_error`. -/
theorem maxHeap_contract (fuel : Nat) (vals : List Int) (hn : vals.length < 1073741824)
    (hf : vals.length < fuel) :
    (∃ heap out, push_all fuel [] vals = .ok heap ∧ IsHeap heap ∧ heap.Perm vals ∧
      drain fuel fuel heap = .ok out ∧ out.Perm vals ∧ out.Sorted (· ≥ ·)) ∧
    (∀ heap : List Int, IsHeap heap → heap ≠ [] → heap.length ≤ vals.length →
      ∃ x rest, pop fuel heap = .ok (x, rest) ∧ top heap = .ok x ∧ (∀ y ∈ heap, y ≤ x) ∧
        IsHeap rest ∧ (x :: rest).Perm heap) ∧
    pop fuel [] = .error .runtime_error ∧ top [] = .error .runtime_error := by
  refine ⟨?_, ?_, rfl, rfl⟩
  · obtain ⟨heap, hp, hh, hperm⟩ := heap_push_all_spec fuel vals [] isHeap_nil
      (by simp only [List.length_nil]; omega) (by simp only [List.length_nil]; omega)
    rw [List.nil_append] at hperm
    have hl : heap.length = vals.length := hperm.length_eq
    obtain ⟨out, hd, hperm2, hs⟩ := drain_spec fuel fuel heap hh (by omega) (by omega)
      (by omega)
    exact ⟨heap, out, hp, hh, hperm, hd, hperm2.trans hperm, hs⟩
  · intro heap hh hne hl
    obtain ⟨x, rest, hp, hx, hmax, hrest, hperm⟩ := heap_pop_spec fuel heap hh hne (by omega)
      (by omega)
    refine ⟨x, rest, hp, ?_, hmax, hrest, hperm⟩
    cases heap with
    | nil => exact absurd rfl hne
    | cons x0 tl =>
      have hrd0 : rd (x0 :: tl) 0 = some x0 := rd_append_cons [] x0 tl 0 rfl
      have hemp : empty (x0 :: tl) = false := rfl
      simp only [top, hemp, hrd0, hx]
      rfl

/-- Witness for C35: the data of `demonstrateHeap`, `{4, 10, 3, 5, 1, 8, 7, 6, 2, 9}`. -/
theorem maxHeap_contract_witness :
    (∃ heap out, push_all 11 [] sampleData = .ok heap ∧ IsHeap heap ∧
      heap.Perm sampleData ∧ drain 11 11 heap = .ok out ∧ out.Perm sampleData ∧
      out.Sorted (· ≥ ·)) ∧
    (∀ heap : List Int, IsHeap heap → heap ≠ [] → heap.length ≤ sampleData.length →
      ∃ x rest, pop 11 heap = .ok (x, rest) ∧ top heap = .ok x ∧ (∀ y ∈ heap, y ≤ x) ∧
        IsHeap rest ∧ (x :: rest).Perm heap) ∧
    pop 11 [] = .error .runtime_error ∧ top [] = .error .runtime_error :=
  maxHeap_contract 11 sampleData (by decide) (by decide)

end AdvancedStructures

namespace LinkedListImpl

variable {α : Type}

/-! ## Properties of the linked list -/

theorem chain_nil (mem : Store α) (p : Option Nat) : Chain mem p [] [] ↔ p = none := by
  unfold Chain
  exact Iff.rfl

theorem chain_cons (mem : Store α) (p : Option Nat) (a : Nat) (as : List Nat) (x : α)
    (xs : List α) :
    Chain mem p (a :: as) (x :: xs) ↔
      p = some a ∧ ∃ nxt, readNode mem a = .ok { data := x, next := nxt } ∧
        Chain mem nxt as xs := by
  conv => lhs; unfold Chain

theorem chain_length (mem : Store α) :
    ∀ (as : List Nat) (p : Option Nat) (xs : List α), Chain mem p as xs →
      as.length = xs.length := by
  intro as
  induction as with
  | nil =>
    intro p xs h
    cases xs with
    | nil => rfl
    | cons x xs => unfold Chain at h; exact h.elim
  | cons a as ih =>
    intro p xs h
    cases xs with
    | nil => unfold Chain at h; exact h.elim
    | cons x xs =>
      obtain ⟨_, nxt, _, h3⟩ := (chain_cons mem p a as x xs).1 h
      simp only [List.length_cons]
      rw [ih nxt xs h3]

theorem readNode_lt (mem : Store α) (p : Nat) (nd : Node α) (h : readNode mem p = .ok nd) :
    p < mem.length := by
  unfold readNode at h
  by_contra hc
  rw [List.getElem?_eq_none (by omega)] at h
  cases h

theorem readNode_set_other (mem : Store α) (p q : Nat) (v : Option (Node α)) (h : p ≠ q) :
    readNode (mem.set q v) p = readNode mem p := by
  unfold readNode
  rw [List.getElem?_set, if_neg (fun hc => h hc.symm)]

theorem readNode_set_same (mem : Store α) (q : Nat) (nd : Node α) (h : q < mem.length) :
    readNode (mem.set q (some nd)) q = .ok nd := by
  unfold readNode
  rw [List.getElem?_set, if_pos rfl, if_pos h]

theorem readNode_append (mem : Store α) (p : Nat) (nd : Node α) (extra : Store α)
    (h : readNode mem p = .ok nd) : readNode (mem ++ extra) p = .ok nd := by
  have hlt := readNode_lt mem p nd h
  unfold readNode at h ⊢
  rw [List.getElem?_append_left hlt]
  exact h

theorem writeNext_ok (mem : Store α) (p : Nat) (q : Option Nat) (nd : Node α)
    (h : readNode mem p = .ok nd) :
    writeNext mem p q = .ok (mem.set p (some { data := nd.data, next := q })) := by
  unfold writeNext
  rw [h]

theorem chain_frame (mem mem1 : Store α) :
    ∀ (as : List Nat) (p : Option Nat) (xs : List α), Chain mem p as xs →
      (∀ a ∈ as, readNode mem1 a = readNode mem a) → Chain mem1 p as xs := by
  intro as
  induction as with
  | nil =>
    intro p xs h _
    cases xs with
    | nil => exact (chain_nil mem1 p).2 ((chain_nil mem p).1 h)
    | cons x xs => unfold Chain at h; exact h.elim
  | cons a as ih =>
    intro p xs h hsame
    cases xs with
    | nil => unfold Chain at h; exact h.elim
    | cons x xs =>
      obtain ⟨h1, nxt, h2, h3⟩ := (chain_cons mem p a as x xs).1 h
      refine (chain_cons mem1 p a as x xs).2 ⟨h1, nxt, ?_, ?_⟩
      · rw [hsame a (List.mem_cons_self _ _)]
        exact h2
      · exact ih nxt xs h3 (fun b hb => hsame b (List.mem_cons_of_mem _ hb))

theorem chain_addr_lt (mem : Store α) :
    ∀ (as : List Nat) (p : Option Nat) (xs : List α), Chain mem p as xs →
      ∀ a ∈ as, a < mem.length := by
  intro as
  induction as with
  | nil =>
    intro p xs _ a ha
    cases ha
  | cons b as ih =>
    intro p xs h a ha
    cases xs with
    | nil => unfold Chain at h; exact h.elim
    | cons x xs =>
      obtain ⟨_, nxt, h2, h3⟩ := (chain_cons mem p b as x xs).1 h
      rcases List.mem_cons.1 ha with hab | hab
      · rw [hab]
        exact readNode_lt mem b _ h2
      · exact ih nxt xs h3 a hab

/-- The loop of `reverse`: `ds` are the nodes already turned round, `rs` the nodes still
ahead. -/
theorem reverseLoop_spec :
    ∀ (fuel : Nat) (mem : Store α) (prev current : Option Nat) (ds rs : List Nat)
      (xd xr : List α),
      Chain mem prev ds.reverse xd.reverse → Chain mem current rs xr → (ds ++ rs).Nodup →
      rs.length < fuel →
      ∃ mem1 prev1, reverseLoop fuel mem prev current = .ok (mem1, prev1) ∧
        Chain mem1 prev1 (ds ++ rs).reverse (xd ++ xr).reverse ∧
        mem1.length = mem.length := by
  intro fuel
  induction fuel with
  | zero =>
    intro mem prev current ds rs xd xr _ _ _ hf
    omega
  | succ fuel ih =>
    intro mem prev current ds rs xd xr hprev hcur hnd hf
    cases rs with
    | nil =>
      cases xr with
      | cons x xr => unfold Chain at hcur; exact hcur.elim
      | nil =>
        have hc : current = none := (chain_nil mem current).1 hcur
        subst hc
        refine ⟨mem, prev, rfl, ?_, rfl⟩
        rw [List.append_nil, List.append_nil]
        exact hprev
    | cons c rs =>
      cases xr with
      | nil => unfold Chain at hcur; exact hcur.elim
      | cons x xr =>
        obtain ⟨h1, nxt, h2, h3⟩ := (chain_cons mem current c rs x xr).1 hcur
        subst h1
        have hclt := readNode_lt mem c _ h2
        have hw := writeNext_ok mem c prev _ h2
        have hcnot : c ∉ ds ∧ c ∉ rs := by
          have hnd2 := List.nodup_append.1 hnd
          refine ⟨fun hc => ?_, (List.nodup_cons.1 hnd2.2.1).1⟩
          exact hnd2.2.2 hc (List.mem_cons_self _ _)
        have hother : ∀ a, a ≠ c →
            readNode (mem.set c (some { data := x, next := prev })) a = readNode mem a :=
          fun a ha => readNode_set_other mem a c _ ha
        obtain ⟨mem1, prev1, hr, hch, hlen⟩ := ih
          (mem.set c (some { data := x, next := prev })) (some c) nxt (ds ++ [c]) rs
          (xd ++ [x]) xr
          (by
            rw [List.reverse_append, List.reverse_append]
            refine (chain_cons _ _ c ds.reverse x xd.reverse).2 ⟨rfl, prev, ?_, ?_⟩
            · exact readNode_set_same mem c _ hclt
            · exact chain_frame mem _ _ _ _ hprev (fun a ha => hother a (fun hc => by
                rw [hc] at ha
                exact hcnot.1 (List.mem_reverse.1 ha))))
          (chain_frame mem _ _ _ _ h3 (fun a ha => hother a (fun hc => by
            rw [hc] at ha
            exact hcnot.2 ha)))
          (by
            rw [List.append_assoc]
            exact hnd)
          (by simp only [List.length_cons] at hf; omega)
        refine ⟨mem1, prev1, ?_, ?_, ?_⟩
        · simp only [reverseLoop, h2, hw]
          exact hr
        · rw [List.append_assoc, List.append_assoc] at hch
          exact hch
        · rw [hlen, List.length_set]

theorem advance_spec (mem : Store α) :
    ∀ (i : Nat) (as : List Nat) (p : Option Nat) (xs : List α), Chain mem p as xs →
      (hi : i < xs.length) →
      ∃ c nxt, advance mem i p = .ok (some c) ∧
        readNode mem c = .ok { data := xs[i], next := nxt } := by
  intro i
  induction i with
  | zero =>
    intro as p xs h hi
    cases xs with
    | nil => simp at hi
    | cons x xs =>
      cases as with
      | nil => unfold Chain at h; exact h.elim
      | cons a as =>
        obtain ⟨h1, nxt, h2, _⟩ := (chain_cons mem p a as x xs).1 h
        subst h1
        exact ⟨a, nxt, rfl, h2⟩
  | succ i ih =>
    intro as p xs h hi
    cases xs with
    | nil => simp at hi
    | cons x xs =>
      cases as with
      | nil => unfold Chain at h; exact h.elim
      | cons a as =>
        obtain ⟨h1, nxt, h2, h3⟩ := (chain_cons mem p a as x xs).1 h
        subst h1
        obtain ⟨c, nxt2, hadv, hrd⟩ := ih as nxt xs h3
          (by simp only [List.length_cons] at hi; omega)
        refine ⟨c, nxt2, ?_, ?_⟩
        · simp only [advance, h2]
          exact hadv
        · simp only [List.getElem_cons_succ]
          exact hrd

theorem list_at_spec (mem : Store α) (l : LinkedList) (as : List Nat) (xs : List α)
    (hr : Repr mem l as xs) (i : Nat) (hi : i < xs.length) : at_ mem l i = .ok xs[i] := by
  obtain ⟨hc, _, _, hs⟩ := hr
  obtain ⟨c, nxt, hadv, hrd⟩ := advance_spec mem i as l.head xs hc hi
  have hlt : ¬ i ≥ l.size_ := by omega
  simp only [at_, if_neg hlt, hadv, hrd]

theorem readNode_new (mem : Store α) (nd : Node α) :
    readNode (mem ++ [some nd]) mem.length = .ok nd := by
  unfold readNode
  rw [List.getElem?_append_right (Nat.le_refl _)]
  simp

/-- Linking a new node behind the last node of a chain. -/
theorem chain_snoc (mem : Store α) (v : α) :
    ∀ (as : List Nat) (p : Option Nat) (xs : List α), Chain mem p as xs → as.Nodup →
      ∀ t, as.getLast? = some t →
      ∃ nd, readNode mem t = .ok nd ∧
        Chain ((mem ++ [some ({ data := v, next := none } : Node α)]).set t
            (some { data := nd.data, next := some mem.length }))
          p (as ++ [mem.length]) (xs ++ [v]) := by
  intro as
  induction as with
  | nil =>
    intro p xs _ _ t ht
    cases ht
  | cons a as ih =>
    intro p xs h hnd t ht
    cases xs with
    | nil => unfold Chain at h; exact h.elim
    | cons x xs =>
      obtain ⟨h1, nxt, h2, h3⟩ := (chain_cons mem p a as x xs).1 h
      have halt := readNode_lt mem a _ h2
      cases as with
      | nil =>
        cases xs with
        | cons y ys => unfold Chain at h3; exact h3.elim
        | nil =>
          have hn : nxt = none := (chain_nil mem nxt).1 h3
          subst hn
          have hta : t = a := by
            simp only [List.getLast?_singleton, Option.some.injEq] at ht
            exact ht.symm
          subst hta
          refine ⟨_, h2, ?_⟩
          refine (chain_cons _ p t [mem.length] x [v]).2 ⟨h1, some mem.length, ?_, ?_⟩
          · exact readNode_set_same _ t _ (by rw [List.length_append]; omega)
          · refine (chain_cons _ _ mem.length [] v []).2 ⟨rfl, none, ?_, (chain_nil _ _).2 rfl⟩
            rw [readNode_set_other _ _ _ _ (by omega)]
            exact readNode_new mem _
      | cons b as =>
        have ht2 : (b :: as).getLast? = some t := by
          rw [List.getLast?_cons_cons] at ht
          exact ht
        obtain ⟨nd, hnd1, hch⟩ := ih nxt xs h3 (List.nodup_cons.1 hnd).2 t ht2
        have htmem : t ∈ b :: as := List.mem_of_getLast?_eq_some ht2
        have hat : a ≠ t := fun hc => (List.nodup_cons.1 hnd).1 (hc ▸ htmem)
        refine ⟨nd, hnd1, ?_⟩
        refine (chain_cons _ p a _ x _).2 ⟨h1, nxt, ?_, hch⟩
        rw [readNode_set_other _ _ _ _ hat]
        exact readNode_append mem a _ _ h2

theorem list_push_back_spec (mem : Store α) (l : LinkedList) (as : List Nat) (xs : List α)
    (hr : Repr mem l as xs) (v : α) :
    ∃ mem2 l2, push_back mem l v = .ok (mem2, l2) ∧
      Repr mem2 l2 (as ++ [mem.length]) (xs ++ [v]) ∧ l2.size_ = l.size_ + 1 := by
  obtain ⟨hc, hnd, ht, hs⟩ := hr
  have hfresh : mem.length ∉ as := fun hm => by
    have := chain_addr_lt mem as l.head xs hc _ hm
    omega
  have hnd2 : (as ++ [mem.length]).Nodup := by
    refine List.nodup_append.2 ⟨hnd, List.nodup_singleton _, ?_⟩
    intro a ha hb
    rw [List.mem_singleton.1 hb] at ha
    exact hfresh ha
  cases hlast : as.getLast? with
  | none =>
    have has : as = [] := List.getLast?_eq_none_iff.1 hlast
    subst has
    cases xs with
    | cons x xs => unfold Chain at hc; exact hc.elim
    | nil =>
      rw [hlast] at ht
      refine ⟨mem ++ [some { data := v, next := none }],
        { head := some mem.length, tail := some mem.length, size_ := l.size_ + 1 }, ?_,
        ⟨?_, hnd2, rfl, by simp [hs]⟩, rfl⟩
      · simp only [push_back, newNode, ht]
      · exact (chain_cons _ _ mem.length [] v []).2
          ⟨rfl, none, readNode_new mem _, (chain_nil _ _).2 rfl⟩
  | some t =>
    rw [hlast] at ht
    obtain ⟨nd, hrd, hch⟩ := chain_snoc mem v as l.head xs hc hnd t hlast
    have hrd2 := readNode_append mem t nd [some { data := v, next := none }] hrd
    have hw := writeNext_ok _ t (some mem.length) nd hrd2
    refine ⟨_, { l with tail := some mem.length, size_ := l.size_ + 1 }, ?_,
      ⟨hch, hnd2, by simp, by simp [hs]⟩, rfl⟩
    simp only [push_back, newNode, ht, hw]

theorem list_reverse_spec (fuel : Nat) (mem : Store α) (l : LinkedList) (as : List Nat)
    (xs : List α) (hr : Repr mem l as xs) (hf : xs.length < fuel) :
    ∃ mem1 l1, reverse fuel mem l = .ok (mem1, l1) ∧ Repr mem1 l1 as.reverse xs.reverse ∧
      l1.size_ = l.size_ ∧ l1.tail = l.head ∧ mem1.length = mem.length := by
  obtain ⟨hc, hnd, ht, hs⟩ := hr
  have hlen := chain_length mem as l.head xs hc
  have hhead : l.head = as.head? := by
    cases as with
    | nil =>
      cases xs with
      | nil => exact (chain_nil mem l.head).1 hc
      | cons x xs => unfold Chain at hc; exact hc.elim
    | cons a as =>
      cases xs with
      | nil => unfold Chain at hc; exact hc.elim
      | cons x xs => exact ((chain_cons mem l.head a as x xs).1 hc).1
  by_cases hsmall : l.size_ ≤ 1
  · have has : as.reverse = as := by
      match as, hlen with
      | [], _ => rfl
      | [a], _ => rfl
      | _ :: _ :: _, h => simp only [List.length_cons] at h; omega
    have hxs : xs.reverse = xs := by
      match xs, hs with
      | [], _ => rfl
      | [a], _ => rfl
      | _ :: _ :: _, h => simp only [List.length_cons] at h; omega
    refine ⟨mem, l, by simp only [reverse, if_pos hsmall], ?_, rfl, ?_, rfl⟩
    · rw [has, hxs]
      exact ⟨hc, hnd, ht, hs⟩
    · rw [ht, hhead]
      match as, hlen with
      | [], _ => rfl
      | [a], _ => rfl
      | _ :: _ :: _, h => simp only [List.length_cons] at h; omega
  · obtain ⟨mem1, prev1, hloop, hch, hl⟩ := reverseLoop_spec fuel mem none l.head [] as []
      xs ((chain_nil mem none).2 rfl) hc (by simpa using hnd) (by omega)
    simp only [List.nil_append] at hch
    refine ⟨mem1, { l with head := prev1, tail := l.head }, ?_, ⟨hch, ?_, ?_, ?_⟩, rfl, rfl, hl⟩
    · simp only [reverse, if_neg hsmall, hloop]
    · exact List.nodup_reverse.2 hnd
    · show l.head = as.reverse.getLast?
      rw [List.getLast?_reverse]
      exact hhead
    · show l.size_ = xs.reverse.length
      rw [List.length_reverse]
      exact hs

theorem repr_sample : Repr sampleStore sampleList [0, 1, 2] [1, 2, 3] := by
  refine ⟨?_, by decide, rfl, rfl⟩
  refine (chain_cons _ _ 0 _ 1 _).2 ⟨rfl, some 1, rfl, ?_⟩
  refine (chain_cons _ _ 1 _ 2 _).2 ⟨rfl, some 2, rfl, ?_⟩
  exact (chain_cons _ _ 2 _ 3 _).2 ⟨rfl, none, rfl, (chain_nil _ _).2 rfl⟩

theorem repr_new : Repr ([] : Store α) LinkedList.new [] [] :=
  ⟨(chain_nil _ _).2 rfl, List.nodup_nil, rfl, rfl⟩


/-! ## The claims -/

/-- C36: on a list that holds the elements `xs`, `reverse()` returns (a fuel above the size
is enough for its loop) and leaves `size()` unchanged; afterwards the list holds the
elements in reverse order, so for every `i < size()` the call `at(i)` returns the element
that was at position `size() - 1 - i`; `tail` is the former head, and a `push_back(v)`
after it gives the reversed sequence followed by `v`. -/
theorem reverse_contract (fuel : Nat) (mem : Store α) (l : LinkedList) (as : List Nat)
    (xs : List α) (hr : Repr mem l as xs) (hf : xs.length < fuel) :
    ∃ mem1 l1, reverse fuel mem l = .ok (mem1, l1) ∧ size l1 = size l ∧
      Repr mem1 l1 as.reverse xs.reverse ∧ l1.tail = l.head ∧
      (∀ i, i < xs.length →
        ∃ x, xs[xs.length - 1 - i]? = some x ∧ at_ mem1 l1 i = .ok x) ∧
      ∀ v, ∃ mem2 l2, push_back mem1 l1 v = .ok (mem2, l2) ∧ size l2 = size l + 1 ∧
        Repr mem2 l2 (as.reverse ++ [mem1.length]) (xs.reverse ++ [v]) ∧
        at_ mem2 l2 xs.length = .ok v ∧
        ∀ i, i < xs.length →
          ∃ x, xs[xs.length - 1 - i]? = some x ∧ at_ mem2 l2 i = .ok x := by
  obtain ⟨mem1, l1, hrev, hrep, hsz, htail, _⟩ := list_reverse_spec fuel mem l as xs hr hf
  have hget : ∀ i, (hi : i < xs.reverse.length) →
      xs[xs.length - 1 - i]? = some xs.reverse[i] := by
    intro i hi
    rw [List.length_reverse] at hi
    rw [List.getElem_reverse]
    exact List.getElem?_eq_getElem (by omega)
  refine ⟨mem1, l1, hrev, hsz, hrep, htail, ?_, ?_⟩
  · intro i hi
    have hi2 : i < xs.reverse.length := by rw [List.length_reverse]; exact hi
    exact ⟨_, hget i hi2, list_at_spec mem1 l1 _ _ hrep i hi2⟩
  · intro v
    obtain ⟨mem2, l2, hpb, hrep2, hsz2⟩ := list_push_back_spec mem1 l1 _ _ hrep v
    refine ⟨mem2, l2, hpb, by simp only [size]; omega, hrep2, ?_, ?_⟩
    · have hlt : xs.length < (xs.reverse ++ [v]).length := by simp
      have := list_at_spec mem2 l2 _ _ hrep2 xs.length hlt
      rw [this]
      congr 1
      rw [List.getElem_append_right (by simp)]
      simp
    · intro i hi
      have hi2 : i < xs.reverse.length := by rw [List.length_reverse]; exact hi
      have hlt : i < (xs.reverse ++ [v]).length := by simp; omega
      have := list_at_spec mem2 l2 _ _ hrep2 i hlt
      refine ⟨_, hget i hi2, ?_⟩
      rw [this]
      congr 1
      exact List.getElem_append_left hi2

/-- Witness for C36: the list `1 -> 2 -> 3`. -/
theorem reverse_contract_witness :
    ∃ mem1 l1, reverse 4 sampleStore sampleList = .ok (mem1, l1) ∧
      size l1 = size sampleList ∧
      Repr mem1 l1 [0, 1, 2].reverse [1, 2, 3].reverse ∧ l1.tail = sampleList.head ∧
      (∀ i, i < [1, 2, 3].length →
        ∃ x, [1, 2, 3][[1, 2, 3].length - 1 - i]? = some x ∧ at_ mem1 l1 i = .ok x) ∧
      ∀ v, ∃ mem2 l2, push_back mem1 l1 v = .ok (mem2, l2) ∧
        size l2 = size sampleList + 1 ∧
        Repr mem2 l2 ([0, 1, 2].reverse ++ [mem1.length]) ([1, 2, 3].reverse ++ [v]) ∧
        at_ mem2 l2 [1, 2, 3].length = .ok v ∧
        ∀ i, i < [1, 2, 3].length →
          ∃ x, [1, 2, 3][[1, 2, 3].length - 1 - i]? = some x ∧ at_ mem2 l2 i = .ok x :=
  reverse_contract 4 sampleStore sampleList [0, 1, 2] [1, 2, 3] repr_sample (by decide)

end LinkedListImpl
